import Mathlib

/-!
# A Thompson-NFA regular-expression engine (`regex.hpp`)

Shallow embedding of the pattern compiler (`infix2postfix`, `post2nfa`) and of the
simulator (`match`, `State::accept`) of `src/regex.hpp`, followed by the properties
established about them.

Conventions of the embedding.

* A C++ `char` is a natural number (its code); `0` is the NUL character.  Only equality of
  characters is ever tested by the program.  A `std::string` is a `List Nat`.
* The states allocated by one compilation live in a `Heap` (a list); a `State *` is the index
  of the state in that list, and `nullptr` is `none`.  `new State` appends to the heap, so the
  index order is the allocation order.  A `std::set<State *>` is a strictly increasing list of
  addresses: its iteration order is taken to be the allocation order.
* Recursions and loops that the C++ text does not bound structurally take a `fuel` argument;
  running out of fuel is the fault `timeout`.  Executing an operation whose behaviour C++
  leaves undefined (`back()`/`pop()` on an empty container, dereferencing a pointer outside
  the heap) is the fault `undefined`.
* The constructor `State(char, State *)` does not assign the field `is_match_state`.  Reading
  that field of a literal state gives a boolean that the program does not control.
  `post2nfa.step`, `post2nfa`, `Regex.new` and `run` describe the runs in which it is `false`
  for every literal state; `post2nfa.stepU`, `post2nfaU`, `Regex.newU` and `runU` take the
  booleans as an argument and describe every run.
-/

namespace RegexEngine

/-- Ways in which a run of the embedded program fails to produce a value. -/
inductive Fault where
  /-- An operation with undefined behaviour was executed. -/
  | undefined
  /-- The fuel of a loop or recursion ran out. -/
  | timeout
deriving DecidableEq, Repr

/-- Result of running embedded code. -/
abbrev Res (α : Type) := Except Fault α

/-- Equality of results is decidable, so closed runs can be checked by evaluation. -/
instance instDecidableEqRes {α : Type} [DecidableEq α] : DecidableEq (Res α)
  | .ok a, .ok b =>
    if h : a = b then isTrue (congrArg Except.ok h)
    else isFalse (fun h1 => h (Except.ok.inj h1))
  | .error e, .error f =>
    if h : e = f then isTrue (congrArg Except.error h)
    else isFalse (fun h1 => h (Except.error.inj h1))
  | .ok _, .error _ => isFalse (fun h1 => Except.noConfusion h1)
  | .error _, .ok _ => isFalse (fun h1 => Except.noConfusion h1)

/-- Codes of the reserved characters `*`, `+`, `?`, `.`, `|`, `(`, `)`. -/
abbrev chStar : Nat := 42
/-- Code of `+`. -/
abbrev chPlus : Nat := 43
/-- Code of `?`. -/
abbrev chQuest : Nat := 63
/-- Code of `.`. -/
abbrev chDot : Nat := 46
/-- Code of `|`. -/
abbrev chBar : Nat := 124
/-- Code of `(`. -/
abbrev chLParen : Nat := 40
/-- Code of `)`. -/
abbrev chRParen : Nat := 41

/-- Codes of the characters of a Lean string, used to write patterns and inputs legibly. -/
def str (s : String) : List Nat := s.toList.map Char.toNat

/-! ## Data model -/

/-- The class `State`: `is_match_state`, the label `c` (an `int`; `0` is epsilon) and the two
out-pointers.  The fields `stateid`, `out1id`, `out2id` and `is_root` are only read by the
printer and the destructor and are not part of this record. -/
structure State where
  is_match_state : Bool
  c : Nat
  out1 : Option Nat
  out2 : Option Nat
deriving DecidableEq, Repr

/-- The states allocated so far; a pointer is an index into this list. -/
abbrev Heap := List State

/-- The constructor `State(char c, State *out1)` called with `out1 = nullptr`, as `post2nfa`
does, in a run in which the field `is_match_state`, which that constructor does not assign,
reads `false` in the new state.  The state in any run is `State.ofChar`. -/
def State.lit (c : Nat) : State := ⟨false, c, none, none⟩

/-- The constructor `State()`: an epsilon state with both out-pointers null. -/
def State.eps : State := ⟨false, 0, none, none⟩

/-- The constructor `State(bool is_match_state)`. -/
def State.ofBool (is_match_state : Bool) : State := ⟨is_match_state, 0, none, none⟩

/-- The method `State::is_epsilon`. -/
def State.is_epsilon (st : State) : Bool := st.c == 0

/-- The method `State::is_match`. -/
def State.is_match (st : State) (c : Nat) : Bool := st.c == c

/-- The method `State::patch(State *state)`, run on the state at address `self`: fill the first
null out-pointer, and when both are set recurse into `out1` and then into `out2`.  (While the
two recursive calls run both out-pointers of `self` are non-null and `patch` only ever writes
a null pointer, so `this->out2` read after the first call is the value read before it.) -/
def State.patch : Nat → Heap → Nat → Nat → Res Heap
  | 0, _, _, _ => .error .timeout
  | fuel + 1, h, self, state =>
    match h[self]? with
    | none => .error .undefined
    | some st =>
      match st.out1 with
      | none => .ok (h.set self { st with out1 := some state })
      | some o1 =>
        match st.out2 with
        | none => .ok (h.set self { st with out2 := some state })
        | some o2 =>
          match State.patch fuel h o1 state with
          | .error e => .error e
          | .ok h1 => State.patch fuel h1 o2 state

/-- Insertion into a `std::set<State *>`, kept as a strictly increasing list of addresses. -/
def StateList.insert (x : Nat) : List Nat → List Nat
  | [] => [x]
  | y :: ys => if x < y then x :: y :: ys else if x = y then y :: ys else y :: StateList.insert x ys

/-- The method `StateList::addstate(StateList *)`: insert every element of the other set. -/
def StateList.addstate (l other : List Nat) : List Nat :=
  other.foldl (fun acc x => StateList.insert x acc) l

/-- The method `StateList::patch(State *state)`: patch every member, in iteration order of the
set (increasing address). -/
def StateList.patch (fuel : Nat) : Heap → List Nat → Nat → Res Heap
  | h, [], _ => .ok h
  | h, x :: xs, state =>
    match State.patch fuel h x state with
    | .error e => .error e
    | .ok h1 => StateList.patch fuel h1 xs state

/-- The class `Fragment`: a start state and its dangling set.  The `StateList` a fragment
points to is held by value: every fragment on the builder stack owns a list that is either
freshly allocated or taken over from a fragment popped in the same step, so no two live
fragments share one. -/
structure Fragment where
  start : Nat
  out : List Nat
deriving DecidableEq, Repr

/-- The mutable data of `post2nfa`: the heap of states and the fragment stack (top first). -/
structure Builder where
  heap : Heap
  stack : List Fragment
deriving DecidableEq, Repr

/-! ## The NFA builder `post2nfa` -/

/-- One iteration of the `switch` of `post2nfa` on the token `tok`.  The `default` case calls
`State(char, State *)`, here in a run in which the uninitialised field of the new state reads
`false` (`State.lit`); `post2nfa.stepU` is the iteration in any run. -/
def post2nfa.step (fuel : Nat) (tok : Nat) (b : Builder) : Res Builder :=
  if tok = chDot then
    match b.stack with
    | e2 :: e1 :: rest =>
      match StateList.patch fuel b.heap e1.out e2.start with
      | .error e => .error e
      | .ok h => .ok ⟨h, ⟨e1.start, e2.out⟩ :: rest⟩
    | _ => .ok b
  else if tok = chBar then
    match b.stack with
    | e2 :: e1 :: rest =>
      let state := b.heap.length
      match State.patch fuel (b.heap ++ [State.eps]) state e1.start with
      | .error e => .error e
      | .ok h1 =>
        match State.patch fuel h1 state e2.start with
        | .error e => .error e
        | .ok h2 => .ok ⟨h2, ⟨state, StateList.addstate e1.out e2.out⟩ :: rest⟩
    | _ => .error .undefined
  else if tok = chStar then
    match b.stack with
    | e1 :: rest =>
      let state := b.heap.length
      match StateList.patch fuel (b.heap ++ [State.eps]) e1.out state with
      | .error e => .error e
      | .ok h1 =>
        match State.patch fuel h1 state e1.start with
        | .error e => .error e
        | .ok h2 => .ok ⟨h2, ⟨state, [state]⟩ :: rest⟩
    | [] => .error .undefined
  else if tok = chPlus then
    match b.stack with
    | e1 :: rest =>
      let state := b.heap.length
      match State.patch fuel (b.heap ++ [State.eps]) state e1.start with
      | .error e => .error e
      | .ok h1 =>
        match StateList.patch fuel h1 e1.out state with
        | .error e => .error e
        | .ok h2 => .ok ⟨h2, ⟨e1.start, e1.out⟩ :: rest⟩
    | [] => .error .undefined
  else if tok = chQuest then
    match b.stack with
    | e1 :: rest =>
      let state := b.heap.length
      match State.patch fuel (b.heap ++ [State.eps]) state e1.start with
      | .error e => .error e
      | .ok h1 => .ok ⟨h1, ⟨state, StateList.addstate [state] e1.out⟩ :: rest⟩
    | [] => .error .undefined
  else
    let state := b.heap.length
    .ok ⟨b.heap ++ [State.lit tok], ⟨state, [state]⟩ :: b.stack⟩

/-- The `for` loop of `post2nfa`: it stops at the end of the string or at a NUL character. -/
def post2nfa.loop (fuel : Nat) : List Nat → Builder → Res Builder
  | [], b => .ok b
  | tok :: rest, b =>
    if tok = 0 then .ok b
    else
      match post2nfa.step fuel tok b with
      | .error e => .error e
      | .ok b1 => post2nfa.loop fuel rest b1

/-- The tail of `post2nfa`: pop the last fragment and patch its dangling set with a new accept
state. -/
def post2nfa.finish (fuel : Nat) (b : Builder) : Res (Heap × Nat) :=
  match b.stack with
  | [] => .error .undefined
  | e :: _ =>
    match StateList.patch fuel (b.heap ++ [State.ofBool true]) e.out b.heap.length with
    | .error e => .error e
    | .ok h => .ok (h, e.start)

/-- The loop of `post2nfa` run from the builder state `b`, followed by the tail. -/
def post2nfa.run (fuel : Nat) (post : List Nat) (b : Builder) : Res (Heap × Nat) :=
  match post2nfa.loop fuel post b with
  | .error e => .error e
  | .ok b1 => post2nfa.finish fuel b1

/-- The function `post2nfa`, which starts with no state and an empty stack: the heap of the
automaton and its start state. -/
def post2nfa (fuel : Nat) (post : List Nat) : Res (Heap × Nat) :=
  post2nfa.run fuel post ⟨[], []⟩

/-! ## The converter `infix2postfix` -/

/-- The function `is_operator`. -/
def is_operator (c : Nat) : Bool :=
  c == chStar || c == chPlus || c == chQuest || c == chDot || c == chBar
    || c == chLParen || c == chRParen

/-- The call `postfix.insert(i, ".")` generalised to any character. -/
def insertAt (p : List Nat) (i : Nat) (c : Nat) : List Nat := p.take i ++ c :: p.drop i

/-- First loop of `infix2postfix`, from index `i` on: a `.` is inserted before a non-operator
that follows a non-operator. -/
def infix2postfix.pass1 : Nat → List Nat → Nat → Res (List Nat)
  | 0, _, _ => .error .timeout
  | fuel + 1, p, i =>
    match p[i]? with
    | none => .ok p
    | some c =>
      if c = 0 then .ok p
      else if !is_operator c && decide (0 < i) && !is_operator (p.getD (i - 1) 0) then
        infix2postfix.pass1 fuel (insertAt p i chDot) (i + 1)
      else infix2postfix.pass1 fuel p (i + 1)

/-- The three-way test on quantifiers in the second loop of `infix2postfix`. -/
def infix2postfix.quantBefore (p : List Nat) (i : Nat) : Bool :=
  decide (i < p.length - 1) && (p.getD i 0 == chStar || p.getD i 0 == chPlus || p.getD i 0 == chQuest)
    && !is_operator (p.getD (i + 1) 0)

/-- Second loop of `infix2postfix`, from index `i` on: a `.` is inserted before a `(` that
follows a non-operator or a `)`, and after a quantifier that is followed by a non-operator. -/
def infix2postfix.pass2 : Nat → List Nat → Nat → Res (List Nat)
  | 0, _, _ => .error .timeout
  | fuel + 1, p, i =>
    match p[i]? with
    | none => .ok p
    | some c =>
      if c = 0 then .ok p
      else
        let pi : List Nat × Nat :=
          if c == chLParen && decide (0 < i)
              && (!is_operator (p.getD (i - 1) 0) || p.getD (i - 1) 0 == chRParen) then
            (insertAt p i chDot, i + 1)
          else (p, i)
        let pi2 : List Nat × Nat :=
          if infix2postfix.quantBefore pi.1 pi.2 then (insertAt pi.1 (pi.2 + 1) chDot, pi.2 + 1)
          else pi
        infix2postfix.pass2 fuel pi2.1 (pi2.2 + 1)

/-- The table `precedence`, read with `operator[]`: a key that is absent (only `(` can be, on
the operator stack) reads as `0`. -/
def precedence (c : Nat) : Nat :=
  if c = chStar ∨ c = chPlus ∨ c = chQuest then 3
  else if c = chDot then 2
  else if c = chBar then 1
  else 0

/-- The test `precedence.find(c) != precedence.end()` on a character other than `(` and `)`. -/
def inPrecedence (c : Nat) : Bool :=
  c == chStar || c == chPlus || c == chQuest || c == chBar || c == chDot

/-- A loop `while (!operator_stack.empty() && cond(top)) { output += top; pop(); }`. -/
def infix2postfix.popWhile (cond : Nat → Bool) : List Nat → List Nat → List Nat × List Nat
  | out, [] => (out, [])
  | out, t :: st =>
    if cond t then infix2postfix.popWhile cond (out ++ [t]) st else (out, t :: st)

/-- Third loop of `infix2postfix` (the shunting yard), on the characters not yet read, with
the output so far and the operator stack (top first). -/
def infix2postfix.shunt : List Nat → List Nat → List Nat → Res (List Nat × List Nat)
  | [], out, st => .ok (out, st)
  | c :: cs, out, st =>
    if c = 0 then .ok (out, st)
    else if c = chLParen then infix2postfix.shunt cs out (c :: st)
    else if c = chRParen then
      match infix2postfix.popWhile (fun t => t != chLParen) out st with
      | (_, []) => .error .undefined
      | (out1, _ :: st1) => infix2postfix.shunt cs out1 st1
    else if inPrecedence c then
      match infix2postfix.popWhile (fun t => decide (precedence t ≥ precedence c)) out st with
      | (out1, st1) => infix2postfix.shunt cs out1 (c :: st1)
    else infix2postfix.shunt cs (out ++ [c]) st

/-- The function `infix2postfix`: the two insertion loops, the shunting yard, and the final
drain of the operator stack. -/
def infix2postfix (fuel : Nat) (pattern : List Nat) : Res (List Nat) :=
  match infix2postfix.pass1 fuel pattern 0 with
  | .error e => .error e
  | .ok p1 =>
    match infix2postfix.pass2 fuel p1 0 with
    | .error e => .error e
    | .ok p2 =>
      match infix2postfix.shunt p2 [] [] with
      | .error e => .error e
      | .ok (out, st) => .ok (out ++ st)

/-! ## The simulator `match` -/

/-- The method `State::accept`, run on the state at address `self`, with the function-static
set `visited` passed in and handed back. -/
def State.accept : Nat → Heap → List Nat → Nat → Res (Bool × List Nat)
  | 0, _, _, _ => .error .timeout
  | fuel + 1, h, visited, self =>
    match h[self]? with
    | none => .error .undefined
    | some st =>
      if st.is_match_state then .ok (true, visited)
      else if !st.is_epsilon then .ok (false, visited)
      else if self ∈ visited then .ok (false, visited)
      else
        let first : Res (Bool × List Nat) :=
          match st.out1 with
          | none => .ok (false, self :: visited)
          | some o1 => State.accept fuel h (self :: visited) o1
        match first with
        | .error e => .error e
        | .ok (true, v1) => .ok (st.is_epsilon && true, v1.erase self)
        | .ok (false, v1) =>
          let second : Res (Bool × List Nat) :=
            match st.out2 with
            | none => .ok (false, v1)
            | some o2 => State.accept fuel h v1 o2
          match second with
          | .error e => .error e
          | .ok (r, v2) => .ok (st.is_epsilon && r, v2.erase self)

/-- The inner `for (j ...)` loop of `match` for the input character `ch`: `clist` grows while
it is scanned, `visited` holds the epsilon states already expanded, `nlist` collects the
successors of the states labelled `ch`.  Returns the final `clist` and `nlist`. -/
def matchInner : Nat → Heap → Nat → List Nat → Nat → List Nat → List Nat →
    Res (List Nat × List Nat)
  | 0, _, _, _, _, _, _ => .error .timeout
  | fuel + 1, h, ch, clist, j, visited, nlist =>
    match clist[j]? with
    | none => .ok (clist, nlist)
    | some state =>
      if state ∈ visited then matchInner fuel h ch clist (j + 1) visited nlist
      else
        match h[state]? with
        | none => .error .undefined
        | some st =>
          if st.is_match ch then
            matchInner fuel h ch clist (j + 1) visited (nlist ++ st.out1.toList ++ st.out2.toList)
          else if st.is_epsilon then
            matchInner fuel h ch (clist ++ st.out1.toList ++ st.out2.toList) (j + 1)
              (state :: visited) nlist
          else matchInner fuel h ch clist (j + 1) visited nlist

/-- The last loop of `match`: is there a state of `clist` on which `accept` answers true?
The static set of `accept` is threaded through the calls. -/
def matchAccept (fuel : Nat) (h : Heap) : List Nat → List Nat → Res (Bool × List Nat)
  | visited, [] => .ok (false, visited)
  | visited, x :: xs =>
    match State.accept fuel h visited x with
    | .error e => .error e
    | .ok (true, v1) => .ok (true, v1)
    | .ok (false, v1) => matchAccept fuel h v1 xs

/-- The outer loop of `match` over the input, which stops at a NUL character, followed by the
acceptance loop.  `visited` is the static set of `State::accept`. -/
def matchLoop (fuel : Nat) (h : Heap) (visited : List Nat) : List Nat → List Nat →
    Res (Bool × List Nat)
  | [], clist => matchAccept fuel h visited clist
  | ch :: rest, clist =>
    if ch = 0 then matchAccept fuel h visited clist
    else
      match matchInner fuel h ch clist 0 [] [] with
      | .error e => .error e
      | .ok (_, nlist) =>
        if nlist.isEmpty then .ok (false, visited) else matchLoop fuel h visited rest nlist

/-- The function `match(State *start, std::string s)` (compiled without `CACHING`), with the
static set of `State::accept` as it stands before and after the call. -/
def match_ (fuel : Nat) (h : Heap) (visited : List Nat) (start : Nat) (s : List Nat) :
    Res (Bool × List Nat) :=
  matchLoop fuel h visited s [start]

/-! ## The class `Regex` -/

/-- The class `Regex`: the pattern and the compiled automaton (heap and start state). -/
structure Regex where
  pattern : List Nat
  heap : Heap
  start : Nat
deriving DecidableEq, Repr

/-- The constructor `Regex(std::string pattern)`, in a run in which the uninitialised fields of
the literal states read `false`; `Regex.newU` is the constructor in any run. -/
def Regex.new (fuel : Nat) (pattern : List Nat) : Res Regex :=
  match infix2postfix fuel pattern with
  | .error e => .error e
  | .ok post =>
    match post2nfa fuel post with
    | .error e => .error e
    | .ok (h, start) => .ok ⟨pattern, h, start⟩

/-- The method `Regex::match`, called when the static set of `State::accept` is empty. -/
def Regex.match_ (fuel : Nat) (r : Regex) (content : List Nat) : Res Bool :=
  match RegexEngine.match_ fuel r.heap [] r.start content with
  | .error e => .error e
  | .ok (b, _) => .ok b

/-- Construct `Regex(pattern)` and call `match(content)` on it, in a run in which the
uninitialised fields of the literal states read `false`; `runU` is the same in any run. -/
def run (fuel : Nat) (pattern content : List Nat) : Res Bool :=
  match Regex.new fuel pattern with
  | .error e => .error e
  | .ok r => r.match_ fuel content

/-! ## Vocabulary of the statements -/

/-- An atom: a character that is neither NUL nor one of the seven reserved characters. -/
def isAtom (c : Nat) : Bool := c != 0 && !is_operator c

/-- The part of a string that the loops of the program read: everything before the first NUL
character (the whole string when it has none). -/
def untilNul (s : List Nat) : List Nat := s.takeWhile (fun c => c != 0)

/-- The automaton that `Regex("a*")` builds: the literal state, the loop state (the start
state, address `1`) and the accept state. -/
def starHeap (a : Nat) : Heap :=
  [⟨false, a, some 1, none⟩, ⟨false, 0, some 0, some 2⟩, ⟨true, 0, none, none⟩]

/-- The automaton that `Regex("a+")` builds: the literal state (the start state, address `0`),
whose two out-pointers go to the loop state and to the accept state. -/
def plusHeap (a : Nat) : Heap :=
  [⟨false, a, some 1, some 2⟩, ⟨false, 0, some 0, none⟩, ⟨true, 0, none, none⟩]

/-- The automaton that `Regex("a?")` builds: the literal state, the fork state (the start
state, address `1`) and the accept state. -/
def questHeap (a : Nat) : Heap :=
  [⟨false, a, some 2, none⟩, ⟨false, 0, some 0, some 2⟩, ⟨true, 0, none, none⟩]

/-- The automaton that `Regex("(a|b|c|d)*")` builds; its start state is the loop state at
address `7`, and the accept state is at address `8`. -/
def abcdHeap : Heap :=
  [⟨false, 97, some 7, none⟩, ⟨false, 98, some 7, none⟩, ⟨false, 0, some 0, some 1⟩,
   ⟨false, 99, some 7, none⟩, ⟨false, 0, some 2, some 3⟩, ⟨false, 100, some 7, none⟩,
   ⟨false, 0, some 4, some 5⟩, ⟨false, 0, some 6, some 8⟩, ⟨true, 0, none, none⟩]

/-! ## The two insertion loops, described by recursion on the pattern -/

/-- What the first loop of `infix2postfix` does to the characters not yet read, given
whether the character before them exists and is a non-operator: a `.` goes before every
non-operator that follows a non-operator, up to the first NUL. -/
def norm1 (prevAtom : Bool) : List Nat → List Nat
  | [] => []
  | c :: cs =>
    if c = 0 then c :: cs
    else if !is_operator c && prevAtom then chDot :: c :: norm1 true cs
    else c :: norm1 (!is_operator c) cs

/-- The test `i > 0 && !is_operator(postfix[i-1])` when `pre` is the string before index `i`. -/
def lastNonOp (pre : List Nat) : Bool :=
  decide (0 < pre.length) && !is_operator (pre.getD (pre.length - 1) 0)

/-- One of the three quantifier characters `*`, `+`, `?`. -/
def isQuant (c : Nat) : Bool := c == chStar || c == chPlus || c == chQuest

/-- What the second loop of `infix2postfix` does to the characters not yet read, given whether
the character before them exists and is a non-operator or a `)`: a `.` goes before such a `(`,
and after a quantifier that is followed by a non-operator, up to the first NUL. -/
def norm2 (prevOk : Bool) : List Nat → List Nat
  | [] => []
  | c :: cs =>
    if c = 0 then c :: cs
    else if c == chLParen && prevOk then chDot :: c :: norm2 false cs
    else if isQuant c && !cs.isEmpty && !is_operator (cs.headD 0) then
      c :: chDot :: norm2 false cs
    else c :: norm2 (!is_operator c || c == chRParen) cs

/-- The test `i > 0 && (!is_operator(postfix[i-1]) || postfix[i-1] == ')')` when `pre` is the
string before index `i`. -/
def lastOk (pre : List Nat) : Bool :=
  decide (0 < pre.length) &&
    (!is_operator (pre.getD (pre.length - 1) 0) || pre.getD (pre.length - 1) 0 == chRParen)

/-- The literal states of a word, from address `i` on: the state of each character points to
the next address. -/
def chainStates : Nat → List Nat → Heap
  | _, [] => []
  | i, c :: cs => ⟨false, c, some (i + 1), none⟩ :: chainStates (i + 1) cs

/-- The postfix string of a word of atoms: `w0 w1 . w2 . ...`. -/
def postfixOfWord : List Nat → List Nat
  | [] => []
  | c :: ds => c :: ds.flatMap (fun d => [d, chDot])

/-! ## Well-formed heaps -/

/-- Every out-pointer stored in the heap is the address of a state of the heap. -/
def Closed (h : Heap) : Prop :=
  ∀ (i : Nat) (st : State), h[i]? = some st →
    (∀ o, st.out1 = some o → o < h.length) ∧ (∀ o, st.out2 = some o → o < h.length)

/-- The start state and the dangling states of a fragment are addresses below `n`. -/
def Fragment.Valid (n : Nat) (e : Fragment) : Prop := e.start < n ∧ ∀ x ∈ e.out, x < n

/-- The heap of the builder is closed and its fragments only hold addresses of the heap. -/
def Builder.Valid (b : Builder) : Prop :=
  Closed b.heap ∧ ∀ e ∈ b.stack, Fragment.Valid b.heap.length e

/-- The number of addresses below `n` that are not in the list `v`. -/
def unvisited (n : Nat) (v : List Nat) : Nat := (Finset.range n \ v.toFinset).card

/-- The automaton that `Regex("(a|b)*")` builds, with the loop state at address `3` as start
state. -/
def abStarRegex : Regex :=
  ⟨str "(a|b)*",
   [⟨false, 97, some 3, none⟩, ⟨false, 98, some 3, none⟩, ⟨false, 0, some 0, some 1⟩,
    ⟨false, 0, some 2, some 4⟩, ⟨true, 0, none, none⟩], 3⟩

/-! ## Paths of an automaton -/

/-- The non-null out-pointers of a state, `out1` first. -/
def State.outs (st : State) : List Nat := st.out1.toList ++ st.out2.toList

/-- Paths of the automaton: `Reach h x w z` says that from state `x` the automaton can get to
state `z` along out-edges while reading `w`; leaving a state labelled `0` reads nothing, and
leaving a state with another label reads that label. -/
inductive Reach (h : Heap) : Nat → List Nat → Nat → Prop
  | refl (x : Nat) : Reach h x [] x
  | eps (x y z : Nat) (st : State) (w : List Nat) : h[x]? = some st → st.c = 0 →
      y ∈ st.outs → Reach h y w z → Reach h x w z
  | char (x y z : Nat) (st : State) (w : List Nat) : h[x]? = some st → st.c ≠ 0 →
      y ∈ st.outs → Reach h y w z → Reach h x (st.c :: w) z

/-- From state `x` the automaton can read `w` and get to a state with `is_match_state` set. -/
def Accepts (h : Heap) (x : Nat) (w : List Nat) : Prop :=
  ∃ (q : Nat) (st : State), Reach h x w q ∧ h[q]? = some st ∧ st.is_match_state = true

/-- From state `x` a state with `is_match_state` set can be reached through epsilon states that
are not accept states themselves and are not in `avoid`. -/
inductive AccPath (h : Heap) (avoid : List Nat) : Nat → Prop
  | here (x : Nat) (st : State) : h[x]? = some st → st.is_match_state = true →
      AccPath h avoid x
  | step (x y : Nat) (st : State) : h[x]? = some st → st.is_match_state = false → st.c = 0 →
      x ∉ avoid → y ∈ st.outs → AccPath h avoid y → AccPath h avoid x

/-! ## Growth of the heap, and the family `(a?)^n a^n` -/

/-- The state `st1` has the label and the accept flag of `st`, and every out-pointer that is
set in `st` has the same value in `st1`. -/
def StExt (st st1 : State) : Prop :=
  st1.c = st.c ∧ st1.is_match_state = st.is_match_state ∧
    (∀ o, st.out1 = some o → st1.out1 = some o) ∧ (∀ o, st.out2 = some o → st1.out2 = some o)

/-- Every state of `h` is still in `h1`, at the same address, with its label, its accept flag
and the out-pointers that were set. -/
def Extends (h h1 : Heap) : Prop :=
  ∀ (i : Nat) (st : State), h[i]? = some st → ∃ st1, h1[i]? = some st1 ∧ StExt st st1

/-- Builder state while the optional blocks are read: the last two states are a literal state
and the fork state in front of it, both dangling. -/
def optBuilder (a : Nat) (H : Heap) : Builder :=
  ⟨H ++ [State.lit a, ⟨false, 0, some H.length, none⟩], [⟨1, [H.length, H.length + 1]⟩]⟩

/-- Builder state while the trailing literals are read: the last state is a dangling literal. -/
def litBuilder (a : Nat) (G : Heap) : Builder :=
  ⟨G ++ [State.lit a], [⟨1, [G.length]⟩]⟩

/-- The postfix string of the pattern `(a?)^(m+1) a^(m+1)`. -/
def optPostfix (a m : Nat) : List Nat :=
  [a, chQuest] ++ ((List.replicate m [a, chQuest, chDot]).flatten ++
    (List.replicate (m + 1) a).flatMap (fun d => [d, chDot]))

/-- The pattern made of `n` copies of `a?` followed by `n` copies of `a`. -/
def optPattern (a n : Nat) : List Nat :=
  (List.replicate n [a, chQuest]).flatten ++ List.replicate n a

/-! ## Vocabulary of the later statements -/

/-- The two insertion loops at the start of `infix2postfix`, one after the other: the string
that the shunting yard reads. -/
def infix2postfix.normalize (fuel : Nat) (pattern : List Nat) : Res (List Nat) :=
  match infix2postfix.pass1 fuel pattern 0 with
  | .error e => .error e
  | .ok p1 => infix2postfix.pass2 fuel p1 0

/-- The label of a state in the data model of the specification: accept, epsilon, or a literal
character. -/
inductive Label where
  | literal (c : Nat)
  | epsilon
  | accept
deriving DecidableEq, Repr

/-- The label that a state carries: a state with `is_match_state` set is the accept state, a
state with character `0` is an epsilon state, any other state is a literal state. -/
def State.label (st : State) : Label :=
  if st.is_match_state then .accept else if st.c = 0 then .epsilon else .literal st.c

/-- Reference semantics: `z` is reached from `x` by following only out-edges of
epsilon-labelled states. -/
inductive Ref.EpsPath (h : Heap) : Nat → Nat → Prop
  | refl (x : Nat) : Ref.EpsPath h x x
  | step (x y z : Nat) (st : State) : h[x]? = some st → st.label = .epsilon → y ∈ st.outs →
      Ref.EpsPath h y z → Ref.EpsPath h x z

/-- Reference semantics: the epsilon-closure of a set of states. -/
def Ref.epsClosure (h : Heap) (S : Set Nat) : Set Nat := {z | ∃ x ∈ S, Ref.EpsPath h x z}

/-- Reference semantics: all out-edge targets of the states of `C` whose literal label equals
the character `ch`. -/
def Ref.targets (h : Heap) (C : Set Nat) (ch : Nat) : Set Nat :=
  {y | ∃ x ∈ C, ∃ st, h[x]? = some st ∧ st.label = .literal ch ∧ y ∈ st.outs}

/-- Reference semantics: the current set after the characters of `s` have been read from the
current set `C`, with `C(i+1)` the epsilon-closure of the targets of `C(i)`. -/
def Ref.run (h : Heap) : Set Nat → List Nat → Set Nat
  | C, [] => C
  | C, ch :: s => Ref.run h (Ref.epsClosure h (Ref.targets h C ch)) s

/-- Reference semantics: starting from the epsilon-closure of the start state, the final set
contains an accept state. -/
def Ref.accepts (h : Heap) (start : Nat) (s : List Nat) : Prop :=
  ∃ q ∈ Ref.run h (Ref.epsClosure h {start}) s, ∃ st, h[q]? = some st ∧ st.label = .accept

/-- A path of the reference semantics that reads `s`: each character is read by leaving a
state with that literal label, followed by epsilon moves. -/
inductive Ref.Walk (h : Heap) : Nat → List Nat → Nat → Prop
  | nil (x : Nat) : Ref.Walk h x [] x
  | cons (x y z q : Nat) (st : State) (ch : Nat) (s : List Nat) : h[x]? = some st →
      st.label = .literal ch → y ∈ st.outs → Ref.EpsPath h y z → Ref.Walk h z s q →
      Ref.Walk h x (ch :: s) q

/-- No state with `is_match_state` set has an out-edge. -/
def AcceptIsSink (h : Heap) : Prop :=
  ∀ (i : Nat) (st : State), h[i]? = some st → st.is_match_state = true →
    st.out1 = none ∧ st.out2 = none

/-- A graph of two states in which the accept state has an out-edge: state `0` is the accept
state and points to state `1`, which is labelled `a` and points back to state `0`. -/
def acceptLoopHeap : Heap := [⟨true, 0, some 1, none⟩, ⟨false, 97, some 0, none⟩]

/-- State `y` can be reached from state `x` along out-edges, whatever the labels. -/
def Conn (h : Heap) (x y : Nat) : Prop := ∃ w, Reach h x w y

/-- Invariant of the builder for the accept state: no state has `is_match_state` set, and in
every fragment of the stack the dangling set is not empty and each of its states can be
reached from the start state of the fragment. -/
def Builder.Linked (b : Builder) : Prop :=
  (∀ st ∈ b.heap, st.is_match_state = false) ∧
    ∀ e ∈ b.stack, e.out ≠ [] ∧ ∀ d ∈ e.out, Conn b.heap e.start d

/-! ## Syntax trees -/

/-- Syntax trees of the regex dialect: literal atoms, concatenation, alternation, and the three
postfix quantifiers. -/
inductive RE where
  | lit (a : Nat)
  | cat (r s : RE)
  | alt (r s : RE)
  | star (r : RE)
  | plus (r : RE)
  | opt (r : RE)
deriving DecidableEq, Repr

/-- The post-order token sequence of a syntax tree, with `.` for concatenation. -/
def RE.postorder : RE → List Nat
  | .lit a => [a]
  | .cat r s => r.postorder ++ s.postorder ++ [chDot]
  | .alt r s => r.postorder ++ s.postorder ++ [chBar]
  | .star r => r.postorder ++ [chStar]
  | .plus r => r.postorder ++ [chPlus]
  | .opt r => r.postorder ++ [chQuest]

/-- The precedence of the root of a syntax tree: `4` for an atom, `3` for a quantifier, `2` for
a concatenation, `1` for an alternation. -/
def RE.prec : RE → Nat
  | .lit _ => 4
  | .cat _ _ => 2
  | .alt _ _ => 1
  | .star _ => 3
  | .plus _ => 3
  | .opt _ => 3

/-- A string, with parentheses around it when `b` is set. -/
def paren (b : Bool) (s : List Nat) : List Nat := if b then chLParen :: s ++ [chRParen] else s

/-- The infix print of a syntax tree with explicit `.` and with parentheses exactly where
precedence and left associativity require them: around the operand of a quantifier that is a
concatenation or an alternation, around the left operand of a concatenation that is an
alternation, and around a right operand whose root does not bind tighter than the operator. -/
def RE.print : RE → List Nat
  | .lit a => [a]
  | .cat r s => paren (decide (r.prec < 2)) r.print ++ chDot :: paren (decide (s.prec ≤ 2)) s.print
  | .alt r s => paren (decide (r.prec < 1)) r.print ++ chBar :: paren (decide (s.prec ≤ 1)) s.print
  | .star r => paren (decide (r.prec < 3)) r.print ++ [chStar]
  | .plus r => paren (decide (r.prec < 3)) r.print ++ [chPlus]
  | .opt r => paren (decide (r.prec < 3)) r.print ++ [chQuest]

/-- Every literal of the tree is an atom. -/
def RE.atomic : RE → Prop
  | .lit a => isAtom a = true
  | .cat r s => r.atomic ∧ s.atomic
  | .alt r s => r.atomic ∧ s.atomic
  | .star r => r.atomic
  | .plus r => r.atomic
  | .opt r => r.atomic

/-- Whether every literal of a tree is an atom can be computed. -/
def RE.decAtomic : (t : RE) → Decidable t.atomic
  | .lit a => inferInstanceAs (Decidable (isAtom a = true))
  | .cat r s => @instDecidableAnd _ _ (RE.decAtomic r) (RE.decAtomic s)
  | .alt r s => @instDecidableAnd _ _ (RE.decAtomic r) (RE.decAtomic s)
  | .star r => RE.decAtomic r
  | .plus r => RE.decAtomic r
  | .opt r => RE.decAtomic r

instance instDecidableAtomic (t : RE) : Decidable t.atomic := RE.decAtomic t

/-- The literals of a tree, from left to right. -/
def RE.leaves : RE → List Nat
  | .lit a => [a]
  | .cat r s => r.leaves ++ s.leaves
  | .alt r s => r.leaves ++ s.leaves
  | .star r => r.leaves
  | .plus r => r.leaves
  | .opt r => r.leaves

/-- The result of the shunting yard on a printed tree: the tokens of the tree are written in
post-order, except for the operators still pending on the stack. -/
def ShuntOK (t : RE) : Prop :=
  ∀ (out st rest : List Nat), (∀ c, st.head? = some c → precedence c < t.prec) →
    ∃ out1 pend, infix2postfix.shunt (t.print ++ rest) out st =
        infix2postfix.shunt rest out1 (pend ++ st) ∧
      out1 ++ pend = out ++ t.postorder ∧ ∀ c ∈ pend, t.prec ≤ precedence c


/-- Two adjacent characters at which neither insertion loop of `infix2postfix` inserts a `.`:
they are not two non-operators, the second is not a `(` after a non-operator or a `)`, and
they are not a quantifier followed by a non-operator. -/
def okPair (x y : Nat) : Bool :=
  !(!is_operator x && !is_operator y) &&
    !(y == chLParen && (!is_operator x || x == chRParen)) &&
    !(isQuant x && !is_operator y)

/-- The string `s`, read after the character `prev`, has no NUL and only adjacent pairs at
which nothing is inserted. -/
def chainOK (prev : Nat) : List Nat → Bool
  | [] => true
  | c :: cs => c != 0 && okPair prev c && chainOK c cs

/-- The last character of `prev :: s`. -/
def lastOr (prev : Nat) : List Nat → Nat
  | [] => prev
  | c :: cs => lastOr c cs

/-- The syntax tree of `(a|b.c)*.(d.e)`. -/
def exampleTree : RE :=
  .cat (.star (.alt (.lit 97) (.cat (.lit 98) (.lit 99)))) (.cat (.lit 100) (.lit 101))

/-! ## Fragments without one-or-more -/

/-- The effect of `State::patch` on a state with a null out-pointer: the first null
out-pointer is set to `t`. -/
def State.fill (st : State) (t : Nat) : State :=
  match st.out1 with
  | none => { st with out1 := some t }
  | some _ => { st with out2 := some t }

/-- The heap `h1` is the heap `h` in which every state of `out` was filled with `t`. -/
def Filled (h h1 : Heap) (out : List Nat) (t : Nat) : Prop :=
  h1.length = h.length ∧
    ∀ i : Nat, h1[i]? = if i ∈ out then (h[i]?).map (fun st => st.fill t) else h[i]?

/-- Shape of a fragment whose states are the addresses from `lo` up to `hi`: the start state
and the dangling states are among them, the dangling set is strictly increasing, no state is
an accept state, every out-pointer stays among them, a dangling state has a null second
out-pointer (and a null first one exactly when it is a literal state), and every other state
has a first out-pointer, and no second one when it is a literal state. -/
structure Fragment.Shaped (h : Heap) (lo hi : Nat) (e : Fragment) : Prop where
  bound : hi ≤ h.length
  start_in : lo ≤ e.start ∧ e.start < hi
  out_in : ∀ d ∈ e.out, lo ≤ d ∧ d < hi
  out_sorted : e.out.Pairwise (fun a b => a < b)
  state : ∀ (i : Nat) (st : State), lo ≤ i → i < hi → h[i]? = some st →
    st.is_match_state = false ∧ (∀ o ∈ st.outs, lo ≤ o ∧ o < hi) ∧
    (i ∈ e.out → st.out2 = none ∧ (st.c ≠ 0 → st.out1 = none) ∧ (st.c = 0 → st.out1 ≠ none)) ∧
    (i ∉ e.out → st.out1 ≠ none ∧ (st.c ≠ 0 → st.out2 = none))

/-- The fragments of the stack (top first) are shaped and their states are consecutive blocks
of addresses ending at `hi`. -/
def StackShaped (h : Heap) : List Fragment → Nat → Prop
  | [], _ => True
  | e :: rest, hi => ∃ lo, e.Shaped h lo hi ∧ StackShaped h rest lo

/-- The shape that the specification gives to a state of a compiled automaton: a literal state
has exactly one out-edge, in its first slot; an epsilon state has one or two; the accept state
has none. -/
def State.wellShaped (st : State) : Prop :=
  match st.label with
  | .literal _ => st.out1 ≠ none ∧ st.out2 = none
  | .epsilon => 1 ≤ st.outs.length
  | .accept => st.outs = []

/-! ## The language of a syntax tree and of a fragment -/

/-- The tree has no one-or-more node. -/
def RE.plusFree : RE → Bool
  | .lit _ => true
  | .cat r s => r.plusFree && s.plusFree
  | .alt r s => r.plusFree && s.plusFree
  | .star r => r.plusFree
  | .plus _ => false
  | .opt r => r.plusFree

/-- The language of a syntax tree. -/
def RE.lang : RE → Language Nat
  | .lit a => {[a]}
  | .cat r s => r.lang * s.lang
  | .alt r s => r.lang + s.lang
  | .star r => KStar.kstar r.lang
  | .plus r => r.lang * KStar.kstar r.lang
  | .opt r => r.lang + 1

/-- Paths of the automaton with their number of steps: `ReachN h n x w z` is `Reach h x w z`
along a path of `n` out-edges. -/
inductive ReachN (h : Heap) : Nat → Nat → List Nat → Nat → Prop
  | refl (x : Nat) : ReachN h 0 x [] x
  | eps (n x y z : Nat) (st : State) (w : List Nat) : h[x]? = some st → st.c = 0 →
      y ∈ st.outs → ReachN h n y w z → ReachN h (n + 1) x w z
  | char (n x y z : Nat) (st : State) (w : List Nat) : h[x]? = some st → st.c ≠ 0 →
      y ∈ st.outs → ReachN h n y w z → ReachN h (n + 1) x (st.c :: w) z

/-- On the addresses from `lo` up to `hi` the heap `h1` is the heap `h` in which the states of
`out` were filled with `t`: what the states of a fragment become once its dangling set has
been patched with `t`. -/
def Completes (h h1 : Heap) (lo hi : Nat) (out : List Nat) (t : Nat) : Prop :=
  ∀ i : Nat, lo ≤ i → i < hi →
    h1[i]? = if i ∈ out then (h[i]?).map (fun st => st.fill t) else h[i]?

/-- The fragment `e`, whose states are the addresses from `lo` up to `hi`, stands for the
language `L`: in every heap in which its dangling set has been patched with a state `t`, each
word of `L` leads from the start state to `t`, and each path from the start state to a state
outside the fragment begins with a path to `t` that reads a word of `L`. -/
structure Fragment.Sem (h : Heap) (lo hi : Nat) (e : Fragment) (L : Language Nat) : Prop where
  complete : ∀ (h1 : Heap) (t : Nat), Completes h h1 lo hi e.out t →
    ∀ u ∈ L, Reach h1 e.start u t
  sound : ∀ (h1 : Heap) (t : Nat), Completes h h1 lo hi e.out t →
    ∀ (n : Nat) (w : List Nat) (q : Nat), ReachN h1 n e.start w q → ¬ (lo ≤ q ∧ q < hi) →
    ∃ u ∈ L, ∃ (v : List Nat) (m : Nat), m < n ∧ w = u ++ v ∧ ReachN h1 m t v q

/-! ## Stacked quantifiers -/

/-- The states that `post2nfa` has built from `a+++` when its loop ends: the literal state of
`a` with both out-pointers set (to the loop states of the first and the second `+`), the loop
states of the first and the second `+`, both full as well, and the loop state of the third
`+`.  The only fragment on the stack has the literal state as start and as dangling set. -/
def plus3Heap : Heap :=
  [⟨false, 97, some 1, some 2⟩, ⟨false, 0, some 0, some 3⟩, ⟨false, 0, some 0, some 3⟩,
   ⟨false, 0, some 0, none⟩]

/-- The states that `post2nfa` has built from `a*++` when its loop ends; the only fragment on
the stack has the loop state of `*` (address `1`) as start and as dangling set. -/
def starPlus2Heap : Heap :=
  [⟨false, 97, some 1, some 3⟩, ⟨false, 0, some 0, some 2⟩, ⟨false, 0, some 1, some 3⟩,
   ⟨false, 0, some 1, none⟩]

/-! ## Patching a dangling set -/

/-- A heap in which state `0` has both out-pointers set, to the states `1` and `2`, which have
none; state `3` is the state to patch with. -/
def fullForkHeap : Heap :=
  [⟨false, 0, some 1, some 2⟩, State.lit 97, State.lit 98, State.eps]

/-- A heap with two dangling states: the literal state `0`, with no out-pointer, and the fork
state `1`, whose first out-pointer is set; state `2` is the state to patch with. -/
def twoDanglingHeap : Heap := [State.lit 97, ⟨false, 0, some 0, none⟩, State.eps]

/-! ## The lists of one generation of the simulation -/

/-- The non-null out-pointers of the state at address `x` (none when there is no such
state). -/
def outsAt (h : Heap) (x : Nat) : List Nat :=
  match h[x]? with
  | some st => st.outs
  | none => []

/-- The automaton that `Regex("a|a")` builds: the two literal states, the fork state (the
start state, address `2`) and the accept state, to which both literal states point. -/
def altSameHeap : Heap :=
  [⟨false, 97, some 3, none⟩, ⟨false, 97, some 3, none⟩, ⟨false, 0, some 0, some 1⟩,
   ⟨true, 0, none, none⟩]

/-- The automaton that `Regex("a**")` builds: the literal state, the loop state of the inner
`*` (address `1`), the loop state of the outer `*` (the start state, address `2`), which
point to each other, and the accept state. -/
def starStarHeap : Heap :=
  [⟨false, 97, some 1, none⟩, ⟨false, 0, some 0, some 2⟩, ⟨false, 0, some 1, some 3⟩,
   ⟨true, 0, none, none⟩]

/-! ## The destructor `~State` -/

/-- The data that `~State` reads and writes besides the out-pointers of the states: its
function-static set `visited` (a set of state ids; the id of a state is modelled by its
address), the states whose field `is_root` is set, and the states whose memory has been
released, latest first. -/
structure Teardown where
  visited : List Nat
  root : List Nat
  freed : List Nat
deriving DecidableEq, Repr

/-- The statement `if (out != nullptr && visited.find(outid) == visited.end())
out->set_root(false);` of `~State`.  Writing the field of a state whose memory has been
released is undefined. -/
def Teardown.unroot (o : Option Nat) (td : Teardown) : Res Teardown :=
  match o with
  | none => .ok td
  | some x =>
    if x ∈ td.visited then .ok td
    else if x ∈ td.freed then .error .undefined
    else .ok { td with root := td.root.filter (fun y => y != x) }

/-- The statement `if (outid != -1 && visited.find(outid) == visited.end()) delete out;` of
`~State`, with `del` the expression `delete`.  (The field `outid` is written together with
`out` by every constructor and by `patch`: it is `-1` exactly when `out` is null.) -/
def Teardown.deleteOut (del : Nat → Teardown → Res Teardown) (o : Option Nat)
    (td : Teardown) : Res Teardown :=
  match o with
  | none => .ok td
  | some x => if x ∈ td.visited then .ok td else del x td

/-- The four statements of `~State` on the two out-pointers: `set_root(false)` on each
successor not yet visited, then `delete` of each successor not yet visited. -/
def Teardown.children (del : Nat → Teardown → Res Teardown) (st : State) (td : Teardown) :
    Res Teardown :=
  match Teardown.unroot st.out1 td with
  | .error e => .error e
  | .ok td2 =>
    match Teardown.unroot st.out2 td2 with
    | .error e => .error e
    | .ok td3 =>
      match Teardown.deleteOut del st.out1 td3 with
      | .error e => .error e
      | .ok td4 => Teardown.deleteOut del st.out2 td4

/-- The expression `delete p` on the state at address `self`: the destructor `~State` runs,
then the memory of the state is released.  Deleting a state whose memory has already been
released is undefined.  When the state is in `visited` the destructor returns at once;
otherwise the state becomes the root if `visited` is empty, a root clears `visited` before it
inserts its id and again at the end, and the successors not yet visited are deleted. -/
def State.delete : Nat → Heap → Nat → Teardown → Res Teardown
  | 0, _, _, _ => .error .timeout
  | fuel + 1, h, self, td =>
    if self ∈ td.freed then .error .undefined
    else
      match h[self]? with
      | none => .error .undefined
      | some st =>
        if self ∈ td.visited then .ok { td with freed := self :: td.freed }
        else
          let root1 := if td.visited.isEmpty then self :: td.root else td.root
          let vis1 := if self ∈ root1 then [] else td.visited
          match Teardown.children (State.delete fuel h) st ⟨self :: vis1, root1, td.freed⟩ with
          | .error e => .error e
          | .ok td5 =>
            .ok ⟨if self ∈ td5.root then [] else td5.visited, td5.root, self :: td5.freed⟩

/-- The destructor `~Regex`: `delete this->start`, run when the static set of `~State` is
empty, no state has `is_root` set and no state has been released. -/
def Regex.destroy (fuel : Nat) (r : Regex) : Res Teardown :=
  State.delete fuel r.heap r.start ⟨[], [], []⟩

/-- What holds between two calls of `delete` inside a traversal: `visited` has no duplicates
and contains every root and every released state. -/
def Teardown.Inv (td : Teardown) : Prop :=
  td.visited.Nodup ∧ (∀ x ∈ td.root, x ∈ td.visited) ∧ (∀ x ∈ td.freed, x ∈ td.visited)

/-- The call `delete` on a state not yet visited, inside a traversal with at most `M` states
left to visit: it returns within recursion depth `M + 1`, it puts the same new states on
`visited` and on the released list, the new states are reachable from the state deleted, and
every out-pointer of a new state leads to a visited state. -/
def DeleteOK (h : Heap) (M : Nat) : Prop :=
  ∀ (self : Nat) (td : Teardown), self < h.length → self ∉ td.visited → td.visited ≠ [] →
    td.Inv → unvisited h.length td.visited ≤ M →
    ∃ nV nF : List Nat,
      (∀ fuel, M + 1 ≤ fuel →
        State.delete fuel h self td = .ok ⟨nV ++ td.visited, td.root, nF ++ td.freed⟩) ∧
      nF.Perm nV ∧ (nV ++ td.visited).Nodup ∧ self ∈ nV ∧ (∀ x ∈ nV, Conn h self x) ∧
      ∀ x ∈ nV, ∀ o ∈ outsAt h x, o ∈ nV ++ td.visited

/-- The heap that `Regex("(a)b")` builds: the literal `a` (no out-pointer), the literal `b`
leading to the accept state, and the accept state; the start state is the state of `b`. -/
def orphanHeap : Heap :=
  [⟨false, 97, none, none⟩, ⟨false, 98, some 2, none⟩, ⟨true, 0, none, none⟩]

/-! ## The field that `State(char, State *)` leaves uninitialised

The constructors `State()` and `State(bool)` assign the field `is_match_state`; the
constructor `State(char, State *)`, which `post2nfa` calls for every literal, does not, and
`State::accept` reads the field of every state it is called on.  Reading the field of a
literal state is taken to give a boolean that is fixed when the state is allocated and that
the program does not control.  `State.lit`, and with it `post2nfa.step`, `post2nfa`,
`Regex.new` and `run`, describe the runs in which this boolean is `false` for every literal
state.  The definitions of this section describe all runs: `junk x` is the boolean of the
literal state allocated at address `x`. -/

/-- The constructor `State(char c, State *out1)` called with `out1 = nullptr`: it assigns
every field except `is_match_state`, and `u` is the value which that field reads in the new
state. -/
def State.ofChar (u : Bool) (c : Nat) : State := ⟨u, c, none, none⟩

/-- One iteration of the `switch` of `post2nfa` on the token `tok`.  The five operator cases
allocate epsilon states only and are those of `post2nfa.step`; the `default` case allocates a
literal state, whose field `is_match_state` reads `junk state`. -/
def post2nfa.stepU (junk : Nat → Bool) (fuel : Nat) (tok : Nat) (b : Builder) : Res Builder :=
  if tok = chDot ∨ tok = chBar ∨ tok = chStar ∨ tok = chPlus ∨ tok = chQuest then
    post2nfa.step fuel tok b
  else
    let state := b.heap.length
    .ok ⟨b.heap ++ [State.ofChar (junk state) tok], ⟨state, [state]⟩ :: b.stack⟩

/-- The `for` loop of `post2nfa`: it stops at the end of the string or at a NUL character. -/
def post2nfa.loopU (junk : Nat → Bool) (fuel : Nat) : List Nat → Builder → Res Builder
  | [], b => .ok b
  | tok :: rest, b =>
    if tok = 0 then .ok b
    else
      match post2nfa.stepU junk fuel tok b with
      | .error e => .error e
      | .ok b1 => post2nfa.loopU junk fuel rest b1

/-- The function `post2nfa`: the loop from no state and an empty stack, then the tail
(`post2nfa.finish`, which allocates the accept state with `State(true)`). -/
def post2nfaU (junk : Nat → Bool) (fuel : Nat) (post : List Nat) : Res (Heap × Nat) :=
  match post2nfa.loopU junk fuel post ⟨[], []⟩ with
  | .error e => .error e
  | .ok b1 => post2nfa.finish fuel b1

/-- The constructor `Regex(std::string pattern)`. -/
def Regex.newU (junk : Nat → Bool) (fuel : Nat) (pattern : List Nat) : Res Regex :=
  match infix2postfix fuel pattern with
  | .error e => .error e
  | .ok post =>
    match post2nfaU junk fuel post with
    | .error e => .error e
    | .ok (h, start) => .ok ⟨pattern, h, start⟩

/-- Construct `Regex(pattern)` and call `match(content)` on it. -/
def runU (junk : Nat → Bool) (fuel : Nat) (pattern content : List Nat) : Res Bool :=
  match Regex.newU junk fuel pattern with
  | .error e => .error e
  | .ok r => r.match_ fuel content

/-- The state `st`, found at address `x`, with the field `is_match_state` as it reads when
`st` is a literal state (its label is not `0`) built by `State(char, State *)`. -/
def State.reflag (junk : Nat → Bool) (x : Nat) (st : State) : State :=
  if st.c = 0 then st else { st with is_match_state := junk x }

/-- The states of `h`, which start at address `i`, each with `State.reflag`. -/
def reflagFrom (junk : Nat → Bool) : Nat → Heap → Heap
  | _, [] => []
  | i, st :: h => State.reflag junk i st :: reflagFrom junk (i + 1) h

/-- The heap `h` with the field `is_match_state` of every literal state as `junk` gives it. -/
def reflag (junk : Nat → Bool) (h : Heap) : Heap := reflagFrom junk 0 h

/-! # Properties -/

/-! ## Characters and strings -/

theorem isAtom_iff (a : Nat) : isAtom a = true ↔
    a ≠ 0 ∧ a ≠ 42 ∧ a ≠ 43 ∧ a ≠ 63 ∧ a ≠ 46 ∧ a ≠ 124 ∧ a ≠ 40 ∧ a ≠ 41 := by
  simp [isAtom, is_operator]
  tauto

theorem isAtom_ne_zero {a : Nat} (ha : isAtom a = true) : a ≠ 0 := ((isAtom_iff a).1 ha).1

theorem isAtom_not_operator {a : Nat} (ha : isAtom a = true) : is_operator a = false := by
  simp [isAtom] at ha
  simpa using ha.2

theorem untilNul_nil : untilNul [] = [] := rfl

theorem untilNul_cons_zero (s : List Nat) : untilNul (0 :: s) = [] := by simp [untilNul]

theorem untilNul_cons_ne (c : Nat) (s : List Nat) (h : c ≠ 0) :
    untilNul (c :: s) = c :: untilNul s := by
  simp [untilNul, List.takeWhile_cons, h]

theorem untilNul_of_not_mem (s : List Nat) (h : 0 ∉ s) : untilNul s = s := by
  induction s with
  | nil => rfl
  | cons c s ih =>
    have hc : c ≠ 0 := fun e => h (by simp [e])
    rw [untilNul_cons_ne c s hc, ih (fun e => h (List.mem_cons_of_mem c e))]

theorem all_eq_iff_replicate (a : Nat) (l : List Nat) :
    l.all (fun c => c == a) = true ↔ ∃ n, l = List.replicate n a := by
  constructor
  · intro h
    refine ⟨l.length, List.eq_replicate_iff.2 ⟨rfl, ?_⟩⟩
    intro b hb
    simpa using (List.all_eq_true.1 h) b hb
  · rintro ⟨n, rfl⟩
    simp [List.all_eq_true]

/-! ## The quantifiers on one atom: `a*`, `a+`, `a?` -/

theorem new_star (a : Nat) (ha : isAtom a = true) (k : Nat) :
    Regex.new (k + 3) [a, chStar] = .ok ⟨[a, chStar], starHeap a, 1⟩ := by
  obtain ⟨h0, h1, h2, h3, h4, h5, h6, h7⟩ := (isAtom_iff a).1 ha
  simp [Regex.new, infix2postfix, infix2postfix.pass1, infix2postfix.pass2, infix2postfix.shunt,
    infix2postfix.quantBefore, infix2postfix.popWhile, inPrecedence, precedence, is_operator,
    post2nfa, post2nfa.run, post2nfa.loop, post2nfa.step, post2nfa.finish, StateList.patch, State.patch,
    State.lit, State.eps, State.ofBool, starHeap, *]

theorem new_plus (a : Nat) (ha : isAtom a = true) (k : Nat) :
    Regex.new (k + 3) [a, chPlus] = .ok ⟨[a, chPlus], plusHeap a, 0⟩ := by
  obtain ⟨h0, h1, h2, h3, h4, h5, h6, h7⟩ := (isAtom_iff a).1 ha
  simp [Regex.new, infix2postfix, infix2postfix.pass1, infix2postfix.pass2, infix2postfix.shunt,
    infix2postfix.quantBefore, infix2postfix.popWhile, inPrecedence, precedence, is_operator,
    post2nfa, post2nfa.run, post2nfa.loop, post2nfa.step, post2nfa.finish, StateList.patch, State.patch,
    State.lit, State.eps, State.ofBool, plusHeap, *]

theorem new_quest (a : Nat) (ha : isAtom a = true) (k : Nat) :
    Regex.new (k + 3) [a, chQuest] = .ok ⟨[a, chQuest], questHeap a, 1⟩ := by
  obtain ⟨h0, h1, h2, h3, h4, h5, h6, h7⟩ := (isAtom_iff a).1 ha
  simp [Regex.new, infix2postfix, infix2postfix.pass1, infix2postfix.pass2, infix2postfix.shunt,
    infix2postfix.quantBefore, infix2postfix.popWhile, inPrecedence, precedence, is_operator,
    post2nfa, post2nfa.run, post2nfa.loop, post2nfa.step, post2nfa.finish, StateList.patch, State.patch,
    State.lit, State.eps, State.ofBool, questHeap, StateList.addstate, StateList.insert, *]

theorem star_accept (a : Nat) (h0 : a ≠ 0) (k : Nat) :
    matchAccept (k + 2) (starHeap a) [] [1] = .ok (true, []) := by
  simp [matchAccept, State.accept, starHeap, State.is_epsilon, h0]

theorem star_inner (a c : Nat) (h0 : a ≠ 0) (hc : c ≠ 0) (k : Nat) :
    ∃ cl, matchInner (k + 4) (starHeap a) c [1] 0 [] [] =
      .ok (cl, if a = c then [1] else []) := by
  by_cases hac : a = c
  · subst hac
    simp [matchInner, starHeap, State.is_epsilon, State.is_match, h0, Ne.symm h0]
  · simp [matchInner, starHeap, State.is_epsilon, State.is_match, h0, hc, Ne.symm hc, hac]

theorem star_loop (a : Nat) (h0 : a ≠ 0) (k : Nat) (s : List Nat) :
    matchLoop (k + 4) (starHeap a) [] s [1] =
      .ok ((untilNul s).all (fun c => c == a), []) := by
  induction s with
  | nil => simpa [matchLoop] using star_accept a h0 (k + 2)
  | cons c s ih =>
    by_cases hc : c = 0
    · subst hc
      simpa [matchLoop, untilNul_cons_zero] using star_accept a h0 (k + 2)
    · obtain ⟨cl, hcl⟩ := star_inner a c h0 hc k
      rw [matchLoop, if_neg hc, hcl, untilNul_cons_ne c s hc]
      by_cases hac : a = c
      · subst hac
        simp [ih]
      · have : c ≠ a := fun h => hac h.symm
        simp [hac, this]

theorem run_star (a : Nat) (ha : isAtom a = true) (k : Nat) (s : List Nat) :
    run (k + 4) [a, chStar] s = .ok ((untilNul s).all (fun c => c == a)) := by
  have h := new_star a ha (k + 1)
  simp only [run, Regex.match_, match_] at *
  rw [h]
  simp [star_loop a (isAtom_ne_zero ha) k s]

theorem plus_accept (a : Nat) (h0 : a ≠ 0) (k : Nat) :
    matchAccept (k + 2) (plusHeap a) [] [1, 2] = .ok (true, []) := by
  simp [matchAccept, State.accept, plusHeap, State.is_epsilon, h0]

theorem plus_accept_start (a : Nat) (h0 : a ≠ 0) (k : Nat) :
    matchAccept (k + 1) (plusHeap a) [] [0] = .ok (false, []) := by
  simp [matchAccept, State.accept, plusHeap, State.is_epsilon, h0]

theorem plus_inner (a c : Nat) (h0 : a ≠ 0) (hc : c ≠ 0) (k : Nat) :
    ∃ cl, matchInner (k + 4) (plusHeap a) c [1, 2] 0 [] [] =
      .ok (cl, if a = c then [1, 2] else []) := by
  by_cases hac : a = c
  · subst hac
    simp [matchInner, plusHeap, State.is_epsilon, State.is_match, h0, Ne.symm h0]
  · simp [matchInner, plusHeap, State.is_epsilon, State.is_match, h0, hc, Ne.symm hc, hac]

theorem plus_inner_start (a c : Nat) (h0 : a ≠ 0) (k : Nat) :
    ∃ cl, matchInner (k + 2) (plusHeap a) c [0] 0 [] [] =
      .ok (cl, if a = c then [1, 2] else []) := by
  by_cases hac : a = c
  · subst hac
    simp [matchInner, plusHeap, State.is_epsilon, State.is_match, h0]
  · simp [matchInner, plusHeap, State.is_epsilon, State.is_match, h0, hac]

theorem plus_loop (a : Nat) (h0 : a ≠ 0) (k : Nat) (s : List Nat) :
    matchLoop (k + 4) (plusHeap a) [] s [1, 2] =
      .ok ((untilNul s).all (fun c => c == a), []) := by
  induction s with
  | nil => simpa [matchLoop] using plus_accept a h0 (k + 2)
  | cons c s ih =>
    by_cases hc : c = 0
    · subst hc
      simpa [matchLoop, untilNul_cons_zero] using plus_accept a h0 (k + 2)
    · obtain ⟨cl, hcl⟩ := plus_inner a c h0 hc k
      rw [matchLoop, if_neg hc, hcl, untilNul_cons_ne c s hc]
      by_cases hac : a = c
      · subst hac
        simp [ih]
      · have : c ≠ a := fun h => hac h.symm
        simp [hac, this]

theorem plus_loop_start (a : Nat) (h0 : a ≠ 0) (k : Nat) (s : List Nat) :
    matchLoop (k + 4) (plusHeap a) [] s [0] =
      .ok (!(untilNul s).isEmpty && (untilNul s).all (fun c => c == a), []) := by
  cases s with
  | nil => simpa [matchLoop] using plus_accept_start a h0 (k + 3)
  | cons c s =>
    by_cases hc : c = 0
    · subst hc
      simpa [matchLoop, untilNul_cons_zero] using plus_accept_start a h0 (k + 3)
    · obtain ⟨cl, hcl⟩ := plus_inner_start a c h0 (k + 2)
      rw [matchLoop, if_neg hc, hcl, untilNul_cons_ne c s hc]
      by_cases hac : a = c
      · subst hac
        simp [plus_loop a h0 k s]
      · have : c ≠ a := fun h => hac h.symm
        simp [hac, this]

theorem run_plus (a : Nat) (ha : isAtom a = true) (k : Nat) (s : List Nat) :
    run (k + 4) [a, chPlus] s =
      .ok (!(untilNul s).isEmpty && (untilNul s).all (fun c => c == a)) := by
  have h := new_plus a ha (k + 1)
  simp only [run, Regex.match_, match_] at *
  rw [h]
  simp [plus_loop_start a (isAtom_ne_zero ha) k s]

theorem quest_accept (a : Nat) (h0 : a ≠ 0) (k : Nat) :
    matchAccept (k + 2) (questHeap a) [] [1] = .ok (true, []) := by
  simp [matchAccept, State.accept, questHeap, State.is_epsilon, h0]

theorem quest_accept_end (a : Nat) (k : Nat) :
    matchAccept (k + 1) (questHeap a) [] [2] = .ok (true, []) := by
  simp [matchAccept, State.accept, questHeap, State.is_epsilon]

theorem quest_inner (a c : Nat) (h0 : a ≠ 0) (hc : c ≠ 0) (k : Nat) :
    ∃ cl, matchInner (k + 4) (questHeap a) c [1] 0 [] [] =
      .ok (cl, if a = c then [2] else []) := by
  by_cases hac : a = c
  · subst hac
    simp [matchInner, questHeap, State.is_epsilon, State.is_match, h0, Ne.symm h0]
  · simp [matchInner, questHeap, State.is_epsilon, State.is_match, h0, hc, Ne.symm hc, hac]

theorem quest_inner_end (a c : Nat) (hc : c ≠ 0) (k : Nat) :
    ∃ cl, matchInner (k + 2) (questHeap a) c [2] 0 [] [] = .ok (cl, []) := by
  simp [matchInner, questHeap, State.is_epsilon, State.is_match, hc, Ne.symm hc]

theorem quest_loop_end (a : Nat) (k : Nat) (s : List Nat) :
    matchLoop (k + 4) (questHeap a) [] s [2] = .ok ((untilNul s).isEmpty, []) := by
  cases s with
  | nil => simpa [matchLoop] using quest_accept_end a (k + 3)
  | cons c s =>
    by_cases hc : c = 0
    · subst hc
      simpa [matchLoop, untilNul_cons_zero] using quest_accept_end a (k + 3)
    · obtain ⟨cl, hcl⟩ := quest_inner_end a c hc (k + 2)
      rw [matchLoop, if_neg hc, hcl, untilNul_cons_ne c s hc]
      simp

theorem quest_loop (a : Nat) (h0 : a ≠ 0) (k : Nat) (s : List Nat) :
    matchLoop (k + 4) (questHeap a) [] s [1] =
      .ok (decide (untilNul s = [] ∨ untilNul s = [a]), []) := by
  cases s with
  | nil => simpa [matchLoop] using quest_accept a h0 (k + 2)
  | cons c s =>
    by_cases hc : c = 0
    · subst hc
      simpa [matchLoop, untilNul_cons_zero] using quest_accept a h0 (k + 2)
    · obtain ⟨cl, hcl⟩ := quest_inner a c h0 hc k
      rw [matchLoop, if_neg hc, hcl, untilNul_cons_ne c s hc]
      by_cases hac : a = c
      · subst hac
        simp [quest_loop_end a k s]
        cases untilNul s <;> simp
      · have : c ≠ a := fun h => hac h.symm
        simp [hac, this]

theorem run_quest (a : Nat) (ha : isAtom a = true) (k : Nat) (s : List Nat) :
    run (k + 4) [a, chQuest] s = .ok (decide (untilNul s = [] ∨ untilNul s = [a])) := by
  have h := new_quest a ha (k + 1)
  simp only [run, Regex.match_, match_] at *
  rw [h]
  simp [quest_loop a (isAtom_ne_zero ha) k s]

theorem not_replicate_of_all_false (a : Nat) (l : List Nat)
    (h : l.all (fun c => c == a) = false) : ¬ ∃ n, l = List.replicate n a := by
  intro hn
  rw [(all_eq_iff_replicate a l).2 hn] at h
  exact Bool.noConfusion h

/-- C3 (counterexample): on the three-character input `a`, NUL, `b` the regex compiled from
`a*` answers true, although that input is not made of copies of `a`. -/
theorem star_nul_counterexample :
    run 10 (str "a*") [97, 0, 98] = .ok true ∧ ¬ ∃ n, [97, 0, 98] = List.replicate n 97 :=
  ⟨by decide, not_replicate_of_all_false 97 [97, 0, 98] (by decide)⟩

/-- C3 (amended): for every atom `a`, every input `s` and every fuel from 4 on,
`Regex("a*").match(s)` returns a boolean, and it returns true exactly when the part of `s`
before its first NUL character consists of zero or more copies of `a`; when `s` is NUL-free
that part is `s` itself. -/
theorem star_matches_runs (a : Nat) (ha : isAtom a = true) (s : List Nat) (fuel : Nat)
    (hf : 4 ≤ fuel) :
    ∃ b, run fuel [a, chStar] s = .ok b ∧
      (b = true ↔ ∃ n, untilNul s = List.replicate n a) ∧
      (0 ∉ s → (b = true ↔ ∃ n, s = List.replicate n a)) := by
  obtain ⟨k, rfl⟩ := Nat.exists_eq_add_of_le' hf
  refine ⟨_, run_star a ha k s, all_eq_iff_replicate a (untilNul s), fun h0 => ?_⟩
  rw [untilNul_of_not_mem s h0]
  exact all_eq_iff_replicate a s

/-- Instance of `star_matches_runs` at the atom `a` and the input `aaaa`. -/
theorem star_matches_runs_witness :
    (isAtom 97 = true ∧ 4 ≤ 10) ∧
    ∃ b, run 10 (str "a*") (str "aaaa") = .ok b ∧
      (b = true ↔ ∃ n, untilNul (str "aaaa") = List.replicate n 97) ∧
      (0 ∉ str "aaaa" → (b = true ↔ ∃ n, str "aaaa" = List.replicate n 97)) :=
  ⟨by decide, star_matches_runs 97 (by decide) (str "aaaa") 10 (by decide)⟩

/-- With the uninitialised fields reading false: on the three-character input `a`, NUL, `b` the regex compiled from
`a+` answers true, although that input is not made of copies of `a`. -/
theorem plus_nul_counterexample :
    run 10 (str "a+") [97, 0, 98] = .ok true ∧ ¬ ∃ n, 0 < n ∧ [97, 0, 98] = List.replicate n 97 :=
  ⟨by decide, fun ⟨n, _, h⟩ => not_replicate_of_all_false 97 [97, 0, 98] (by decide) ⟨n, h⟩⟩

/-- The regex of `a+` in the runs in which the uninitialised field of its literal state reads
false: for every atom `a`, every input `s` and every fuel from 4 on,
`Regex("a+").match(s)` returns a boolean, and it returns true exactly when the part of `s`
before its first NUL character consists of one or more copies of `a`; when `s` is NUL-free
that part is `s` itself.  In these runs the empty input is rejected. -/
theorem plus_matches_runs (a : Nat) (ha : isAtom a = true) (s : List Nat) (fuel : Nat)
    (hf : 4 ≤ fuel) :
    (∃ b, run fuel [a, chPlus] s = .ok b ∧
      (b = true ↔ ∃ n, 0 < n ∧ untilNul s = List.replicate n a) ∧
      (0 ∉ s → (b = true ↔ ∃ n, 0 < n ∧ s = List.replicate n a))) ∧
    run fuel [a, chPlus] [] = .ok false := by
  obtain ⟨k, rfl⟩ := Nat.exists_eq_add_of_le' hf
  have key : ∀ l : List Nat, (!l.isEmpty && l.all (fun c => c == a)) = true ↔
      ∃ n, 0 < n ∧ l = List.replicate n a := by
    intro l
    rw [Bool.and_eq_true, all_eq_iff_replicate]
    constructor
    · rintro ⟨h1, n, h2⟩
      refine ⟨n, ?_, h2⟩
      rw [h2] at h1
      cases n with
      | zero => simp at h1
      | succ m => exact Nat.succ_pos m
    · rintro ⟨n, hn, h2⟩
      refine ⟨?_, n, h2⟩
      rw [h2]
      cases n with
      | zero => exact absurd hn (Nat.lt_irrefl 0)
      | succ m => simp [List.replicate_succ]
  refine ⟨⟨_, run_plus a ha k s, key (untilNul s), fun h0 => ?_⟩,
    by simpa [untilNul] using run_plus a ha k []⟩
  rw [untilNul_of_not_mem s h0]
  exact key s

/-- Instance of `plus_matches_runs` at the atom `a` and the input `aaa`. -/
theorem plus_matches_runs_witness :
    (isAtom 97 = true ∧ 4 ≤ 10) ∧
    (∃ b, run 10 (str "a+") (str "aaa") = .ok b ∧
      (b = true ↔ ∃ n, 0 < n ∧ untilNul (str "aaa") = List.replicate n 97) ∧
      (0 ∉ str "aaa" → (b = true ↔ ∃ n, 0 < n ∧ str "aaa" = List.replicate n 97))) ∧
    run 10 (str "a+") [] = .ok false :=
  ⟨by decide, plus_matches_runs 97 (by decide) (str "aaa") 10 (by decide)⟩

/-- C5 (counterexample): on the two-character input `a`, NUL the regex compiled from `a?`
answers true, although that input is neither empty nor the one-character string `a`. -/
theorem quest_nul_counterexample :
    run 10 (str "a?") [97, 0] = .ok true ∧ ¬ ([97, 0] = ([] : List Nat) ∨ [97, 0] = [97]) :=
  ⟨by decide, by decide⟩

/-- C5 (amended): for every atom `a`, every input `s` and every fuel from 4 on,
`Regex("a?").match(s)` returns a boolean, and it returns true exactly when the part of `s`
before its first NUL character is empty or is the one-character string `a`; when `s` is
NUL-free that part is `s` itself. -/
theorem quest_matches_empty_or_one (a : Nat) (ha : isAtom a = true) (s : List Nat) (fuel : Nat)
    (hf : 4 ≤ fuel) :
    ∃ b, run fuel [a, chQuest] s = .ok b ∧
      (b = true ↔ untilNul s = [] ∨ untilNul s = [a]) ∧
      (0 ∉ s → (b = true ↔ s = [] ∨ s = [a])) := by
  obtain ⟨k, rfl⟩ := Nat.exists_eq_add_of_le' hf
  refine ⟨_, run_quest a ha k s, by simp, fun h0 => ?_⟩
  rw [untilNul_of_not_mem s h0]
  simp

/-- Instance of `quest_matches_empty_or_one` at the atom `a` and the input `a`. -/
theorem quest_matches_empty_or_one_witness :
    (isAtom 97 = true ∧ 4 ≤ 10) ∧
    ∃ b, run 10 (str "a?") (str "a") = .ok b ∧
      (b = true ↔ untilNul (str "a") = [] ∨ untilNul (str "a") = [97]) ∧
      (0 ∉ str "a" → (b = true ↔ str "a" = [] ∨ str "a" = [97])) :=
  ⟨by decide, quest_matches_empty_or_one 97 (by decide) (str "a") 10 (by decide)⟩

/-! ## The pattern `(a|b|c|d)*` -/

theorem new_abcd (k : Nat) :
    Regex.new (k + 12) (str "(a|b|c|d)*") = .ok ⟨str "(a|b|c|d)*", abcdHeap, 7⟩ := by
  rfl

theorem abcd_accept (k : Nat) : matchAccept (k + 5) abcdHeap [] [7] = .ok (true, []) := by
  rfl

theorem abcd_inner (c : Nat) (hc : c ∈ str "abcd") (k : Nat) :
    ∃ cl, matchInner (k + 10) abcdHeap c [7] 0 [] [] = .ok (cl, [7]) := by
  have h4 : c = 97 ∨ c = 98 ∨ c = 99 ∨ c = 100 := by simpa [str] using hc
  rcases h4 with rfl | rfl | rfl | rfl <;> exact ⟨_, rfl⟩

theorem abcd_loop (k : Nat) (s : List Nat) (hs : ∀ c ∈ s, c ∈ str "abcd") :
    matchLoop (k + 10) abcdHeap [] s [7] = .ok (true, []) := by
  induction s with
  | nil => exact abcd_accept (k + 5)
  | cons c s ih =>
    have hc : c ∈ str "abcd" := hs c (List.mem_cons_self c s)
    have hc0 : c ≠ 0 := by
      intro h0
      rw [h0] at hc
      revert hc
      decide
    obtain ⟨cl, hcl⟩ := abcd_inner c hc k
    rw [matchLoop, if_neg hc0, hcl]
    simpa using ih (fun x hx => hs x (List.mem_cons_of_mem c hx))

theorem run_abcd (k : Nat) (s : List Nat) (hs : ∀ c ∈ s, c ∈ str "abcd") :
    run (k + 12) (str "(a|b|c|d)*") s = .ok true := by
  have h := new_abcd k
  simp only [run, Regex.match_, match_] at *
  rw [h]
  simp [abcd_loop (k + 2) s hs]

theorem mem_abcd_flatten (k : Nat) :
    ∀ c ∈ (List.replicate k (str "abcd")).flatten, c ∈ str "abcd" := by
  intro c hc
  rw [List.mem_flatten] at hc
  obtain ⟨l, hl, hcl⟩ := hc
  rw [(List.mem_replicate.1 hl).2] at hcl
  exact hcl

/-- C9: with fuel from 12 on, `Regex("(a|b|c|d)*").match` returns true on the input made of
`k` repetitions of `abcd`, for every `k`, and on every input all of whose characters are among
`a`, `b`, `c`, `d`. -/
theorem abcd_star_matches (fuel : Nat) (hf : 12 ≤ fuel) :
    (∀ k, run fuel (str "(a|b|c|d)*") (List.replicate k (str "abcd")).flatten = .ok true) ∧
    (∀ s, (∀ c ∈ s, c ∈ str "abcd") → run fuel (str "(a|b|c|d)*") s = .ok true) := by
  obtain ⟨k, rfl⟩ := Nat.exists_eq_add_of_le' hf
  exact ⟨fun n => run_abcd k _ (mem_abcd_flatten n), fun s hs => run_abcd k s hs⟩

/-- Instance of `abcd_star_matches` with fuel 20. -/
theorem abcd_star_matches_witness :
    12 ≤ 20 ∧
    (∀ k, run 20 (str "(a|b|c|d)*") (List.replicate k (str "abcd")).flatten = .ok true) ∧
    (∀ s, (∀ c ∈ s, c ∈ str "abcd") → run 20 (str "(a|b|c|d)*") s = .ok true) :=
  ⟨by decide, abcd_star_matches 20 (by decide)⟩

/-! ## Patterns on which the compiler goes wrong, and the skipped `.` -/

/-- C6: the empty pattern is converted to the empty postfix string, but `post2nfa` then reads
`stack.back()` on an empty vector: no regex is constructed, whatever the fuel. -/
theorem empty_pattern_undefined (fuel : Nat) :
    infix2postfix (fuel + 1) [] = .ok [] ∧ post2nfa fuel [] = .error .undefined ∧
    Regex.new (fuel + 1) [] = .error .undefined ∧
    ∀ s, run (fuel + 1) [] s = .error .undefined := by
  refine ⟨rfl, rfl, rfl, fun s => rfl⟩

/-- C1: the well-formed pattern `(a)b` is converted to the postfix string `ab`, which has no
concatenation operator; the regex built from it rejects `ab`, which is in the language of
the concatenation of `a` and `b`, and accepts `b`, which is not. -/
theorem paren_atom_not_concatenated (k : Nat) :
    infix2postfix (k + 10) (str "(a)b") = .ok (str "ab") ∧
    (run (k + 10) (str "(a)b") (str "ab") = .ok false ∧
      str "ab" ∈ (RegularExpression.char 97 * RegularExpression.char 98).matches') ∧
    (run (k + 10) (str "(a)b") (str "b") = .ok true ∧
      str "b" ∉ (RegularExpression.char 97 * RegularExpression.char 98).matches') := by
  refine ⟨rfl, ⟨rfl, ?_⟩, ⟨rfl, ?_⟩⟩
  · rw [← RegularExpression.rmatch_iff_matches']
    decide
  · rw [← RegularExpression.rmatch_iff_matches']
    decide

/-- The default pattern of `main.cpp`, `ab.*c|+`, becomes the postfix string `ab.*.c.+|`; its
last token `|` finds one fragment on the stack and pops an empty vector. -/
theorem default_pattern_undefined (k : Nat) :
    infix2postfix (k + 20) (str "ab.*c|+") = .ok (str "ab.*.c.+|") ∧
    Regex.new (k + 20) (str "ab.*c|+") = .error .undefined := by
  refine ⟨rfl, rfl⟩

/-- The regex built from `(ab)*+` accepts the input `a`: the `+` step keeps the dangling set
of its operand, so the final patch runs through the full loop state into the literal `a`. -/
theorem stacked_plus_accepts_too_much (k : Nat) :
    infix2postfix (k + 20) (str "(ab)*+") = .ok (str "ab.*+") ∧
    run (k + 20) (str "(ab)*+") (str "a") = .ok true := by
  refine ⟨rfl, rfl⟩

/-- C10 (counterexample): the postfix string `a.` reaches `.` with one fragment on the stack;
the step leaves the builder as it is, and `Regex("a.")` is constructed and matches `a`. -/
theorem dot_underflow_counterexample :
    infix2postfix 10 (str "a.") = .ok (str "a.") ∧
    post2nfa.step 10 chDot ⟨[State.lit 97], [⟨0, [0]⟩]⟩ = .ok ⟨[State.lit 97], [⟨0, [0]⟩]⟩ ∧
    Regex.new 10 (str "a.") =
      .ok ⟨str "a.", [⟨false, 97, some 1, none⟩, ⟨true, 0, none, none⟩], 0⟩ ∧
    run 10 (str "a.") (str "a") = .ok true := by
  decide

/-- C10 (amended): a `.` reached with fewer than two fragments on the builder stack is
skipped: the step returns the builder unchanged, without any error, and the loop goes on with
the next token. -/
theorem dot_underflow_skipped (fuel : Nat) (b : Builder) (rest : List Nat)
    (h : b.stack.length < 2) :
    post2nfa.step fuel chDot b = .ok b ∧
    post2nfa.loop fuel (chDot :: rest) b = post2nfa.loop fuel rest b := by
  have hstep : post2nfa.step fuel chDot b = .ok b := by
    rcases b with ⟨hp, st⟩
    match st, h with
    | [], _ => simp [post2nfa.step]
    | [e], _ => simp [post2nfa.step]
    | _ :: _ :: _, h => simp at h; omega
  exact ⟨hstep, by simp [post2nfa.loop, hstep]⟩

/-- Instance of `dot_underflow_skipped` on the builder that holds the single fragment of the
literal `a`, followed by the token `b`. -/
theorem dot_underflow_skipped_witness :
    (⟨[State.lit 97], [⟨0, [0]⟩]⟩ : Builder).stack.length < 2 ∧
    post2nfa.step 5 chDot ⟨[State.lit 97], [⟨0, [0]⟩]⟩ = .ok ⟨[State.lit 97], [⟨0, [0]⟩]⟩ ∧
    post2nfa.loop 5 (chDot :: [98]) ⟨[State.lit 97], [⟨0, [0]⟩]⟩ =
      post2nfa.loop 5 [98] ⟨[State.lit 97], [⟨0, [0]⟩]⟩ :=
  ⟨by decide, dot_underflow_skipped 5 ⟨[State.lit 97], [⟨0, [0]⟩]⟩ [98] (by decide)⟩

/-! ## The insertion loops of `infix2postfix` compute `norm1` and `norm2` -/

theorem lastNonOp_snoc (pre : List Nat) (c : Nat) : lastNonOp (pre ++ [c]) = !is_operator c := by
  simp [lastNonOp, List.getD_eq_getElem?_getD]

theorem getElem?_append_cons_length (pre : List Nat) (c : Nat) (cs : List Nat) :
    (pre ++ c :: cs)[pre.length]? = some c := by
  rw [List.getElem?_append_right (Nat.le_refl _)]
  simp

theorem getD_append_pred (pre cs : List Nat) (h : 0 < pre.length) :
    (pre ++ cs).getD (pre.length - 1) 0 = pre.getD (pre.length - 1) 0 := by
  simp only [List.getD_eq_getElem?_getD]
  rw [List.getElem?_append_left (by omega)]

theorem insertAt_append (pre cs : List Nat) (d : Nat) :
    insertAt (pre ++ cs) pre.length d = pre ++ d :: cs := by
  simp [insertAt]

theorem pass1_cond (pre cs : List Nat) (c : Nat) :
    (!is_operator c && decide (0 < pre.length)
      && !is_operator ((pre ++ c :: cs).getD (pre.length - 1) 0)) =
    (!is_operator c && lastNonOp pre) := by
  unfold lastNonOp
  by_cases h : 0 < pre.length
  · rw [getD_append_pred pre (c :: cs) h]
    simp [h, Bool.and_assoc]
  · simp [h]

theorem pass1_eq (cs : List Nat) : ∀ (pre : List Nat) (fuel : Nat), 2 * cs.length + 1 ≤ fuel →
    infix2postfix.pass1 fuel (pre ++ cs) pre.length = .ok (pre ++ norm1 (lastNonOp pre) cs) := by
  induction cs with
  | nil =>
    intro pre fuel hf
    obtain ⟨f, rfl⟩ := Nat.exists_eq_add_of_le' hf
    simp [ infix2postfix.pass1, norm1]
  | cons c cs ih =>
    intro pre fuel hf
    simp only [List.length_cons] at hf
    obtain ⟨f, rfl⟩ : ∃ f, fuel = f + 2 := ⟨fuel - 2, by omega⟩
    rw [ infix2postfix.pass1, getElem?_append_cons_length]
    simp only [pass1_cond]
    by_cases hc : c = 0
    · simp [hc, norm1]
    · rw [if_neg hc, norm1, if_neg hc]
      by_cases hcond : (!is_operator c && lastNonOp pre) = true
      · rw [if_pos hcond, if_pos hcond, insertAt_append]
        have e1 : pre ++ chDot :: c :: cs = (pre ++ [chDot]) ++ c :: cs := by simp
        have e2 : pre.length + 1 = (pre ++ [chDot]).length := by simp
        rw [e1, e2, infix2postfix.pass1, getElem?_append_cons_length]
        simp only [pass1_cond, lastNonOp_snoc]
        have hdot : is_operator chDot = true := by decide
        simp only [hdot, Bool.not_true, Bool.and_false, if_neg hc]
        have e3 : (pre ++ [chDot]) ++ c :: cs = (pre ++ [chDot, c]) ++ cs := by simp
        have e4 : (pre ++ [chDot]).length + 1 = (pre ++ [chDot, c]).length := by simp
        rw [if_neg (by simp), e3, e4, ih _ f (by omega)]
        have e5 : pre ++ [chDot, c] = (pre ++ [chDot]) ++ [c] := by simp
        have hcn : (!is_operator c) = true := by
          simp only [Bool.and_eq_true] at hcond
          exact hcond.1
        rw [e5, lastNonOp_snoc, hcn]
        simp
      · rw [if_neg hcond, if_neg hcond]
        have e3 : pre ++ c :: cs = (pre ++ [c]) ++ cs := by simp
        have e4 : pre.length + 1 = (pre ++ [c]).length := by simp
        rw [e3, e4, ih _ (f + 1) (by omega), lastNonOp_snoc]
        simp

theorem lastOk_snoc (pre : List Nat) (c : Nat) :
    lastOk (pre ++ [c]) = (!is_operator c || c == chRParen) := by
  simp [lastOk, List.getD_eq_getElem?_getD]

theorem pass2_cond (pre cs : List Nat) (c : Nat) :
    (c == chLParen && decide (0 < pre.length)
      && (!is_operator ((pre ++ c :: cs).getD (pre.length - 1) 0)
          || (pre ++ c :: cs).getD (pre.length - 1) 0 == chRParen)) =
    (c == chLParen && lastOk pre) := by
  unfold lastOk
  by_cases h : 0 < pre.length
  · rw [getD_append_pred pre (c :: cs) h]
    simp [h, Bool.and_assoc]
  · simp [h]

theorem quantBefore_append (pre cs : List Nat) (c : Nat) :
    infix2postfix.quantBefore (pre ++ c :: cs) pre.length =
      (isQuant c && !cs.isEmpty && !is_operator (cs.headD 0)) := by
  unfold infix2postfix.quantBefore isQuant
  have e1 : (pre ++ c :: cs).getD pre.length 0 = c := by
    rw [List.getD_eq_getElem?_getD, getElem?_append_cons_length]
    rfl
  rw [e1]
  cases cs with
  | nil => simp
  | cons d ds =>
    have e2 : (pre ++ c :: d :: ds).getD (pre.length + 1) 0 = d := by
      have : pre ++ c :: d :: ds = (pre ++ [c]) ++ d :: ds := by simp
      rw [this]
      have := getElem?_append_cons_length (pre ++ [c]) d ds
      simp only [List.length_append, List.length_singleton] at this
      rw [List.getD_eq_getElem?_getD, this]
      rfl
    rw [e2]
    simp

theorem quantBefore_lparen (pre cs : List Nat) :
    infix2postfix.quantBefore (pre ++ chLParen :: cs) pre.length = false := by
  rw [quantBefore_append]
  simp [isQuant]

theorem pass2_eq (cs : List Nat) : ∀ (pre : List Nat) (fuel : Nat), cs.length + 1 ≤ fuel →
    infix2postfix.pass2 fuel (pre ++ cs) pre.length = .ok (pre ++ norm2 (lastOk pre) cs) := by
  induction cs with
  | nil =>
    intro pre fuel hf
    obtain ⟨f, rfl⟩ := Nat.exists_eq_add_of_le' hf
    simp [ infix2postfix.pass2, norm2]
  | cons c cs ih =>
    intro pre fuel hf
    simp only [List.length_cons] at hf
    obtain ⟨f, rfl⟩ : ∃ f, fuel = f + 1 := ⟨fuel - 1, by omega⟩
    rw [ infix2postfix.pass2, getElem?_append_cons_length]
    simp only [pass2_cond]
    by_cases hc : c = 0
    · simp [hc, norm2]
    · rw [if_neg hc, norm2, if_neg hc]
      by_cases h1 : (c == chLParen && lastOk pre) = true
      · have hcl : c = chLParen := by
          simp only [Bool.and_eq_true, beq_iff_eq] at h1
          exact h1.1
        subst hcl
        simp only [h1, if_true, insertAt_append]
        have e1 : pre ++ chDot :: chLParen :: cs = (pre ++ [chDot]) ++ chLParen :: cs := by simp
        have e2 : pre.length + 1 = (pre ++ [chDot]).length := by simp
        rw [e1, e2, quantBefore_lparen]
        simp only [Bool.false_eq_true, if_false]
        have e3 : (pre ++ [chDot]) ++ chLParen :: cs = (pre ++ [chDot, chLParen]) ++ cs := by simp
        have e4 : (pre ++ [chDot]).length + 1 = (pre ++ [chDot, chLParen]).length := by simp
        rw [e3, e4, ih _ f (by omega)]
        have e5 : pre ++ [chDot, chLParen] = (pre ++ [chDot]) ++ [chLParen] := by simp
        have e6 : (!is_operator chLParen || chLParen == chRParen) = false := by decide
        rw [e5, lastOk_snoc, e6]
        simp
      · simp only [h1, Bool.false_eq_true, if_false, quantBefore_append]
        by_cases h2 : (isQuant c && !cs.isEmpty && !is_operator (cs.headD 0)) = true
        · simp only [h2, if_true]
          have e0 : pre.length + 1 = (pre ++ [c]).length := by simp
          have e1 : pre ++ c :: cs = (pre ++ [c]) ++ cs := by simp
          rw [e0, e1, insertAt_append]
          have e3 : (pre ++ [c]) ++ chDot :: cs = (pre ++ [c, chDot]) ++ cs := by simp
          have e4 : (pre ++ [c]).length + 1 = (pre ++ [c, chDot]).length := by simp
          rw [e3, e4, ih _ f (by omega)]
          have e5 : pre ++ [c, chDot] = (pre ++ [c]) ++ [chDot] := by simp
          have e6 : (!is_operator chDot || chDot == chRParen) = false := by decide
          rw [e5, lastOk_snoc, e6]
          simp
        · simp only [h2, Bool.false_eq_true, if_false]
          have e3 : pre ++ c :: cs = (pre ++ [c]) ++ cs := by simp
          have e4 : pre.length + 1 = (pre ++ [c]).length := by simp
          rw [e3, e4, ih _ f (by omega), lastOk_snoc]
          simp

/-! ## Words of atoms -/

theorem norm1_length_le (cs : List Nat) : ∀ b, (norm1 b cs).length ≤ 2 * cs.length := by
  induction cs with
  | nil => intro b; simp [norm1]
  | cons c cs ih =>
    intro b
    rw [norm1]
    split
    · simp only [List.length_cons]; omega
    · split
      · have := ih true
        simp only [List.length_cons]
        omega
      · have := ih (!is_operator c)
        simp only [List.length_cons]
        omega

theorem infix2postfix_eq (fuel : Nat) (p : List Nat) (hf : 2 * p.length + 1 ≤ fuel) :
    infix2postfix fuel p =
      match infix2postfix.shunt (norm2 false (norm1 false p)) [] [] with
      | .error e => .error e
      | .ok (out, st) => .ok (out ++ st) := by
  have h1 := pass1_eq p [] fuel hf
  have h2 := pass2_eq (norm1 false p) [] fuel (by have := norm1_length_le p false; omega)
  simp only [List.nil_append, List.length_nil] at h1 h2
  have e1 : lastNonOp [] = false := rfl
  have e2 : lastOk [] = false := rfl
  rw [e1] at h1
  rw [e2] at h2
  simp only [ infix2postfix, h1, h2]

theorem norm1_atoms (cs : List Nat) (ha : ∀ c ∈ cs, isAtom c = true) :
    norm1 true cs = cs.flatMap (fun d => [chDot, d]) := by
  induction cs with
  | nil => rfl
  | cons c cs ih =>
    have hc := ha c (List.mem_cons_self c cs)
    rw [norm1, if_neg (isAtom_ne_zero hc)]
    simp [isAtom_not_operator hc, ih (fun x hx => ha x (List.mem_cons_of_mem c hx))]

theorem norm2_plain (l : List Nat) (hl : ∀ c ∈ l, c ≠ chLParen ∧ isQuant c = false) :
    ∀ b, norm2 b l = l := by
  induction l with
  | nil => intro b; rfl
  | cons c cs ih =>
    intro b
    have hc := hl c (List.mem_cons_self c cs)
    rw [norm2]
    split
    · rfl
    · simp [hc.1, hc.2, ih (fun x hx => hl x (List.mem_cons_of_mem c hx))]

theorem atom_plain {c : Nat} (hc : isAtom c = true) : c ≠ chLParen ∧ isQuant c = false := by
  obtain ⟨h0, h1, h2, h3, h4, h5, h6, h7⟩ := (isAtom_iff c).1 hc
  simp [isQuant, *]

theorem shunt_atom (c : Nat) (hc : isAtom c = true) (cs out st : List Nat) :
    infix2postfix.shunt (c :: cs) out st = infix2postfix.shunt cs (out ++ [c]) st := by
  obtain ⟨h0, h1, h2, h3, h4, h5, h6, h7⟩ := (isAtom_iff c).1 hc
  simp [ infix2postfix.shunt, inPrecedence, *]

theorem shunt_dot_on_dot (cs out : List Nat) :
    infix2postfix.shunt (chDot :: cs) out [chDot] =
      infix2postfix.shunt cs (out ++ [chDot]) [chDot] := by
  simp [ infix2postfix.shunt, inPrecedence, infix2postfix.popWhile, precedence]

theorem shunt_dot_on_empty (cs out : List Nat) :
    infix2postfix.shunt (chDot :: cs) out [] = infix2postfix.shunt cs out [chDot] := by
  simp [ infix2postfix.shunt, inPrecedence, infix2postfix.popWhile]

theorem shunt_dotted (ds : List Nat) (ha : ∀ c ∈ ds, isAtom c = true) : ∀ out,
    infix2postfix.shunt (ds.flatMap (fun d => [chDot, d])) out [chDot] =
      .ok (out ++ ds.flatMap (fun d => [chDot, d]), [chDot]) := by
  induction ds with
  | nil => intro out; simp [ infix2postfix.shunt]
  | cons d ds ih =>
    intro out
    have hd := ha d (List.mem_cons_self d ds)
    rw [List.flatMap_cons]
    simp only [List.cons_append, List.nil_append]
    rw [shunt_dot_on_dot, shunt_atom d hd, ih (fun x hx => ha x (List.mem_cons_of_mem d hx))]
    simp

theorem dots_shift (ds : List Nat) : ∀ x : Nat,
    x :: (ds.flatMap (fun d => [chDot, d]) ++ [chDot]) = (x :: ds).flatMap (fun d => [d, chDot]) := by
  induction ds with
  | nil => intro x; rfl
  | cons d ds ih =>
    intro x
    rw [List.flatMap_cons, List.flatMap_cons (x := x)]
    simp only [List.cons_append, List.nil_append]
    rw [ih d]

theorem infix2postfix_word (w : List Nat) (ha : ∀ c ∈ w, isAtom c = true) (fuel : Nat)
    (hf : 2 * w.length + 1 ≤ fuel) : infix2postfix fuel w = .ok (postfixOfWord w) := by
  rw [ infix2postfix_eq fuel w hf]
  cases w with
  | nil => rfl
  | cons c ds =>
    have hc := ha c (List.mem_cons_self c ds)
    have hds : ∀ x ∈ ds, isAtom x = true := fun x hx => ha x (List.mem_cons_of_mem c hx)
    have h1 : norm1 false (c :: ds) = c :: ds.flatMap (fun d => [chDot, d]) := by
      rw [norm1, if_neg (isAtom_ne_zero hc)]
      simp [isAtom_not_operator hc, norm1_atoms ds hds]
    have h2 : norm2 false (c :: ds.flatMap (fun d => [chDot, d])) =
        c :: ds.flatMap (fun d => [chDot, d]) := by
      apply norm2_plain
      intro x hx
      rcases List.mem_cons.1 hx with rfl | hx
      · exact atom_plain hc
      · obtain ⟨d, hd, hxd⟩ := List.mem_flatMap.1 hx
        rcases List.mem_cons.1 hxd with rfl | hxd
        · decide
        · rw [List.mem_singleton.1 hxd]
          exact atom_plain (hds d hd)
    rw [h1, h2, shunt_atom c hc]
    cases ds with
    | nil => rfl
    | cons d ds =>
      have hd := hds d (List.mem_cons_self d ds)
      rw [List.flatMap_cons]
      simp only [List.cons_append, List.nil_append]
      rw [shunt_dot_on_empty, shunt_atom d hd,
        shunt_dotted ds (fun x hx => hds x (List.mem_cons_of_mem d hx))]
      simp only [postfixOfWord, List.nil_append, List.cons_append, List.append_assoc]
      rw [dots_shift ds d]

theorem getElem?_mid {α : Type} (A : List α) (s : α) (B : List α) :
    (A ++ s :: B)[A.length]? = some s := by
  rw [List.getElem?_append_right (Nat.le_refl _)]
  simp

theorem set_mid {α : Type} (A : List α) (s t : α) (B : List α) :
    (A ++ s :: B).set A.length t = A ++ t :: B := by
  induction A with
  | nil => rfl
  | cons a A ih => simp [ih]

theorem patch_first (f : Nat) (h : Heap) (i s : Nat) (st : State) (hi : h[i]? = some st)
    (h1 : st.out1 = none) :
    State.patch (f + 1) h i s = .ok (h.set i { st with out1 := some s }) := by
  rw [State.patch, hi]
  simp only [h1]

theorem patch_second (f : Nat) (h : Heap) (i s o1 : Nat) (st : State) (hi : h[i]? = some st)
    (h1 : st.out1 = some o1) (h2 : st.out2 = none) :
    State.patch (f + 1) h i s = .ok (h.set i { st with out2 := some s }) := by
  rw [State.patch, hi]
  simp only [h1, h2]

theorem step_atom (c : Nat) (hc : isAtom c = true) (fuel : Nat) (b : Builder) :
    post2nfa.step fuel c b =
      .ok ⟨b.heap ++ [State.lit c], ⟨b.heap.length, [b.heap.length]⟩ :: b.stack⟩ := by
  obtain ⟨h0, h1, h2, h3, h4, h5, h6, h7⟩ := (isAtom_iff c).1 hc
  simp [post2nfa.step, *]

theorem chainStates_length (u : List Nat) : ∀ i, (chainStates i u).length = u.length := by
  induction u with
  | nil => intro i; rfl
  | cons c u ih => intro i; simp [chainStates, ih]

theorem chainStates_append (u v : List Nat) : ∀ i,
    chainStates i (u ++ v) = chainStates i u ++ chainStates (i + u.length) v := by
  induction u with
  | nil => intro i; simp [chainStates]
  | cons c u ih =>
    intro i
    simp [chainStates, ih, Nat.add_assoc, Nat.add_comm 1]

theorem patch_chain_last (f : Nat) (u : List Nat) (x : Nat) (B : Heap) (tgt : Nat) :
    State.patch (f + 1) (chainStates 0 u ++ State.lit x :: B) u.length tgt =
      .ok (chainStates 0 u ++ (⟨false, x, some tgt, none⟩ : State) :: B) := by
  have hi : (chainStates 0 u ++ State.lit x :: B)[u.length]? = some (State.lit x) := by
    have := getElem?_mid (chainStates 0 u) (State.lit x) B
    rwa [chainStates_length] at this
  rw [patch_first f _ _ _ _ hi rfl]
  have := set_mid (chainStates 0 u) (State.lit x) ⟨false, x, some tgt, none⟩ B
  rw [chainStates_length] at this
  rw [← this]
  rfl

theorem chain_build (f : Nat) (ds : List Nat) (ha : ∀ c ∈ ds, isAtom c = true) :
    ∀ (u : List Nat) (x : Nat),
    post2nfa.run (f + 1) (ds.flatMap (fun d => [d, chDot]))
        ⟨chainStates 0 u ++ [State.lit x], [⟨0, [u.length]⟩]⟩ =
    .ok (chainStates 0 (u ++ x :: ds) ++ [State.ofBool true], 0) := by
  induction ds with
  | nil =>
    intro u x
    simp only [List.flatMap_nil, post2nfa.run, post2nfa.loop, post2nfa.finish, StateList.patch]
    have e1 : (chainStates 0 u ++ [State.lit x]).length = u.length + 1 := by
      simp [chainStates_length]
    have e2 : chainStates 0 u ++ [State.lit x] ++ [State.ofBool true] =
        chainStates 0 u ++ State.lit x :: [State.ofBool true] := by simp
    rw [e1, e2, patch_chain_last]
    simp [chainStates_append, chainStates]
  | cons d ds ih =>
    intro u x
    have hd := ha d (List.mem_cons_self d ds)
    rw [List.flatMap_cons]
    simp only [List.cons_append, List.nil_append]
    rw [post2nfa.run, post2nfa.loop, if_neg (isAtom_ne_zero hd), step_atom d hd]
    simp only [post2nfa.loop, post2nfa.step, if_true]
    have e1 : (chainStates 0 u ++ [State.lit x]).length = u.length + 1 := by
      simp [chainStates_length]
    have e2 : chainStates 0 u ++ [State.lit x] ++ [State.lit d] =
        chainStates 0 u ++ State.lit x :: [State.lit d] := by simp
    have e3 : (chDot = 0) = False := by decide
    simp only [e1, e2, e3, if_false, StateList.patch, patch_chain_last]
    have e4 : chainStates 0 u ++ (⟨false, x, some (u.length + 1), none⟩ : State) :: [State.lit d] =
        chainStates 0 (u ++ [x]) ++ [State.lit d] := by
      simp [chainStates_append, chainStates]
    have e5 : u.length + 1 = (u ++ [x]).length := by simp
    have := ih (fun c hc => ha c (List.mem_cons_of_mem d hc)) (u ++ [x]) d
    rw [post2nfa.run] at this
    rw [e4, e5, this]
    simp

theorem inner_single_match (f : Nat) (h : Heap) (ch i : Nat) (st : State) (hi : h[i]? = some st)
    (hm : st.c = ch) :
    matchInner (f + 2) h ch [i] 0 [] [] = .ok ([i], st.out1.toList ++ st.out2.toList) := by
  simp [matchInner, hi, State.is_match, hm]

theorem inner_single_other (f : Nat) (h : Heap) (ch i : Nat) (st : State) (hi : h[i]? = some st)
    (hm : st.c ≠ ch) (h0 : st.c ≠ 0) :
    matchInner (f + 2) h ch [i] 0 [] [] = .ok ([i], []) := by
  simp [matchInner, hi, State.is_match, State.is_epsilon, hm, h0]

theorem inner_single_sink (f : Nat) (h : Heap) (ch i : Nat) (st : State) (hi : h[i]? = some st)
    (hm : st.c ≠ ch) (h1 : st.out1 = none) (h2 : st.out2 = none) :
    matchInner (f + 2) h ch [i] 0 [] [] = .ok ([i], []) := by
  by_cases h0 : st.c = 0
  · simp [matchInner, hi, State.is_match, State.is_epsilon, hm, h0, h1, h2]
  · exact inner_single_other f h ch i st hi hm h0

theorem accept_single_match (f : Nat) (h : Heap) (i : Nat) (st : State) (hi : h[i]? = some st)
    (hm : st.is_match_state = true) :
    matchAccept (f + 1) h [] [i] = .ok (true, []) := by
  simp [matchAccept, State.accept, hi, hm]

theorem accept_single_lit (f : Nat) (h : Heap) (i : Nat) (st : State) (hi : h[i]? = some st)
    (hm : st.is_match_state = false) (h0 : st.c ≠ 0) :
    matchAccept (f + 1) h [] [i] = .ok (false, []) := by
  simp [matchAccept, State.accept, hi, hm, State.is_epsilon, h0]

theorem chain_lookup_lit (u : List Nat) (c : Nat) (v : List Nat) (B : Heap) :
    (chainStates 0 (u ++ c :: v) ++ B)[u.length]? =
      some ⟨false, c, some (u.length + 1), none⟩ := by
  rw [chainStates_append]
  simp only [chainStates, Nat.zero_add, List.append_assoc, List.cons_append]
  have := getElem?_mid (chainStates 0 u) (⟨false, c, some (u.length + 1), none⟩ : State)
    (chainStates (u.length + 1) v ++ B)
  rwa [chainStates_length] at this

theorem chain_lookup_end (u : List Nat) (s : State) :
    (chainStates 0 u ++ [s])[u.length]? = some s := by
  have := getElem?_mid (chainStates 0 u) s []
  rwa [chainStates_length] at this

theorem chain_loop (f : Nat) (s : List Nat) : ∀ (u v : List Nat), (∀ c ∈ v, isAtom c = true) →
    matchLoop (f + 2) (chainStates 0 (u ++ v) ++ [State.ofBool true]) [] s [u.length] =
      .ok (decide (untilNul s = v), []) := by
  have hend : ∀ (u v : List Nat), (∀ c ∈ v, isAtom c = true) →
      matchAccept (f + 2) (chainStates 0 (u ++ v) ++ [State.ofBool true]) [] [u.length] =
        .ok (decide (([] : List Nat) = v), []) := by
    intro u v hv
    cases v with
    | nil =>
      have := chain_lookup_end u (State.ofBool true)
      rw [List.append_nil]
      simpa using accept_single_match (f + 1) _ _ _ this rfl
    | cons c v =>
      have hc := hv c (List.mem_cons_self c v)
      have := chain_lookup_lit u c v [State.ofBool true]
      simpa using accept_single_lit (f + 1) _ _ _ this rfl (isAtom_ne_zero hc)
  induction s with
  | nil =>
    intro u v hv
    simpa [matchLoop, untilNul] using hend u v hv
  | cons ch s ih =>
    intro u v hv
    by_cases h0 : ch = 0
    · subst h0
      simpa [matchLoop, untilNul_cons_zero] using hend u v hv
    · rw [matchLoop, if_neg h0, untilNul_cons_ne ch s h0]
      cases v with
      | nil =>
        have := chain_lookup_end u (State.ofBool true)
        rw [List.append_nil]
        rw [inner_single_sink f _ ch _ _ this (by simpa [State.ofBool] using Ne.symm h0) rfl rfl]
        simp
      | cons c v =>
        have hc := hv c (List.mem_cons_self c v)
        have hl := chain_lookup_lit u c v [State.ofBool true]
        by_cases hcc : c = ch
        · subst hcc
          rw [inner_single_match f _ c _ _ hl rfl]
          have e1 : u ++ c :: v = (u ++ [c]) ++ v := by simp
          have e2 : [u.length + 1] = [(u ++ [c]).length] := by simp
          simp only [Option.toList, List.append_nil, List.singleton_append, List.isEmpty_cons,
            Bool.false_eq_true, if_false, List.nil_append]
          rw [e1, e2, ih (u ++ [c]) v (fun x hx => hv x (List.mem_cons_of_mem c hx))]
          simp
        · rw [inner_single_other f _ ch _ _ hl hcc (isAtom_ne_zero hc)]
          have : ch ≠ c := fun e => hcc e.symm
          simp [this]

theorem new_word (w : List Nat) (hw : w ≠ []) (ha : ∀ c ∈ w, isAtom c = true) (fuel : Nat)
    (hf : 2 * w.length + 1 ≤ fuel) :
    Regex.new fuel w = .ok ⟨w, chainStates 0 w ++ [State.ofBool true], 0⟩ := by
  cases w with
  | nil => exact absurd rfl hw
  | cons c ds =>
    have hc := ha c (List.mem_cons_self c ds)
    obtain ⟨f, rfl⟩ : ∃ f, fuel = f + 1 := ⟨fuel - 1, by omega⟩
    have h1 := infix2postfix_word (c :: ds) ha (f + 1) hf
    have h2 := chain_build f ds (fun x hx => ha x (List.mem_cons_of_mem c hx)) [] c
    simp only [post2nfa.run, chainStates, List.nil_append, List.length_nil] at h2
    simp only [Regex.new, h1, postfixOfWord, post2nfa, post2nfa.run, post2nfa.loop,
      if_neg (isAtom_ne_zero hc), step_atom c hc, List.nil_append, List.length_nil, h2]
    rfl

theorem run_word (w : List Nat) (hw : w ≠ []) (ha : ∀ c ∈ w, isAtom c = true) (fuel : Nat)
    (hf : 2 * w.length + 1 ≤ fuel) (s : List Nat) :
    run fuel w s = .ok (decide (untilNul s = w)) := by
  have hlen : 0 < w.length := List.length_pos.2 hw
  obtain ⟨f, rfl⟩ : ∃ f, fuel = f + 2 := ⟨fuel - 2, by omega⟩
  have h2 := chain_loop f s [] w ha
  simp only [List.nil_append, List.length_nil] at h2
  simp only [run, new_word w hw ha (f + 2) hf, Regex.match_, match_, h2]

/-- With the uninitialised fields reading false: on the five-character input `a`, `b`, `c`, NUL, `d` the regex
compiled from `abc` answers true, although that input is not `abc`. -/
theorem word_nul_counterexample :
    run 10 (str "abc") [97, 98, 99, 0, 100] = .ok true ∧ [97, 98, 99, 0, 100] ≠ str "abc" :=
  ⟨by decide, by decide⟩

/-- The regex of a word in the runs in which the uninitialised fields of its literal states
read false: for every non-empty string `w` of atoms, every input `s` and every fuel from
`2 * |w| + 1` on, `Regex(w).match(s)` returns a boolean, and it returns true exactly when the
part of `s` before its first NUL character equals `w`; when `s` is NUL-free that part is `s`
itself. -/
theorem word_matches_itself_only (w : List Nat) (hw : w ≠ []) (ha : ∀ c ∈ w, isAtom c = true)
    (s : List Nat) (fuel : Nat) (hf : 2 * w.length + 1 ≤ fuel) :
    ∃ b, run fuel w s = .ok b ∧ (b = true ↔ untilNul s = w) ∧
      (0 ∉ s → (b = true ↔ s = w)) := by
  refine ⟨_, run_word w hw ha fuel hf s, by simp, fun h0 => ?_⟩
  rw [untilNul_of_not_mem s h0]
  simp

/-- Instances of `word_matches_itself_only` at the pattern `abc`: the inputs `abc`, `ab` and
`abcd` are NUL-free, the first is accepted and the other two are rejected. -/
theorem word_matches_itself_only_witness :
    (str "abc" ≠ [] ∧ (∀ c ∈ str "abc", isAtom c = true) ∧ 2 * (str "abc").length + 1 ≤ 10) ∧
    run 10 (str "abc") (str "abc") = .ok true ∧
    run 10 (str "abc") (str "ab") = .ok false ∧
    run 10 (str "abc") (str "abcd") = .ok false := by
  have h1 : str "abc" ≠ [] := by decide
  have h2 : ∀ c ∈ str "abc", isAtom c = true := by decide
  have h3 : 2 * (str "abc").length + 1 ≤ 10 := by decide
  refine ⟨⟨h1, h2, h3⟩, ?_, ?_, ?_⟩
  · obtain ⟨b, hb, _, hiff⟩ := word_matches_itself_only (str "abc") h1 h2 (str "abc") 10 h3
    rw [hb, (hiff (by decide)).2 rfl]
  · obtain ⟨b, hb, _, hiff⟩ := word_matches_itself_only (str "abc") h1 h2 (str "ab") 10 h3
    rw [hb]
    cases b with
    | false => rfl
    | true => exact absurd ((hiff (by decide)).1 rfl) (by decide)
  · obtain ⟨b, hb, _, hiff⟩ := word_matches_itself_only (str "abc") h1 h2 (str "abcd") 10 h3
    rw [hb]
    cases b with
    | false => rfl
    | true => exact absurd ((hiff (by decide)).1 rfl) (by decide)

/-! ## Compiled heaps are closed, and matching on a closed heap terminates -/

theorem closed_set (h : Heap) (i : Nat) (st st1 : State) (hc : Closed h) (_hi : h[i]? = some st)
    (h1 : ∀ o, st1.out1 = some o → o < h.length) (h2 : ∀ o, st1.out2 = some o → o < h.length) :
    Closed (h.set i st1) := by
  intro k sk hk
  rw [List.length_set]
  rw [List.getElem?_set] at hk
  split at hk
  · split at hk
    · cases hk
      exact ⟨h1, h2⟩
    · exact absurd hk (by simp)
  · exact hc k sk hk

theorem patch_closed : ∀ (fuel : Nat) (h : Heap) (i s : Nat) (h1 : Heap), Closed h →
    s < h.length → State.patch fuel h i s = .ok h1 → Closed h1 ∧ h1.length = h.length := by
  intro fuel
  induction fuel with
  | zero => intro h i s h1 _ _ hp; simp [State.patch] at hp
  | succ f ih =>
    intro h i s h1 hc hs hp
    rw [State.patch] at hp
    cases hi : h[i]? with
    | none => simp [hi] at hp
    | some st =>
      simp only [hi] at hp
      cases ho1 : st.out1 with
      | none =>
        simp only [ho1] at hp
        cases hp
        refine ⟨closed_set h i st _ hc hi ?_ ?_, List.length_set _ _ _⟩
        · intro o ho
          cases ho
          exact hs
        · exact (hc i st hi).2
      | some o1 =>
        simp only [ho1] at hp
        cases ho2 : st.out2 with
        | none =>
          simp only [ho2] at hp
          cases hp
          refine ⟨closed_set h i st _ hc hi ?_ ?_, List.length_set _ _ _⟩
          · intro o ho
            exact (hc i st hi).1 o (by simpa [ho1] using ho)
          · intro o ho
            cases ho
            exact hs
        | some o2 =>
          simp only [ho2] at hp
          cases hr : State.patch f h o1 s with
          | error e => simp [hr] at hp
          | ok h2 =>
            simp only [hr] at hp
            obtain ⟨hc2, hl2⟩ := ih h o1 s h2 hc hs hr
            obtain ⟨hc3, hl3⟩ := ih h2 o2 s h1 hc2 (by omega) hp
            exact ⟨hc3, by omega⟩

theorem list_patch_closed (fuel : Nat) (l : List Nat) : ∀ (h : Heap) (s : Nat) (h1 : Heap),
    Closed h → s < h.length → StateList.patch fuel h l s = .ok h1 →
    Closed h1 ∧ h1.length = h.length := by
  induction l with
  | nil =>
    intro h s h1 hc _ hp
    simp only [StateList.patch] at hp
    cases hp
    exact ⟨hc, rfl⟩
  | cons x xs ih =>
    intro h s h1 hc hs hp
    rw [StateList.patch] at hp
    cases hr : State.patch fuel h x s with
    | error e => simp [hr] at hp
    | ok h2 =>
      simp only [hr] at hp
      obtain ⟨hc2, hl2⟩ := patch_closed fuel h x s h2 hc hs hr
      obtain ⟨hc3, hl3⟩ := ih h2 s h1 hc2 (by omega) hp
      exact ⟨hc3, by omega⟩

theorem closed_snoc (h : Heap) (st : State) (hc : Closed h) (h1 : st.out1 = none)
    (h2 : st.out2 = none) : Closed (h ++ [st]) := by
  intro k sk hk
  rw [List.length_append, List.length_singleton]
  by_cases hlt : k < h.length
  · rw [List.getElem?_append_left hlt] at hk
    obtain ⟨a, b⟩ := hc k sk hk
    exact ⟨fun o ho => Nat.lt_succ_of_lt (a o ho), fun o ho => Nat.lt_succ_of_lt (b o ho)⟩
  · rw [List.getElem?_append_right (by omega)] at hk
    have : sk = st := by
      cases hk' : k - h.length with
      | zero => simpa [hk'] using hk.symm
      | succ m => simp [hk'] at hk
    subst this
    exact ⟨fun o ho => by simp [h1] at ho, fun o ho => by simp [h2] at ho⟩

theorem mem_insert (x y : Nat) (l : List Nat) :
    x ∈ StateList.insert y l ↔ x = y ∨ x ∈ l := by
  induction l with
  | nil => simp [StateList.insert]
  | cons z zs ih =>
    rw [StateList.insert]
    split
    · simp
    · split
      · rename_i h2
        subst h2
        simp
      · simp [ih]
        tauto

theorem mem_addstate (x : Nat) (other : List Nat) : ∀ l : List Nat,
    x ∈ StateList.addstate l other ↔ x ∈ l ∨ x ∈ other := by
  induction other with
  | nil => intro l; simp [StateList.addstate]
  | cons y ys ih =>
    intro l
    have := ih (StateList.insert y l)
    simp only [StateList.addstate, List.foldl_cons] at this ⊢
    rw [this, mem_insert]
    simp
    tauto

theorem valid_mono {n m : Nat} {e : Fragment} (h : Fragment.Valid n e) (hnm : n ≤ m) :
    Fragment.Valid m e :=
  ⟨Nat.lt_of_lt_of_le h.1 hnm, fun x hx => Nat.lt_of_lt_of_le (h.2 x hx) hnm⟩

theorem step_valid (fuel tok : Nat) (b b1 : Builder) (hv : Builder.Valid b)
    (hs : post2nfa.step fuel tok b = .ok b1) :
    Builder.Valid b1 ∧ b.heap.length ≤ b1.heap.length := by
  obtain ⟨hp, st⟩ := b
  obtain ⟨hc, hst⟩ := hv
  simp only at hc hst
  have hc0 : ∀ s : State, s.out1 = none → s.out2 = none → Closed (hp ++ [s]) :=
    fun s h1 h2 => closed_snoc hp s hc h1 h2
  have hl0 : ∀ s : State, (hp ++ [s]).length = hp.length + 1 := fun s => by simp
  unfold post2nfa.step at hs
  simp only at hs
  split at hs
  · -- '.'
    split at hs
    · rename_i e2 e1 rest
      have he2 := hst e2 (by simp)
      have he1 := hst e1 (by simp)
      cases hr : StateList.patch fuel hp e1.out e2.start with
      | error e => simp [hr] at hs
      | ok h1 =>
        simp only [hr] at hs
        cases hs
        obtain ⟨hc1, hl1⟩ := list_patch_closed fuel _ _ _ _ hc he2.1 hr
        refine ⟨⟨hc1, ?_⟩, by simp [hl1]⟩
        intro e he
        simp only [hl1]
        rcases List.mem_cons.1 he with rfl | he
        · exact ⟨he1.1, he2.2⟩
        · exact hst e (by simp [he])
    · cases hs
      exact ⟨⟨hc, hst⟩, Nat.le_refl _⟩
  · split at hs
    · -- '|'
      split at hs
      · rename_i e2 e1 rest
        have he2 := hst e2 (by simp)
        have he1 := hst e1 (by simp)
        cases hr : State.patch fuel (hp ++ [State.eps]) hp.length e1.start with
        | error e => simp [hr] at hs
        | ok h1 =>
          simp only [hr] at hs
          obtain ⟨hc1, hl1⟩ := patch_closed fuel _ _ _ _ (hc0 _ rfl rfl)
            (by rw [hl0]; exact Nat.lt_succ_of_lt he1.1) hr
          cases hr2 : State.patch fuel h1 hp.length e2.start with
          | error e => simp [hr2] at hs
          | ok h2 =>
            simp only [hr2] at hs
            cases hs
            obtain ⟨hc2, hl2⟩ := patch_closed fuel _ _ _ _ hc1
              (by rw [hl1, hl0]; exact Nat.lt_succ_of_lt he2.1) hr2
            have hlen : h2.length = hp.length + 1 := by rw [hl2, hl1, hl0]
            refine ⟨⟨hc2, ?_⟩, by simp [hlen]⟩
            intro e he
            simp only [hlen]
            rcases List.mem_cons.1 he with rfl | he
            · refine ⟨Nat.lt_succ_self _, fun x hx => ?_⟩
              rcases (mem_addstate x _ _).1 hx with h | h
              · exact Nat.lt_succ_of_lt (he1.2 x h)
              · exact Nat.lt_succ_of_lt (he2.2 x h)
            · exact valid_mono (hst e (by simp [he])) (Nat.le_succ _)
      · simp at hs
    · split at hs
      · -- '*'
        split at hs
        · rename_i e1 rest
          have he1 := hst e1 (by simp)
          cases hr : StateList.patch fuel (hp ++ [State.eps]) e1.out hp.length with
          | error e => simp [hr] at hs
          | ok h1 =>
            simp only [hr] at hs
            obtain ⟨hc1, hl1⟩ := list_patch_closed fuel _ _ _ _ (hc0 _ rfl rfl)
              (by rw [hl0]; exact Nat.lt_succ_self _) hr
            cases hr2 : State.patch fuel h1 hp.length e1.start with
            | error e => simp [hr2] at hs
            | ok h2 =>
              simp only [hr2] at hs
              cases hs
              obtain ⟨hc2, hl2⟩ := patch_closed fuel _ _ _ _ hc1
                (by rw [hl1, hl0]; exact Nat.lt_succ_of_lt he1.1) hr2
              have hlen : h2.length = hp.length + 1 := by rw [hl2, hl1, hl0]
              refine ⟨⟨hc2, ?_⟩, by simp [hlen]⟩
              intro e he
              simp only [hlen]
              rcases List.mem_cons.1 he with rfl | he
              · exact ⟨Nat.lt_succ_self _, fun x hx => by
                  rw [List.mem_singleton.1 hx]; exact Nat.lt_succ_self _⟩
              · exact valid_mono (hst e (by simp [he])) (Nat.le_succ _)
        · simp at hs
      · split at hs
        · -- '+'
          split at hs
          · rename_i e1 rest
            have he1 := hst e1 (by simp)
            cases hr : State.patch fuel (hp ++ [State.eps]) hp.length e1.start with
            | error e => simp [hr] at hs
            | ok h1 =>
              simp only [hr] at hs
              obtain ⟨hc1, hl1⟩ := patch_closed fuel _ _ _ _ (hc0 _ rfl rfl)
                (by rw [hl0]; exact Nat.lt_succ_of_lt he1.1) hr
              cases hr2 : StateList.patch fuel h1 e1.out hp.length with
              | error e => simp [hr2] at hs
              | ok h2 =>
                simp only [hr2] at hs
                cases hs
                obtain ⟨hc2, hl2⟩ := list_patch_closed fuel _ _ _ _ hc1
                  (by rw [hl1, hl0]; exact Nat.lt_succ_self _) hr2
                have hlen : h2.length = hp.length + 1 := by rw [hl2, hl1, hl0]
                refine ⟨⟨hc2, ?_⟩, by simp [hlen]⟩
                intro e he
                simp only [hlen]
                rcases List.mem_cons.1 he with rfl | he
                · exact valid_mono he1 (Nat.le_succ _)
                · exact valid_mono (hst e (by simp [he])) (Nat.le_succ _)
          · simp at hs
        · split at hs
          · -- '?'
            split at hs
            · rename_i e1 rest
              have he1 := hst e1 (by simp)
              cases hr : State.patch fuel (hp ++ [State.eps]) hp.length e1.start with
              | error e => simp [hr] at hs
              | ok h1 =>
                simp only [hr] at hs
                cases hs
                obtain ⟨hc1, hl1⟩ := patch_closed fuel _ _ _ _ (hc0 _ rfl rfl)
                  (by rw [hl0]; exact Nat.lt_succ_of_lt he1.1) hr
                have hlen : h1.length = hp.length + 1 := by rw [hl1, hl0]
                refine ⟨⟨hc1, ?_⟩, by simp [hlen]⟩
                intro e he
                simp only [hlen]
                rcases List.mem_cons.1 he with rfl | he
                · refine ⟨Nat.lt_succ_self _, fun x hx => ?_⟩
                  rcases (mem_addstate x _ _).1 hx with h | h
                  · rw [List.mem_singleton.1 h]; exact Nat.lt_succ_self _
                  · exact Nat.lt_succ_of_lt (he1.2 x h)
                · exact valid_mono (hst e (by simp [he])) (Nat.le_succ _)
            · simp at hs
          · -- literal
            cases hs
            refine ⟨⟨hc0 _ rfl rfl, ?_⟩, by simp⟩
            intro e he
            simp only [hl0]
            rcases List.mem_cons.1 he with rfl | he
            · exact ⟨Nat.lt_succ_self _, fun x hx => by
                rw [List.mem_singleton.1 hx]; exact Nat.lt_succ_self _⟩
            · exact valid_mono (hst e he) (Nat.le_succ _)

theorem loop_valid (fuel : Nat) (post : List Nat) : ∀ (b b1 : Builder), Builder.Valid b →
    post2nfa.loop fuel post b = .ok b1 → Builder.Valid b1 := by
  induction post with
  | nil =>
    intro b b1 hv hl
    simp only [post2nfa.loop] at hl
    cases hl
    exact hv
  | cons tok rest ih =>
    intro b b1 hv hl
    rw [post2nfa.loop] at hl
    split at hl
    · cases hl
      exact hv
    · cases hs : post2nfa.step fuel tok b with
      | error e => simp [hs] at hl
      | ok b2 =>
        simp only [hs] at hl
        exact ih b2 b1 (step_valid fuel tok b b2 hv hs).1 hl

theorem finish_closed (fuel : Nat) (b : Builder) (h : Heap) (start : Nat) (hv : Builder.Valid b)
    (hf : post2nfa.finish fuel b = .ok (h, start)) : Closed h ∧ start < h.length := by
  obtain ⟨hp, st⟩ := b
  obtain ⟨hc, hst⟩ := hv
  simp only at hc hst
  unfold post2nfa.finish at hf
  simp only at hf
  split at hf
  · simp at hf
  · rename_i e rest
    have he := hst e (by simp)
    cases hr : StateList.patch fuel (hp ++ [State.ofBool true]) e.out hp.length with
    | error e => simp [hr] at hf
    | ok h1 =>
      simp only [hr] at hf
      cases hf
      obtain ⟨hc1, hl1⟩ := list_patch_closed fuel _ _ _ _ (closed_snoc hp _ hc rfl rfl)
        (by simp) hr
      refine ⟨hc1, ?_⟩
      rw [hl1]
      simp
      exact Nat.lt_succ_of_lt he.1

theorem post2nfa_closed (fuel : Nat) (post : List Nat) (h : Heap) (start : Nat)
    (hp : post2nfa fuel post = .ok (h, start)) : Closed h ∧ start < h.length := by
  unfold post2nfa post2nfa.run at hp
  cases hl : post2nfa.loop fuel post ⟨[], []⟩ with
  | error e => simp [hl] at hp
  | ok b =>
    simp only [hl] at hp
    have hv0 : Builder.Valid ⟨[], []⟩ := by
      refine ⟨?_, ?_⟩
      · intro i st hi
        simp at hi
      · intro e he
        simp at he
    exact finish_closed fuel b h start (loop_valid fuel post _ b hv0 hl) hp

theorem regex_closed (fuel : Nat) (p : List Nat) (r : Regex) (hr : Regex.new fuel p = .ok r) :
    Closed r.heap ∧ r.start < r.heap.length := by
  unfold Regex.new at hr
  cases h1 : infix2postfix fuel p with
  | error e => simp [h1] at hr
  | ok post =>
    simp only [h1] at hr
    cases h2 : post2nfa fuel post with
    | error e => simp [h2] at hr
    | ok hs =>
      obtain ⟨h, start⟩ := hs
      simp only [h2] at hr
      cases hr
      exact post2nfa_closed fuel post h start h2

theorem unvisited_cons (n x : Nat) (v : List Nat) (hx : x < n) (hv : x ∉ v) :
    unvisited n (x :: v) + 1 = unvisited n v := by
  unfold unvisited
  rw [List.toFinset_cons, Finset.sdiff_insert]
  have hmem : x ∈ Finset.range n \ v.toFinset := by
    simp [hx, hv]
  rw [Finset.card_erase_of_mem hmem]
  have : 0 < (Finset.range n \ v.toFinset).card := Finset.card_pos.2 ⟨x, hmem⟩
  omega

theorem unvisited_le (n : Nat) (v : List Nat) : unvisited n v ≤ n := by
  unfold unvisited
  calc (Finset.range n \ v.toFinset).card ≤ (Finset.range n).card :=
        Finset.card_le_card Finset.sdiff_subset
    _ = n := Finset.card_range n

theorem mem_outs_lt (h : Heap) (hc : Closed h) (i : Nat) (st : State) (hi : h[i]? = some st)
    (l : List Nat) (hl : ∀ x ∈ l, x < h.length) :
    ∀ x ∈ l ++ st.out1.toList ++ st.out2.toList, x < h.length := by
  intro x hx
  simp only [List.mem_append, Option.mem_toList, Option.mem_def] at hx
  rcases hx with (hx | hx) | hx
  · exact hl x hx
  · exact (hc i st hi).1 x hx
  · exact (hc i st hi).2 x hx

theorem outs_length_le (l : List Nat) (st : State) :
    (l ++ st.out1.toList ++ st.out2.toList).length ≤ l.length + 2 := by
  have h1 : st.out1.toList.length ≤ 1 := by cases st.out1 <;> simp [Option.toList]
  have h2 : st.out2.toList.length ≤ 1 := by cases st.out2 <;> simp [Option.toList]
  simp only [List.length_append]
  omega

theorem inner_total (h : Heap) (hc : Closed h) (ch : Nat) : ∀ (M : Nat)
    (clist : List Nat) (j : Nat) (visited nlist : List Nat),
    2 * unvisited h.length visited + (clist.length - j) ≤ M →
    (∀ x ∈ clist, x < h.length) → (∀ x ∈ nlist, x < h.length) →
    ∃ res : List Nat × List Nat,
      (∀ fuel, M + 1 ≤ fuel → matchInner fuel h ch clist j visited nlist = .ok res) ∧
      (∀ x ∈ res.2, x < h.length) := by
  intro M
  induction M with
  | zero =>
    intro clist j visited nlist hM _ hn
    have hj : clist[j]? = none := List.getElem?_eq_none (by omega)
    refine ⟨(clist, nlist), fun fuel hf => ?_, hn⟩
    obtain ⟨f, rfl⟩ : ∃ f, fuel = f + 1 := ⟨fuel - 1, by omega⟩
    rw [matchInner, hj]
  | succ M ih =>
    intro clist j visited nlist hM hcl hn
    cases hj : clist[j]? with
    | none =>
      refine ⟨(clist, nlist), fun fuel hf => ?_, hn⟩
      obtain ⟨f, rfl⟩ : ∃ f, fuel = f + 1 := ⟨fuel - 1, by omega⟩
      rw [matchInner, hj]
    | some state =>
      have hjlt : j < clist.length := by
        by_contra hge
        rw [List.getElem?_eq_none (by omega)] at hj
        exact Option.noConfusion hj
      have hst : state < h.length := hcl state (List.getElem?_mem hj)
      by_cases hvis : state ∈ visited
      · obtain ⟨res, hres, hval⟩ := ih clist (j + 1) visited nlist (by omega) hcl hn
        refine ⟨res, fun fuel hf => ?_, hval⟩
        obtain ⟨f, rfl⟩ : ∃ f, fuel = f + 1 := ⟨fuel - 1, by omega⟩
        rw [matchInner, hj]
        simp only [hvis, if_true]
        exact hres f (by omega)
      · obtain ⟨st, hi⟩ : ∃ st, h[state]? = some st :=
          ⟨h[state], List.getElem?_eq_getElem hst⟩
        by_cases hm : st.is_match ch = true
        · obtain ⟨res, hres, hval⟩ := ih clist (j + 1) visited
            (nlist ++ st.out1.toList ++ st.out2.toList) (by omega) hcl
            (mem_outs_lt h hc state st hi nlist hn)
          refine ⟨res, fun fuel hf => ?_, hval⟩
          obtain ⟨f, rfl⟩ : ∃ f, fuel = f + 1 := ⟨fuel - 1, by omega⟩
          rw [matchInner, hj]
          simp only [hvis, if_false, hi, hm, if_true]
          exact hres f (by omega)
        · by_cases he : st.is_epsilon = true
          · have hu := unvisited_cons h.length state visited hst hvis
            have hlen := outs_length_le clist st
            obtain ⟨res, hres, hval⟩ := ih (clist ++ st.out1.toList ++ st.out2.toList) (j + 1)
              (state :: visited) nlist (by omega) (mem_outs_lt h hc state st hi clist hcl) hn
            refine ⟨res, fun fuel hf => ?_, hval⟩
            obtain ⟨f, rfl⟩ : ∃ f, fuel = f + 1 := ⟨fuel - 1, by omega⟩
            rw [matchInner, hj]
            simp only [hvis, if_false, hi, hm, he, if_true]
            exact hres f (by omega)
          · obtain ⟨res, hres, hval⟩ := ih clist (j + 1) visited nlist (by omega) hcl hn
            refine ⟨res, fun fuel hf => ?_, hval⟩
            obtain ⟨f, rfl⟩ : ∃ f, fuel = f + 1 := ⟨fuel - 1, by omega⟩
            rw [matchInner, hj]
            simp only [hvis, if_false, hi, hm, he]
            exact hres f (by omega)

theorem accept_total (h : Heap) (hc : Closed h) : ∀ (M : Nat) (visited : List Nat) (self : Nat),
    unvisited h.length visited ≤ M → self < h.length →
    ∃ b, ∀ fuel, M + 1 ≤ fuel → State.accept fuel h visited self = .ok (b, visited) := by
  intro M
  induction M with
  | zero =>
    intro visited self hM hs
    obtain ⟨st, hi⟩ : ∃ st, h[self]? = some st := ⟨h[self], List.getElem?_eq_getElem hs⟩
    by_cases hm : st.is_match_state = true
    · refine ⟨true, fun fuel hf => ?_⟩
      obtain ⟨f, rfl⟩ : ∃ f, fuel = f + 1 := ⟨fuel - 1, by omega⟩
      simp [State.accept, hi, hm]
    · by_cases he : st.is_epsilon = true
      · by_cases hvis : self ∈ visited
        · refine ⟨false, fun fuel hf => ?_⟩
          obtain ⟨f, rfl⟩ : ∃ f, fuel = f + 1 := ⟨fuel - 1, by omega⟩
          simp [State.accept, hi, hm, he, hvis]
        · have := unvisited_cons h.length self visited hs hvis
          omega
      · refine ⟨false, fun fuel hf => ?_⟩
        obtain ⟨f, rfl⟩ : ∃ f, fuel = f + 1 := ⟨fuel - 1, by omega⟩
        simp [State.accept, hi, hm, he]
  | succ M ih =>
    intro visited self hM hs
    obtain ⟨st, hi⟩ : ∃ st, h[self]? = some st := ⟨h[self], List.getElem?_eq_getElem hs⟩
    by_cases hm : st.is_match_state = true
    · refine ⟨true, fun fuel hf => ?_⟩
      obtain ⟨f, rfl⟩ : ∃ f, fuel = f + 1 := ⟨fuel - 1, by omega⟩
      simp [State.accept, hi, hm]
    · by_cases he : st.is_epsilon = true
      · by_cases hvis : self ∈ visited
        · refine ⟨false, fun fuel hf => ?_⟩
          obtain ⟨f, rfl⟩ : ∃ f, fuel = f + 1 := ⟨fuel - 1, by omega⟩
          simp [State.accept, hi, hm, he, hvis]
        · have hu := unvisited_cons h.length self visited hs hvis
          have h1 : ∃ b1, ∀ f, M + 1 ≤ f →
              (match st.out1 with
                | none => (.ok (false, self :: visited) : Res (Bool × List Nat))
                | some o1 => State.accept f h (self :: visited) o1) =
              .ok (b1, self :: visited) := by
            cases ho : st.out1 with
            | none => exact ⟨false, fun f _ => rfl⟩
            | some o1 =>
              exact ih (self :: visited) o1 (by omega) ((hc self st hi).1 o1 ho)
          have h2 : ∃ b2, ∀ f, M + 1 ≤ f →
              (match st.out2 with
                | none => (.ok (false, self :: visited) : Res (Bool × List Nat))
                | some o2 => State.accept f h (self :: visited) o2) =
              .ok (b2, self :: visited) := by
            cases ho : st.out2 with
            | none => exact ⟨false, fun f _ => rfl⟩
            | some o2 =>
              exact ih (self :: visited) o2 (by omega) ((hc self st hi).2 o2 ho)
          obtain ⟨b1, hb1⟩ := h1
          obtain ⟨b2, hb2⟩ := h2
          refine ⟨b1 || b2, fun fuel hf => ?_⟩
          obtain ⟨f, rfl⟩ : ∃ f, fuel = f + 1 := ⟨fuel - 1, by omega⟩
          have e1 := hb1 f (by omega)
          have e2 := hb2 f (by omega)
          rw [State.accept, hi]
          simp only [hm, he, hvis, Bool.false_eq_true, if_false, Bool.not_true, e1]
          cases b1 with
          | true => simp
          | false => simp [e2]
      · refine ⟨false, fun fuel hf => ?_⟩
        obtain ⟨f, rfl⟩ : ∃ f, fuel = f + 1 := ⟨fuel - 1, by omega⟩
        simp [State.accept, hi, hm, he]

theorem matchAccept_total (h : Heap) (hc : Closed h) (visited clist : List Nat)
    (hcl : ∀ x ∈ clist, x < h.length) :
    ∃ b, ∀ fuel, h.length + 1 ≤ fuel → matchAccept fuel h visited clist = .ok (b, visited) := by
  induction clist with
  | nil => exact ⟨false, fun fuel _ => rfl⟩
  | cons x xs ih =>
    obtain ⟨b1, hb1⟩ := accept_total h hc h.length visited x (unvisited_le _ _)
      (hcl x (List.mem_cons_self x xs))
    obtain ⟨b2, hb2⟩ := ih (fun y hy => hcl y (List.mem_cons_of_mem x hy))
    refine ⟨b1 || b2, fun fuel hf => ?_⟩
    rw [matchAccept, hb1 fuel hf]
    cases b1 with
    | true => simp
    | false => simp [hb2 fuel hf]

theorem matchLoop_total (h : Heap) (hc : Closed h) (visited : List Nat) (s : List Nat) :
    ∀ clist : List Nat, (∀ x ∈ clist, x < h.length) →
    ∃ N b, ∀ fuel, N ≤ fuel → matchLoop fuel h visited s clist = .ok (b, visited) := by
  induction s with
  | nil =>
    intro clist hcl
    obtain ⟨b, hb⟩ := matchAccept_total h hc visited clist hcl
    exact ⟨h.length + 1, b, fun fuel hf => by rw [matchLoop]; exact hb fuel hf⟩
  | cons ch rest ih =>
    intro clist hcl
    by_cases h0 : ch = 0
    · obtain ⟨b, hb⟩ := matchAccept_total h hc visited clist hcl
      exact ⟨h.length + 1, b, fun fuel hf => by rw [matchLoop, if_pos h0]; exact hb fuel hf⟩
    · obtain ⟨res, hres, hval⟩ := inner_total h hc ch _ clist 0 [] [] (Nat.le_refl _) hcl
        (fun x hx => by simp at hx)
      by_cases hemp : res.2.isEmpty = true
      · refine ⟨2 * unvisited h.length [] + (clist.length - 0) + 1, false, fun fuel hf => ?_⟩
        rw [matchLoop, if_neg h0, hres fuel hf]
        simp [hemp]
      · obtain ⟨N, b, hN⟩ := ih res.2 hval
        refine ⟨max N (2 * unvisited h.length [] + (clist.length - 0) + 1), b, fun fuel hf => ?_⟩
        rw [matchLoop, if_neg h0, hres fuel (le_of_max_le_right hf)]
        simp only [hemp, Bool.false_eq_true, if_false]
        exact hN fuel (le_of_max_le_left hf)

theorem mem_append_outs (l : List Nat) (st : State) (z : Nat) :
    z ∈ l ++ st.out1.toList ++ st.out2.toList ↔ z ∈ l ∨ z ∈ st.outs := by
  simp [State.outs, List.mem_append, or_assoc]

theorem idx_last {clist : List Nat} {i j x state : Nat} (hj : clist[j]? = some state)
    (hi : i < j + 1) (hij : ¬ i < j) (hix : clist[i]? = some x) : state = x := by
  have : i = j := by omega
  rw [this, hj] at hix
  exact Option.some.inj hix

theorem inner_invariant (h : Heap) (ch : Nat) (hch : ch ≠ 0) : ∀ (fuel : Nat)
    (clist : List Nat) (j : Nat) (visited nlist : List Nat) (res : List Nat × List Nat),
    (∀ v ∈ visited, ∃ st, h[v]? = some st ∧ st.c = 0 ∧ ∀ z ∈ st.outs, z ∈ clist) →
    (∀ (i x : Nat) (st : State), i < j → clist[i]? = some x → h[x]? = some st →
      (st.c = ch → ∀ z ∈ st.outs, z ∈ nlist) ∧ (st.c = 0 → x ∈ visited)) →
    matchInner fuel h ch clist j visited nlist = .ok res →
    (∀ x ∈ clist, x ∈ res.1) ∧
    (∀ (x : Nat) (st : State), x ∈ res.1 → h[x]? = some st →
      (st.c = ch → ∀ z ∈ st.outs, z ∈ res.2) ∧ (st.c = 0 → ∀ z ∈ st.outs, z ∈ res.1)) := by
  intro fuel
  induction fuel with
  | zero => intro clist j visited nlist res _ _ hm; simp [matchInner] at hm
  | succ f ih =>
    intro clist j visited nlist res I1 I2 hm
    rw [matchInner] at hm
    cases hj : clist[j]? with
    | none =>
      simp only [hj] at hm
      cases hm
      have hlen : clist.length ≤ j := by
        by_contra hlt
        rw [List.getElem?_eq_getElem (by omega)] at hj
        exact Option.noConfusion hj
      refine ⟨fun x hx => hx, fun x st hx hi => ?_⟩
      have hx1 : x ∈ clist := hx
      obtain ⟨i, hix⟩ := List.mem_iff_getElem?.1 hx1
      have hilt : i < clist.length := by
        by_contra hge
        rw [List.getElem?_eq_none (by omega)] at hix
        exact Option.noConfusion hix
      obtain ⟨a, b⟩ := I2 i x st (by omega) hix hi
      refine ⟨a, fun h0 => ?_⟩
      obtain ⟨st1, hi1, _, hz⟩ := I1 x (b h0)
      rw [hi] at hi1
      cases hi1
      exact hz
    | some state =>
      simp only [hj] at hm
      have hjlt : j < clist.length := by
        by_contra hge
        rw [List.getElem?_eq_none (by omega)] at hj
        exact Option.noConfusion hj
      by_cases hvis : state ∈ visited
      · simp only [hvis, if_true] at hm
        refine ih clist (j + 1) visited nlist res I1 ?_ hm
        intro i x st hi hix hst
        by_cases hij : i < j
        · exact I2 i x st hij hix hst
        · obtain rfl := idx_last hj hi hij hix
          obtain ⟨st1, hi1, h0, _⟩ := I1 state hvis
          obtain rfl : st = st1 := Option.some.inj (hst.symm.trans hi1)
          exact ⟨fun hc => absurd (hc.symm.trans h0) hch, fun _ => hvis⟩
      · simp only [hvis, if_false] at hm
        cases hst : h[state]? with
        | none => simp [hst] at hm
        | some st =>
          simp only [hst] at hm
          by_cases hmt : st.is_match ch = true
          · simp only [hmt, if_true] at hm
            have hc : st.c = ch := by simpa [State.is_match] using hmt
            refine ih clist (j + 1) visited _ res I1 ?_ hm
            intro i x st1 hi hix hst1
            by_cases hij : i < j
            · obtain ⟨a, b⟩ := I2 i x st1 hij hix hst1
              exact ⟨fun e z hz => (mem_append_outs _ _ _).2 (Or.inl (a e z hz)), b⟩
            · obtain rfl := idx_last hj hi hij hix
              obtain rfl : st = st1 := Option.some.inj (hst.symm.trans hst1)
              exact ⟨fun _ z hz => (mem_append_outs _ _ _).2 (Or.inr hz),
                fun h0 => absurd (hc.symm.trans h0) hch⟩
          · simp only [hmt, Bool.false_eq_true, if_false] at hm
            have hc : st.c ≠ ch := by simpa [State.is_match] using hmt
            by_cases he : st.is_epsilon = true
            · simp only [he, if_true] at hm
              have h0 : st.c = 0 := by simpa [State.is_epsilon] using he
              have key := ih (clist ++ st.out1.toList ++ st.out2.toList) (j + 1)
                (state :: visited) nlist res ?_ ?_ hm
              · exact ⟨fun x hx => key.1 x ((mem_append_outs _ _ _).2 (Or.inl hx)), key.2⟩
              · intro v hv
                rcases List.mem_cons.1 hv with rfl | hv
                · exact ⟨st, hst, h0, fun z hz => (mem_append_outs _ _ _).2 (Or.inr hz)⟩
                · obtain ⟨st1, a, b, c⟩ := I1 v hv
                  exact ⟨st1, a, b, fun z hz => (mem_append_outs _ _ _).2 (Or.inl (c z hz))⟩
              · intro i x st1 hi hix hst1
                have hix1 : clist[i]? = some x := by
                  rw [List.append_assoc, List.getElem?_append_left (by omega)] at hix
                  exact hix
                by_cases hij : i < j
                · obtain ⟨a, b⟩ := I2 i x st1 hij hix1 hst1
                  exact ⟨a, fun e => List.mem_cons_of_mem _ (b e)⟩
                · obtain rfl := idx_last hj hi hij hix1
                  obtain rfl : st = st1 := Option.some.inj (hst.symm.trans hst1)
                  exact ⟨fun e => absurd e hc, fun _ => List.mem_cons_self _ _⟩
            · simp only [he, Bool.false_eq_true, if_false] at hm
              have h0 : st.c ≠ 0 := by simpa [State.is_epsilon] using he
              refine ih clist (j + 1) visited nlist res I1 ?_ hm
              intro i x st1 hi hix hst1
              by_cases hij : i < j
              · exact I2 i x st1 hij hix hst1
              · obtain rfl := idx_last hj hi hij hix
                obtain rfl : st = st1 := Option.some.inj (hst.symm.trans hst1)
                exact ⟨fun e => absurd e hc, fun e => absurd e h0⟩

theorem reach_nil_closed (h : Heap) (S : List Nat)
    (hS : ∀ (x : Nat) (st : State), x ∈ S → h[x]? = some st → st.c = 0 → ∀ z ∈ st.outs, z ∈ S)
    (x y : Nat) (w : List Nat) (hr : Reach h x w y) (hw : w = []) (hx : x ∈ S) : y ∈ S := by
  induction hr with
  | refl x => exact hx
  | eps x y z st w hi h0 hy _ ih => exact ih hw (hS x st hx hi h0 y hy)
  | char x y z st w hi h0 hy _ _ => exact absurd hw (by simp)

theorem reach_cons_split (h : Heap) (x q : Nat) (cw : List Nat) (hr : Reach h x cw q) :
    ∀ (c : Nat) (w : List Nat), cw = c :: w →
    ∃ (y z : Nat) (st : State), Reach h x [] y ∧ h[y]? = some st ∧ st.c = c ∧ c ≠ 0 ∧
      z ∈ st.outs ∧ Reach h z w q := by
  induction hr with
  | refl x => intro c w hw; exact absurd hw (by simp)
  | eps x y z st w hi h0 hy _ ih =>
    intro c w1 hw
    obtain ⟨y1, z1, st1, a, b, c1, d, e, f⟩ := ih c w1 hw
    exact ⟨y1, z1, st1, Reach.eps x y y1 st [] hi h0 hy a, b, c1, d, e, f⟩
  | char x y z st w hi h0 hy hr _ =>
    intro c w1 hw
    have h1 : st.c = c := (List.cons.inj hw).1
    have h2 : w = w1 := (List.cons.inj hw).2
    subst h2
    exact ⟨x, y, st, Reach.refl x, hi, h1, h1 ▸ h0, hy, hr⟩

theorem accPath_of_reach (h : Heap) (x q : Nat) (w : List Nat) (hr : Reach h x w q)
    (hw : w = []) (stq : State) (hq : h[q]? = some stq) (hm : stq.is_match_state = true) :
    AccPath h [] x := by
  induction hr with
  | refl x => exact AccPath.here x stq hq hm
  | eps x y z st w hi h0 hy _ ih =>
    by_cases hmx : st.is_match_state = true
    · exact AccPath.here x st hi hmx
    · exact AccPath.step x y st hi (by simpa using hmx) h0 (by simp) hy (ih hw hq)
  | char x y z st w hi h0 hy _ _ => exact absurd hw (by simp)

theorem accPath_avoid (h : Heap) (avoid : List Nat) (x : Nat) (stx : State)
    (hx : h[x]? = some stx) (y : Nat) (hp : AccPath h avoid y) :
    AccPath h (x :: avoid) y ∨ ∃ z ∈ stx.outs, AccPath h (x :: avoid) z := by
  induction hp with
  | here y st hi hm => exact Or.inl (AccPath.here y st hi hm)
  | step y y2 st hi hm h0 hav hy2 _ ih =>
    rcases ih with ih | ih
    · by_cases hyx : y = x
      · subst hyx
        obtain rfl : st = stx := Option.some.inj (hi.symm.trans hx)
        exact Or.inr ⟨y2, hy2, ih⟩
      · refine Or.inl (AccPath.step y y2 st hi hm h0 ?_ hy2 ih)
        intro hmem
        rcases List.mem_cons.1 hmem with e | e
        · exact hyx e
        · exact hav e
    · exact Or.inr ih

theorem accept_complete (h : Heap) (hc : Closed h) : ∀ (M : Nat) (visited : List Nat)
    (self : Nat), unvisited h.length visited ≤ M → self < h.length → AccPath h visited self →
    ∀ fuel, M + 1 ≤ fuel → State.accept fuel h visited self = .ok (true, visited) := by
  intro M
  induction M with
  | zero =>
    intro visited self hM hs hp fuel hf
    obtain ⟨f, rfl⟩ : ∃ f, fuel = f + 1 := ⟨fuel - 1, by omega⟩
    cases hp with
    | here _ st hi hm => simp [State.accept, hi, hm]
    | step _ y st hi hm h0 hav hy hp2 =>
      have := unvisited_cons h.length self visited hs hav
      omega
  | succ M ih =>
    intro visited self hM hs hp fuel hf
    obtain ⟨f, rfl⟩ : ∃ f, fuel = f + 1 := ⟨fuel - 1, by omega⟩
    cases hp with
    | here _ st hi hm => simp [State.accept, hi, hm]
    | step _ y st hi hm h0 hav hy hp2 =>
      have hu := unvisited_cons h.length self visited hs hav
      have he : st.is_epsilon = true := by simp [State.is_epsilon, h0]
      have hz : ∃ z ∈ st.outs, AccPath h (self :: visited) z := by
        rcases accPath_avoid h visited self st hi y hp2 with a | a
        · exact ⟨y, hy, a⟩
        · exact a
      obtain ⟨z, hz, hpz⟩ := hz
      have hzlt : z < h.length := by
        simp only [State.outs, List.mem_append, Option.mem_toList, Option.mem_def] at hz
        rcases hz with hz | hz
        · exact (hc self st hi).1 z hz
        · exact (hc self st hi).2 z hz
      have hacc := ih (self :: visited) z (by omega) hzlt hpz f (by omega)
      rw [State.accept, hi]
      simp only [hm, he, hav, Bool.false_eq_true, if_false, Bool.not_true]
      simp only [State.outs, List.mem_append, Option.mem_toList, Option.mem_def] at hz
      cases ho1 : st.out1 with
      | none =>
        rw [ho1] at hz
        rcases hz with hz | hz
        · exact Option.noConfusion hz
        · simp [hz, hacc]
      | some o1 =>
        obtain ⟨b1, hb1⟩ := accept_total h hc M (self :: visited) o1 (by omega)
          ((hc self st hi).1 o1 ho1)
        have e1 := hb1 f (by omega)
        simp only [e1]
        cases b1 with
        | true => simp
        | false =>
          rw [ho1] at hz
          rcases hz with hz | hz
          · have : o1 = z := Option.some.inj hz
            rw [this, hacc] at e1
            cases e1
          · simp [hz, hacc]

theorem matchAccept_complete (h : Heap) (hc : Closed h) (x : Nat) (hp : AccPath h [] x) :
    ∀ clist : List Nat, (∀ y ∈ clist, y < h.length) → x ∈ clist →
    ∀ fuel, h.length + 1 ≤ fuel → matchAccept fuel h [] clist = .ok (true, []) := by
  intro clist
  induction clist with
  | nil => intro _ hx; simp at hx
  | cons y ys ih =>
    intro hcl hx fuel hf
    obtain ⟨b, hb⟩ := accept_total h hc h.length [] y (unvisited_le _ _)
      (hcl y (List.mem_cons_self y ys))
    rw [matchAccept, hb fuel hf]
    cases b with
    | true => rfl
    | false =>
      simp only
      rcases List.mem_cons.1 hx with e | e
      · subst e
        have := accept_complete h hc h.length [] x (unvisited_le _ _)
          (hcl x (List.mem_cons_self x ys)) hp fuel hf
        rw [hb fuel hf] at this
        cases this
      · exact ih (fun z hz => hcl z (List.mem_cons_of_mem y hz)) e fuel hf

theorem matchLoop_complete (h : Heap) (hc : Closed h) (s : List Nat) :
    ∀ clist : List Nat, 0 ∉ s → (∀ y ∈ clist, y < h.length) →
    (∃ x ∈ clist, Accepts h x s) →
    ∃ N, ∀ fuel, N ≤ fuel → matchLoop fuel h [] s clist = .ok (true, []) := by
  induction s with
  | nil =>
    intro clist _ hcl hacc
    obtain ⟨x, hx, q, stq, hr, hq, hm⟩ := hacc
    have hp := accPath_of_reach h x q [] hr rfl stq hq hm
    exact ⟨h.length + 1, fun fuel hf => by
      rw [matchLoop]; exact matchAccept_complete h hc x hp clist hcl hx fuel hf⟩
  | cons c w ih =>
    intro clist h0 hcl hacc
    have hc0 : c ≠ 0 := fun e => h0 (by simp [e])
    have hw0 : 0 ∉ w := fun e => h0 (List.mem_cons_of_mem c e)
    obtain ⟨x, hx, q, stq, hr, hq, hm⟩ := hacc
    obtain ⟨y, z, st, hxy, hy, hyc, _, hz, hzq⟩ := reach_cons_split h x q (c :: w) hr c w rfl
    obtain ⟨res, hres, hval⟩ := inner_total h hc c _ clist 0 [] [] (Nat.le_refl _) hcl
      (fun x hx => by simp at hx)
    have hinv := inner_invariant h c hc0 _ clist 0 [] [] res (fun v hv => by simp at hv)
      (fun i x st hi => absurd hi (Nat.not_lt_zero i)) (hres _ (Nat.le_refl _))
    have hyres : y ∈ res.1 :=
      reach_nil_closed h res.1 (fun x st hx hi h0 => (hinv.2 x st hx hi).2 h0) x y [] hxy rfl
        (hinv.1 x hx)
    have hzres : z ∈ res.2 := (hinv.2 y st hyres hy).1 hyc z hz
    have hne : res.2.isEmpty = false := by
      cases hr2 : res.2 with
      | nil => rw [hr2] at hzres; simp at hzres
      | cons a l => rfl
    obtain ⟨N, hN⟩ := ih res.2 hw0 hval ⟨z, hzres, q, stq, hzq, hq, hm⟩
    refine ⟨max N (2 * unvisited h.length [] + (clist.length - 0) + 1), fun fuel hf => ?_⟩
    rw [matchLoop, if_neg hc0, hres fuel (le_of_max_le_right hf)]
    simp only [hne, Bool.false_eq_true, if_false]
    exact hN fuel (le_of_max_le_left hf)

theorem match_complete (h : Heap) (hc : Closed h) (start : Nat) (hs : start < h.length)
    (s : List Nat) (h0 : 0 ∉ s) (hacc : Accepts h start s) :
    ∃ N, ∀ fuel, N ≤ fuel → match_ fuel h [] start s = .ok (true, []) :=
  matchLoop_complete h hc s [start] h0
    (fun y hy => by rw [List.mem_singleton.1 hy]; exact hs)
    ⟨start, List.mem_singleton_self start, hacc⟩

/-! ## The builder only adds states and fills null out-pointers -/

theorem stExt_refl (st : State) : StExt st st := ⟨rfl, rfl, fun _ h => h, fun _ h => h⟩

theorem stExt_outs {st st1 : State} (he : StExt st st1) {y : Nat} (hy : y ∈ st.outs) :
    y ∈ st1.outs := by
  simp only [State.outs, List.mem_append, Option.mem_toList, Option.mem_def] at hy ⊢
  rcases hy with hy | hy
  · exact Or.inl (he.2.2.1 y hy)
  · exact Or.inr (he.2.2.2 y hy)

theorem extends_refl (h : Heap) : Extends h h := fun _ st hi => ⟨st, hi, stExt_refl st⟩

theorem extends_trans {h1 h2 h3 : Heap} (a : Extends h1 h2) (b : Extends h2 h3) :
    Extends h1 h3 := by
  intro i st hi
  obtain ⟨st2, hi2, e2⟩ := a i st hi
  obtain ⟨st3, hi3, e3⟩ := b i st2 hi2
  refine ⟨st3, hi3, e3.1.trans e2.1, e3.2.1.trans e2.2.1, fun o ho => ?_, fun o ho => ?_⟩
  · exact e3.2.2.1 o (e2.2.2.1 o ho)
  · exact e3.2.2.2 o (e2.2.2.2 o ho)

theorem extends_append (h B : Heap) : Extends h (h ++ B) := by
  intro i st hi
  have hlt : i < h.length := by
    by_contra hge
    rw [List.getElem?_eq_none (by omega)] at hi
    exact Option.noConfusion hi
  exact ⟨st, by rw [List.getElem?_append_left hlt]; exact hi, stExt_refl st⟩

theorem extends_set (h : Heap) (i : Nat) (st st1 : State) (hi : h[i]? = some st)
    (he : StExt st st1) : Extends h (h.set i st1) := by
  intro k sk hk
  rw [List.getElem?_set]
  by_cases hik : i = k
  · subst hik
    have hlt : i < h.length := by
      by_contra hge
      rw [List.getElem?_eq_none (by omega)] at hi
      exact Option.noConfusion hi
    obtain rfl : st = sk := Option.some.inj (hi.symm.trans hk)
    exact ⟨st1, by simp [hlt], he⟩
  · exact ⟨sk, by simp [hik, hk], stExt_refl sk⟩

theorem reach_mono {h h1 : Heap} (he : Extends h h1) {x z : Nat} {w : List Nat}
    (hr : Reach h x w z) : Reach h1 x w z := by
  induction hr with
  | refl x => exact Reach.refl x
  | eps x y z st w hi h0 hy _ ih =>
    obtain ⟨st1, hi1, e⟩ := he x st hi
    exact Reach.eps x y z st1 w hi1 (e.1.trans h0) (stExt_outs e hy) ih
  | char x y z st w hi h0 hy _ ih =>
    obtain ⟨st1, hi1, e⟩ := he x st hi
    have := Reach.char x y z st1 w hi1 (by rw [e.1]; exact h0) (stExt_outs e hy) ih
    rwa [e.1] at this

theorem reach_snoc_eps {h : Heap} {x y z : Nat} {w : List Nat} (hr : Reach h x w y)
    (st : State) (hi : h[y]? = some st) (h0 : st.c = 0) (hz : z ∈ st.outs) : Reach h x w z := by
  induction hr with
  | refl x => exact Reach.eps x z z st [] hi h0 hz (Reach.refl z)
  | eps x y1 y st1 w hi1 h1 hy1 _ ih => exact Reach.eps x y1 z st1 w hi1 h1 hy1 (ih hi)
  | char x y1 y st1 w hi1 h1 hy1 _ ih => exact Reach.char x y1 z st1 w hi1 h1 hy1 (ih hi)

theorem reach_snoc_char {h : Heap} {x y z : Nat} {w : List Nat} (hr : Reach h x w y)
    (st : State) (hi : h[y]? = some st) (h0 : st.c ≠ 0) (hz : z ∈ st.outs) :
    Reach h x (w ++ [st.c]) z := by
  induction hr with
  | refl x => exact Reach.char x z z st [] hi h0 hz (Reach.refl z)
  | eps x y1 y st1 w hi1 h1 hy1 _ ih => exact Reach.eps x y1 z st1 _ hi1 h1 hy1 (ih hi)
  | char x y1 y st1 w hi1 h1 hy1 _ ih => exact Reach.char x y1 z st1 _ hi1 h1 hy1 (ih hi)

theorem lookup_app {α : Type} (H l : List α) (k : Nat) : (H ++ l)[H.length + k]? = l[k]? := by
  rw [List.getElem?_append_right (Nat.le_add_right _ _), Nat.add_sub_cancel_left]

theorem set_app {α : Type} (H l : List α) (k : Nat) (v : α) :
    (H ++ l).set (H.length + k) v = H ++ l.set k v := by
  induction H with
  | nil => simp
  | cons a H ih =>
    have : (a :: H).length + k = (H.length + k) + 1 := by simp; omega
    rw [this]
    simp [ih]

theorem patch_extends : ∀ (fuel : Nat) (h : Heap) (i s : Nat) (h1 : Heap),
    State.patch fuel h i s = .ok h1 → Extends h h1 := by
  intro fuel
  induction fuel with
  | zero => intro h i s h1 hp; simp [State.patch] at hp
  | succ f ih =>
    intro h i s h1 hp
    rw [State.patch] at hp
    cases hi : h[i]? with
    | none => simp [hi] at hp
    | some st =>
      simp only [hi] at hp
      cases ho1 : st.out1 with
      | none =>
        simp only [ho1] at hp
        cases hp
        exact extends_set h i st _ hi ⟨rfl, rfl, fun o ho => by simp [ho1] at ho, fun _ ho => ho⟩
      | some o1 =>
        simp only [ho1] at hp
        cases ho2 : st.out2 with
        | none =>
          simp only [ho2] at hp
          cases hp
          exact extends_set h i st _ hi
            ⟨rfl, rfl, fun _ ho => by rw [ho1] at ho; exact ho, fun o ho => by simp [ho2] at ho⟩
        | some o2 =>
          simp only [ho2] at hp
          cases hr : State.patch f h o1 s with
          | error e => simp [hr] at hp
          | ok h2 =>
            simp only [hr] at hp
            exact extends_trans (ih h o1 s h2 hr) (ih h2 o2 s h1 hp)

theorem list_patch_extends (fuel : Nat) (l : List Nat) : ∀ (h : Heap) (s : Nat) (h1 : Heap),
    StateList.patch fuel h l s = .ok h1 → Extends h h1 := by
  induction l with
  | nil =>
    intro h s h1 hp
    simp only [StateList.patch] at hp
    cases hp
    exact extends_refl h
  | cons x xs ih =>
    intro h s h1 hp
    rw [StateList.patch] at hp
    cases hr : State.patch fuel h x s with
    | error e => simp [hr] at hp
    | ok h2 =>
      simp only [hr] at hp
      exact extends_trans (patch_extends fuel h x s h2 hr) (ih h2 s h1 hp)

theorem step_extends (fuel tok : Nat) (b b1 : Builder)
    (hs : post2nfa.step fuel tok b = .ok b1) : Extends b.heap b1.heap := by
  obtain ⟨hp, st⟩ := b
  have happ : ∀ s : State, Extends hp (hp ++ [s]) := fun s => extends_append hp [s]
  unfold post2nfa.step at hs
  simp only at hs
  split at hs
  · split at hs
    · rename_i e2 e1 rest
      cases hr : StateList.patch fuel hp e1.out e2.start with
      | error e => simp [hr] at hs
      | ok h1 =>
        simp only [hr] at hs
        cases hs
        exact list_patch_extends fuel _ _ _ _ hr
    · cases hs
      exact extends_refl _
  · split at hs
    · split at hs
      · rename_i e2 e1 rest
        cases hr : State.patch fuel (hp ++ [State.eps]) hp.length e1.start with
        | error e => simp [hr] at hs
        | ok h1 =>
          simp only [hr] at hs
          cases hr2 : State.patch fuel h1 hp.length e2.start with
          | error e => simp [hr2] at hs
          | ok h2 =>
            simp only [hr2] at hs
            cases hs
            exact extends_trans (happ _) (extends_trans (patch_extends fuel _ _ _ _ hr)
              (patch_extends fuel _ _ _ _ hr2))
      · simp at hs
    · split at hs
      · split at hs
        · rename_i e1 rest
          cases hr : StateList.patch fuel (hp ++ [State.eps]) e1.out hp.length with
          | error e => simp [hr] at hs
          | ok h1 =>
            simp only [hr] at hs
            cases hr2 : State.patch fuel h1 hp.length e1.start with
            | error e => simp [hr2] at hs
            | ok h2 =>
              simp only [hr2] at hs
              cases hs
              exact extends_trans (happ _) (extends_trans (list_patch_extends fuel _ _ _ _ hr)
                (patch_extends fuel _ _ _ _ hr2))
        · simp at hs
      · split at hs
        · split at hs
          · rename_i e1 rest
            cases hr : State.patch fuel (hp ++ [State.eps]) hp.length e1.start with
            | error e => simp [hr] at hs
            | ok h1 =>
              simp only [hr] at hs
              cases hr2 : StateList.patch fuel h1 e1.out hp.length with
              | error e => simp [hr2] at hs
              | ok h2 =>
                simp only [hr2] at hs
                cases hs
                exact extends_trans (happ _) (extends_trans (patch_extends fuel _ _ _ _ hr)
                  (list_patch_extends fuel _ _ _ _ hr2))
          · simp at hs
        · split at hs
          · split at hs
            · rename_i e1 rest
              cases hr : State.patch fuel (hp ++ [State.eps]) hp.length e1.start with
              | error e => simp [hr] at hs
              | ok h1 =>
                simp only [hr] at hs
                cases hs
                exact extends_trans (happ _) (patch_extends fuel _ _ _ _ hr)
            · simp at hs
          · cases hs
            exact happ _

theorem loop_extends (fuel : Nat) (post : List Nat) : ∀ (b b1 : Builder),
    post2nfa.loop fuel post b = .ok b1 → Extends b.heap b1.heap := by
  induction post with
  | nil =>
    intro b b1 hl
    simp only [post2nfa.loop] at hl
    cases hl
    exact extends_refl _
  | cons tok rest ih =>
    intro b b1 hl
    rw [post2nfa.loop] at hl
    split at hl
    · cases hl
      exact extends_refl _
    · cases hs : post2nfa.step fuel tok b with
      | error e => simp [hs] at hl
      | ok b2 =>
        simp only [hs] at hl
        exact extends_trans (step_extends fuel tok b b2 hs) (ih b2 b1 hl)

theorem loop_append (fuel : Nat) (l1 l2 : List Nat) (h0 : 0 ∉ l1) : ∀ (b b1 : Builder),
    post2nfa.loop fuel l1 b = .ok b1 →
    post2nfa.loop fuel (l1 ++ l2) b = post2nfa.loop fuel l2 b1 := by
  induction l1 with
  | nil =>
    intro b b1 hl
    simp only [post2nfa.loop] at hl
    cases hl
    rfl
  | cons tok rest ih =>
    intro b b1 hl
    have ht : tok ≠ 0 := fun e => h0 (by simp [e])
    rw [post2nfa.loop, if_neg ht] at hl
    rw [List.cons_append, post2nfa.loop, if_neg ht]
    cases hs : post2nfa.step fuel tok b with
    | error e => simp [hs] at hl
    | ok b2 =>
      simp only [hs] at hl ⊢
      exact ih (fun e => h0 (List.mem_cons_of_mem tok e)) b2 b1 hl

/-! ## The family `(a?)^n a^n` -/

theorem patch_new_eps (f : Nat) (h : Heap) (s : Nat) :
    State.patch (f + 1) (h ++ [State.eps]) h.length s =
      .ok (h ++ [⟨false, 0, some s, none⟩]) := by
  rw [patch_first f _ _ _ State.eps (getElem?_mid h State.eps []) rfl, set_mid]
  rfl

theorem step_quest (f : Nat) (h : Heap) (e1 : Fragment) (rest : List Fragment) :
    post2nfa.step (f + 1) chQuest ⟨h, e1 :: rest⟩ =
      .ok ⟨h ++ [⟨false, 0, some e1.start, none⟩],
        ⟨h.length, StateList.addstate [h.length] e1.out⟩ :: rest⟩ := by
  simp [post2nfa.step, patch_new_eps]

theorem step_dot (fuel : Nat) (h : Heap) (e2 e1 : Fragment) (rest : List Fragment) (h1 : Heap)
    (hp : StateList.patch fuel h e1.out e2.start = .ok h1) :
    post2nfa.step fuel chDot ⟨h, e2 :: e1 :: rest⟩ = .ok ⟨h1, ⟨e1.start, e2.out⟩ :: rest⟩ := by
  simp [post2nfa.step, hp]

theorem patch_one (f : Nat) (G : Heap) (a x : Nat) (B : Heap) :
    StateList.patch (f + 1) (G ++ State.lit a :: B) [G.length] x =
      .ok (G ++ (⟨false, a, some x, none⟩ : State) :: B) := by
  rw [StateList.patch, patch_first f _ _ _ (State.lit a) (getElem?_mid G _ B) rfl, set_mid]
  rfl

theorem patch_two (f : Nat) (H : Heap) (a x : Nat) (B : Heap) :
    StateList.patch (f + 1) (H ++ State.lit a :: ⟨false, 0, some H.length, none⟩ :: B)
        [H.length, H.length + 1] x =
      .ok (H ++ (⟨false, a, some x, none⟩ : State) :: ⟨false, 0, some H.length, some x⟩ :: B) := by
  have p1 : State.patch (f + 1) (H ++ State.lit a :: ⟨false, 0, some H.length, none⟩ :: B)
      H.length x =
      .ok (H ++ (⟨false, a, some x, none⟩ : State) :: ⟨false, 0, some H.length, none⟩ :: B) := by
    rw [patch_first f _ _ _ (State.lit a) (getElem?_mid H _ _) rfl, set_mid]
    rfl
  have e1 : H ++ (⟨false, a, some x, none⟩ : State) :: ⟨false, 0, some H.length, none⟩ :: B =
      (H ++ [⟨false, a, some x, none⟩]) ++ ⟨false, 0, some H.length, none⟩ :: B := by simp
  have e2 : H.length + 1 = (H ++ [(⟨false, a, some x, none⟩ : State)]).length := by simp
  have p2 : State.patch (f + 1)
      (H ++ (⟨false, a, some x, none⟩ : State) :: ⟨false, 0, some H.length, none⟩ :: B)
      (H.length + 1) x =
      .ok (H ++ (⟨false, a, some x, none⟩ : State) :: ⟨false, 0, some H.length, some x⟩ :: B) := by
    rw [e1, e2,
      patch_second f _ _ _ H.length ⟨false, 0, some H.length, none⟩ (getElem?_mid _ _ B) rfl rfl,
      set_mid]
    simp
  simp only [StateList.patch, p1, p2]

theorem opt_first (a : Nat) (ha : isAtom a = true) (f : Nat) :
    post2nfa.loop (f + 1) [a, chQuest] ⟨[], []⟩ = .ok (optBuilder a []) := by
  have h0 := isAtom_ne_zero ha
  simp [post2nfa.loop, h0, step_atom a ha, step_quest, optBuilder, StateList.addstate,
    StateList.insert]

theorem opt_block (a : Nat) (ha : isAtom a = true) (f : Nat) (H : Heap) :
    post2nfa.loop (f + 1) [a, chQuest, chDot] (optBuilder a H) =
      .ok (optBuilder a (H ++ [⟨false, a, some (H.length + 3), none⟩,
        ⟨false, 0, some H.length, some (H.length + 3)⟩])) := by
  have h0 := isAtom_ne_zero ha
  have hp := patch_two f H a (H.length + 3) [State.lit a, ⟨false, 0, some (H.length + 2), none⟩]
  have hd := step_dot (f + 1)
    (H ++ State.lit a :: ⟨false, 0, some H.length, none⟩ ::
      [State.lit a, ⟨false, 0, some (H.length + 2), none⟩])
    ⟨H.length + 3, [H.length + 2, H.length + 3]⟩ ⟨1, [H.length, H.length + 1]⟩ [] _ hp
  simp only [post2nfa.loop, h0, if_false, step_atom a ha, optBuilder, step_quest]
  simp [StateList.addstate, StateList.insert, hd]

theorem lit_first (a : Nat) (ha : isAtom a = true) (f : Nat) (H : Heap) :
    post2nfa.loop (f + 1) [a, chDot] (optBuilder a H) =
      .ok (litBuilder a (H ++ [⟨false, a, some (H.length + 2), none⟩,
        ⟨false, 0, some H.length, some (H.length + 2)⟩])) := by
  have h0 := isAtom_ne_zero ha
  have hp := patch_two f H a (H.length + 2) [State.lit a]
  have hd := step_dot (f + 1)
    (H ++ State.lit a :: ⟨false, 0, some H.length, none⟩ :: [State.lit a])
    ⟨H.length + 2, [H.length + 2]⟩ ⟨1, [H.length, H.length + 1]⟩ [] _ hp
  simp only [post2nfa.loop, h0, if_false, step_atom a ha, optBuilder]
  simp [hd, litBuilder]

theorem lit_block (a : Nat) (ha : isAtom a = true) (f : Nat) (G : Heap) :
    post2nfa.loop (f + 1) [a, chDot] (litBuilder a G) =
      .ok (litBuilder a (G ++ [⟨false, a, some (G.length + 1), none⟩])) := by
  have h0 := isAtom_ne_zero ha
  have hp := patch_one f G a (G.length + 1) [State.lit a]
  have hd := step_dot (f + 1) (G ++ State.lit a :: [State.lit a])
    ⟨G.length + 1, [G.length + 1]⟩ ⟨1, [G.length]⟩ [] _ hp
  simp only [post2nfa.loop, h0, if_false, step_atom a ha, litBuilder]
  simp [hd]

theorem lit_finish (a : Nat) (f : Nat) (G : Heap) :
    post2nfa.finish (f + 1) (litBuilder a G) =
      .ok (G ++ [⟨false, a, some (G.length + 1), none⟩, State.ofBool true], 1) := by
  have hp := patch_one f G a (G.length + 1) [State.ofBool true]
  simp only [post2nfa.finish, litBuilder]
  simp [hp]

theorem finish_extends (fuel : Nat) (b : Builder) (h : Heap) (start : Nat)
    (hf : post2nfa.finish fuel b = .ok (h, start)) : Extends b.heap h := by
  obtain ⟨hp, st⟩ := b
  unfold post2nfa.finish at hf
  simp only at hf
  split at hf
  · simp at hf
  · rename_i e rest
    cases hr : StateList.patch fuel (hp ++ [State.ofBool true]) e.out hp.length with
    | error e => simp [hr] at hf
    | ok h1 =>
      simp only [hr] at hf
      cases hf
      exact extends_trans (extends_append hp _) (list_patch_extends fuel _ _ _ _ hr)

theorem opt_blocks (a : Nat) (ha : isAtom a = true) : ∀ (k : Nat) (H : Heap),
    Reach (optBuilder a H).heap 1 [] (H.length + 1) →
    ∃ H1 : Heap,
      (∀ (f : Nat) (rest : List Nat),
        post2nfa.loop (f + 1) ((List.replicate k [a, chQuest, chDot]).flatten ++ rest)
            (optBuilder a H) =
          post2nfa.loop (f + 1) rest (optBuilder a H1)) ∧
      Reach (optBuilder a H1).heap 1 [] (H1.length + 1) := by
  intro k
  induction k with
  | zero => intro H hr; exact ⟨H, fun f rest => by simp, hr⟩
  | succ k ih =>
    intro H hr
    have h0 := isAtom_ne_zero ha
    have hblock := opt_block a ha
    have hext := loop_extends 1 _ _ _ (hblock 0 H)
    have hr1 := reach_mono hext hr
    have hlook : (optBuilder a (H ++ [⟨false, a, some (H.length + 3), none⟩,
        ⟨false, 0, some H.length, some (H.length + 3)⟩])).heap[H.length + 1]? =
        some ⟨false, 0, some H.length, some (H.length + 3)⟩ := by
      simp only [optBuilder, List.append_assoc]
      rw [lookup_app]
      rfl
    have hr2 := reach_snoc_eps hr1 _ hlook rfl (z := H.length + 3) (by simp [State.outs])
    obtain ⟨H1, hH1, hR1⟩ := ih (H ++ [⟨false, a, some (H.length + 3), none⟩,
        ⟨false, 0, some H.length, some (H.length + 3)⟩]) (by simpa using hr2)
    refine ⟨H1, fun f rest => ?_, hR1⟩
    rw [List.replicate_succ, List.flatten_cons, List.append_assoc,
      loop_append (f + 1) [a, chQuest, chDot] _ (by simp [Ne.symm h0]) _ _ (hblock f H)]
    exact hH1 f rest

theorem lit_blocks (a : Nat) (ha : isAtom a = true) : ∀ (k : Nat) (G : Heap) (j : Nat),
    Reach (litBuilder a G).heap 1 (List.replicate j a) G.length →
    ∃ G1 : Heap,
      (∀ (f : Nat) (rest : List Nat),
        post2nfa.loop (f + 1) ((List.replicate k a).flatMap (fun d => [d, chDot]) ++ rest)
            (litBuilder a G) =
          post2nfa.loop (f + 1) rest (litBuilder a G1)) ∧
      Reach (litBuilder a G1).heap 1 (List.replicate (j + k) a) G1.length := by
  intro k
  induction k with
  | zero => intro G j hr; exact ⟨G, fun f rest => by simp, hr⟩
  | succ k ih =>
    intro G j hr
    have h0 := isAtom_ne_zero ha
    have hblock := lit_block a ha
    have hext := loop_extends 1 _ _ _ (hblock 0 G)
    have hr1 := reach_mono hext hr
    have hlook : (litBuilder a (G ++ [⟨false, a, some (G.length + 1), none⟩])).heap[G.length]? =
        some ⟨false, a, some (G.length + 1), none⟩ := by
      simp only [litBuilder, List.append_assoc]
      exact getElem?_mid G _ _
    have hr2 := reach_snoc_char hr1 _ hlook h0 (z := G.length + 1) (by simp [State.outs])
    have hrep : List.replicate j a ++ [a] = List.replicate (j + 1) a := by
      rw [List.replicate_succ', ]
    obtain ⟨G1, hG1, hR1⟩ := ih (G ++ [⟨false, a, some (G.length + 1), none⟩]) (j + 1)
      (by simpa [hrep] using hr2)
    refine ⟨G1, fun f rest => ?_, by rw [show j + (k + 1) = j + 1 + k by omega]; exact hR1⟩
    rw [List.replicate_succ, List.flatMap_cons, List.append_assoc,
      loop_append (f + 1) [a, chDot] _ (by simp [Ne.symm h0]) _ _ (hblock f G)]
    exact hG1 f rest

theorem opt_family_build (a : Nat) (ha : isAtom a = true) (m : Nat) :
    ∃ h : Heap, (∀ f, post2nfa (f + 1) (optPostfix a m) = .ok (h, 1)) ∧
      Accepts h 1 (List.replicate (m + 1) a) := by
  have h0 := isAtom_ne_zero ha
  -- the optional blocks
  have hr0 : Reach (optBuilder a []).heap 1 [] (([] : Heap).length + 1) := Reach.refl 1
  obtain ⟨H, hH, hRH⟩ := opt_blocks a ha m [] hr0
  -- the first trailing literal
  have hfirst := lit_first a ha
  have hext := loop_extends 1 _ _ _ (hfirst 0 H)
  have hlook : (litBuilder a (H ++ [⟨false, a, some (H.length + 2), none⟩,
      ⟨false, 0, some H.length, some (H.length + 2)⟩])).heap[H.length + 1]? =
      some ⟨false, 0, some H.length, some (H.length + 2)⟩ := by
    simp only [litBuilder, List.append_assoc]
    rw [lookup_app]
    rfl
  have hr2 := reach_snoc_eps (reach_mono hext hRH) _ hlook rfl (z := H.length + 2)
    (by simp [State.outs])
  -- the other trailing literals
  obtain ⟨G, hG, hRG⟩ := lit_blocks a ha m (H ++ [⟨false, a, some (H.length + 2), none⟩,
      ⟨false, 0, some H.length, some (H.length + 2)⟩]) 0 (by simpa using hr2)
  -- the accept state
  have hfin := lit_finish a
  have hext2 := finish_extends 1 _ _ _ (hfin 0 G)
  have hlook2 : (G ++ [(⟨false, a, some (G.length + 1), none⟩ : State),
      State.ofBool true])[G.length]? = some ⟨false, a, some (G.length + 1), none⟩ :=
    getElem?_mid G _ _
  have hr3 := reach_snoc_char (reach_mono hext2 hRG) _ hlook2 h0 (z := G.length + 1)
    (by simp [State.outs])
  have hlook3 : (G ++ [(⟨false, a, some (G.length + 1), none⟩ : State),
      State.ofBool true])[G.length + 1]? = some (State.ofBool true) := by
    rw [lookup_app]
    rfl
  refine ⟨_, fun f => ?_, ⟨G.length + 1, State.ofBool true, ?_, hlook3, rfl⟩⟩
  · rw [post2nfa, post2nfa.run, optPostfix,
      loop_append (f + 1) [a, chQuest] _ (by simp [Ne.symm h0]) _ _ (opt_first a ha f),
      hH f, List.replicate_succ, List.flatMap_cons,
      loop_append (f + 1) [a, chDot] _ (by simp [Ne.symm h0]) _ _ (hfirst f H)]
    have := hG f []
    rw [List.append_nil] at this
    rw [this]
    simp only [post2nfa.loop]
    exact hfin f G
  · have hrep : List.replicate (0 + m) a ++ [a] = List.replicate (m + 1) a := by
      rw [Nat.zero_add, List.replicate_succ']
    rw [← hrep]
    exact hr3

theorem norm1_opts (a : Nat) (ha : isAtom a = true) : ∀ (k : Nat) (rest : List Nat),
    norm1 false ((List.replicate k [a, chQuest]).flatten ++ rest) =
      (List.replicate k [a, chQuest]).flatten ++ norm1 false rest := by
  intro k
  induction k with
  | zero => intro rest; simp
  | succ k ih =>
    intro rest
    have h0 := isAtom_ne_zero ha
    have hq : (chQuest = 0) = False := by decide
    have hqo : is_operator chQuest = true := by decide
    rw [List.replicate_succ, List.flatten_cons]
    simp only [List.cons_append, List.nil_append]
    rw [norm1, if_neg h0]
    simp only [Bool.and_false, Bool.false_eq_true, if_false]
    rw [norm1]
    simp only [hq, if_false, hqo, Bool.not_true, Bool.false_and, Bool.false_eq_true]
    rw [ih rest]

theorem norm1_replicate (a : Nat) (ha : isAtom a = true) (m : Nat) :
    norm1 false (List.replicate (m + 1) a) =
      a :: (List.replicate m a).flatMap (fun d => [chDot, d]) := by
  rw [List.replicate_succ, norm1, if_neg (isAtom_ne_zero ha)]
  simp only [Bool.and_false, Bool.false_eq_true, if_false, isAtom_not_operator ha, Bool.not_false]
  rw [norm1_atoms _ (fun c hc => by rw [(List.mem_replicate.1 hc).2]; exact ha)]

theorem norm2_atom (a : Nat) (ha : isAtom a = true) (b : Bool) (cs : List Nat) :
    norm2 b (a :: cs) = a :: norm2 true cs := by
  have hp := atom_plain ha
  have h6 : (a == chLParen) = false := by simpa using hp.1
  rw [norm2, if_neg (isAtom_ne_zero ha)]
  simp [h6, hp.2, isAtom_not_operator ha]

theorem norm2_quest_atom (a : Nat) (ha : isAtom a = true) (b : Bool) (cs : List Nat) :
    norm2 b (chQuest :: a :: cs) = chQuest :: chDot :: norm2 false (a :: cs) := by
  have hq : (chQuest = 0) = False := by decide
  rw [norm2]
  simp [hq, isQuant, isAtom_not_operator ha]

theorem norm2_opts (a : Nat) (ha : isAtom a = true) : ∀ (k : Nat) (b : Bool) (tail : List Nat),
    norm2 b ((List.replicate k [a, chQuest]).flatten ++ a :: tail) =
      (List.replicate k [a, chQuest, chDot]).flatten ++ a :: norm2 true tail := by
  intro k
  induction k with
  | zero => intro b tail; simpa using norm2_atom a ha b tail
  | succ k ih =>
    intro b tail
    have hhead : ∃ cs, (List.replicate k [a, chQuest]).flatten ++ a :: tail = a :: cs := by
      cases k with
      | zero => exact ⟨tail, by simp⟩
      | succ j => exact ⟨_, by rw [List.replicate_succ, List.flatten_cons]; rfl⟩
    obtain ⟨cs, hcs⟩ := hhead
    rw [List.replicate_succ, List.flatten_cons, List.replicate_succ, List.flatten_cons]
    simp only [List.cons_append, List.nil_append]
    rw [norm2_atom a ha, hcs, norm2_quest_atom a ha, ← hcs, ih false tail]

theorem shunt_opt_first (a : Nat) (ha : isAtom a = true) (rest out : List Nat) :
    infix2postfix.shunt (a :: chQuest :: chDot :: rest) out [] =
      infix2postfix.shunt rest (out ++ [a, chQuest]) [chDot] := by
  rw [shunt_atom a ha]
  simp [ infix2postfix.shunt, inPrecedence, infix2postfix.popWhile, precedence]

theorem shunt_opt_next (a : Nat) (ha : isAtom a = true) (rest out : List Nat) :
    infix2postfix.shunt (a :: chQuest :: chDot :: rest) out [chDot] =
      infix2postfix.shunt rest (out ++ [a, chQuest, chDot]) [chDot] := by
  rw [shunt_atom a ha]
  simp [ infix2postfix.shunt, inPrecedence, infix2postfix.popWhile, precedence]

theorem shunt_opts (a : Nat) (ha : isAtom a = true) : ∀ (k : Nat) (rest out : List Nat),
    infix2postfix.shunt ((List.replicate k [a, chQuest, chDot]).flatten ++ rest) out [chDot] =
      infix2postfix.shunt rest (out ++ (List.replicate k [a, chQuest, chDot]).flatten)
        [chDot] := by
  intro k
  induction k with
  | zero => intro rest out; simp
  | succ k ih =>
    intro rest out
    rw [List.replicate_succ, List.flatten_cons]
    simp only [List.cons_append, List.nil_append, List.append_assoc]
    rw [shunt_opt_next a ha, ih]
    simp

theorem infix2postfix_opt (a : Nat) (ha : isAtom a = true) (m fuel : Nat)
    (hf : 2 * (optPattern a (m + 1)).length + 1 ≤ fuel) :
    infix2postfix fuel (optPattern a (m + 1)) = .ok (optPostfix a m) := by
  have hds : ∀ c ∈ List.replicate m a, isAtom c = true :=
    fun c hc => by rw [(List.mem_replicate.1 hc).2]; exact ha
  rw [ infix2postfix_eq fuel _ hf, optPattern, norm1_opts a ha, norm1_replicate a ha,
    norm2_opts a ha]
  have h2 : norm2 true ((List.replicate m a).flatMap (fun d => [chDot, d])) =
      (List.replicate m a).flatMap (fun d => [chDot, d]) := by
    apply norm2_plain
    intro x hx
    obtain ⟨d, hd, hxd⟩ := List.mem_flatMap.1 hx
    rcases List.mem_cons.1 hxd with rfl | hxd
    · decide
    · rw [List.mem_singleton.1 hxd]
      exact atom_plain (hds d hd)
  rw [h2, List.replicate_succ, List.flatten_cons]
  simp only [List.cons_append, List.nil_append, List.append_assoc]
  rw [shunt_opt_first a ha, shunt_opts a ha, shunt_atom a ha, shunt_dotted _ hds]
  simp only [optPostfix, List.nil_append, List.cons_append, List.append_assoc]
  rw [List.replicate_succ (n := m) (a := a), ← dots_shift (List.replicate m a) a]

theorem run_opt (a : Nat) (ha : isAtom a = true) (m : Nat) :
    ∃ N, ∀ fuel, N ≤ fuel →
      run fuel (optPattern a (m + 1)) (List.replicate (m + 1) a) = .ok true := by
  obtain ⟨h, hb, hacc⟩ := opt_family_build a ha m
  have hnew : ∀ fuel, 2 * (optPattern a (m + 1)).length + 1 ≤ fuel →
      Regex.new fuel (optPattern a (m + 1)) = .ok ⟨optPattern a (m + 1), h, 1⟩ := by
    intro fuel hf
    obtain ⟨f, rfl⟩ : ∃ f, fuel = f + 1 := ⟨fuel - 1, by omega⟩
    simp only [Regex.new, infix2postfix_opt a ha m (f + 1) hf, hb f]
  obtain ⟨hc, hs⟩ := regex_closed _ _ _ (hnew _ (Nat.le_refl _))
  have h0 : 0 ∉ List.replicate (m + 1) a := by
    intro hmem
    exact isAtom_ne_zero ha (List.mem_replicate.1 hmem).2.symm
  obtain ⟨N, hN⟩ := match_complete h hc 1 hs _ h0 hacc
  refine ⟨max N (2 * (optPattern a (m + 1)).length + 1), fun fuel hf => ?_⟩
  simp only [run, hnew fuel (le_of_max_le_right hf), Regex.match_, hN fuel (le_of_max_le_left hf)]

theorem flatten_replicate_singleton (n a : Nat) :
    (List.replicate n [a]).flatten = List.replicate n a := by
  induction n with
  | zero => rfl
  | succ n ih => simp [List.replicate_succ, ih]

/-- C8: for every `n ≥ 1`, the regex compiled from `n` copies of `a?` followed by `n` copies
of `a` returns true on the input made of `n` copies of `a`, for every large enough fuel. -/
theorem opt_family_matches (n : Nat) (hn : 1 ≤ n) :
    ∃ N, ∀ fuel, N ≤ fuel →
      run fuel ((List.replicate n (str "a?")).flatten ++ (List.replicate n (str "a")).flatten)
        (List.replicate n (str "a")).flatten = .ok true := by
  obtain ⟨m, rfl⟩ : ∃ m, n = m + 1 := ⟨n - 1, by omega⟩
  have e1 : str "a" = [97] := by decide
  have e2 : str "a?" = [97, chQuest] := by decide
  rw [e1, e2, flatten_replicate_singleton]
  exact run_opt 97 (by decide) m

/-- Instance of `opt_family_matches` at `n = 3`, and the run of the pattern `a?a?a?aaa` on the
input `aaa` with fuel 40. -/
theorem opt_family_matches_witness :
    (1 ≤ 3 ∧ ∃ N, ∀ fuel, N ≤ fuel →
      run fuel ((List.replicate 3 (str "a?")).flatten ++ (List.replicate 3 (str "a")).flatten)
        (List.replicate 3 (str "a")).flatten = .ok true) ∧
    run 40 (str "a?a?a?aaa") (str "aaa") = .ok true :=
  ⟨⟨by decide, opt_family_matches 3 (by decide)⟩, by decide⟩

/-- The ten runs of the loop in `tests/test.cpp`, with fuel 100. -/
theorem opt_family_tests : ∀ n ∈ List.range' 1 10,
    run 100 (optPattern 97 n) (List.replicate n 97) = .ok true := by
  decide

theorem step_literal (tok : Nat) (h1 : tok ≠ chDot) (h2 : tok ≠ chBar) (h3 : tok ≠ chStar)
    (h4 : tok ≠ chPlus) (h5 : tok ≠ chQuest) (fuel : Nat) (b : Builder) :
    post2nfa.step fuel tok b =
      .ok ⟨b.heap ++ [State.lit tok], ⟨b.heap.length, [b.heap.length]⟩ :: b.stack⟩ := by
  simp [post2nfa.step, *]

theorem shunt_lparen (cs out st : List Nat) :
    infix2postfix.shunt (chLParen :: cs) out st = infix2postfix.shunt cs out (chLParen :: st) := by
  simp [ infix2postfix.shunt]

theorem shunt_dot_on_lparen (cs out st : List Nat) :
    infix2postfix.shunt (chDot :: cs) out (chLParen :: st) =
      infix2postfix.shunt cs out (chDot :: chLParen :: st) := by
  simp [ infix2postfix.shunt, inPrecedence, infix2postfix.popWhile, precedence]

theorem shunt_dot_on_dot_lparen (cs out st : List Nat) :
    infix2postfix.shunt (chDot :: cs) out (chDot :: chLParen :: st) =
      infix2postfix.shunt cs (out ++ [chDot]) (chDot :: chLParen :: st) := by
  simp [ infix2postfix.shunt, inPrecedence, infix2postfix.popWhile, precedence]

theorem shunt_dotted_lparen (ds : List Nat) (ha : ∀ c ∈ ds, isAtom c = true) (st : List Nat) :
    ∀ out, infix2postfix.shunt (ds.flatMap (fun d => [chDot, d])) out (chDot :: chLParen :: st) =
      .ok (out ++ ds.flatMap (fun d => [chDot, d]), chDot :: chLParen :: st) := by
  induction ds with
  | nil => intro out; simp [ infix2postfix.shunt]
  | cons d ds ih =>
    intro out
    have hd := ha d (List.mem_cons_self d ds)
    rw [List.flatMap_cons]
    simp only [List.cons_append, List.nil_append]
    rw [shunt_dot_on_dot_lparen, shunt_atom d hd,
      ih (fun x hx => ha x (List.mem_cons_of_mem d hx))]
    simp

theorem norm1_word (c : Nat) (ds : List Nat) (ha : ∀ x ∈ c :: ds, isAtom x = true) :
    norm1 false (c :: ds) = c :: ds.flatMap (fun d => [chDot, d]) := by
  have hc := ha c (List.mem_cons_self c ds)
  rw [norm1, if_neg (isAtom_ne_zero hc)]
  simp [isAtom_not_operator hc, norm1_atoms ds (fun x hx => ha x (List.mem_cons_of_mem c hx))]

theorem dotted_plain (c : Nat) (ds : List Nat) (ha : ∀ x ∈ c :: ds, isAtom x = true) :
    ∀ x ∈ c :: ds.flatMap (fun d => [chDot, d]), x ≠ chLParen ∧ isQuant x = false := by
  intro x hx
  rcases List.mem_cons.1 hx with rfl | hx
  · exact atom_plain (ha x (List.mem_cons_self x ds))
  · obtain ⟨d, hd, hxd⟩ := List.mem_flatMap.1 hx
    rcases List.mem_cons.1 hxd with rfl | hxd
    · decide
    · rw [List.mem_singleton.1 hxd]
      exact atom_plain (ha d (List.mem_cons_of_mem c hd))

theorem infix2postfix_lparen_word (w : List Nat) (hw : w ≠ []) (ha : ∀ c ∈ w, isAtom c = true)
    (fuel : Nat) (hf : 2 * w.length + 3 ≤ fuel) :
    infix2postfix fuel (chLParen :: w) = .ok (postfixOfWord w ++ [chLParen]) := by
  rw [ infix2postfix_eq fuel _ (by simp only [List.length_cons]; omega)]
  cases w with
  | nil => exact absurd rfl hw
  | cons c ds =>
    have hc := ha c (List.mem_cons_self c ds)
    have hds : ∀ x ∈ ds, isAtom x = true := fun x hx => ha x (List.mem_cons_of_mem c hx)
    have e0 : (chLParen = 0) = False := by decide
    have h1 : norm1 false (chLParen :: c :: ds) =
        chLParen :: c :: ds.flatMap (fun d => [chDot, d]) := by
      rw [norm1]
      simp only [e0, if_false]
      have : is_operator chLParen = true := by decide
      simp only [this, Bool.not_true, Bool.false_and, Bool.false_eq_true, if_false]
      rw [norm1_word c ds ha]
    have h2 : norm2 false (chLParen :: c :: ds.flatMap (fun d => [chDot, d])) =
        chLParen :: c :: ds.flatMap (fun d => [chDot, d]) := by
      rw [norm2]
      simp only [e0, if_false]
      have e1 : isQuant chLParen = false := by decide
      have e2 : (!is_operator chLParen || chLParen == chRParen) = false := by decide
      simp only [Bool.and_false, Bool.false_eq_true, if_false, e1, Bool.false_and, e2]
      rw [norm2_plain _ (dotted_plain c ds ha)]
    rw [h1, h2, shunt_lparen, shunt_atom c hc]
    cases ds with
    | nil => rfl
    | cons d ds =>
      have hd := hds d (List.mem_cons_self d ds)
      rw [List.flatMap_cons]
      simp only [List.cons_append, List.nil_append]
      rw [shunt_dot_on_lparen, shunt_atom d hd,
        shunt_dotted_lparen ds (fun x hx => hds x (List.mem_cons_of_mem d hx))]
      simp only [postfixOfWord, List.nil_append, List.cons_append, List.append_assoc]
      rw [← dots_shift ds d]
      simp

theorem chain_loop_open (f : Nat) (ds : List Nat) (ha : ∀ c ∈ ds, isAtom c = true) :
    ∀ (u : List Nat) (x : Nat), ∃ (u1 : List Nat) (x1 : Nat), u1 ++ [x1] = u ++ x :: ds ∧
      ∀ rest, post2nfa.loop (f + 1) (ds.flatMap (fun d => [d, chDot]) ++ rest)
          ⟨chainStates 0 u ++ [State.lit x], [⟨0, [u.length]⟩]⟩ =
        post2nfa.loop (f + 1) rest ⟨chainStates 0 u1 ++ [State.lit x1], [⟨0, [u1.length]⟩]⟩ := by
  induction ds with
  | nil => intro u x; exact ⟨u, x, rfl, fun rest => rfl⟩
  | cons d ds ih =>
    intro u x
    have hd := ha d (List.mem_cons_self d ds)
    obtain ⟨u1, x1, he, hl⟩ := ih (fun c hc => ha c (List.mem_cons_of_mem d hc)) (u ++ [x]) d
    refine ⟨u1, x1, by rw [he]; simp, fun rest => ?_⟩
    rw [List.flatMap_cons]
    simp only [List.cons_append, List.nil_append]
    rw [post2nfa.loop, if_neg (isAtom_ne_zero hd), step_atom d hd]
    simp only [post2nfa.loop, post2nfa.step, if_true]
    have e1 : (chainStates 0 u ++ [State.lit x]).length = u.length + 1 := by
      simp [chainStates_length]
    have e2 : chainStates 0 u ++ [State.lit x] ++ [State.lit d] =
        chainStates 0 u ++ State.lit x :: [State.lit d] := by simp
    have e3 : (chDot = 0) = False := by decide
    simp only [e1, e2, e3, if_false, StateList.patch, patch_chain_last]
    have e4 : chainStates 0 u ++ (⟨false, x, some (u.length + 1), none⟩ : State) :: [State.lit d] =
        chainStates 0 (u ++ [x]) ++ [State.lit d] := by
      simp [chainStates_append, chainStates]
    have e5 : u.length + 1 = (u ++ [x]).length := by simp
    rw [e4, e5]
    exact hl rest

theorem at_accept_loop (f : Nat) (h : Heap) (j : Nat) (hj : h[j]? = some (State.ofBool true))
    (s : List Nat) :
    matchLoop (f + 2) h [] s [j] = .ok (decide (untilNul s = []), []) := by
  cases s with
  | nil => simpa [matchLoop, untilNul] using accept_single_match (f + 1) h j _ hj rfl
  | cons ch s =>
    by_cases h0 : ch = 0
    · subst h0
      simpa [matchLoop, untilNul_cons_zero] using accept_single_match (f + 1) h j _ hj rfl
    · rw [matchLoop, if_neg h0, untilNul_cons_ne ch s h0,
        inner_single_sink f h ch j _ hj (by simpa [State.ofBool] using Ne.symm h0) rfl rfl]
      simp

theorem lit_then_accept_loop (f : Nat) (h : Heap) (i j c : Nat) (hc : c ≠ 0)
    (hi : h[i]? = some ⟨false, c, some j, none⟩) (hj : h[j]? = some (State.ofBool true))
    (s : List Nat) :
    matchLoop (f + 2) h [] s [i] = .ok (decide (untilNul s = [c]), []) := by
  cases s with
  | nil => simpa [matchLoop, untilNul] using accept_single_lit (f + 1) h i _ hi rfl hc
  | cons ch s =>
    by_cases h0 : ch = 0
    · subst h0
      simpa [matchLoop, untilNul_cons_zero] using accept_single_lit (f + 1) h i _ hi rfl hc
    · rw [matchLoop, if_neg h0, untilNul_cons_ne ch s h0]
      by_cases hcc : c = ch
      · subst hcc
        rw [inner_single_match f h c i _ hi rfl]
        simp only [Option.toList, List.append_nil, List.singleton_append, List.isEmpty_cons,
          Bool.false_eq_true, if_false, List.nil_append]
        rw [at_accept_loop f h j hj]
        simp
      · rw [inner_single_other f h ch i _ hi hcc hc]
        have : ch ≠ c := fun e => hcc e.symm
        simp [this]

theorem new_lparen_word (w : List Nat) (hw : w ≠ []) (ha : ∀ c ∈ w, isAtom c = true)
    (fuel : Nat) (hf : 2 * w.length + 3 ≤ fuel) :
    ∃ (u : List Nat) (x : Nat), Regex.new fuel (chLParen :: w) =
      .ok ⟨chLParen :: w, chainStates 0 u ++
        [State.lit x, ⟨false, chLParen, some (u.length + 2), none⟩, State.ofBool true],
        u.length + 1⟩ := by
  cases w with
  | nil => exact absurd rfl hw
  | cons c ds =>
    have hc := ha c (List.mem_cons_self c ds)
    obtain ⟨f, rfl⟩ : ∃ f, fuel = f + 1 := ⟨fuel - 1, by omega⟩
    have h1 := infix2postfix_lparen_word (c :: ds) hw ha (f + 1) hf
    obtain ⟨u, x, -, h2⟩ :=
      chain_loop_open f ds (fun x hx => ha x (List.mem_cons_of_mem c hx)) [] c
    refine ⟨u, x, ?_⟩
    have h3 := h2 [chLParen]
    simp only [chainStates, List.nil_append, List.length_nil] at h3
    simp only [Regex.new, h1, postfixOfWord, post2nfa, post2nfa.run, List.cons_append]
    rw [post2nfa.loop, if_neg (isAtom_ne_zero hc), step_atom c hc]
    simp only [List.nil_append, List.length_nil]
    rw [h3, post2nfa.loop, if_neg (by decide),
      step_literal chLParen (by decide) (by decide) (by decide) (by decide) (by decide)]
    simp only [post2nfa.loop, post2nfa.finish]
    have e1 : (chainStates 0 u ++ [State.lit x]).length = u.length + 1 := by
      simp [chainStates_length]
    have e3 : chainStates 0 u ++ [State.lit x] ++ [State.lit chLParen] ++ [State.ofBool true] =
        (chainStates 0 u ++ [State.lit x]) ++ State.lit chLParen :: [State.ofBool true] := by simp
    have e4 := patch_one f (chainStates 0 u ++ [State.lit x]) chLParen
      ((chainStates 0 u ++ [State.lit x]).length + 1) [State.ofBool true]
    have e5 : (chainStates 0 u ++ [State.lit x] ++ [State.lit chLParen]).length =
        (chainStates 0 u ++ [State.lit x]).length + 1 := by simp
    rw [e3, e5, e4, e1]
    simp

theorem run_lparen_word (w : List Nat) (hw : w ≠ []) (ha : ∀ c ∈ w, isAtom c = true)
    (fuel : Nat) (hf : 2 * w.length + 3 ≤ fuel) (s : List Nat) :
    run fuel (chLParen :: w) s = .ok (decide (untilNul s = [chLParen])) := by
  obtain ⟨u, x, hn⟩ := new_lparen_word w hw ha fuel hf
  obtain ⟨f, rfl⟩ : ∃ f, fuel = f + 2 := ⟨fuel - 2, by omega⟩
  have l1 := lookup_app (chainStates 0 u)
    [State.lit x, ⟨false, chLParen, some (u.length + 2), none⟩, State.ofBool true] 1
  have l2 := lookup_app (chainStates 0 u)
    [State.lit x, ⟨false, chLParen, some (u.length + 2), none⟩, State.ofBool true] 2
  rw [chainStates_length] at l1 l2
  have := lit_then_accept_loop f _ _ _ chLParen (by decide) l1 l2 s
  simp only [run, hn, Regex.match_, match_, this]

/-- With the uninitialised fields reading false: the pattern `(a`, whose parenthesis is never
closed, compiles without any error: the parenthesis is drained into the postfix stream `a(`, a regex is produced, and it
matches the one-character input `(`. -/
theorem unclosed_paren_compiles :
    infix2postfix 20 (str "(a") = .ok (str "a(") ∧
    Regex.new 20 (str "(a") = .ok ⟨str "(a",
      [State.lit 97, ⟨false, chLParen, some 2, none⟩, State.ofBool true], 1⟩ ∧
    run 20 (str "(a") (str "(") = .ok true ∧
    run 20 (str "(a") (str "a") = .ok false := by
  decide

/-- An opening parenthesis that is never closed, in the runs in which the uninitialised fields
read false.  For a non-empty word `w` of atoms the pattern `(w` is converted to the postfix stream of `w` followed
by the parenthesis itself, which `post2nfa` reads as a literal: a regex is produced, and in
these runs it matches exactly the inputs whose part before the first NUL is the single
character `(`. -/
theorem unclosed_paren_is_literal (w : List Nat) (hw : w ≠ []) (ha : ∀ c ∈ w, isAtom c = true)
    (fuel : Nat) (hf : 2 * w.length + 3 ≤ fuel) (s : List Nat) :
    infix2postfix fuel (chLParen :: w) = .ok (postfixOfWord w ++ [chLParen]) ∧
    (∃ r, Regex.new fuel (chLParen :: w) = .ok r) ∧
    run fuel (chLParen :: w) s = .ok (decide (untilNul s = [chLParen])) := by
  refine ⟨ infix2postfix_lparen_word w hw ha fuel hf, ?_, run_lparen_word w hw ha fuel hf s⟩
  obtain ⟨u, x, hn⟩ := new_lparen_word w hw ha fuel hf
  exact ⟨_, hn⟩

/-- Instance of `unclosed_paren_is_literal` at the pattern `(ab` and the input `(`. -/
theorem unclosed_paren_is_literal_witness :
    str "ab" ≠ [] ∧ (∀ c ∈ str "ab", isAtom c = true) ∧ 2 * (str "ab").length + 3 ≤ 7 ∧
    infix2postfix 7 (chLParen :: str "ab") = .ok (postfixOfWord (str "ab") ++ [chLParen]) ∧
    (∃ r, Regex.new 7 (chLParen :: str "ab") = .ok r) ∧
    run 7 (chLParen :: str "ab") (str "(") = .ok (decide (untilNul (str "(") = [chLParen])) :=
  ⟨by decide, by decide, by decide,
    unclosed_paren_is_literal (str "ab") (by decide) (by decide) 7 (by decide) (str "(")⟩
/-! ## Repeated matching -/

/-- C17: a `)` followed by an atom gets no concatenation marker.  The two insertion loops leave
`(a)b` and `(a|b)c` as they are, the postfix strings are `ab` and `ab|c`, and the regex built
from `(a|b)c` rejects `ac` and `bc` and accepts `c`; the neighbouring case of a `)` followed
by `(` does get its marker. -/
theorem rparen_atom_gets_no_marker (k : Nat) :
    infix2postfix.normalize (k + 20) (str "(a)b") = .ok (str "(a)b") ∧
    infix2postfix.normalize (k + 20) (str "(a|b)c") = .ok (str "(a|b)c") ∧
    infix2postfix (k + 20) (str "(a|b)c") = .ok (str "ab|c") ∧
    run (k + 20) (str "(a|b)c") (str "ac") = .ok false ∧
    run (k + 20) (str "(a|b)c") (str "bc") = .ok false ∧
    run (k + 20) (str "(a|b)c") (str "c") = .ok true ∧
    infix2postfix.normalize (k + 20) (str "(a)(b)") = .ok (str "(a).(b)") :=
  ⟨rfl, rfl, rfl, rfl, rfl, rfl, rfl⟩

/-- C18: a quantifier followed by `(` gets no concatenation marker.  The pattern `a*b` is
normalized to `a*.b`, but `a*(b)` stays as it is: its postfix string is `ab*`, and the regex
built from it rejects `ab` and `aab` and accepts `bb`. -/
theorem quantifier_lparen_gets_no_marker (k : Nat) :
    infix2postfix.normalize (k + 20) (str "a*b") = .ok (str "a*.b") ∧
    infix2postfix.normalize (k + 20) (str "a*(b)") = .ok (str "a*(b)") ∧
    infix2postfix (k + 20) (str "a*(b)") = .ok (str "ab*") ∧
    run (k + 20) (str "a*(b)") (str "ab") = .ok false ∧
    run (k + 20) (str "a*(b)") (str "aab") = .ok false ∧
    run (k + 20) (str "a*(b)") (str "bb") = .ok true ∧
    run (k + 20) (str "a*b") (str "aab") = .ok true :=
  ⟨rfl, rfl, rfl, rfl, rfl, rfl, rfl⟩

/-! ## The insertion loops are idempotent -/

theorem operator_ne_zero {c : Nat} (hc : is_operator c = true) : c ≠ 0 := by
  intro h; subst h; simp [is_operator] at hc

theorem norm1_operator (c : Nat) (hop : is_operator c = true) (b : Bool) (cs : List Nat) :
    norm1 b (c :: cs) = c :: norm1 false cs := by
  rw [norm1, if_neg (operator_ne_zero hop)]
  simp [hop]

theorem norm1_atom_first (c : Nat) (h0 : c ≠ 0) (hop : is_operator c = false) (cs : List Nat) :
    norm1 false (c :: cs) = c :: norm1 true cs := by
  rw [norm1, if_neg h0]
  simp [hop]

theorem norm1_norm1 (l : List Nat) : ∀ b b1 : Bool, (b1 = true → b = true) →
    norm1 b1 (norm1 b l) = norm1 b l := by
  induction l with
  | nil => intro b b1 _; rfl
  | cons c cs ih =>
    intro b b1 hb
    by_cases h0 : c = 0
    · simp [norm1, h0]
    · by_cases hc : (!is_operator c && b) = true
      · have e1 : norm1 b (c :: cs) = chDot :: c :: norm1 true cs := by
          rw [norm1, if_neg h0, if_pos hc]
        have hop : is_operator c = false := by
          cases h : is_operator c <;> simp_all
        rw [e1, norm1_operator chDot (by decide), norm1_atom_first c h0 hop,
          ih true true (fun h => h)]
      · have e1 : norm1 b (c :: cs) = c :: norm1 (!is_operator c) cs := by
          rw [norm1, if_neg h0, if_neg hc]
        have hc1 : ¬ ((!is_operator c && b1) = true) := by
          intro h
          apply hc
          cases hb1 : b1 with
          | false => simp [hb1] at h
          | true => simp [hb1] at h; simp [h, hb hb1]
        rw [e1, norm1, if_neg h0, if_neg hc1, ih _ _ (fun h => h)]

theorem norm2_head_operator (c : Nat) (cs : List Nat) (hc : is_operator c = true) (b : Bool) :
    ∃ d ds, norm2 b (c :: cs) = d :: ds ∧ is_operator d = true := by
  have h0 : c ≠ 0 := by
    intro h; subst h; simp [is_operator] at hc
  rw [norm2, if_neg h0]
  split
  · exact ⟨chDot, _, rfl, by decide⟩
  · split
    · exact ⟨c, _, rfl, hc⟩
    · exact ⟨c, _, rfl, hc⟩

theorem norm2_norm2 (l : List Nat) : ∀ b b1 : Bool, (b1 = true → b = true) →
    norm2 b1 (norm2 b l) = norm2 b l := by
  induction l with
  | nil => intro b b1 _; rfl
  | cons c cs ih =>
    intro b b1 hb
    by_cases h0 : c = 0
    · simp [norm2, h0]
    · by_cases hp : (c == chLParen && b) = true
      · have e1 : norm2 b (c :: cs) = chDot :: c :: norm2 false cs := by
          rw [norm2, if_neg h0, if_pos hp]
        have hcp : c = chLParen := by
          simp only [Bool.and_eq_true, beq_iff_eq] at hp
          exact hp.1
        rw [e1, hcp]
        have := ih false false (fun h => h)
        simp [norm2, chDot, chLParen, isQuant, is_operator, chRParen, chStar, chPlus, chQuest,
          chBar, this]
      · by_cases hq : (isQuant c && !cs.isEmpty && !is_operator (cs.headD 0)) = true
        · have e1 : norm2 b (c :: cs) = c :: chDot :: norm2 false cs := by
            rw [norm2, if_neg h0, if_neg hp, if_pos hq]
          have hqc : isQuant c = true := by
            simp only [Bool.and_eq_true] at hq
            exact hq.1.1
          have hcp : (c == chLParen) = false := by
            simp only [isQuant, Bool.or_eq_true, beq_iff_eq] at hqc
            rcases hqc with (h | h) | h <;> simp [h, chStar, chPlus, chQuest, chLParen]
          have hop : is_operator c = true := by
            simp only [isQuant, Bool.or_eq_true, beq_iff_eq] at hqc
            rcases hqc with (h | h) | h <;> simp [h, is_operator, chStar, chPlus, chQuest]
          have hrp : (c == chRParen) = false := by
            simp only [isQuant, Bool.or_eq_true, beq_iff_eq] at hqc
            rcases hqc with (h | h) | h <;> simp [h, chStar, chPlus, chQuest, chRParen]
          have hd : is_operator chDot = true := by decide
          rw [e1, norm2, if_neg h0]
          simp only [hcp, Bool.false_and, Bool.false_eq_true, if_false, List.headD_cons, hd,
            Bool.not_true, Bool.and_false, hop, hrp, Bool.or_false]
          have e2 : norm2 false (chDot :: norm2 false cs) =
              chDot :: norm2 false (norm2 false cs) := by
            simp [norm2, chDot, chLParen, isQuant, is_operator, chRParen, chStar, chPlus,
              chQuest, chBar]
          rw [e2, ih false false (fun h => h)]
        · have e1 : norm2 b (c :: cs) = c :: norm2 (!is_operator c || c == chRParen) cs := by
            rw [norm2, if_neg h0, if_neg hp, if_neg hq]
          have hp1 : ¬ ((c == chLParen && b1) = true) := by
            intro h
            apply hp
            cases hb1 : b1 with
            | false => simp [hb1] at h
            | true => simp [hb1] at h; simp [h, hb hb1]
          have hq1 : ¬ ((isQuant c && !(norm2 (!is_operator c || c == chRParen) cs).isEmpty &&
              !is_operator ((norm2 (!is_operator c || c == chRParen) cs).headD 0)) = true) := by
            intro h
            apply hq
            simp only [Bool.and_eq_true] at h ⊢
            obtain ⟨⟨h1, h2⟩, h3⟩ := h
            cases cs with
            | nil => simp [norm2] at h2
            | cons d ds =>
              refine ⟨⟨h1, rfl⟩, ?_⟩
              simp only [List.headD_cons]
              cases hd : is_operator d with
              | false => rfl
              | true =>
                obtain ⟨x, xs, hx, hxo⟩ := norm2_head_operator d ds hd
                  (!is_operator c || c == chRParen)
                rw [hx] at h3
                simp [hxo] at h3
          rw [e1, norm2, if_neg h0, if_neg hp1, if_neg hq1, ih _ _ (fun h => h)]

theorem norm1_norm2 (l : List Nat) : ∀ b b1 : Bool, norm1 b1 l = l →
    norm1 b1 (norm2 b l) = norm2 b l := by
  induction l with
  | nil => intro b b1 _; rfl
  | cons c cs ih =>
    intro b b1 hl
    by_cases h0 : c = 0
    · simp [norm2, norm1, h0]
    · have hc1 : ¬ ((!is_operator c && b1) = true) := by
        intro h
        rw [norm1, if_neg h0, if_pos h] at hl
        have hh := (List.cons.inj hl).1
        rw [← hh] at h
        simp [is_operator, chDot] at h
      rw [norm1, if_neg h0, if_neg hc1] at hl
      have hcs : norm1 (!is_operator c) cs = cs := (List.cons.inj hl).2
      by_cases hp : (c == chLParen && b) = true
      · have hcp : c = chLParen := by
          simp only [Bool.and_eq_true, beq_iff_eq] at hp
          exact hp.1
        subst hcp
        have hcs1 : norm1 false cs = cs := by simpa [is_operator, chLParen] using hcs
        rw [norm2, if_neg h0, if_pos hp]
        have := ih false false hcs1
        simp [norm1, chDot, chLParen, is_operator, this]
      · by_cases hq : (isQuant c && !cs.isEmpty && !is_operator (cs.headD 0)) = true
        · have hqc : isQuant c = true := by
            simp only [Bool.and_eq_true] at hq
            exact hq.1.1
          have hop : is_operator c = true := by
            simp only [isQuant, Bool.or_eq_true, beq_iff_eq] at hqc
            rcases hqc with (h | h) | h <;> simp [h, is_operator, chStar, chPlus, chQuest]
          have hcs1 : norm1 false cs = cs := by simpa [hop] using hcs
          rw [norm2, if_neg h0, if_neg hp, if_pos hq, norm1, if_neg h0, if_neg hc1]
          have := ih false false hcs1
          simp [norm1, chDot, is_operator, hop, this]
        · rw [norm2, if_neg h0, if_neg hp, if_neg hq, norm1, if_neg h0, if_neg hc1,
            ih _ _ hcs]

theorem normalize_fixpoint (p : List Nat) :
    norm2 false (norm1 false (norm2 false (norm1 false p))) = norm2 false (norm1 false p) := by
  rw [norm1_norm2 _ false false (norm1_norm1 p false false (fun h => h)),
    norm2_norm2 _ false false (fun h => h)]

theorem norm2_length_le (cs : List Nat) : ∀ b, (norm2 b cs).length ≤ 2 * cs.length := by
  induction cs with
  | nil => intro b; simp [norm2]
  | cons c cs ih =>
    intro b
    rw [norm2]
    split
    · simp only [List.length_cons]; omega
    · split
      · have := ih false
        simp only [List.length_cons]; omega
      · split
        · have := ih false
          simp only [List.length_cons]; omega
        · have := ih (!is_operator c || c == chRParen)
          simp only [List.length_cons]; omega

theorem normalize_eq (fuel : Nat) (p : List Nat) (hf : 2 * p.length + 1 ≤ fuel) :
    infix2postfix.normalize fuel p = .ok (norm2 false (norm1 false p)) := by
  have h1 := pass1_eq p [] fuel hf
  have h2 := pass2_eq (norm1 false p) [] fuel (by have := norm1_length_le p false; omega)
  simp only [List.nil_append, List.length_nil] at h1 h2
  have e1 : lastNonOp [] = false := rfl
  have e2 : lastOk [] = false := rfl
  rw [e1] at h1
  rw [e2] at h2
  simp only [ infix2postfix.normalize, h1, h2]

/-- C16: normalization is idempotent.  With `N(p)` the string that the two insertion loops of
`infix2postfix` produce from the pattern `p`, the loops run on `N(p)` give `N(p)` again, and
`infix2postfix` returns on `N(p)` what it returns on `p` (the same postfix string, or the same
fault when the shunting yard pops an empty stack), for every pattern `p`. -/
theorem normalize_idempotent (p : List Nat) (fuel : Nat) (hf : 8 * p.length + 1 ≤ fuel) :
    ∃ q, infix2postfix.normalize fuel p = .ok q ∧ infix2postfix.normalize fuel q = .ok q ∧
      infix2postfix fuel q = infix2postfix fuel p := by
  have l1 := norm1_length_le p false
  have l2 := norm2_length_le (norm1 false p) false
  refine ⟨norm2 false (norm1 false p), normalize_eq fuel p (by omega), ?_, ?_⟩
  · rw [normalize_eq fuel _ (by omega), normalize_fixpoint]
  · rw [ infix2postfix_eq fuel _ (by omega), infix2postfix_eq fuel p (by omega),
      normalize_fixpoint]

/-- C16 (witness): the pattern `a(b|c)*d`, whose normal form is `a.(b|c)*.d`. -/
theorem normalize_idempotent_witness :
    8 * (str "a(b|c)*d").length + 1 ≤ 80 ∧
    ∃ q, infix2postfix.normalize 80 (str "a(b|c)*d") = .ok q ∧
      infix2postfix.normalize 80 q = .ok q ∧
      infix2postfix 80 q = infix2postfix 80 (str "a(b|c)*d") :=
  ⟨by decide, normalize_idempotent (str "a(b|c)*d") 80 (by decide)⟩

/-! ## Every answer `true` of the simulator comes from an accepting path -/

theorem reach_trans {h : Heap} {x y z : Nat} {u v : List Nat} (h1 : Reach h x u y)
    (h2 : Reach h y v z) : Reach h x (u ++ v) z := by
  induction h1 with
  | refl x => exact h2
  | eps x y1 y st w hi h0 hy _ ih => exact Reach.eps x y1 z st _ hi h0 hy (ih h2)
  | char x y1 y st w hi h0 hy _ ih => exact Reach.char x y1 z st _ hi h0 hy (ih h2)

theorem accept_sound (h : Heap) : ∀ (fuel : Nat) (visited : List Nat) (self : Nat)
    (v : List Nat), State.accept fuel h visited self = .ok (true, v) → Accepts h self [] := by
  intro fuel
  induction fuel with
  | zero => intro visited self v ha; simp [State.accept] at ha
  | succ f ih =>
    intro visited self v ha
    rw [State.accept] at ha
    cases hi : h[self]? with
    | none => simp [hi] at ha
    | some st =>
      simp only [hi] at ha
      by_cases hm : st.is_match_state = true
      · exact ⟨self, st, Reach.refl self, hi, hm⟩
      · by_cases he : st.is_epsilon = true
        · have hc0 : st.c = 0 := by simpa [State.is_epsilon] using he
          by_cases hv : self ∈ visited
          · simp [hm, he, hv] at ha
          · simp only [hm, he, hv, Bool.false_eq_true, if_false, Bool.not_true,
              Bool.true_and] at ha
            cases h1 : st.out1 with
            | none =>
              simp only [h1] at ha
              cases h2 : st.out2 with
              | none => simp [h2] at ha
              | some o2 =>
                simp only [h2] at ha
                cases hr : State.accept f h (self :: visited) o2 with
                | error e => simp [hr] at ha
                | ok r =>
                  obtain ⟨b, v2⟩ := r
                  simp only [hr, Except.ok.injEq, Prod.mk.injEq] at ha
                  obtain ⟨q, stq, hq, hqi, hqm⟩ := ih _ _ v2 (ha.1 ▸ hr)
                  exact ⟨q, stq, Reach.eps self o2 q st [] hi hc0 (by simp [State.outs, h2]) hq,
                    hqi, hqm⟩
            | some o1 =>
              simp only [h1] at ha
              cases hr1 : State.accept f h (self :: visited) o1 with
              | error e => simp [hr1] at ha
              | ok r1 =>
                obtain ⟨b1, v1⟩ := r1
                cases b1 with
                | true =>
                  obtain ⟨q, stq, hq, hqi, hqm⟩ := ih _ _ v1 hr1
                  exact ⟨q, stq, Reach.eps self o1 q st [] hi hc0 (by simp [State.outs, h1]) hq,
                    hqi, hqm⟩
                | false =>
                  simp only [hr1] at ha
                  cases h2 : st.out2 with
                  | none => simp [h2] at ha
                  | some o2 =>
                    simp only [h2] at ha
                    cases hr : State.accept f h v1 o2 with
                    | error e => simp [hr] at ha
                    | ok r =>
                      obtain ⟨b, v2⟩ := r
                      simp only [hr, Except.ok.injEq, Prod.mk.injEq] at ha
                      obtain ⟨q, stq, hq, hqi, hqm⟩ := ih _ _ v2 (ha.1 ▸ hr)
                      exact ⟨q, stq,
                        Reach.eps self o2 q st [] hi hc0 (by simp [State.outs, h2]) hq, hqi, hqm⟩
        · simp [hm, he] at ha

theorem matchAccept_sound (h : Heap) (fuel : Nat) (clist : List Nat) :
    ∀ (visited v : List Nat), matchAccept fuel h visited clist = .ok (true, v) →
    ∃ x ∈ clist, Accepts h x [] := by
  induction clist with
  | nil => intro visited v hm; simp [matchAccept] at hm
  | cons x xs ih =>
    intro visited v hm
    rw [matchAccept] at hm
    cases hr : State.accept fuel h visited x with
    | error e => simp [hr] at hm
    | ok r =>
      obtain ⟨b, v1⟩ := r
      cases b with
      | true => exact ⟨x, List.mem_cons_self x xs, accept_sound h fuel visited x v1 hr⟩
      | false =>
        simp only [hr] at hm
        obtain ⟨y, hy, hacc⟩ := ih v1 v hm
        exact ⟨y, List.mem_cons_of_mem x hy, hacc⟩

theorem inner_sound (h : Heap) (ch : Nat) (P Q : Nat → Prop)
    (hP : ∀ (x : Nat) (st : State) (y : Nat), P x → h[x]? = some st → st.c = 0 →
      y ∈ st.outs → P y)
    (hQ : ∀ (x : Nat) (st : State) (z : Nat), P x → h[x]? = some st → st.c = ch →
      z ∈ st.outs → Q z) :
    ∀ (fuel : Nat) (clist : List Nat) (j : Nat) (visited nlist : List Nat)
      (res : List Nat × List Nat),
    (∀ x ∈ clist, P x) → (∀ z ∈ nlist, Q z) →
    matchInner fuel h ch clist j visited nlist = .ok res →
    (∀ x ∈ res.1, P x) ∧ (∀ z ∈ res.2, Q z) := by
  intro fuel
  induction fuel with
  | zero => intro clist j visited nlist res _ _ hm; simp [matchInner] at hm
  | succ f ih =>
    intro clist j visited nlist res hc hn hm
    rw [matchInner] at hm
    cases hj : clist[j]? with
    | none =>
      simp only [hj, Except.ok.injEq] at hm
      subst hm
      exact ⟨hc, hn⟩
    | some state =>
      have hPs : P state := hc state (List.getElem?_mem hj)
      simp only [hj] at hm
      by_cases hv : state ∈ visited
      · simp only [hv, if_true] at hm
        exact ih clist (j + 1) visited nlist res hc hn hm
      · simp only [hv, if_false] at hm
        cases hi : h[state]? with
        | none => simp [hi] at hm
        | some st =>
          simp only [hi] at hm
          by_cases h1 : st.is_match ch = true
          · simp only [h1, if_true] at hm
            have hcc : st.c = ch := by simpa [State.is_match] using h1
            refine ih clist (j + 1) visited _ res hc ?_ hm
            intro z hz
            rw [List.append_assoc] at hz
            rcases List.mem_append.1 hz with hz | hz
            · exact hn z hz
            · exact hQ state st z hPs hi hcc hz
          · by_cases h2 : st.is_epsilon = true
            · simp only [h1, h2, if_true, Bool.false_eq_true, if_false] at hm
              have hc0 : st.c = 0 := by simpa [State.is_epsilon] using h2
              refine ih _ (j + 1) _ nlist res ?_ hn hm
              intro x hx
              rw [List.append_assoc] at hx
              rcases List.mem_append.1 hx with hx | hx
              · exact hc x hx
              · exact hP state st x hPs hi hc0 hx
            · simp only [h1, h2, Bool.false_eq_true, if_false] at hm
              exact ih clist (j + 1) visited nlist res hc hn hm

theorem matchLoop_sound (h : Heap) (fuel : Nat) (visited : List Nat) (s : List Nat) :
    ∀ (clist v : List Nat), matchLoop fuel h visited s clist = .ok (true, v) →
    ∃ x ∈ clist, Accepts h x (untilNul s) := by
  induction s with
  | nil =>
    intro clist v hm
    rw [matchLoop] at hm
    exact matchAccept_sound h fuel clist visited v hm
  | cons ch rest ih =>
    intro clist v hm
    rw [matchLoop] at hm
    by_cases h0 : ch = 0
    · rw [if_pos h0] at hm
      rw [h0, untilNul_cons_zero]
      exact matchAccept_sound h fuel clist visited v hm
    · rw [if_neg h0] at hm
      rw [untilNul_cons_ne ch rest h0]
      cases hin : matchInner fuel h ch clist 0 [] [] with
      | error e => simp [hin] at hm
      | ok res =>
        obtain ⟨cl, nl⟩ := res
        simp only [hin] at hm
        by_cases hne : nl.isEmpty = true
        · simp [hne] at hm
        · simp only [hne, Bool.false_eq_true, if_false] at hm
          obtain ⟨z, hz, q, stq, hzq, hqi, hqm⟩ := ih nl v hm
          have hs := inner_sound h ch (fun y => ∃ x ∈ clist, Reach h x [] y)
            (fun z => ∃ x ∈ clist, Reach h x [ch] z)
            (fun x st y ⟨x0, hx0, hr⟩ hi hc0 hy => ⟨x0, hx0, reach_snoc_eps hr st hi hc0 hy⟩)
            (fun x st z ⟨x0, hx0, hr⟩ hi hcc hz => ⟨x0, hx0, by
              have := reach_snoc_char hr st hi (by rw [hcc]; exact h0) hz
              rwa [hcc] at this⟩)
            fuel clist 0 [] [] (cl, nl)
            (fun x hx => ⟨x, hx, Reach.refl x⟩) (fun z hz => by simp at hz) hin
          obtain ⟨x0, hx0, hr⟩ := hs.2 z hz
          exact ⟨x0, hx0, q, stq, reach_trans hr hzq, hqi, hqm⟩

theorem match_sound (h : Heap) (fuel : Nat) (visited v : List Nat) (start : Nat) (s : List Nat)
    (hm : match_ fuel h visited start s = .ok (true, v)) : Accepts h start (untilNul s) := by
  obtain ⟨x, hx, hacc⟩ := matchLoop_sound h fuel visited s [start] v hm
  rwa [List.mem_singleton.1 hx] at hacc
/-! ## The simulator and the reference semantics -/

theorem matchLoop_untilNul (fuel : Nat) (h : Heap) (visited : List Nat) (s : List Nat) :
    ∀ clist, matchLoop fuel h visited (untilNul s) clist = matchLoop fuel h visited s clist := by
  induction s with
  | nil => intro clist; rfl
  | cons ch rest ih =>
    intro clist
    by_cases h0 : ch = 0
    · subst h0
      rw [untilNul_cons_zero]
      simp [matchLoop]
    · rw [untilNul_cons_ne ch rest h0, matchLoop, matchLoop, if_neg h0, if_neg h0]
      cases matchInner fuel h ch clist 0 [] [] with
      | error e => rfl
      | ok res =>
        obtain ⟨cl, nl⟩ := res
        simp only [ih nl]

theorem untilNul_not_mem (s : List Nat) : 0 ∉ untilNul s := by
  induction s with
  | nil => simp [untilNul]
  | cons c s ih =>
    by_cases h0 : c = 0
    · subst h0; simp [untilNul_cons_zero]
    · rw [untilNul_cons_ne c s h0]
      intro hm
      rcases List.mem_cons.1 hm with hm | hm
      · exact h0 hm.symm
      · exact ih hm

theorem match_iff_accepts (h : Heap) (hc : Closed h) (start : Nat) (hs : start < h.length)
    (s : List Nat) :
    ∃ (N : Nat) (b : Bool), (∀ fuel, N ≤ fuel → match_ fuel h [] start s = .ok (b, [])) ∧
      (b = true ↔ Accepts h start (untilNul s)) := by
  have hcl : ∀ x ∈ [start], x < h.length := fun x hx => by
    rw [List.mem_singleton.1 hx]; exact hs
  obtain ⟨N, b, hN⟩ := matchLoop_total h hc [] s [start] hcl
  refine ⟨N, b, hN, ?_, ?_⟩
  · intro hb
    subst hb
    exact match_sound h N [] [] start s (hN N (Nat.le_refl N))
  · intro hacc
    obtain ⟨N1, h1⟩ := match_complete h hc start hs (untilNul s) (untilNul_not_mem s) hacc
    have e1 := h1 (max N N1) (le_max_right _ _)
    have e2 := hN (max N N1) (le_max_left _ _)
    unfold match_ at e1 e2
    rw [matchLoop_untilNul] at e1
    rw [e1] at e2
    simpa using e2.symm

theorem label_epsilon {st : State} (hl : st.label = .epsilon) :
    st.is_match_state = false ∧ st.c = 0 := by
  unfold State.label at hl
  split at hl
  · cases hl
  · split at hl
    · rename_i h1 h2
      exact ⟨by simpa using h1, h2⟩
    · cases hl

theorem label_literal {st : State} {ch : Nat} (hl : st.label = .literal ch) :
    st.is_match_state = false ∧ st.c = ch ∧ ch ≠ 0 := by
  unfold State.label at hl
  split at hl
  · cases hl
  · split at hl
    · cases hl
    · rename_i h1 h2
      cases hl
      exact ⟨by simpa using h1, rfl, h2⟩

theorem label_accept {st : State} : st.label = .accept ↔ st.is_match_state = true := by
  unfold State.label
  constructor
  · intro hl
    split at hl
    · assumption
    · split at hl <;> cases hl
  · intro hm
    simp [hm]

theorem sink_not_accept {h : Heap} (hno : AcceptIsSink h) {x y : Nat} {st : State}
    (hi : h[x]? = some st) (hy : y ∈ st.outs) : st.is_match_state = false := by
  cases hm : st.is_match_state with
  | false => rfl
  | true =>
    obtain ⟨h1, h2⟩ := hno x st hi hm
    simp [State.outs, h1, h2] at hy

theorem ref_run_iff (h : Heap) (s : List Nat) : ∀ (C : Set Nat) (q : Nat),
    q ∈ Ref.run h C s ↔ ∃ x ∈ C, Ref.Walk h x s q := by
  induction s with
  | nil =>
    intro C q
    constructor
    · intro hq
      exact ⟨q, hq, Ref.Walk.nil q⟩
    · rintro ⟨x, hx, hw⟩
      cases hw
      exact hx
  | cons ch s ih =>
    intro C q
    rw [Ref.run, ih]
    constructor
    · rintro ⟨z, ⟨y, ⟨x, hx, st, hi, hl, hy⟩, hyz⟩, hw⟩
      exact ⟨x, hx, Ref.Walk.cons x y z q st ch s hi hl hy hyz hw⟩
    · rintro ⟨x, hx, hw⟩
      cases hw with
      | cons _ y z _ st _ _ hi hl hy hyz hw =>
        exact ⟨z, ⟨y, ⟨x, hx, st, hi, hl, hy⟩, hyz⟩, hw⟩

theorem reach_of_epsPath {h : Heap} {x y : Nat} (hp : Ref.EpsPath h x y) {w : List Nat}
    {q : Nat} (hr : Reach h y w q) : Reach h x w q := by
  induction hp with
  | refl x => exact hr
  | step x y1 z st hi hl hy _ ih =>
    exact Reach.eps x y1 q st w hi (label_epsilon hl).2 hy (ih hr)

theorem reach_of_walk {h : Heap} {x q : Nat} {s : List Nat} (hw : Ref.Walk h x s q) :
    Reach h x s q := by
  induction hw with
  | nil x => exact Reach.refl x
  | cons x y z q st ch s hi hl hy hyz _ ih =>
    obtain ⟨_, hc, h0⟩ := label_literal hl
    have := Reach.char x y q st s hi (by rw [hc]; exact h0) hy (reach_of_epsPath hyz ih)
    rwa [hc] at this

theorem walk_of_reach {h : Heap} (hno : AcceptIsSink h) {x q : Nat} {s : List Nat}
    (hr : Reach h x s q) : ∃ x0, Ref.EpsPath h x x0 ∧ Ref.Walk h x0 s q := by
  induction hr with
  | refl x => exact ⟨x, Ref.EpsPath.refl x, Ref.Walk.nil x⟩
  | eps x y z st w hi h0 hy _ ih =>
    obtain ⟨x0, hp, hw⟩ := ih
    have hm := sink_not_accept hno hi hy
    exact ⟨x0, Ref.EpsPath.step x y x0 st hi (by simp [State.label, hm, h0]) hy hp, hw⟩
  | char x y z st w hi h0 hy _ ih =>
    obtain ⟨x0, hp, hw⟩ := ih
    have hm := sink_not_accept hno hi hy
    exact ⟨x, Ref.EpsPath.refl x,
      Ref.Walk.cons x y x0 z st st.c w hi (by simp [State.label, hm, h0]) hy hp hw⟩

theorem ref_accepts_iff (h : Heap) (hno : AcceptIsSink h) (start : Nat) (s : List Nat) :
    Ref.accepts h start s ↔ Accepts h start s := by
  unfold Ref.accepts
  constructor
  · rintro ⟨q, hq, st, hi, hl⟩
    obtain ⟨x0, ⟨x, hx, hp⟩, hw⟩ := (ref_run_iff h s _ q).1 hq
    rw [Set.mem_singleton_iff] at hx
    subst hx
    exact ⟨q, st, reach_of_epsPath hp (reach_of_walk hw), hi, label_accept.1 hl⟩
  · rintro ⟨q, st, hr, hi, hm⟩
    obtain ⟨x0, hp, hw⟩ := walk_of_reach hno hr
    exact ⟨q, (ref_run_iff h s _ q).2 ⟨x0, ⟨start, rfl, hp⟩, hw⟩, st, hi, label_accept.2 hm⟩

theorem acceptIsSink_of_all (h : Heap)
    (ha : h.all (fun st => !st.is_match_state || (st.out1.isNone && st.out2.isNone)) = true) :
    AcceptIsSink h := by
  intro i st hi hm
  have := List.all_eq_true.1 ha st (List.getElem?_mem hi)
  simp only [hm, Bool.not_true, Bool.false_or, Bool.and_eq_true, Option.isNone_iff_eq_none]
    at this
  exact this

theorem closed_of_all (h : Heap)
    (ha : h.all (fun st => st.outs.all (fun o => decide (o < h.length))) = true) : Closed h := by
  intro i st hi
  have := List.all_eq_true.1 ha st (List.getElem?_mem hi)
  simp only [List.all_eq_true, decide_eq_true_eq] at this
  exact ⟨fun o ho => this o (by simp [State.outs, ho]), fun o ho => this o (by simp [State.outs, ho])⟩

/-- C13 (counterexample): a graph of two states whose accept state has an out-edge.  State `0`
is the accept state and points to state `1`, labelled `a`, which points back.  On the input
`a` from state `0` the simulator answers true, because it expands the accept state like an
epsilon state; in the reference semantics the closure of the start state is the accept state
alone, no state of it has the literal label `a`, and the final set is empty. -/
theorem accept_out_edge_counterexample :
    Closed acceptLoopHeap ∧ match_ 10 acceptLoopHeap [] 0 (str "a") = .ok (true, []) ∧
    ¬ Ref.accepts acceptLoopHeap 0 (str "a") := by
  refine ⟨closed_of_all _ (by decide), by decide, ?_⟩
  rintro ⟨q, hq, -⟩
  obtain ⟨x, ⟨x0, hx0, hp⟩, hw⟩ := (ref_run_iff acceptLoopHeap (str "a") _ q).1 hq
  rw [Set.mem_singleton_iff] at hx0
  subst hx0
  have hx : x = 0 := by
    cases hp with
    | refl => rfl
    | step _ y _ st hi hl _ _ =>
      have : st = ⟨true, 0, some 1, none⟩ := by
        simpa [acceptLoopHeap] using hi.symm
      subst this
      cases hl
  subst hx
  cases hw with
  | cons _ y z _ st _ _ hi hl _ _ _ =>
    have : st = ⟨true, 0, some 1, none⟩ := by
      simpa [acceptLoopHeap] using hi.symm
    subst this
    cases hl

/-- C13 (amended): on every finite graph of states in which no accept state has an out-edge,
for every start state of the graph and every NUL-free input `s`, `match(start, s)` returns,
and its answer is true exactly when the reference semantics accepts: with `C0` the
epsilon-closure of the start state and `C(i+1)` the epsilon-closure of the out-edge targets of
the states of `C(i)` whose literal label is `s[i]`, the final set contains an accept state. -/
theorem simulator_refines_reference (h : Heap) (hc : Closed h) (hno : AcceptIsSink h)
    (start : Nat) (hs : start < h.length) (s : List Nat) (h0 : 0 ∉ s) :
    ∃ (N : Nat) (b : Bool), (∀ fuel, N ≤ fuel → match_ fuel h [] start s = .ok (b, [])) ∧
      (b = true ↔ Ref.accepts h start s) := by
  obtain ⟨N, b, hN, hb⟩ := match_iff_accepts h hc start hs s
  rw [untilNul_of_not_mem s h0] at hb
  exact ⟨N, b, hN, hb.trans (ref_accepts_iff h hno start s).symm⟩

/-- C13 (witness): the automaton of `(a|b)*` and the input `ab`. -/
theorem simulator_refines_reference_witness :
    Closed abStarRegex.heap ∧ AcceptIsSink abStarRegex.heap ∧
    abStarRegex.start < abStarRegex.heap.length ∧ 0 ∉ str "ab" ∧
    ∃ (N : Nat) (b : Bool),
      (∀ fuel, N ≤ fuel →
        match_ fuel abStarRegex.heap [] abStarRegex.start (str "ab") = .ok (b, [])) ∧
      (b = true ↔ Ref.accepts abStarRegex.heap abStarRegex.start (str "ab")) :=
  ⟨closed_of_all _ (by decide), acceptIsSink_of_all _ (by decide), by decide, by decide,
    simulator_refines_reference abStarRegex.heap (closed_of_all _ (by decide))
      (acceptIsSink_of_all _ (by decide)) abStarRegex.start (by decide) (str "ab") (by decide)⟩

/-! ## The cases of one builder step -/

theorem step_cases (fuel tok : Nat) (b b1 : Builder) (hs : post2nfa.step fuel tok b = .ok b1) :
    (tok = chDot ∧ ((∃ e2 e1 rest, b.stack = e2 :: e1 :: rest ∧
        StateList.patch fuel b.heap e1.out e2.start = .ok b1.heap ∧
        b1.stack = ⟨e1.start, e2.out⟩ :: rest) ∨ (b.stack.length < 2 ∧ b1 = b))) ∨
    (tok = chBar ∧ ∃ e2 e1 rest h1, b.stack = e2 :: e1 :: rest ∧
        State.patch fuel (b.heap ++ [State.eps]) b.heap.length e1.start = .ok h1 ∧
        State.patch fuel h1 b.heap.length e2.start = .ok b1.heap ∧
        b1.stack = ⟨b.heap.length, StateList.addstate e1.out e2.out⟩ :: rest) ∨
    (tok = chStar ∧ ∃ e1 rest h1, b.stack = e1 :: rest ∧
        StateList.patch fuel (b.heap ++ [State.eps]) e1.out b.heap.length = .ok h1 ∧
        State.patch fuel h1 b.heap.length e1.start = .ok b1.heap ∧
        b1.stack = ⟨b.heap.length, [b.heap.length]⟩ :: rest) ∨
    (tok = chPlus ∧ ∃ e1 rest h1, b.stack = e1 :: rest ∧
        State.patch fuel (b.heap ++ [State.eps]) b.heap.length e1.start = .ok h1 ∧
        StateList.patch fuel h1 e1.out b.heap.length = .ok b1.heap ∧
        b1.stack = ⟨e1.start, e1.out⟩ :: rest) ∨
    (tok = chQuest ∧ ∃ e1 rest, b.stack = e1 :: rest ∧
        State.patch fuel (b.heap ++ [State.eps]) b.heap.length e1.start = .ok b1.heap ∧
        b1.stack = ⟨b.heap.length, StateList.addstate [b.heap.length] e1.out⟩ :: rest) ∨
    (tok ≠ chDot ∧ tok ≠ chBar ∧ tok ≠ chStar ∧ tok ≠ chPlus ∧ tok ≠ chQuest ∧
        b1 = ⟨b.heap ++ [State.lit tok], ⟨b.heap.length, [b.heap.length]⟩ :: b.stack⟩) := by
  obtain ⟨hp, st⟩ := b
  unfold post2nfa.step at hs
  simp only at hs ⊢
  by_cases h1 : tok = chDot
  · left
    refine ⟨h1, ?_⟩
    rw [if_pos h1] at hs
    split at hs
    · rename_i e2 e1 rest
      cases hr : StateList.patch fuel hp e1.out e2.start with
      | error e => simp [hr] at hs
      | ok h2 =>
        simp only [hr] at hs
        cases hs
        exact Or.inl ⟨e2, e1, rest, rfl, hr, rfl⟩
    · rename_i hne
      cases hs
      right
      refine ⟨?_, rfl⟩
      match st, hne with
      | [], _ => simp
      | [_], _ => simp
      | e2 :: e1 :: rest, hne => exact absurd rfl (hne e2 e1 rest)
  · rw [if_neg h1] at hs
    right
    by_cases h2 : tok = chBar
    · left
      refine ⟨h2, ?_⟩
      rw [if_pos h2] at hs
      split at hs
      · rename_i e2 e1 rest
        cases hr : State.patch fuel (hp ++ [State.eps]) hp.length e1.start with
        | error e => simp [hr] at hs
        | ok h3 =>
          simp only [hr] at hs
          cases hr2 : State.patch fuel h3 hp.length e2.start with
          | error e => simp [hr2] at hs
          | ok h4 =>
            simp only [hr2] at hs
            cases hs
            exact ⟨e2, e1, rest, h3, rfl, hr, hr2, rfl⟩
      · simp at hs
    · rw [if_neg h2] at hs
      right
      by_cases h3 : tok = chStar
      · left
        refine ⟨h3, ?_⟩
        rw [if_pos h3] at hs
        split at hs
        · rename_i e1 rest
          cases hr : StateList.patch fuel (hp ++ [State.eps]) e1.out hp.length with
          | error e => simp [hr] at hs
          | ok h4 =>
            simp only [hr] at hs
            cases hr2 : State.patch fuel h4 hp.length e1.start with
            | error e => simp [hr2] at hs
            | ok h5 =>
              simp only [hr2] at hs
              cases hs
              exact ⟨e1, rest, h4, rfl, hr, hr2, rfl⟩
        · simp at hs
      · rw [if_neg h3] at hs
        right
        by_cases h4 : tok = chPlus
        · left
          refine ⟨h4, ?_⟩
          rw [if_pos h4] at hs
          split at hs
          · rename_i e1 rest
            cases hr : State.patch fuel (hp ++ [State.eps]) hp.length e1.start with
            | error e => simp [hr] at hs
            | ok h5 =>
              simp only [hr] at hs
              cases hr2 : StateList.patch fuel h5 e1.out hp.length with
              | error e => simp [hr2] at hs
              | ok h6 =>
                simp only [hr2] at hs
                cases hs
                exact ⟨e1, rest, h5, rfl, hr, hr2, rfl⟩
          · simp at hs
        · rw [if_neg h4] at hs
          right
          by_cases h5 : tok = chQuest
          · left
            refine ⟨h5, ?_⟩
            rw [if_pos h5] at hs
            split at hs
            · rename_i e1 rest
              cases hr : State.patch fuel (hp ++ [State.eps]) hp.length e1.start with
              | error e => simp [hr] at hs
              | ok h6 =>
                simp only [hr] at hs
                cases hs
                exact ⟨e1, rest, rfl, hr, rfl⟩
            · simp at hs
          · rw [if_neg h5] at hs
            right
            cases hs
            exact ⟨h1, h2, h3, h4, h5, rfl⟩
/-! ## The accept state of a compiled automaton -/

theorem conn_refl (h : Heap) (x : Nat) : Conn h x x := ⟨[], Reach.refl x⟩

theorem conn_trans {h : Heap} {x y z : Nat} (a : Conn h x y) (b : Conn h y z) : Conn h x z := by
  obtain ⟨u, hu⟩ := a
  obtain ⟨v, hv⟩ := b
  exact ⟨u ++ v, reach_trans hu hv⟩

theorem conn_mono {h h1 : Heap} (he : Extends h h1) {x y : Nat} (a : Conn h x y) :
    Conn h1 x y := by
  obtain ⟨u, hu⟩ := a
  exact ⟨u, reach_mono he hu⟩

theorem conn_edge {h : Heap} {x y : Nat} {st : State} (hi : h[x]? = some st)
    (hy : y ∈ st.outs) : Conn h x y := by
  by_cases h0 : st.c = 0
  · exact ⟨[], Reach.eps x y y st [] hi h0 hy (Reach.refl y)⟩
  · exact ⟨[st.c], Reach.char x y y st [] hi h0 hy (Reach.refl y)⟩

theorem getElem?_set_self_some {α : Type} (l : List α) (i : Nat) (a b : α)
    (hi : l[i]? = some a) : (l.set i b)[i]? = some b := by
  have hlt : i < l.length := by
    by_contra hge
    rw [List.getElem?_eq_none (by omega)] at hi
    exact Option.noConfusion hi
  rw [List.getElem?_set]
  simp [hlt]

theorem patch_reaches : ∀ (fuel : Nat) (h : Heap) (i s : Nat) (h1 : Heap),
    State.patch fuel h i s = .ok h1 → Conn h1 i s := by
  intro fuel
  induction fuel with
  | zero => intro h i s h1 hp; simp [State.patch] at hp
  | succ f ih =>
    intro h i s h1 hp
    have hext := patch_extends (f + 1) h i s h1 hp
    rw [State.patch] at hp
    cases hi : h[i]? with
    | none => simp [hi] at hp
    | some st =>
      simp only [hi] at hp
      cases ho1 : st.out1 with
      | none =>
        simp only [ho1] at hp
        cases hp
        exact conn_edge (getElem?_set_self_some h i st _ hi) (by simp [State.outs])
      | some o1 =>
        simp only [ho1] at hp
        cases ho2 : st.out2 with
        | none =>
          simp only [ho2] at hp
          cases hp
          exact conn_edge (getElem?_set_self_some h i st _ hi) (by simp [State.outs])
        | some o2 =>
          simp only [ho2] at hp
          cases hr : State.patch f h o1 s with
          | error e => simp [hr] at hp
          | ok h2 =>
            simp only [hr] at hp
            obtain ⟨st1, hi1, e⟩ := hext i st hi
            exact conn_trans (conn_edge hi1 (by simp [State.outs, e.2.2.2 o2 ho2]))
              (ih h2 o2 s h1 hp)

theorem list_patch_reaches (fuel : Nat) (l : List Nat) : ∀ (h : Heap) (s : Nat) (h1 : Heap),
    StateList.patch fuel h l s = .ok h1 → ∀ d ∈ l, Conn h1 d s := by
  induction l with
  | nil => intro h s h1 _ d hd; simp at hd
  | cons x xs ih =>
    intro h s h1 hp d hd
    rw [StateList.patch] at hp
    cases hr : State.patch fuel h x s with
    | error e => simp [hr] at hp
    | ok h2 =>
      simp only [hr] at hp
      rcases List.mem_cons.1 hd with rfl | hd
      · exact conn_mono (list_patch_extends fuel xs h2 s h1 hp) (patch_reaches fuel h d s h2 hr)
      · exact ih h2 s h1 hp d hd

theorem set_flags (h : Heap) (i : Nat) (st st1 : State) (hi : h[i]? = some st)
    (hf : st1.is_match_state = st.is_match_state) :
    (h.set i st1).map State.is_match_state = h.map State.is_match_state := by
  apply List.ext_getElem?
  intro k
  rw [List.getElem?_map, List.getElem?_map, List.getElem?_set]
  by_cases hik : i = k
  · subst hik
    have hlt : i < h.length := by
      by_contra hge
      rw [List.getElem?_eq_none (by omega)] at hi
      exact Option.noConfusion hi
    simp [hlt, hi, hf]
  · simp [hik]

theorem patch_flags : ∀ (fuel : Nat) (h : Heap) (i s : Nat) (h1 : Heap),
    State.patch fuel h i s = .ok h1 →
    h1.map State.is_match_state = h.map State.is_match_state := by
  intro fuel
  induction fuel with
  | zero => intro h i s h1 hp; simp [State.patch] at hp
  | succ f ih =>
    intro h i s h1 hp
    rw [State.patch] at hp
    cases hi : h[i]? with
    | none => simp [hi] at hp
    | some st =>
      simp only [hi] at hp
      cases ho1 : st.out1 with
      | none =>
        simp only [ho1] at hp
        cases hp
        exact set_flags h i st _ hi rfl
      | some o1 =>
        simp only [ho1] at hp
        cases ho2 : st.out2 with
        | none =>
          simp only [ho2] at hp
          cases hp
          exact set_flags h i st _ hi rfl
        | some o2 =>
          simp only [ho2] at hp
          cases hr : State.patch f h o1 s with
          | error e => simp [hr] at hp
          | ok h2 =>
            simp only [hr] at hp
            rw [ih h2 o2 s h1 hp, ih h o1 s h2 hr]

theorem list_patch_flags (fuel : Nat) (l : List Nat) : ∀ (h : Heap) (s : Nat) (h1 : Heap),
    StateList.patch fuel h l s = .ok h1 →
    h1.map State.is_match_state = h.map State.is_match_state := by
  induction l with
  | nil =>
    intro h s h1 hp
    simp only [StateList.patch] at hp
    cases hp
    rfl
  | cons x xs ih =>
    intro h s h1 hp
    rw [StateList.patch] at hp
    cases hr : State.patch fuel h x s with
    | error e => simp [hr] at hp
    | ok h2 =>
      simp only [hr] at hp
      rw [ih h2 s h1 hp, patch_flags fuel h x s h2 hr]

theorem flags_all_false (h h1 : Heap) (B : Heap)
    (hm : h1.map State.is_match_state = (h ++ B).map State.is_match_state)
    (hh : ∀ st ∈ h, st.is_match_state = false) (hB : ∀ st ∈ B, st.is_match_state = false) :
    ∀ st ∈ h1, st.is_match_state = false := by
  intro st hst
  have : st.is_match_state ∈ h1.map State.is_match_state := List.mem_map_of_mem _ hst
  rw [hm] at this
  obtain ⟨st2, hst2, e⟩ := List.mem_map.1 this
  rw [← e]
  rcases List.mem_append.1 hst2 with h2 | h2
  · exact hh st2 h2
  · exact hB st2 h2

theorem step_linked (fuel tok : Nat) (b b1 : Builder) (hl : b.Linked)
    (hs : post2nfa.step fuel tok b = .ok b1) : b1.Linked := by
  obtain ⟨hfl, hst⟩ := hl
  have hext := step_extends fuel tok b b1 hs
  have hrest : ∀ e ∈ b.stack, e.out ≠ [] ∧ ∀ d ∈ e.out, Conn b1.heap e.start d :=
    fun e he => ⟨(hst e he).1, fun d hd => conn_mono hext ((hst e he).2 d hd)⟩
  have heps : ∀ st ∈ [State.eps], st.is_match_state = false := by
    intro st hs; rw [List.mem_singleton.1 hs]; rfl
  rcases step_cases fuel tok b b1 hs with
    ⟨-, ⟨e2, e1, rest, hb, hp, hb1⟩ | ⟨-, rfl⟩⟩ | ⟨-, e2, e1, rest, h1, hb, hp1, hp2, hb1⟩ |
    ⟨-, e1, rest, h1, hb, hp1, hp2, hb1⟩ | ⟨-, e1, rest, h1, hb, hp1, hp2, hb1⟩ |
    ⟨-, e1, rest, hb, hp1, hb1⟩ | ⟨-, -, -, -, -, rfl⟩
  · refine ⟨flags_all_false b.heap b1.heap [] ?_ hfl (by simp), ?_⟩
    · rw [List.append_nil]; exact list_patch_flags fuel _ _ _ _ hp
    · intro e he
      rw [hb1] at he
      rcases List.mem_cons.1 he with rfl | he
      · have h1 := hrest e1 (by rw [hb]; simp)
        have h2 := hrest e2 (by rw [hb]; simp)
        refine ⟨h2.1, fun d hd => ?_⟩
        obtain ⟨d1, hd1⟩ := List.exists_mem_of_ne_nil _ h1.1
        exact conn_trans (h1.2 d1 hd1)
          (conn_trans (list_patch_reaches fuel _ _ _ _ hp d1 hd1) (h2.2 d hd))
      · exact hrest e (by rw [hb]; simp [he])
  · exact ⟨hfl, hst⟩
  · have c1 : Conn b1.heap b.heap.length e1.start :=
      conn_mono (patch_extends fuel _ _ _ _ hp2) (patch_reaches fuel _ _ _ _ hp1)
    have c2 : Conn b1.heap b.heap.length e2.start := patch_reaches fuel _ _ _ _ hp2
    refine ⟨flags_all_false b.heap b1.heap [State.eps] ?_ hfl heps, ?_⟩
    · rw [patch_flags fuel _ _ _ _ hp2, patch_flags fuel _ _ _ _ hp1]
    · intro e he
      rw [hb1] at he
      rcases List.mem_cons.1 he with rfl | he
      · have h1 := hrest e1 (by rw [hb]; simp)
        have h2 := hrest e2 (by rw [hb]; simp)
        refine ⟨?_, fun d hd => ?_⟩
        · obtain ⟨d1, hd1⟩ := List.exists_mem_of_ne_nil _ h1.1
          exact List.ne_nil_of_mem ((mem_addstate d1 e2.out e1.out).2 (Or.inl hd1))
        · rcases (mem_addstate d e2.out e1.out).1 hd with hd | hd
          · exact conn_trans c1 (h1.2 d hd)
          · exact conn_trans c2 (h2.2 d hd)
      · exact hrest e (by rw [hb]; simp [he])
  · refine ⟨flags_all_false b.heap b1.heap [State.eps] ?_ hfl heps, ?_⟩
    · rw [patch_flags fuel _ _ _ _ hp2, list_patch_flags fuel _ _ _ _ hp1]
    · intro e he
      rw [hb1] at he
      rcases List.mem_cons.1 he with rfl | he
      · refine ⟨by simp, fun d hd => ?_⟩
        rw [List.mem_singleton.1 hd]
        exact conn_refl _ _
      · exact hrest e (by rw [hb]; simp [he])
  · refine ⟨flags_all_false b.heap b1.heap [State.eps] ?_ hfl heps, ?_⟩
    · rw [list_patch_flags fuel _ _ _ _ hp2, patch_flags fuel _ _ _ _ hp1]
    · intro e he
      rw [hb1] at he
      rcases List.mem_cons.1 he with rfl | he
      · exact hrest e1 (by rw [hb]; simp)
      · exact hrest e (by rw [hb]; simp [he])
  · have c1 : Conn b1.heap b.heap.length e1.start := patch_reaches fuel _ _ _ _ hp1
    refine ⟨flags_all_false b.heap b1.heap [State.eps] ?_ hfl heps, ?_⟩
    · rw [patch_flags fuel _ _ _ _ hp1]
    · intro e he
      rw [hb1] at he
      rcases List.mem_cons.1 he with rfl | he
      · have h1 := hrest e1 (by rw [hb]; simp)
        refine ⟨?_, fun d hd => ?_⟩
        · exact List.ne_nil_of_mem
            ((mem_addstate b.heap.length e1.out [b.heap.length]).2 (Or.inl (by simp)))
        · rcases (mem_addstate d e1.out [b.heap.length]).1 hd with hd | hd
          · rw [List.mem_singleton.1 hd]
            exact conn_refl _ _
          · exact conn_trans c1 (h1.2 d hd)
      · exact hrest e (by rw [hb]; simp [he])
  · refine ⟨?_, ?_⟩
    · intro st hs
      rcases List.mem_append.1 hs with hs | hs
      · exact hfl st hs
      · rw [List.mem_singleton.1 hs]; rfl
    · intro e he
      rcases List.mem_cons.1 he with rfl | he
      · refine ⟨by simp, fun d hd => ?_⟩
        rw [List.mem_singleton.1 hd]
        exact conn_refl _ _
      · exact hrest e he

theorem loop_linked (fuel : Nat) (post : List Nat) : ∀ (b b1 : Builder), b.Linked →
    post2nfa.loop fuel post b = .ok b1 → b1.Linked := by
  induction post with
  | nil =>
    intro b b1 hv hl
    simp only [post2nfa.loop] at hl
    cases hl
    exact hv
  | cons tok rest ih =>
    intro b b1 hv hl
    rw [post2nfa.loop] at hl
    by_cases h0 : tok = 0
    · rw [if_pos h0] at hl
      cases hl
      exact hv
    · rw [if_neg h0] at hl
      cases hs : post2nfa.step fuel tok b with
      | error e => simp [hs] at hl
      | ok b2 =>
        simp only [hs] at hl
        exact ih b2 b1 (step_linked fuel tok b b2 hv hs) hl

theorem post2nfa_accept (fuel : Nat) (post : List Nat) (h : Heap) (start : Nat)
    (hp : post2nfa fuel post = .ok (h, start)) :
    ∃ b, post2nfa.loop fuel post ⟨[], []⟩ = .ok b ∧ h.length = b.heap.length + 1 ∧
      Conn h start b.heap.length ∧
      ∀ (i : Nat) (st : State), h[i]? = some st →
        (st.is_match_state = true ↔ i = b.heap.length) := by
  unfold post2nfa post2nfa.run at hp
  cases hl : post2nfa.loop fuel post ⟨[], []⟩ with
  | error e => simp [hl] at hp
  | ok b =>
    simp only [hl] at hp
    have hlk : b.Linked := loop_linked fuel post ⟨[], []⟩ b
      ⟨fun st hs => by simp at hs, fun e he => by simp at he⟩ hl
    have hext := finish_extends fuel b h start hp
    obtain ⟨hp0, st0⟩ := b
    obtain ⟨hfl, hst⟩ := hlk
    simp only at hfl hst hext
    unfold post2nfa.finish at hp
    simp only at hp
    split at hp
    · simp at hp
    · rename_i e rest
      cases hr : StateList.patch fuel (hp0 ++ [State.ofBool true]) e.out hp0.length with
      | error e => simp [hr] at hp
      | ok h1 =>
        simp only [hr, Except.ok.injEq, Prod.mk.injEq] at hp
        obtain ⟨rfl, rfl⟩ := hp
        have hm := list_patch_flags fuel _ _ _ _ hr
        have hlen : h1.length = hp0.length + 1 := by
          have := congrArg List.length hm
          simpa using this
        refine ⟨_, rfl, hlen, ?_, ?_⟩
        · obtain ⟨hne, hc⟩ := hst e (by simp)
          obtain ⟨d, hd⟩ := List.exists_mem_of_ne_nil _ hne
          exact conn_trans (conn_mono hext (hc d hd)) (list_patch_reaches fuel _ _ _ _ hr d hd)
        · intro i st hi
          have h2 : (h1.map State.is_match_state)[i]? = some st.is_match_state := by
            rw [List.getElem?_map, hi]; rfl
          rw [hm, List.map_append] at h2
          by_cases hlt : i < hp0.length
          · rw [List.getElem?_append_left (by simpa using hlt), List.getElem?_map] at h2
            have h3 : hp0[i]? = some hp0[i] := List.getElem?_eq_getElem hlt
            rw [h3] at h2
            have h4 := hfl hp0[i] (List.getElem_mem hlt)
            simp only [Option.map_some', Option.some.injEq] at h2
            rw [← h2, h4]
            simp only [Bool.false_eq_true, false_iff]
            omega
          · have hi2 : i < h1.length := by
              by_contra hge
              rw [List.getElem?_eq_none (by omega)] at hi
              exact Option.noConfusion hi
            have hie : i = hp0.length := by omega
            subst hie
            rw [List.getElem?_append_right (by simp)] at h2
            simp [State.ofBool] at h2
            simp [← h2]

/-- With the uninitialised fields reading false: in the automaton of every pattern that
compiles, the state that `post2nfa` allocates after its loop for the final patch (the last state of the heap) can be reached from the start
state along out-edges, and it is the only state with `is_match_state` set. -/
theorem one_accept_state (fuel : Nat) (p : List Nat) (r : Regex)
    (hr : Regex.new fuel p = .ok r) :
    ∃ post b, infix2postfix fuel p = .ok post ∧ post2nfa.loop fuel post ⟨[], []⟩ = .ok b ∧
      r.heap.length = b.heap.length + 1 ∧ Conn r.heap r.start b.heap.length ∧
      ∀ (i : Nat) (st : State), r.heap[i]? = some st →
        (st.is_match_state = true ↔ i = b.heap.length) := by
  unfold Regex.new at hr
  cases h1 : infix2postfix fuel p with
  | error e => simp [h1] at hr
  | ok post =>
    simp only [h1] at hr
    cases h2 : post2nfa fuel post with
    | error e => simp [h2] at hr
    | ok hs =>
      obtain ⟨h, start⟩ := hs
      simp only [h2] at hr
      cases hr
      obtain ⟨b, hb, hlen, hc, hfl⟩ := post2nfa_accept fuel post h start h2
      exact ⟨post, b, rfl, hb, hlen, hc, hfl⟩

/-- Instance of `one_accept_state` at the regex compiled from `(a|b)*`, whose accept state is
state `4`. -/
theorem one_accept_state_witness :
    Regex.new 20 (str "(a|b)*") = .ok abStarRegex ∧
    ∃ post b, infix2postfix 20 (str "(a|b)*") = .ok post ∧
      post2nfa.loop 20 post ⟨[], []⟩ = .ok b ∧
      abStarRegex.heap.length = b.heap.length + 1 ∧
      Conn abStarRegex.heap abStarRegex.start b.heap.length ∧
      ∀ (i : Nat) (st : State), abStarRegex.heap[i]? = some st →
        (st.is_match_state = true ↔ i = b.heap.length) :=
  ⟨by decide, one_accept_state 20 (str "(a|b)*") abStarRegex (by decide)⟩

/-! ## The shunting yard on a printed syntax tree -/

theorem popWhile_pending (cond : Nat → Bool) (pend : List Nat) :
    ∀ (out st : List Nat), (∀ c ∈ pend, cond c = true) →
    (∀ c, st.head? = some c → cond c = false) →
    infix2postfix.popWhile cond out (pend ++ st) = (out ++ pend, st) := by
  induction pend with
  | nil =>
    intro out st _ hst
    cases st with
    | nil => simp [ infix2postfix.popWhile]
    | cons c cs => simp [ infix2postfix.popWhile, hst c rfl]
  | cons p ps ih =>
    intro out st hp hst
    rw [List.cons_append, infix2postfix.popWhile, if_pos (hp p (List.mem_cons_self p ps)),
      ih (out ++ [p]) st (fun c hc => hp c (List.mem_cons_of_mem p hc)) hst]
    simp

/-- The shunting yard on one of the five characters of the precedence table: pop while the
top of the stack binds at least as tightly, then push. -/
theorem shunt_operator (c : Nat)
    (hc : c = chStar ∨ c = chPlus ∨ c = chQuest ∨ c = chDot ∨ c = chBar)
    (cs out st : List Nat) :
    infix2postfix.shunt (c :: cs) out st =
      infix2postfix.shunt cs
        ( infix2postfix.popWhile (fun t => decide (precedence t ≥ precedence c)) out st).1
        (c :: ( infix2postfix.popWhile (fun t => decide (precedence t ≥ precedence c)) out st).2)
    := by
  rcases hc with rfl | rfl | rfl | rfl | rfl <;>
    simp [ infix2postfix.shunt, inPrecedence, chStar, chPlus, chQuest, chDot, chBar, chLParen,
      chRParen]

theorem shunt_rparen (cs out out1 st st1 : List Nat)
    (hp : infix2postfix.popWhile (fun t => t != chLParen) out st = (out1, chLParen :: st1)) :
    infix2postfix.shunt (chRParen :: cs) out st = infix2postfix.shunt cs out1 st1 := by
  simp [ infix2postfix.shunt, chRParen, chLParen] at hp ⊢
  rw [hp]

theorem re_prec_pos (t : RE) : 1 ≤ t.prec := by
  cases t <;> simp [RE.prec]

theorem precedence_lparen : precedence chLParen = 0 := by decide

theorem shunt_paren (t : RE) (ht : ShuntOK t) (out st rest : List Nat) :
    infix2postfix.shunt (paren true t.print ++ rest) out st =
      infix2postfix.shunt rest (out ++ t.postorder) st := by
  have hpos := re_prec_pos t
  obtain ⟨out1, pend, h1, h2, h3⟩ := ht out (chLParen :: st) (chRParen :: rest)
    (fun c hc => by
      simp only [List.head?_cons, Option.some.injEq] at hc
      rw [← hc, precedence_lparen]; omega)
  simp only [paren, if_true, List.cons_append, List.append_assoc, List.singleton_append,
    List.nil_append]
  rw [shunt_lparen, h1]
  have hp := popWhile_pending (fun t => t != chLParen) pend out1 (chLParen :: st)
    (fun c hc => by
      have := h3 c hc
      have hne : c ≠ chLParen := by
        intro e; rw [e, precedence_lparen] at this; omega
      simpa using hne)
    (fun c hc => by
      simp only [List.head?_cons, Option.some.injEq] at hc
      simp [← hc])
  rw [shunt_rparen _ _ _ _ _ hp, h2]

theorem shunt_operand_then (r : RE) (hr : ShuntOK r) (b : Bool) (c : Nat)
    (hc : c = chStar ∨ c = chPlus ∨ c = chQuest ∨ c = chDot ∨ c = chBar)
    (hb : b = false → precedence c ≤ r.prec) (out st rest : List Nat)
    (hst : ∀ x, st.head? = some x → precedence x < precedence c) :
    infix2postfix.shunt (paren b r.print ++ c :: rest) out st =
      infix2postfix.shunt rest (out ++ r.postorder) (c :: st) := by
  cases b with
  | true =>
    rw [shunt_paren r hr, shunt_operator c hc]
    have := popWhile_pending (fun t => decide (precedence t ≥ precedence c)) []
      (out ++ r.postorder) st (by simp) (fun x hx => by
        have := hst x hx
        simp only [ge_iff_le, decide_eq_false_iff_not, not_le]
        exact this)
    simp only [List.nil_append, List.append_nil] at this
    rw [this]
  | false =>
    have hle := hb rfl
    obtain ⟨out1, pend, h1, h2, h3⟩ := hr out st (c :: rest)
      (fun x hx => lt_of_lt_of_le (hst x hx) hle)
    simp only [paren, Bool.false_eq_true, if_false]
    rw [h1, shunt_operator c hc]
    have := popWhile_pending (fun t => decide (precedence t ≥ precedence c)) pend out1 st
      (fun x hx => by
        have := h3 x hx
        simp only [ge_iff_le, decide_eq_true_eq]
        omega)
      (fun x hx => by
        have := hst x hx
        simp only [ge_iff_le, decide_eq_false_iff_not, not_le]
        exact this)
    rw [this, h2]

theorem shuntOK_unary (r : RE) (hr : ShuntOK r) (c : Nat)
    (hc : c = chStar ∨ c = chPlus ∨ c = chQuest) (out st rest : List Nat)
    (hst : ∀ x, st.head? = some x → precedence x < 3) :
    ∃ out1 pend, infix2postfix.shunt
        ((paren (decide (r.prec < 3)) r.print ++ [c]) ++ rest) out st =
        infix2postfix.shunt rest out1 (pend ++ st) ∧
      out1 ++ pend = out ++ (r.postorder ++ [c]) ∧ ∀ x ∈ pend, 3 ≤ precedence x := by
  have hp : precedence c = 3 := by
    rcases hc with rfl | rfl | rfl <;> decide
  have hc5 : c = chStar ∨ c = chPlus ∨ c = chQuest ∨ c = chDot ∨ c = chBar := by
    rcases hc with h | h | h <;> simp [h]
  refine ⟨out ++ r.postorder, [c], ?_, by simp, ?_⟩
  · rw [List.append_assoc, List.singleton_append,
      shunt_operand_then r hr _ c hc5 (fun hb => by
        rw [hp]
        simp only [decide_eq_false_iff_not, not_lt] at hb
        exact hb) out st rest (fun x hx => by rw [hp]; exact hst x hx)]
    rfl
  · intro x hx
    rw [List.mem_singleton.1 hx, hp]

theorem shuntOK_binary (r s : RE) (hr : ShuntOK r) (hs : ShuntOK s) (c q : Nat)
    (hc : c = chDot ∨ c = chBar) (hq : precedence c = q) (out st rest : List Nat)
    (hst : ∀ x, st.head? = some x → precedence x < q) :
    ∃ out1 pend, infix2postfix.shunt
        ((paren (decide (r.prec < q)) r.print ++ c :: paren (decide (s.prec ≤ q)) s.print)
          ++ rest) out st =
        infix2postfix.shunt rest out1 (pend ++ st) ∧
      out1 ++ pend = out ++ (r.postorder ++ s.postorder ++ [c]) ∧
      ∀ x ∈ pend, q ≤ precedence x := by
  have hc5 : c = chStar ∨ c = chPlus ∨ c = chQuest ∨ c = chDot ∨ c = chBar := by
    rcases hc with h | h <;> simp [h]
  have e1 : (paren (decide (r.prec < q)) r.print ++ c :: paren (decide (s.prec ≤ q)) s.print)
      ++ rest = paren (decide (r.prec < q)) r.print ++
        c :: (paren (decide (s.prec ≤ q)) s.print ++ rest) := by simp
  rw [e1, shunt_operand_then r hr _ c hc5 (fun hb => by
    rw [hq]
    simp only [decide_eq_false_iff_not, not_lt] at hb
    exact hb) out st _ (fun x hx => by rw [hq]; exact hst x hx)]
  by_cases hsp : s.prec ≤ q
  · refine ⟨out ++ r.postorder ++ s.postorder, [c], ?_, by simp, ?_⟩
    · simp only [hsp, decide_True]
      rw [shunt_paren s hs]
      rfl
    · intro x hx
      rw [List.mem_singleton.1 hx, hq]
  · obtain ⟨out1, pend, h1, h2, h3⟩ := hs (out ++ r.postorder) (c :: st) rest
      (fun x hx => by
        simp only [List.head?_cons, Option.some.injEq] at hx
        rw [← hx, hq]; omega)
    refine ⟨out1, pend ++ [c], ?_, ?_, ?_⟩
    · simp only [hsp, decide_False, paren, Bool.false_eq_true, if_false]
      rw [h1]
      simp
    · rw [← List.append_assoc, h2]
      simp
    · intro x hx
      rcases List.mem_append.1 hx with hx | hx
      · have := h3 x hx
        omega
      · rw [List.mem_singleton.1 hx, hq]

theorem shuntOK_all (t : RE) (ha : t.atomic) : ShuntOK t := by
  induction t with
  | lit a =>
    intro out st rest _
    refine ⟨out ++ [a], [], ?_, by simp [RE.postorder], by simp⟩
    simp only [RE.print, List.singleton_append, List.nil_append]
    exact shunt_atom a ha rest out st
  | cat r s ihr ihs =>
    intro out st rest hst
    exact shuntOK_binary r s (ihr ha.1) (ihs ha.2) chDot 2 (Or.inl rfl) (by decide) out st rest hst
  | alt r s ihr ihs =>
    intro out st rest hst
    exact shuntOK_binary r s (ihr ha.1) (ihs ha.2) chBar 1 (Or.inr rfl) (by decide) out st rest hst
  | star r ih =>
    intro out st rest hst
    exact shuntOK_unary r (ih ha) chStar (Or.inl rfl) out st rest hst
  | plus r ih =>
    intro out st rest hst
    exact shuntOK_unary r (ih ha) chPlus (Or.inr (Or.inl rfl)) out st rest hst
  | opt r ih =>
    intro out st rest hst
    exact shuntOK_unary r (ih ha) chQuest (Or.inr (Or.inr rfl)) out st rest hst

theorem shunt_print (t : RE) (ha : t.atomic) :
    ∃ out st, infix2postfix.shunt t.print [] [] = .ok (out, st) ∧ out ++ st = t.postorder := by
  obtain ⟨out1, pend, h1, h2, -⟩ := shuntOK_all t ha [] [] [] (by simp)
  refine ⟨out1, pend, ?_, by simpa using h2⟩
  simpa [ infix2postfix.shunt] using h1

/-! ## The insertion loops leave a printed syntax tree as it is -/

theorem chainOK_append (x : List Nat) : ∀ (prev : Nat) (y : List Nat),
    chainOK prev (x ++ y) = (chainOK prev x && chainOK (lastOr prev x) y) := by
  induction x with
  | nil => intro prev y; simp [chainOK, lastOr]
  | cons c cs ih =>
    intro prev y
    rw [List.cons_append, chainOK, chainOK, lastOr, ih c y]
    simp only [Bool.and_assoc]

theorem lastOr_snoc (l : List Nat) : ∀ (p y : Nat), lastOr p (l ++ [y]) = y := by
  induction l with
  | nil => intro p y; rfl
  | cons c cs ih => intro p y; exact ih c y

theorem okPair_after_opener (x y : Nat) (hx : x = chDot ∨ x = chBar ∨ x = chLParen) :
    okPair x y = true := by
  rcases hx with rfl | rfl | rfl <;>
    simp [okPair, is_operator, isQuant, chDot, chBar, chLParen, chRParen, chStar, chPlus,
      chQuest]

theorem okPair_before_operator (x y : Nat)
    (hy : y = chStar ∨ y = chPlus ∨ y = chQuest ∨ y = chDot ∨ y = chBar ∨ y = chRParen) :
    okPair x y = true := by
  rcases hy with rfl | rfl | rfl | rfl | rfl | rfl <;>
    simp [okPair, is_operator, chDot, chBar, chLParen, chRParen, chStar, chPlus, chQuest]

theorem chainOK_snoc (s : List Nat) (prev y : Nat)
    (hy : y = chStar ∨ y = chPlus ∨ y = chQuest ∨ y = chDot ∨ y = chBar ∨ y = chRParen)
    (hs : chainOK prev s = true) : chainOK prev (s ++ [y]) = true := by
  rw [chainOK_append, hs]
  have h0 : y ≠ 0 := by
    rcases hy with rfl | rfl | rfl | rfl | rfl | rfl <;> decide
  simp [chainOK, okPair_before_operator _ y hy, h0]

theorem chainOK_paren (s : List Nat) (b : Bool) (prev : Nat)
    (hp : prev = chDot ∨ prev = chBar ∨ prev = chLParen)
    (hs : ∀ p, (p = chDot ∨ p = chBar ∨ p = chLParen) → chainOK p s = true) :
    chainOK prev (paren b s) = true := by
  cases b with
  | false => exact hs prev hp
  | true =>
    have h1 := chainOK_snoc s chLParen chRParen (by simp) (hs chLParen (by simp))
    have e : paren true s = chLParen :: (s ++ [chRParen]) := by simp [paren]
    rw [e, chainOK, h1, okPair_after_opener prev chLParen hp]
    decide

theorem chainOK_print (t : RE) (ha : t.atomic) :
    ∀ p, (p = chDot ∨ p = chBar ∨ p = chLParen) → chainOK p t.print = true := by
  induction t with
  | lit a =>
    intro p hp
    have h0 : a ≠ 0 := isAtom_ne_zero ha
    simp [RE.print, chainOK, okPair_after_opener p a hp, h0]
  | cat r s ihr ihs =>
    intro p hp
    have h1 := chainOK_snoc _ p chDot (by simp)
      (chainOK_paren r.print (decide (r.prec < 2)) p hp (ihr ha.1))
    have h2 := chainOK_paren s.print (decide (s.prec ≤ 2)) chDot (by simp) (ihs ha.2)
    have e : RE.print (.cat r s) = (paren (decide (r.prec < 2)) r.print ++ [chDot]) ++
        paren (decide (s.prec ≤ 2)) s.print := by simp [RE.print]
    rw [e, chainOK_append, h1, lastOr_snoc, h2]
    rfl
  | alt r s ihr ihs =>
    intro p hp
    have h1 := chainOK_snoc _ p chBar (by simp)
      (chainOK_paren r.print (decide (r.prec < 1)) p hp (ihr ha.1))
    have h2 := chainOK_paren s.print (decide (s.prec ≤ 1)) chBar (by simp) (ihs ha.2)
    have e : RE.print (.alt r s) = (paren (decide (r.prec < 1)) r.print ++ [chBar]) ++
        paren (decide (s.prec ≤ 1)) s.print := by simp [RE.print]
    rw [e, chainOK_append, h1, lastOr_snoc, h2]
    rfl
  | star r ih =>
    intro p hp
    exact chainOK_snoc _ p chStar (by simp)
      (chainOK_paren r.print (decide (r.prec < 3)) p hp (ih ha))
  | plus r ih =>
    intro p hp
    exact chainOK_snoc _ p chPlus (by simp)
      (chainOK_paren r.print (decide (r.prec < 3)) p hp (ih ha))
  | opt r ih =>
    intro p hp
    exact chainOK_snoc _ p chQuest (by simp)
      (chainOK_paren r.print (decide (r.prec < 3)) p hp (ih ha))

theorem norm1_chainOK (s : List Nat) : ∀ prev, chainOK prev s = true →
    norm1 (!is_operator prev) s = s := by
  induction s with
  | nil => intro prev _; rfl
  | cons c cs ih =>
    intro prev hs
    simp only [chainOK, Bool.and_eq_true, bne_iff_ne, ne_eq] at hs
    obtain ⟨⟨h0, hp⟩, hcs⟩ := hs
    have hn : ¬ ((!is_operator c && !is_operator prev) = true) := by
      intro h
      simp only [okPair, Bool.and_eq_true, Bool.not_eq_true'] at hp
      have := hp.1.1
      rw [Bool.and_comm] at h
      simp [h] at this
    rw [norm1, if_neg h0, if_neg hn, ih c hcs]

theorem norm2_chainOK (s : List Nat) : ∀ prev, chainOK prev s = true →
    norm2 (!is_operator prev || prev == chRParen) s = s := by
  induction s with
  | nil => intro prev _; rfl
  | cons c cs ih =>
    intro prev hs
    simp only [chainOK, Bool.and_eq_true, bne_iff_ne, ne_eq] at hs
    obtain ⟨⟨h0, hp⟩, hcs⟩ := hs
    simp only [okPair, Bool.and_eq_true, Bool.not_eq_true'] at hp
    have hn1 : ¬ ((c == chLParen && (!is_operator prev || prev == chRParen)) = true) := by
      rw [hp.1.2]; simp
    have hn2 : ¬ ((isQuant c && !cs.isEmpty && !is_operator (cs.headD 0)) = true) := by
      cases cs with
      | nil => simp
      | cons d ds =>
        simp only [chainOK, Bool.and_eq_true, bne_iff_ne, ne_eq, okPair,
          Bool.not_eq_true'] at hcs
        have := hcs.1.2.2
        simp only [List.isEmpty_cons, Bool.not_false, Bool.and_true, List.headD_cons]
        rw [this]; simp
    rw [norm2, if_neg h0, if_neg hn1, if_neg hn2, ih c hcs]

theorem normalize_print (t : RE) (ha : t.atomic) :
    norm2 false (norm1 false t.print) = t.print := by
  have h := chainOK_print t ha chDot (Or.inl rfl)
  have h1 := norm1_chainOK t.print chDot h
  have h2 := norm2_chainOK t.print chDot h
  have e1 : (!is_operator chDot) = false := by decide
  have e2 : (!is_operator chDot || chDot == chRParen) = false := by decide
  rw [e1] at h1
  rw [e2] at h2
  rw [h1, h2]

theorem filter_paren (b : Bool) (s : List Nat) :
    (paren b s).filter isAtom = s.filter isAtom := by
  cases b with
  | false => rfl
  | true =>
    have e1 : isAtom chLParen = false := by decide
    have e2 : isAtom chRParen = false := by decide
    simp [paren, List.filter_cons, e1, e2]

theorem postorder_leaves (t : RE) (ha : t.atomic) : t.postorder.filter isAtom = t.leaves := by
  have e1 : isAtom chDot = false := by decide
  have e2 : isAtom chBar = false := by decide
  have e3 : isAtom chStar = false := by decide
  have e4 : isAtom chPlus = false := by decide
  have e5 : isAtom chQuest = false := by decide
  induction t with
  | lit a =>
    have : isAtom a = true := ha
    simp [RE.postorder, RE.leaves, this]
  | cat r s ihr ihs => simp [RE.postorder, RE.leaves, ihr ha.1, ihs ha.2, e1]
  | alt r s ihr ihs => simp [RE.postorder, RE.leaves, ihr ha.1, ihs ha.2, e2]
  | star r ih => simp [RE.postorder, RE.leaves, ih ha, e3]
  | plus r ih => simp [RE.postorder, RE.leaves, ih ha, e4]
  | opt r ih => simp [RE.postorder, RE.leaves, ih ha, e5]

theorem print_leaves (t : RE) (ha : t.atomic) : t.print.filter isAtom = t.leaves := by
  have e1 : isAtom chDot = false := by decide
  have e2 : isAtom chBar = false := by decide
  have e3 : isAtom chStar = false := by decide
  have e4 : isAtom chPlus = false := by decide
  have e5 : isAtom chQuest = false := by decide
  induction t with
  | lit a =>
    have : isAtom a = true := ha
    simp [RE.print, RE.leaves, this]
  | cat r s ihr ihs =>
    simp [RE.print, RE.leaves, filter_paren, ihr ha.1, ihs ha.2, e1, List.filter_cons]
  | alt r s ihr ihs =>
    simp [RE.print, RE.leaves, filter_paren, ihr ha.1, ihs ha.2, e2, List.filter_cons]
  | star r ih => simp [RE.print, RE.leaves, filter_paren, ih ha, e3]
  | plus r ih => simp [RE.print, RE.leaves, filter_paren, ih ha, e4]
  | opt r ih => simp [RE.print, RE.leaves, filter_paren, ih ha, e5]

theorem postorder_no_paren (t : RE) (ha : t.atomic) :
    ∀ c ∈ t.postorder, c ≠ 0 ∧ c ≠ chLParen ∧ c ≠ chRParen := by
  induction t with
  | lit a =>
    intro c hc
    rw [List.mem_singleton.1 hc]
    obtain ⟨h0, h1, h2, h3, h4, h5, h6, h7⟩ := (isAtom_iff a).1 ha
    refine ⟨h0, ?_, ?_⟩ <;> simp [chLParen, chRParen, *]
  | cat r s ihr ihs =>
    intro c hc
    simp only [RE.postorder, List.mem_append, List.mem_singleton] at hc
    rcases hc with (hc | hc) | rfl
    · exact ihr ha.1 c hc
    · exact ihs ha.2 c hc
    · decide
  | alt r s ihr ihs =>
    intro c hc
    simp only [RE.postorder, List.mem_append, List.mem_singleton] at hc
    rcases hc with (hc | hc) | rfl
    · exact ihr ha.1 c hc
    · exact ihs ha.2 c hc
    · decide
  | star r ih =>
    intro c hc
    simp only [RE.postorder, List.mem_append, List.mem_singleton] at hc
    rcases hc with hc | rfl
    · exact ih ha c hc
    · decide
  | plus r ih =>
    intro c hc
    simp only [RE.postorder, List.mem_append, List.mem_singleton] at hc
    rcases hc with hc | rfl
    · exact ih ha c hc
    · decide
  | opt r ih =>
    intro c hc
    simp only [RE.postorder, List.mem_append, List.mem_singleton] at hc
    rcases hc with hc | rfl
    · exact ih ha c hc
    · decide

/-- C15: the shunting yard honours precedence and left associativity.  For every syntax tree
`t` of atoms, quantifiers, concatenations and alternations, printed in infix with explicit `.`
and with parentheses exactly where precedence and left associativity require them,
`infix2postfix` returns the post-order token sequence of `t`; the output has no parenthesis,
and its atoms are the atoms of the printed string in the same order. -/
theorem shunting_yard_postorder (t : RE) (ha : t.atomic) (fuel : Nat)
    (hf : 2 * t.print.length + 1 ≤ fuel) :
    infix2postfix fuel t.print = .ok t.postorder ∧
    chLParen ∉ t.postorder ∧ chRParen ∉ t.postorder ∧
    t.postorder.filter isAtom = t.print.filter isAtom := by
  refine ⟨?_, fun h => (postorder_no_paren t ha _ h).2.1 rfl,
    fun h => (postorder_no_paren t ha _ h).2.2 rfl, ?_⟩
  · obtain ⟨out, st, h1, h2⟩ := shunt_print t ha
    rw [ infix2postfix_eq fuel _ hf, normalize_print t ha, h1]
    simp only [h2]
  · rw [postorder_leaves t ha, print_leaves t ha]

/-- C15 (witness): the tree of `(a|b.c)*.(d.e)`, whose post-order sequence is `abc.|*de..`. -/
theorem shunting_yard_postorder_witness :
    exampleTree.atomic ∧ 2 * exampleTree.print.length + 1 ≤ 40 ∧
    exampleTree.print = str "(a|b.c)*.(d.e)" ∧ exampleTree.postorder = str "abc.|*de.." ∧
    infix2postfix 40 exampleTree.print = .ok exampleTree.postorder ∧
    chLParen ∉ exampleTree.postorder ∧ chRParen ∉ exampleTree.postorder ∧
    exampleTree.postorder.filter isAtom = exampleTree.print.filter isAtom :=
  ⟨by decide, by decide, by decide, by decide,
    shunting_yard_postorder exampleTree (by decide) 40 (by decide)⟩

/-! ## Patching the dangling states of a fragment -/

theorem getElem?_some_lt {α : Type} {l : List α} {i : Nat} {a : α} (hi : l[i]? = some a) :
    i < l.length := by
  by_contra hge
  rw [List.getElem?_eq_none (by omega)] at hi
  exact Option.noConfusion hi

theorem patch_fill (f : Nat) (h : Heap) (d t : Nat) (st : State) (hd : h[d]? = some st)
    (h2 : st.out2 = none) : State.patch (f + 1) h d t = .ok (h.set d (st.fill t)) := by
  cases h1 : st.out1 with
  | none =>
    rw [patch_first f h d t st hd h1]
    simp [State.fill, h1]
  | some o1 =>
    rw [patch_second f h d t o1 st hd h1 h2]
    simp [State.fill, h1]

theorem list_patch_fill (l : List Nat) : ∀ (h : Heap) (t : Nat), l.Nodup →
    (∀ d ∈ l, ∃ st, h[d]? = some st ∧ st.out2 = none) →
    ∃ h1, Filled h h1 l t ∧
      ∀ (f : Nat) (B : Heap), StateList.patch (f + 1) (h ++ B) l t = .ok (h1 ++ B) := by
  induction l with
  | nil =>
    intro h t _ _
    exact ⟨h, ⟨rfl, fun i => by simp⟩, fun f B => rfl⟩
  | cons d ds ih =>
    intro h t hnd hdang
    obtain ⟨hd, hds⟩ := List.nodup_cons.1 hnd
    obtain ⟨st, hst, hst2⟩ := hdang d (List.mem_cons_self d ds)
    have hlt := getElem?_some_lt hst
    have hother : ∀ x, x ≠ d → (h.set d (st.fill t))[x]? = h[x]? := by
      intro x hx
      rw [List.getElem?_set]
      have hdx : ¬ d = x := fun e => hx e.symm
      simp [hdx]
    obtain ⟨h1, ⟨hlen, hpt⟩, hp⟩ := ih (h.set d (st.fill t)) t hds (fun x hx => by
      obtain ⟨sx, hsx, hsx2⟩ := hdang x (List.mem_cons_of_mem d hx)
      have hxd : x ≠ d := fun e => hd (e ▸ hx)
      exact ⟨sx, by rw [hother x hxd]; exact hsx, hsx2⟩)
    refine ⟨h1, ⟨by rw [hlen, List.length_set], fun i => ?_⟩, fun f B => ?_⟩
    · rw [hpt i]
      by_cases hid : i = d
      · subst hid
        simp only [hd, if_false, List.mem_cons, true_or, if_true]
        rw [getElem?_set_self_some h i st _ hst, hst]
        rfl
      · rw [hother i hid]
        simp [hid]
    · rw [StateList.patch,
        patch_fill f (h ++ B) d t st (by rw [List.getElem?_append_left hlt]; exact hst) hst2]
      have e : (h ++ B).set d (st.fill t) = h.set d (st.fill t) ++ B := by
        rw [List.set_append_left _ _ hlt]
      simp only [e]
      exact hp f B

theorem filled_below {h h1 : Heap} {out : List Nat} {t lo : Nat} (hf : Filled h h1 out t)
    (hout : ∀ d ∈ out, lo ≤ d) (i : Nat) (hi : i < lo) : h1[i]? = h[i]? := by
  rw [hf.2 i, if_neg]
  intro hm
  have := hout i hm
  omega

theorem filled_outside {h h1 : Heap} {out : List Nat} {t : Nat} (hf : Filled h h1 out t)
    (i : Nat) (hi : i ∉ out) : h1[i]? = h[i]? := by
  rw [hf.2 i, if_neg hi]

theorem filled_at {h h1 : Heap} {out : List Nat} {t : Nat} (hf : Filled h h1 out t)
    (i : Nat) (st : State) (hi : i ∈ out) (hs : h[i]? = some st) :
    h1[i]? = some (st.fill t) := by
  rw [hf.2 i, if_pos hi, hs]
  rfl

theorem patch_mono : ∀ (f : Nat) (h : Heap) (i s : Nat) (h1 : Heap),
    State.patch f h i s = .ok h1 → State.patch (f + 1) h i s = .ok h1 := by
  intro f
  induction f with
  | zero => intro h i s h1 hp; simp [State.patch] at hp
  | succ f ih =>
    intro h i s h1 hp
    rw [State.patch] at hp ⊢
    cases hi : h[i]? with
    | none => simp [hi] at hp
    | some st =>
      simp only [hi] at hp ⊢
      cases ho1 : st.out1 with
      | none => simpa [ho1] using hp
      | some o1 =>
        simp only [ho1] at hp ⊢
        cases ho2 : st.out2 with
        | none => simpa [ho2] using hp
        | some o2 =>
          simp only [ho2] at hp ⊢
          cases hr : State.patch f h o1 s with
          | error e => simp [hr] at hp
          | ok h2 =>
            simp only [hr] at hp
            rw [ih h o1 s h2 hr]
            exact ih h2 o2 s h1 hp

theorem list_patch_mono (f : Nat) (l : List Nat) : ∀ (h : Heap) (s : Nat) (h1 : Heap),
    StateList.patch f h l s = .ok h1 → StateList.patch (f + 1) h l s = .ok h1 := by
  induction l with
  | nil => intro h s h1 hp; exact hp
  | cons x xs ih =>
    intro h s h1 hp
    rw [StateList.patch] at hp ⊢
    cases hr : State.patch f h x s with
    | error e => simp [hr] at hp
    | ok h2 =>
      simp only [hr] at hp
      rw [patch_mono f h x s h2 hr]
      exact ih h2 s h1 hp

theorem step_mono (f tok : Nat) (b b1 : Builder) (hs : post2nfa.step f tok b = .ok b1) :
    post2nfa.step (f + 1) tok b = .ok b1 := by
  obtain ⟨hp, st⟩ := b
  obtain ⟨hp1, st1⟩ := b1
  rcases step_cases f tok _ _ hs with
    ⟨rfl, ⟨e2, e1, rest, hb, hp, hb1⟩ | ⟨hlt, hb⟩⟩ | ⟨rfl, e2, e1, rest, h1, hb, hp1, hp2, hb1⟩ |
    ⟨rfl, e1, rest, h1, hb, hp1, hp2, hb1⟩ | ⟨rfl, e1, rest, h1, hb, hp1, hp2, hb1⟩ |
    ⟨rfl, e1, rest, hb, hp1, hb1⟩ | ⟨h1, h2, h3, h4, h5, hb⟩
  · simp only at hb hp hb1
    subst hb hb1
    simp [post2nfa.step, list_patch_mono f _ _ _ _ hp]
  · simp only at hlt
    cases hb
    match st, hlt with
    | [], _ => simp [post2nfa.step]
    | [_], _ => simp [post2nfa.step]
  · simp only at hb hp1 hp2 hb1
    subst hb hb1
    simp [post2nfa.step, chBar, chDot, patch_mono f _ _ _ _ hp1, patch_mono f _ _ _ _ hp2]
  · simp only at hb hp1 hp2 hb1
    subst hb hb1
    simp [post2nfa.step, chBar, chDot, chStar, list_patch_mono f _ _ _ _ hp1,
      patch_mono f _ _ _ _ hp2]
  · simp only at hb hp1 hp2 hb1
    subst hb hb1
    simp [post2nfa.step, chBar, chDot, chStar, chPlus, patch_mono f _ _ _ _ hp1,
      list_patch_mono f _ _ _ _ hp2]
  · simp only at hb hp1 hb1
    subst hb hb1
    simp [post2nfa.step, chBar, chDot, chStar, chPlus, chQuest, patch_mono f _ _ _ _ hp1]
  · cases hb
    simp [post2nfa.step, h1, h2, h3, h4, h5]
/-! ## The shape of the fragments built without one-or-more -/

theorem fill_dangling (st : State) (t : Nat) (h2 : st.out2 = none)
    (hl : st.c ≠ 0 → st.out1 = none) (he : st.c = 0 → st.out1 ≠ none) :
    (st.fill t).is_match_state = st.is_match_state ∧ (st.fill t).c = st.c ∧
    (st.fill t).outs = st.outs ++ [t] ∧ (st.fill t).out1 ≠ none ∧
    ((st.fill t).c ≠ 0 → (st.fill t).out2 = none) := by
  cases h1 : st.out1 with
  | none =>
    have hc : st.c ≠ 0 := fun e => he e h1
    simp [State.fill, h1, State.outs, h2]
  | some o1 =>
    have hc : st.c = 0 := by
      by_contra hne
      rw [hl hne] at h1
      exact Option.noConfusion h1
    simp [State.fill, h1, State.outs, h2, hc]

theorem shaped_dangling {h : Heap} {lo hi : Nat} {e : Fragment} (hs : e.Shaped h lo hi) :
    e.out.Nodup ∧ ∀ d ∈ e.out, ∃ st, h[d]? = some st ∧ st.out2 = none := by
  refine ⟨hs.out_sorted.imp (fun hab => Nat.ne_of_lt hab), fun d hd => ?_⟩
  obtain ⟨h1, h2⟩ := hs.out_in d hd
  have hlt : d < h.length := Nat.lt_of_lt_of_le h2 hs.bound
  exact ⟨h[d], List.getElem?_eq_getElem hlt,
    ((hs.state d h[d] h1 h2 (List.getElem?_eq_getElem hlt)).2.2.1 hd).1⟩

theorem shaped_congr {h h1 : Heap} {lo hi : Nat} {e : Fragment} (hs : e.Shaped h lo hi)
    (hb : hi ≤ h1.length) (hh : ∀ i, lo ≤ i → i < hi → h1[i]? = h[i]?) : e.Shaped h1 lo hi :=
  ⟨hb, hs.start_in, hs.out_in, hs.out_sorted,
    fun i st hlo hhi hi => hs.state i st hlo hhi (by rw [← hh i hlo hhi]; exact hi)⟩

theorem stackShaped_congr {h h1 : Heap} (st : List Fragment) : ∀ (hi : Nat),
    StackShaped h st hi → hi ≤ h1.length → (∀ i, i < hi → h1[i]? = h[i]?) →
    StackShaped h1 st hi := by
  induction st with
  | nil => intro hi _ _ _; trivial
  | cons e rest ih =>
    intro hi hs hb hh
    obtain ⟨lo, he, hr⟩ := hs
    have hlo : lo ≤ hi := Nat.le_of_lt (Nat.lt_of_le_of_lt he.start_in.1 he.start_in.2)
    exact ⟨lo, shaped_congr he hb (fun i _ h2 => hh i h2),
      ih lo hr (Nat.le_trans hlo hb) (fun i h2 => hh i (Nat.lt_of_lt_of_le h2 hlo))⟩

theorem shaped_lit (h : Heap) (c : Nat) (hc : c ≠ 0) :
    Fragment.Shaped (h ++ [State.lit c]) h.length (h.length + 1) ⟨h.length, [h.length]⟩ := by
  refine ⟨by simp, ⟨Nat.le_refl _, Nat.lt_succ_self _⟩, ?_, List.pairwise_singleton _ _, ?_⟩
  · intro d hd
    rw [List.mem_singleton.1 hd]
    exact ⟨Nat.le_refl _, Nat.lt_succ_self _⟩
  · intro i st hlo hhi hi
    have hie : i = h.length := by omega
    subst hie
    rw [getElem?_mid h (State.lit c) []] at hi
    cases hi
    simp [State.lit, State.outs, hc]

theorem shaped_dot {h h1 : Heap} {lo1 lo2 hi : Nat} {e1 e2 : Fragment}
    (s1 : e1.Shaped h lo1 lo2) (s2 : e2.Shaped h lo2 hi) (hf : Filled h h1 e1.out e2.start) :
    Fragment.Shaped h1 lo1 hi ⟨e1.start, e2.out⟩ := by
  have h12 : lo1 ≤ lo2 := Nat.le_of_lt (Nat.lt_of_le_of_lt s1.start_in.1 s1.start_in.2)
  have h2h : lo2 ≤ hi := Nat.le_of_lt (Nat.lt_of_le_of_lt s2.start_in.1 s2.start_in.2)
  refine ⟨by rw [hf.1]; exact s2.bound, ⟨s1.start_in.1, Nat.lt_of_lt_of_le s1.start_in.2 h2h⟩,
    fun d hd => ⟨by have := (s2.out_in d hd).1; omega, (s2.out_in d hd).2⟩, s2.out_sorted, ?_⟩
  intro i st hlo hhi hi
  simp only
  by_cases hm : i ∈ e1.out
  · obtain ⟨a1, a2⟩ := s1.out_in i hm
    have hlt : i < h.length := by have := s2.bound; omega
    have h0 : h[i]? = some h[i] := List.getElem?_eq_getElem hlt
    rw [filled_at hf i _ hm h0] at hi
    cases hi
    obtain ⟨b1, b2, b3, -⟩ := s1.state i h[i] a1 a2 h0
    obtain ⟨c1, c2, c3⟩ := b3 hm
    obtain ⟨f1, f2, f3, f4, f5⟩ := fill_dangling h[i] e2.start c1 c2 c3
    have hn2 : i ∉ e2.out := fun hx => by have := (s2.out_in i hx).1; omega
    refine ⟨by rw [f1]; exact b1, fun o ho => ?_, fun hx => absurd hx hn2, fun _ => ⟨f4, f5⟩⟩
    rw [f3] at ho
    rcases List.mem_append.1 ho with ho | ho
    · have := b2 o ho; omega
    · rw [List.mem_singleton.1 ho]
      have := s2.start_in; omega
  · rw [filled_outside hf i hm] at hi
    by_cases hlt : i < lo2
    · obtain ⟨b1, b2, -, b4⟩ := s1.state i st hlo hlt hi
      have hn2 : i ∉ e2.out := fun hx => by have := (s2.out_in i hx).1; omega
      exact ⟨b1, fun o ho => by have := b2 o ho; omega, fun hx => absurd hx hn2,
        fun _ => b4 hm⟩
    · obtain ⟨b1, b2, b3, b4⟩ := s2.state i st (by omega) hhi hi
      exact ⟨b1, fun o ho => by have := b2 o ho; omega, b3, b4⟩

theorem insert_sorted (x : Nat) (l : List Nat) (hl : l.Pairwise (fun a b => a < b)) :
    (StateList.insert x l).Pairwise (fun a b => a < b) := by
  induction l with
  | nil => exact List.pairwise_singleton _ _
  | cons y ys ih =>
    obtain ⟨hy, hys⟩ := List.pairwise_cons.1 hl
    rw [StateList.insert]
    split
    · rename_i hxy
      refine List.pairwise_cons.2 ⟨fun z hz => ?_, hl⟩
      rcases List.mem_cons.1 hz with rfl | hz
      · exact hxy
      · exact Nat.lt_trans hxy (hy z hz)
    · split
      · exact hl
      · rename_i h1 h2
        refine List.pairwise_cons.2 ⟨fun z hz => ?_, ih hys⟩
        rcases (mem_insert z x ys).1 hz with rfl | hz
        · omega
        · exact hy z hz

theorem addstate_sorted (other : List Nat) : ∀ (l : List Nat),
    l.Pairwise (fun a b => a < b) →
    (StateList.addstate l other).Pairwise (fun a b => a < b) := by
  induction other with
  | nil => intro l hl; exact hl
  | cons y ys ih =>
    intro l hl
    have := ih (StateList.insert y l) (insert_sorted y l hl)
    simpa [StateList.addstate] using this

theorem shaped_bar {h : Heap} {lo1 lo2 : Nat} {e1 e2 : Fragment}
    (s1 : e1.Shaped h lo1 lo2) (s2 : e2.Shaped h lo2 h.length) :
    Fragment.Shaped (h ++ [⟨false, 0, some e1.start, some e2.start⟩]) lo1 (h.length + 1)
      ⟨h.length, StateList.addstate e1.out e2.out⟩ := by
  have h12 : lo1 ≤ lo2 := Nat.le_of_lt (Nat.lt_of_le_of_lt s1.start_in.1 s1.start_in.2)
  have h2h : lo2 ≤ h.length := Nat.le_of_lt (Nat.lt_of_le_of_lt s2.start_in.1 s2.start_in.2)
  have hmem : ∀ d, d ∈ StateList.addstate e1.out e2.out → lo1 ≤ d ∧ d < h.length := by
    intro d hd
    rcases (mem_addstate d e2.out e1.out).1 hd with hd | hd
    · have := s1.out_in d hd; omega
    · have := s2.out_in d hd; omega
  refine ⟨by simp, ⟨Nat.le_trans h12 h2h, Nat.lt_succ_self _⟩,
    fun d hd => ⟨(hmem d hd).1, Nat.lt_succ_of_lt (hmem d hd).2⟩,
    addstate_sorted e2.out e1.out s1.out_sorted, ?_⟩
  intro i st hlo hhi hi
  simp only
  by_cases hlt : i < h.length
  · rw [List.getElem?_append_left hlt] at hi
    by_cases hl2 : i < lo2
    · obtain ⟨b1, b2, b3, b4⟩ := s1.state i st hlo hl2 hi
      have hn2 : i ∉ e2.out := fun hx => by have := (s2.out_in i hx).1; omega
      refine ⟨b1, fun o ho => by have := b2 o ho; omega, fun hx => ?_, fun hx => ?_⟩
      · rcases (mem_addstate i e2.out e1.out).1 hx with hx | hx
        · exact b3 hx
        · exact absurd hx hn2
      · exact b4 (fun hy => hx ((mem_addstate i e2.out e1.out).2 (Or.inl hy)))
    · obtain ⟨b1, b2, b3, b4⟩ := s2.state i st (by omega) hlt hi
      have hn1 : i ∉ e1.out := fun hx => by have := (s1.out_in i hx).2; omega
      refine ⟨b1, fun o ho => by have := b2 o ho; omega, fun hx => ?_, fun hx => ?_⟩
      · rcases (mem_addstate i e2.out e1.out).1 hx with hx | hx
        · exact absurd hx hn1
        · exact b3 hx
      · exact b4 (fun hy => hx ((mem_addstate i e2.out e1.out).2 (Or.inr hy)))
  · have hie : i = h.length := by omega
    subst hie
    rw [getElem?_mid h _ []] at hi
    cases hi
    refine ⟨rfl, fun o ho => ?_, fun hx => ?_, fun _ => ⟨by simp, fun hc => absurd rfl hc⟩⟩
    · simp only [State.outs, Option.toList, List.cons_append, List.nil_append, List.mem_cons,
        List.mem_singleton, List.not_mem_nil, or_false] at ho
      rcases ho with rfl | rfl
      · have := s1.start_in; omega
      · have := s2.start_in; omega
    · have := (hmem _ hx).2; omega

theorem shaped_star {h h1 : Heap} {lo : Nat} {e1 : Fragment}
    (s1 : e1.Shaped h lo h.length) (hf : Filled h h1 e1.out h.length) :
    Fragment.Shaped (h1 ++ [⟨false, 0, some e1.start, none⟩]) lo (h.length + 1)
      ⟨h.length, [h.length]⟩ := by
  have h1h : lo ≤ h.length := Nat.le_of_lt (Nat.lt_of_le_of_lt s1.start_in.1 s1.start_in.2)
  refine ⟨by simp [hf.1], ⟨h1h, Nat.lt_succ_self _⟩, fun d hd => ?_,
    List.pairwise_singleton _ _, ?_⟩
  · rw [List.mem_singleton.1 hd]
    exact ⟨h1h, Nat.lt_succ_self _⟩
  intro i st hlo hhi hi
  simp only
  by_cases hlt : i < h.length
  · rw [List.getElem?_append_left (by rw [hf.1]; exact hlt)] at hi
    have hnn : i ∉ [h.length] := by simp; omega
    by_cases hm : i ∈ e1.out
    · have h0 : h[i]? = some h[i] := List.getElem?_eq_getElem hlt
      rw [filled_at hf i _ hm h0] at hi
      cases hi
      obtain ⟨b1, b2, b3, -⟩ := s1.state i h[i] hlo hlt h0
      obtain ⟨c1, c2, c3⟩ := b3 hm
      obtain ⟨f1, f2, f3, f4, f5⟩ := fill_dangling h[i] h.length c1 c2 c3
      refine ⟨by rw [f1]; exact b1, fun o ho => ?_, fun hx => absurd hx hnn, fun _ => ⟨f4, f5⟩⟩
      rw [f3] at ho
      rcases List.mem_append.1 ho with ho | ho
      · have := b2 o ho; omega
      · rw [List.mem_singleton.1 ho]
        omega
    · rw [filled_outside hf i hm] at hi
      obtain ⟨b1, b2, -, b4⟩ := s1.state i st hlo hlt hi
      exact ⟨b1, fun o ho => by have := b2 o ho; omega, fun hx => absurd hx hnn,
        fun _ => b4 hm⟩
  · have hie : i = h.length := by omega
    subst hie
    have := getElem?_mid h1 (⟨false, 0, some e1.start, none⟩ : State) []
    rw [hf.1] at this
    rw [this] at hi
    cases hi
    refine ⟨rfl, fun o ho => ?_, fun _ => ⟨rfl, fun hc => absurd rfl hc, fun _ => by simp⟩,
      fun hx => absurd (List.mem_singleton_self _) hx⟩
    simp only [State.outs, Option.toList, List.append_nil, List.mem_singleton] at ho
    rw [ho]
    have := s1.start_in; omega

theorem shaped_quest {h : Heap} {lo : Nat} {e1 : Fragment} (s1 : e1.Shaped h lo h.length) :
    Fragment.Shaped (h ++ [⟨false, 0, some e1.start, none⟩]) lo (h.length + 1)
      ⟨h.length, StateList.addstate [h.length] e1.out⟩ := by
  have h1h : lo ≤ h.length := Nat.le_of_lt (Nat.lt_of_le_of_lt s1.start_in.1 s1.start_in.2)
  have hmem : ∀ d, d ∈ StateList.addstate [h.length] e1.out → lo ≤ d ∧ d < h.length + 1 := by
    intro d hd
    rcases (mem_addstate d e1.out [h.length]).1 hd with hd | hd
    · rw [List.mem_singleton.1 hd]; omega
    · have := s1.out_in d hd; omega
  refine ⟨by simp, ⟨h1h, Nat.lt_succ_self _⟩, hmem,
    addstate_sorted e1.out [h.length] (List.pairwise_singleton _ _), ?_⟩
  intro i st hlo hhi hi
  simp only
  by_cases hlt : i < h.length
  · rw [List.getElem?_append_left hlt] at hi
    obtain ⟨b1, b2, b3, b4⟩ := s1.state i st hlo hlt hi
    refine ⟨b1, fun o ho => by have := b2 o ho; omega, fun hx => ?_, fun hx => ?_⟩
    · rcases (mem_addstate i e1.out [h.length]).1 hx with hx | hx
      · rw [List.mem_singleton] at hx; omega
      · exact b3 hx
    · exact b4 (fun hy => hx ((mem_addstate i e1.out [h.length]).2 (Or.inr hy)))
  · have hie : i = h.length := by omega
    subst hie
    rw [getElem?_mid h _ []] at hi
    cases hi
    refine ⟨rfl, fun o ho => ?_, fun _ => ⟨rfl, fun hc => absurd rfl hc, fun _ => by simp⟩,
      fun hx => absurd ((mem_addstate _ e1.out [h.length]).2
        (Or.inl (List.mem_singleton_self _))) hx⟩
    simp only [State.outs, Option.toList, List.append_nil, List.mem_singleton] at ho
    rw [ho]
    have := s1.start_in; omega

/-! ## The builder steps on shaped fragments -/

theorem step_bar (f : Nat) (h : Heap) (e2 e1 : Fragment) (rest : List Fragment) :
    post2nfa.step (f + 1) chBar ⟨h, e2 :: e1 :: rest⟩ =
      .ok ⟨h ++ [⟨false, 0, some e1.start, some e2.start⟩],
        ⟨h.length, StateList.addstate e1.out e2.out⟩ :: rest⟩ := by
  have p2 : State.patch (f + 1) (h ++ [⟨false, 0, some e1.start, none⟩]) h.length e2.start =
      .ok (h ++ [⟨false, 0, some e1.start, some e2.start⟩]) := by
    rw [patch_second f _ _ _ e1.start ⟨false, 0, some e1.start, none⟩
      (getElem?_mid h _ []) rfl rfl, set_mid]
  simp [post2nfa.step, chBar, chDot, patch_new_eps, p2]

theorem step_star (f : Nat) (h h1 : Heap) (e1 : Fragment) (rest : List Fragment)
    (hl : h1.length = h.length)
    (hp : ∀ (f : Nat) (B : Heap),
      StateList.patch (f + 1) (h ++ B) e1.out h.length = .ok (h1 ++ B)) :
    post2nfa.step (f + 1) chStar ⟨h, e1 :: rest⟩ =
      .ok ⟨h1 ++ [⟨false, 0, some e1.start, none⟩], ⟨h.length, [h.length]⟩ :: rest⟩ := by
  have p2 := patch_new_eps f h1 e1.start
  rw [hl] at p2
  simp [post2nfa.step, chBar, chDot, chStar, hp f [State.eps], p2]

theorem finish_fill (f : Nat) (h h1 : Heap) (e : Fragment) (rest : List Fragment)
    (hp : ∀ (f : Nat) (B : Heap),
      StateList.patch (f + 1) (h ++ B) e.out h.length = .ok (h1 ++ B)) :
    post2nfa.finish (f + 1) ⟨h, e :: rest⟩ = .ok (h1 ++ [State.ofBool true], e.start) := by
  simp [post2nfa.finish, hp f [State.ofBool true]]

theorem step_shaped (fuel tok : Nat) (b b1 : Builder) (h0 : tok ≠ 0) (hplus : tok ≠ chPlus)
    (hs : StackShaped b.heap b.stack b.heap.length)
    (hstep : post2nfa.step fuel tok b = .ok b1) :
    StackShaped b1.heap b1.stack b1.heap.length := by
  have hm := step_mono fuel tok b b1 hstep
  obtain ⟨h, st⟩ := b
  simp only at hs
  rcases step_cases fuel tok _ _ hstep with
    ⟨rfl, ⟨e2, e1, rest, hb, -, -⟩ | ⟨-, hb⟩⟩ | ⟨rfl, e2, e1, rest, -, hb, -, -, -⟩ |
    ⟨rfl, e1, rest, -, hb, -, -, -⟩ | ⟨rfl, -⟩ | ⟨rfl, e1, rest, hb, -, -⟩ |
    ⟨h1, h2, h3, h4, h5, hb⟩
  · simp only at hb
    subst hb
    obtain ⟨lo2, s2, lo1, s1, hr⟩ := hs
    obtain ⟨hnd, hdang⟩ := shaped_dangling s1
    obtain ⟨h1, hf, hp⟩ := list_patch_fill e1.out h e2.start hnd hdang
    have hp0 := hp fuel []
    simp only [List.append_nil] at hp0
    rw [step_dot (fuel + 1) h e2 e1 rest h1 hp0] at hm
    cases hm
    simp only
    rw [hf.1]
    refine ⟨lo1, shaped_dot s1 s2 hf, stackShaped_congr rest lo1 hr ?_ ?_⟩
    · rw [hf.1]
      have := s1.start_in
      have := s1.bound
      omega
    · intro i hi
      exact filled_below hf (fun d hd => (s1.out_in d hd).1) i hi
  · cases hb
    exact hs
  · simp only at hb
    subst hb
    obtain ⟨lo2, s2, lo1, s1, hr⟩ := hs
    rw [step_bar] at hm
    cases hm
    simp only [List.length_append, List.length_singleton]
    refine ⟨lo1, shaped_bar s1 s2, stackShaped_congr rest lo1 hr ?_ ?_⟩
    · have := s1.start_in
      have := s1.bound
      simp only [List.length_append, List.length_singleton]
      omega
    · intro i hi
      have := s1.start_in
      have := s1.bound
      rw [List.getElem?_append_left (by omega)]
  · simp only at hb
    subst hb
    obtain ⟨lo1, s1, hr⟩ := hs
    obtain ⟨hnd, hdang⟩ := shaped_dangling s1
    obtain ⟨h1, hf, hp⟩ := list_patch_fill e1.out h h.length hnd hdang
    rw [step_star fuel h h1 e1 rest hf.1 hp] at hm
    cases hm
    simp only [List.length_append, List.length_singleton, hf.1]
    refine ⟨lo1, shaped_star s1 hf, stackShaped_congr rest lo1 hr ?_ ?_⟩
    · have := s1.start_in
      simp only [List.length_append, List.length_singleton, hf.1]
      omega
    · intro i hi
      have := s1.start_in
      rw [List.getElem?_append_left (by rw [hf.1]; omega)]
      exact filled_below hf (fun d hd => (s1.out_in d hd).1) i hi
  · exact absurd rfl hplus
  · simp only at hb
    subst hb
    obtain ⟨lo1, s1, hr⟩ := hs
    rw [step_quest] at hm
    cases hm
    simp only [List.length_append, List.length_singleton]
    refine ⟨lo1, shaped_quest s1, stackShaped_congr rest lo1 hr ?_ ?_⟩
    · have := s1.start_in
      simp only [List.length_append, List.length_singleton]
      omega
    · intro i hi
      have := s1.start_in
      rw [List.getElem?_append_left (by omega)]
  · cases hb
    simp only [List.length_append, List.length_singleton]
    refine ⟨h.length, shaped_lit h tok h0, stackShaped_congr st h.length hs ?_ ?_⟩
    · simp
    · intro i hi
      rw [List.getElem?_append_left hi]

theorem loop_shaped (fuel : Nat) (post : List Nat) (hplus : chPlus ∉ post) :
    ∀ (b b1 : Builder), StackShaped b.heap b.stack b.heap.length →
    post2nfa.loop fuel post b = .ok b1 → StackShaped b1.heap b1.stack b1.heap.length := by
  induction post with
  | nil =>
    intro b b1 hv hl
    simp only [post2nfa.loop] at hl
    cases hl
    exact hv
  | cons tok rest ih =>
    intro b b1 hv hl
    rw [post2nfa.loop] at hl
    by_cases h0 : tok = 0
    · rw [if_pos h0] at hl
      cases hl
      exact hv
    · rw [if_neg h0] at hl
      cases hs : post2nfa.step fuel tok b with
      | error e => simp [hs] at hl
      | ok b2 =>
        simp only [hs] at hl
        exact ih (fun hm => hplus (List.mem_cons_of_mem tok hm)) b2 b1
          (step_shaped fuel tok b b2 h0 (fun e => hplus (by simp [e])) hv hs) hl

/-! ## The characters of the postfix string -/

theorem mem_insertAt (p : List Nat) (i x c : Nat) (hc : c ∈ insertAt p i x) : c ∈ p ∨ c = x := by
  simp only [insertAt, List.mem_append, List.mem_cons] at hc
  rcases hc with hc | rfl | hc
  · exact Or.inl (List.mem_of_mem_take hc)
  · exact Or.inr rfl
  · exact Or.inl (List.mem_of_mem_drop hc)

theorem pass1_mem : ∀ (fuel : Nat) (p : List Nat) (i : Nat) (q : List Nat),
    infix2postfix.pass1 fuel p i = .ok q → ∀ c ∈ q, c ∈ p ∨ c = chDot := by
  intro fuel
  induction fuel with
  | zero => intro p i q hp; simp [ infix2postfix.pass1] at hp
  | succ f ih =>
    intro p i q hp c hc
    rw [ infix2postfix.pass1] at hp
    split at hp
    · cases hp; exact Or.inl hc
    · split at hp
      · cases hp; exact Or.inl hc
      · split at hp
        · rcases ih _ _ q hp c hc with h | h
          · exact mem_insertAt p i chDot c h
          · exact Or.inr h
        · exact ih _ _ q hp c hc

theorem mem_insert_first (P : Prop) [Decidable P] (p : List Nat) (i c : Nat)
    (hc : c ∈ (if P then (insertAt p i chDot, i + 1) else (p, i)).1) : c ∈ p ∨ c = chDot := by
  split at hc
  · exact mem_insertAt p i chDot c hc
  · exact Or.inl hc

theorem mem_insert_second (P : Prop) [Decidable P] (pi : List Nat × Nat) (c : Nat)
    (hc : c ∈ (if P then (insertAt pi.1 (pi.2 + 1) chDot, pi.2 + 1) else pi).1) :
    c ∈ pi.1 ∨ c = chDot := by
  split at hc
  · exact mem_insertAt pi.1 (pi.2 + 1) chDot c hc
  · exact Or.inl hc

theorem pass2_mem : ∀ (fuel : Nat) (p : List Nat) (i : Nat) (q : List Nat),
    infix2postfix.pass2 fuel p i = .ok q → ∀ c ∈ q, c ∈ p ∨ c = chDot := by
  intro fuel
  induction fuel with
  | zero => intro p i q hp; simp [ infix2postfix.pass2] at hp
  | succ f ih =>
    intro p i q hp c hc
    rw [ infix2postfix.pass2] at hp
    split at hp
    · cases hp; exact Or.inl hc
    · split at hp
      · cases hp; exact Or.inl hc
      · rcases ih _ _ q hp c hc with h1 | h1
        · rcases mem_insert_second _ _ c h1 with h2 | h2
          · exact mem_insert_first _ p i c h2
          · exact Or.inr h2
        · exact Or.inr h1

theorem popWhile_mem (cond : Nat → Bool) (st : List Nat) : ∀ (out o s : List Nat),
    infix2postfix.popWhile cond out st = (o, s) → ∀ c, c ∈ o ++ s → c ∈ out ∨ c ∈ st := by
  induction st with
  | nil =>
    intro out o s hp c hc
    simp only [ infix2postfix.popWhile, Prod.mk.injEq] at hp
    obtain ⟨rfl, rfl⟩ := hp
    simpa using hc
  | cons t ts ih =>
    intro out o s hp c hc
    rw [ infix2postfix.popWhile] at hp
    split at hp
    · rcases ih _ o s hp c hc with h | h
      · rcases List.mem_append.1 h with h | h
        · exact Or.inl h
        · exact Or.inr (by rw [List.mem_singleton.1 h]; simp)
      · exact Or.inr (List.mem_cons_of_mem t h)
    · simp only [Prod.mk.injEq] at hp
      obtain ⟨rfl, rfl⟩ := hp
      exact List.mem_append.1 hc

theorem shunt_mem (cs : List Nat) : ∀ (out st o s : List Nat),
    infix2postfix.shunt cs out st = .ok (o, s) →
    ∀ c, c ∈ o ++ s → c ∈ cs ∨ c ∈ out ∨ c ∈ st := by
  induction cs with
  | nil =>
    intro out st o s hp c hc
    simp only [ infix2postfix.shunt, Except.ok.injEq, Prod.mk.injEq] at hp
    obtain ⟨rfl, rfl⟩ := hp
    exact Or.inr (List.mem_append.1 hc)
  | cons x xs ih =>
    intro out st o s hp c hc
    rw [ infix2postfix.shunt] at hp
    split at hp
    · simp only [Except.ok.injEq, Prod.mk.injEq] at hp
      obtain ⟨rfl, rfl⟩ := hp
      exact Or.inr (List.mem_append.1 hc)
    · split at hp
      · rcases ih _ _ o s hp c hc with h | h | h
        · exact Or.inl (List.mem_cons_of_mem x h)
        · exact Or.inr (Or.inl h)
        · rcases List.mem_cons.1 h with rfl | h
          · exact Or.inl (List.mem_cons_self _ _)
          · exact Or.inr (Or.inr h)
      · split at hp
        · split at hp
          · simp at hp
          · rename_i out1 t st1 hpw
            rcases ih _ _ o s hp c hc with h | h | h
            · exact Or.inl (List.mem_cons_of_mem x h)
            · exact Or.inr (popWhile_mem _ st out out1 (t :: st1) hpw c
                (List.mem_append.2 (Or.inl h)))
            · exact Or.inr (popWhile_mem _ st out out1 (t :: st1) hpw c
                (List.mem_append.2 (Or.inr (List.mem_cons_of_mem t h))))
        · split at hp
          · rename_i hx
            split at hp
            rename_i out1 st1 hpw
            rcases ih _ _ o s hp c hc with h | h | h
            · exact Or.inl (List.mem_cons_of_mem x h)
            · exact Or.inr (popWhile_mem _ st out out1 st1 hpw c
                (List.mem_append.2 (Or.inl h)))
            · rcases List.mem_cons.1 h with rfl | h
              · exact Or.inl (List.mem_cons_self _ _)
              · exact Or.inr (popWhile_mem _ st out out1 st1 hpw c
                  (List.mem_append.2 (Or.inr h)))
          · rcases ih _ _ o s hp c hc with h | h | h
            · exact Or.inl (List.mem_cons_of_mem x h)
            · rcases List.mem_append.1 h with h | h
              · exact Or.inr (Or.inl h)
              · exact Or.inl (by rw [List.mem_singleton.1 h]; simp)
            · exact Or.inr (Or.inr h)

theorem infix2postfix_mem (fuel : Nat) (p post : List Nat)
    (hp : infix2postfix fuel p = .ok post) : ∀ c ∈ post, c ∈ p ∨ c = chDot := by
  intro c hc
  unfold infix2postfix at hp
  cases h1 : infix2postfix.pass1 fuel p 0 with
  | error e => simp [h1] at hp
  | ok p1 =>
    simp only [h1] at hp
    cases h2 : infix2postfix.pass2 fuel p1 0 with
    | error e => simp [h2] at hp
    | ok p2 =>
      simp only [h2] at hp
      cases h3 : infix2postfix.shunt p2 [] [] with
      | error e => simp [h3] at hp
      | ok os =>
        obtain ⟨o, s⟩ := os
        simp only [h3, Except.ok.injEq] at hp
        subst hp
        rcases shunt_mem p2 [] [] o s h3 c hc with h | h | h
        · rcases pass2_mem fuel p1 0 p2 h2 c h with h | h
          · exact pass1_mem fuel p 0 p1 h1 c h
          · exact Or.inr h
        · simp at h
        · simp at h

/-! ## The shape of an automaton compiled without one-or-more -/

theorem final_shape {h h1 : Heap} {lo : Nat} {e : Fragment} (s1 : e.Shaped h lo h.length)
    (hf : Filled h h1 e.out h.length) (i : Nat) (st : State) (hlo : lo ≤ i)
    (hi : (h1 ++ [State.ofBool true])[i]? = some st) :
    st.wellShaped ∧ ∀ o ∈ st.outs, lo ≤ o ∧ o ≤ h.length := by
  have hlen : (h1 ++ [State.ofBool true]).length = h.length + 1 := by simp [hf.1]
  have hil := getElem?_some_lt hi
  rw [hlen] at hil
  by_cases hlt : i < h.length
  · rw [List.getElem?_append_left (by rw [hf.1]; exact hlt)] at hi
    by_cases hm : i ∈ e.out
    · have h0 : h[i]? = some h[i] := List.getElem?_eq_getElem hlt
      rw [filled_at hf i _ hm h0] at hi
      cases hi
      obtain ⟨b1, b2, b3, -⟩ := s1.state i h[i] hlo hlt h0
      obtain ⟨c1, c2, c3⟩ := b3 hm
      obtain ⟨f1, f2, f3, f4, f5⟩ := fill_dangling h[i] h.length c1 c2 c3
      refine ⟨?_, fun o ho => ?_⟩
      · unfold State.wellShaped State.label
        rw [f1, b1]
        by_cases hc : (h[i].fill h.length).c = 0
        · simp [hc, f3]
        · simp [hc, f4, f5 hc]
      · rw [f3] at ho
        rcases List.mem_append.1 ho with ho | ho
        · have := b2 o ho; omega
        · rw [List.mem_singleton.1 ho]; omega
    · rw [filled_outside hf i hm] at hi
      obtain ⟨b1, b2, -, b4⟩ := s1.state i st hlo hlt hi
      obtain ⟨d1, d2⟩ := b4 hm
      refine ⟨?_, fun o ho => by have := b2 o ho; omega⟩
      unfold State.wellShaped State.label
      rw [b1]
      by_cases hc : st.c = 0
      · cases ho1 : st.out1 with
        | none => exact absurd ho1 d1
        | some o1 => simp [hc, State.outs, ho1]
      · simp [hc, d1, d2 hc]
  · have hie : i = h.length := by omega
    subst hie
    have := getElem?_mid h1 (State.ofBool true) []
    rw [hf.1] at this
    rw [this] at hi
    cases hi
    exact ⟨by simp [State.wellShaped, State.label, State.ofBool, State.outs],
      fun o ho => by simp [State.ofBool, State.outs] at ho⟩

theorem reach_within (h : Heap) (lo n : Nat)
    (hcl : ∀ (i : Nat) (st : State), lo ≤ i → h[i]? = some st → ∀ o ∈ st.outs, lo ≤ o ∧ o ≤ n)
    {x y : Nat} {w : List Nat} (hr : Reach h x w y) (hx : lo ≤ x) : lo ≤ y := by
  induction hr with
  | refl x => exact hx
  | eps x y z st w hi _ hy _ ih => exact ih (hcl x st hx hi y hy).1
  | char x y z st w hi _ hy _ ih => exact ih (hcl x st hx hi y hy).1

theorem post2nfa_shape (fuel : Nat) (post : List Nat) (hplus : chPlus ∉ post) (h : Heap)
    (start : Nat) (hp : post2nfa fuel post = .ok (h, start)) :
    ∀ (x : Nat) (st : State), Conn h start x → h[x]? = some st → st.wellShaped := by
  unfold post2nfa post2nfa.run at hp
  cases hl : post2nfa.loop fuel post ⟨[], []⟩ with
  | error e => simp [hl] at hp
  | ok b =>
    simp only [hl] at hp
    have hsh := loop_shaped fuel post hplus ⟨[], []⟩ b trivial hl
    obtain ⟨h0, st0⟩ := b
    simp only at hsh
    cases st0 with
    | nil => simp [post2nfa.finish] at hp
    | cons e rest =>
      obtain ⟨lo, s1, -⟩ := hsh
      obtain ⟨hnd, hdang⟩ := shaped_dangling s1
      obtain ⟨h1, hf, hpf⟩ := list_patch_fill e.out h0 h0.length hnd hdang
      have hp1 : post2nfa.finish (fuel + 1) ⟨h0, e :: rest⟩ = .ok (h, start) := by
        unfold post2nfa.finish at hp ⊢
        simp only at hp ⊢
        cases hr : StateList.patch fuel (h0 ++ [State.ofBool true]) e.out h0.length with
        | error e => simp [hr] at hp
        | ok h2 =>
          simp only [hr] at hp
          rw [list_patch_mono fuel _ _ _ _ hr]
          exact hp
      rw [finish_fill fuel h0 h1 e rest hpf] at hp1
      simp only [Except.ok.injEq, Prod.mk.injEq] at hp1
      obtain ⟨rfl, rfl⟩ := hp1
      intro x st ⟨w, hr⟩ hx
      have hlo : lo ≤ x := reach_within _ lo h0.length
        (fun i st hlo hi => (final_shape s1 hf i st hlo hi).2) hr s1.start_in.1
      exact (final_shape s1 hf x st hlo hx).1

/-- With the uninitialised fields reading false: the pattern `a+` compiles, and the start state of its automaton, the
literal state of `a`, has two out-edges: the first goes to the loop state and the second to
the accept state. -/
theorem plus_literal_two_edges :
    Regex.new 20 (str "a+") = .ok ⟨str "a+", plusHeap 97, 0⟩ ∧
    Conn (plusHeap 97) 0 0 ∧ (plusHeap 97)[0]? = some ⟨false, 97, some 1, some 2⟩ ∧
    ¬ State.wellShaped ⟨false, 97, some 1, some 2⟩ := by
  refine ⟨by decide, conn_refl _ _, rfl, ?_⟩
  simp [State.wellShaped, State.label]

/-- Shape of the automata compiled from patterns without `+`, in the runs in which the
uninitialised fields read false.  For every pattern without the character `+` that compiles, every state that can be reached from
the returned start state is a literal state with exactly one out-edge (in its first slot, the
second stays unset), an epsilon state with one or two out-edges, or the accept state, which
has none. -/
theorem shape_without_plus (fuel : Nat) (p : List Nat) (r : Regex) (hplus : chPlus ∉ p)
    (hr : Regex.new fuel p = .ok r) :
    ∀ (x : Nat) (st : State), Conn r.heap r.start x → r.heap[x]? = some st →
      st.wellShaped := by
  unfold Regex.new at hr
  cases h1 : infix2postfix fuel p with
  | error e => simp [h1] at hr
  | ok post =>
    simp only [h1] at hr
    cases h2 : post2nfa fuel post with
    | error e => simp [h2] at hr
    | ok hs =>
      obtain ⟨h, start⟩ := hs
      simp only [h2] at hr
      cases hr
      refine post2nfa_shape fuel post ?_ h start h2
      intro hm
      rcases infix2postfix_mem fuel p post h1 chPlus hm with h | h
      · exact hplus h
      · exact absurd h (by decide)

/-- Instance of `shape_without_plus` at the regex compiled from `(a|b)*`. -/
theorem shape_without_plus_witness :
    chPlus ∉ str "(a|b)*" ∧ Regex.new 20 (str "(a|b)*") = .ok abStarRegex ∧
    ∀ (x : Nat) (st : State), Conn abStarRegex.heap abStarRegex.start x →
      abStarRegex.heap[x]? = some st → st.wellShaped :=
  ⟨by decide, by decide,
    shape_without_plus 20 (str "(a|b)*") abStarRegex (by decide) (by decide)⟩

/-! ## Paths with a step count -/

theorem reachN_of_reach {h : Heap} {x z : Nat} {w : List Nat} (hr : Reach h x w z) :
    ∃ n, ReachN h n x w z := by
  induction hr with
  | refl x => exact ⟨0, ReachN.refl x⟩
  | eps x y z st w hi h0 hy _ ih =>
    obtain ⟨n, hn⟩ := ih
    exact ⟨n + 1, ReachN.eps n x y z st w hi h0 hy hn⟩
  | char x y z st w hi h0 hy _ ih =>
    obtain ⟨n, hn⟩ := ih
    exact ⟨n + 1, ReachN.char n x y z st w hi h0 hy hn⟩

theorem reach_of_reachN {h : Heap} {n x z : Nat} {w : List Nat} (hr : ReachN h n x w z) :
    Reach h x w z := by
  induction hr with
  | refl x => exact Reach.refl x
  | eps n x y z st w hi h0 hy _ ih => exact Reach.eps x y z st w hi h0 hy ih
  | char n x y z st w hi h0 hy _ ih => exact Reach.char x y z st w hi h0 hy ih

theorem reachN_from_eps {h : Heap} {n x q : Nat} {w : List Nat} {st : State}
    (hx : h[x]? = some st) (h0 : st.c = 0) (hr : ReachN h n x w q) (hq : q ≠ x) :
    ∃ m y, n = m + 1 ∧ y ∈ st.outs ∧ ReachN h m y w q := by
  cases hr with
  | refl => exact absurd rfl hq
  | eps m _ y _ st1 _ hi _ hy hr1 =>
    rw [hx] at hi
    cases hi
    exact ⟨m, y, rfl, hy, hr1⟩
  | char m _ y _ st1 w1 hi hc hy hr1 =>
    rw [hx] at hi
    cases hi
    exact absurd h0 hc

theorem reachN_from_lit {h : Heap} {n x q : Nat} {w : List Nat} {st : State}
    (hx : h[x]? = some st) (h0 : st.c ≠ 0) (hr : ReachN h n x w q) (hq : q ≠ x) :
    ∃ m y w1, n = m + 1 ∧ w = st.c :: w1 ∧ y ∈ st.outs ∧ ReachN h m y w1 q := by
  cases hr with
  | refl => exact absurd rfl hq
  | eps m _ y _ st1 _ hi hc hy hr1 =>
    rw [hx] at hi
    cases hi
    exact absurd hc h0
  | char m _ y _ st1 w1 hi hc hy hr1 =>
    rw [hx] at hi
    cases hi
    exact ⟨m, y, w1, rfl, rfl, hy, hr1⟩

theorem reachN_sink {h : Heap} {n x q : Nat} {w : List Nat} {st : State}
    (hx : h[x]? = some st) (ho : st.outs = []) (hr : ReachN h n x w q) : w = [] ∧ q = x := by
  cases hr with
  | refl => exact ⟨rfl, rfl⟩
  | eps m _ y _ st1 _ hi hc hy hr1 =>
    rw [hx] at hi
    cases hi
    rw [ho] at hy
    simp at hy
  | char m _ y _ st1 w1 hi hc hy hr1 =>
    rw [hx] at hi
    cases hi
    rw [ho] at hy
    simp at hy

/-! ## The language of the fragments built from a syntax tree -/

theorem sem_congr {h h2 : Heap} {lo hi : Nat} {e : Fragment} {L : Language Nat}
    (hs : e.Sem h lo hi L) (hh : ∀ i, lo ≤ i → i < hi → h2[i]? = h[i]?) : e.Sem h2 lo hi L := by
  have hc : ∀ h1 t, Completes h2 h1 lo hi e.out t → Completes h h1 lo hi e.out t := by
    intro h1 t hcm i hlo hhi
    rw [hcm i hlo hhi, hh i hlo hhi]
  exact ⟨fun h1 t hcm => hs.complete h1 t (hc h1 t hcm),
    fun h1 t hcm => hs.sound h1 t (hc h1 t hcm)⟩

theorem sem_lit (h : Heap) (a : Nat) (ha : a ≠ 0) :
    Fragment.Sem (h ++ [State.lit a]) h.length (h.length + 1) ⟨h.length, [h.length]⟩
      (RE.lit a).lang := by
  have key : ∀ h1 t, Completes (h ++ [State.lit a]) h1 h.length (h.length + 1) [h.length] t →
      h1[h.length]? = some ⟨false, a, some t, none⟩ := by
    intro h1 t hc
    have := hc h.length (Nat.le_refl _) (Nat.lt_succ_self _)
    rw [getElem?_mid h (State.lit a) []] at this
    simpa [State.fill, State.lit] using this
  refine ⟨fun h1 t hc u hu => ?_, fun h1 t hc n w q hr hq => ?_⟩
  · have hu1 : u = [a] := hu
    subst hu1
    exact Reach.char h.length t t ⟨false, a, some t, none⟩ [] (key h1 t hc) ha
      (by simp [State.outs]) (Reach.refl t)
  · have hne : q ≠ h.length := fun e => hq ⟨by omega, by omega⟩
    obtain ⟨m, y, w1, rfl, rfl, hy, hr1⟩ := reachN_from_lit (key h1 t hc) ha hr hne
    simp only [State.outs, Option.toList, List.append_nil, List.mem_singleton] at hy
    subst hy
    exact ⟨[a], rfl, w1, m, Nat.lt_succ_self m, rfl, hr1⟩

theorem sem_dot {h h1 : Heap} {lo1 lo2 hi : Nat} {e1 e2 : Fragment} {L1 L2 : Language Nat}
    (s1 : e1.Shaped h lo1 lo2) (s2 : e2.Shaped h lo2 hi) (m1 : e1.Sem h lo1 lo2 L1)
    (m2 : e2.Sem h lo2 hi L2) (hf : Filled h h1 e1.out e2.start) :
    Fragment.Sem h1 lo1 hi ⟨e1.start, e2.out⟩ (L1 * L2) := by
  have h12 : lo1 ≤ lo2 := Nat.le_of_lt (Nat.lt_of_le_of_lt s1.start_in.1 s1.start_in.2)
  have h2h : lo2 ≤ hi := Nat.le_of_lt (Nat.lt_of_le_of_lt s2.start_in.1 s2.start_in.2)
  have c1 : ∀ h2 t, Completes h1 h2 lo1 hi e2.out t →
      Completes h h2 lo1 lo2 e1.out e2.start := by
    intro h2 t hc i hlo hhi
    have hn2 : i ∉ e2.out := fun hx => by have := (s2.out_in i hx).1; omega
    rw [hc i hlo (by omega), if_neg hn2, hf.2 i]
  have c2 : ∀ h2 t, Completes h1 h2 lo1 hi e2.out t → Completes h h2 lo2 hi e2.out t := by
    intro h2 t hc i hlo hhi
    have hn1 : i ∉ e1.out := fun hx => by have := (s1.out_in i hx).2; omega
    rw [hc i (by omega) hhi, filled_outside hf i hn1]
  refine ⟨fun h2 t hc u hu => ?_, fun h2 t hc n w q hr hq => ?_⟩
  · obtain ⟨a, ha, b, hb, rfl⟩ := Language.mem_mul.1 hu
    exact reach_trans (m1.complete h2 e2.start (c1 h2 t hc) a ha)
      (m2.complete h2 t (c2 h2 t hc) b hb)
  · obtain ⟨u1, hu1, v1, k1, hk1, rfl, hr1⟩ := m1.sound h2 e2.start (c1 h2 t hc) n w q hr
      (fun hx => hq ⟨hx.1, by omega⟩)
    obtain ⟨u2, hu2, v2, k2, hk2, rfl, hr2⟩ := m2.sound h2 t (c2 h2 t hc) k1 v1 q hr1
      (fun hx => hq ⟨by omega, hx.2⟩)
    exact ⟨u1 ++ u2, Language.append_mem_mul hu1 hu2, v2, k2, by omega, by simp, hr2⟩

theorem sem_bar {h : Heap} {lo1 lo2 : Nat} {e1 e2 : Fragment} {L1 L2 : Language Nat}
    (s1 : e1.Shaped h lo1 lo2) (s2 : e2.Shaped h lo2 h.length) (m1 : e1.Sem h lo1 lo2 L1)
    (m2 : e2.Sem h lo2 h.length L2) :
    Fragment.Sem (h ++ [⟨false, 0, some e1.start, some e2.start⟩]) lo1 (h.length + 1)
      ⟨h.length, StateList.addstate e1.out e2.out⟩ (L1 + L2) := by
  have h12 : lo1 ≤ lo2 := Nat.le_of_lt (Nat.lt_of_le_of_lt s1.start_in.1 s1.start_in.2)
  have h2h : lo2 ≤ h.length := Nat.le_of_lt (Nat.lt_of_le_of_lt s2.start_in.1 s2.start_in.2)
  have c1 : ∀ h2 t, Completes (h ++ [⟨false, 0, some e1.start, some e2.start⟩]) h2 lo1
      (h.length + 1) (StateList.addstate e1.out e2.out) t → Completes h h2 lo1 lo2 e1.out t := by
    intro h2 t hc i hlo hhi
    have hn2 : i ∉ e2.out := fun hx => by have := (s2.out_in i hx).1; omega
    rw [hc i hlo (by omega), List.getElem?_append_left (by omega)]
    by_cases hm : i ∈ e1.out
    · rw [if_pos hm, if_pos ((mem_addstate i e2.out e1.out).2 (Or.inl hm))]
    · rw [if_neg hm, if_neg (fun hx => by
        rcases (mem_addstate i e2.out e1.out).1 hx with hx | hx
        · exact hm hx
        · exact hn2 hx)]
  have c2 : ∀ h2 t, Completes (h ++ [⟨false, 0, some e1.start, some e2.start⟩]) h2 lo1
      (h.length + 1) (StateList.addstate e1.out e2.out) t →
      Completes h h2 lo2 h.length e2.out t := by
    intro h2 t hc i hlo hhi
    have hn1 : i ∉ e1.out := fun hx => by have := (s1.out_in i hx).2; omega
    rw [hc i (by omega) (by omega), List.getElem?_append_left hhi]
    by_cases hm : i ∈ e2.out
    · rw [if_pos hm, if_pos ((mem_addstate i e2.out e1.out).2 (Or.inr hm))]
    · rw [if_neg hm, if_neg (fun hx => by
        rcases (mem_addstate i e2.out e1.out).1 hx with hx | hx
        · exact hn1 hx
        · exact hm hx)]
  have key : ∀ h2 t, Completes (h ++ [⟨false, 0, some e1.start, some e2.start⟩]) h2 lo1
      (h.length + 1) (StateList.addstate e1.out e2.out) t →
      h2[h.length]? = some ⟨false, 0, some e1.start, some e2.start⟩ := by
    intro h2 t hc
    have hn : h.length ∉ StateList.addstate e1.out e2.out := fun hx => by
      rcases (mem_addstate _ e2.out e1.out).1 hx with hx | hx
      · have := (s1.out_in _ hx).2; omega
      · have := (s2.out_in _ hx).2; omega
    rw [hc h.length (by omega) (Nat.lt_succ_self _), if_neg hn, getElem?_mid h _ []]
  refine ⟨fun h2 t hc u hu => ?_, fun h2 t hc n w q hr hq => ?_⟩
  · rcases (Language.mem_add L1 L2 u).1 hu with hu | hu
    · exact Reach.eps h.length e1.start t _ u (key h2 t hc) rfl (by simp [State.outs])
        (m1.complete h2 t (c1 h2 t hc) u hu)
    · exact Reach.eps h.length e2.start t _ u (key h2 t hc) rfl (by simp [State.outs])
        (m2.complete h2 t (c2 h2 t hc) u hu)
  · have hne : q ≠ h.length := fun e => hq ⟨by omega, by omega⟩
    obtain ⟨m, y, rfl, hy, hr1⟩ := reachN_from_eps (key h2 t hc) rfl hr hne
    simp only [State.outs, Option.toList, List.cons_append, List.nil_append, List.mem_cons,
      List.mem_singleton, List.not_mem_nil, or_false] at hy
    rcases hy with rfl | rfl
    · obtain ⟨u1, hu1, v1, k1, hk1, rfl, hr2⟩ := m1.sound h2 t (c1 h2 t hc) m w q hr1
        (fun hx => hq ⟨hx.1, by omega⟩)
      exact ⟨u1, (Language.mem_add L1 L2 u1).2 (Or.inl hu1), v1, k1, by omega, rfl, hr2⟩
    · obtain ⟨u1, hu1, v1, k1, hk1, rfl, hr2⟩ := m2.sound h2 t (c2 h2 t hc) m w q hr1
        (fun hx => hq ⟨by omega, by omega⟩)
      exact ⟨u1, (Language.mem_add L1 L2 u1).2 (Or.inr hu1), v1, k1, by omega, rfl, hr2⟩

theorem sem_quest {h : Heap} {lo : Nat} {e1 : Fragment} {L1 : Language Nat}
    (s1 : e1.Shaped h lo h.length) (m1 : e1.Sem h lo h.length L1) :
    Fragment.Sem (h ++ [⟨false, 0, some e1.start, none⟩]) lo (h.length + 1)
      ⟨h.length, StateList.addstate [h.length] e1.out⟩ (L1 + 1) := by
  have h1h : lo ≤ h.length := Nat.le_of_lt (Nat.lt_of_le_of_lt s1.start_in.1 s1.start_in.2)
  have c1 : ∀ h2 t, Completes (h ++ [⟨false, 0, some e1.start, none⟩]) h2 lo
      (h.length + 1) (StateList.addstate [h.length] e1.out) t →
      Completes h h2 lo h.length e1.out t := by
    intro h2 t hc i hlo hhi
    rw [hc i hlo (by omega), List.getElem?_append_left hhi]
    by_cases hm : i ∈ e1.out
    · rw [if_pos hm, if_pos ((mem_addstate i e1.out [h.length]).2 (Or.inr hm))]
    · rw [if_neg hm, if_neg (fun hx => by
        rcases (mem_addstate i e1.out [h.length]).1 hx with hx | hx
        · rw [List.mem_singleton] at hx; omega
        · exact hm hx)]
  have key : ∀ h2 t, Completes (h ++ [⟨false, 0, some e1.start, none⟩]) h2 lo
      (h.length + 1) (StateList.addstate [h.length] e1.out) t →
      h2[h.length]? = some ⟨false, 0, some e1.start, some t⟩ := by
    intro h2 t hc
    rw [hc h.length h1h (Nat.lt_succ_self _),
      if_pos ((mem_addstate _ e1.out [h.length]).2 (Or.inl (List.mem_singleton_self _))),
      getElem?_mid h _ []]
    rfl
  refine ⟨fun h2 t hc u hu => ?_, fun h2 t hc n w q hr hq => ?_⟩
  · rcases (Language.mem_add L1 1 u).1 hu with hu | hu
    · exact Reach.eps h.length e1.start t _ u (key h2 t hc) rfl (by simp [State.outs])
        (m1.complete h2 t (c1 h2 t hc) u hu)
    · rw [(Language.mem_one u).1 hu]
      exact Reach.eps h.length t t _ [] (key h2 t hc) rfl (by simp [State.outs]) (Reach.refl t)
  · have hne : q ≠ h.length := fun e => hq ⟨by omega, by omega⟩
    obtain ⟨m, y, rfl, hy, hr1⟩ := reachN_from_eps (key h2 t hc) rfl hr hne
    simp only [State.outs, Option.toList, List.cons_append, List.nil_append, List.mem_cons,
      List.mem_singleton, List.not_mem_nil, or_false] at hy
    rcases hy with rfl | rfl
    · obtain ⟨u1, hu1, v1, k1, hk1, rfl, hr2⟩ := m1.sound h2 t (c1 h2 t hc) m w q hr1
        (fun hx => hq ⟨hx.1, by omega⟩)
      exact ⟨u1, (Language.mem_add L1 1 u1).2 (Or.inl hu1), v1, k1, by omega, rfl, hr2⟩
    · exact ⟨[], (Language.mem_add L1 1 []).2 (Or.inr (Language.nil_mem_one)), w, m,
        Nat.lt_succ_self m, rfl, hr1⟩

theorem sem_star {h h1 : Heap} {lo : Nat} {e1 : Fragment} {L1 : Language Nat}
    (s1 : e1.Shaped h lo h.length) (m1 : e1.Sem h lo h.length L1)
    (hf : Filled h h1 e1.out h.length) :
    Fragment.Sem (h1 ++ [⟨false, 0, some e1.start, none⟩]) lo (h.length + 1)
      ⟨h.length, [h.length]⟩ (KStar.kstar L1) := by
  have h1h : lo ≤ h.length := Nat.le_of_lt (Nat.lt_of_le_of_lt s1.start_in.1 s1.start_in.2)
  have c1 : ∀ h2 t, Completes (h1 ++ [⟨false, 0, some e1.start, none⟩]) h2 lo
      (h.length + 1) [h.length] t → Completes h h2 lo h.length e1.out h.length := by
    intro h2 t hc i hlo hhi
    have hn : i ∉ [h.length] := by simp; omega
    rw [hc i hlo (by omega), if_neg hn, List.getElem?_append_left (by rw [hf.1]; exact hhi),
      hf.2 i]
  have key : ∀ h2 t, Completes (h1 ++ [⟨false, 0, some e1.start, none⟩]) h2 lo
      (h.length + 1) [h.length] t →
      h2[h.length]? = some ⟨false, 0, some e1.start, some t⟩ := by
    intro h2 t hc
    have := getElem?_mid h1 (⟨false, 0, some e1.start, none⟩ : State) []
    rw [hf.1] at this
    rw [hc h.length h1h (Nat.lt_succ_self _), if_pos (List.mem_singleton_self _), this]
    rfl
  refine ⟨fun h2 t hc u hu => ?_, fun h2 t hc n => ?_⟩
  · obtain ⟨Ls, rfl, hLs⟩ := Language.mem_kstar.1 hu
    have hloop : ∀ Ls : List (List Nat), (∀ y ∈ Ls, y ∈ L1) →
        Reach h2 h.length Ls.flatten h.length := by
      intro Ls
      induction Ls with
      | nil => intro _; exact Reach.refl _
      | cons y ys ih =>
        intro hy
        rw [List.flatten_cons]
        exact Reach.eps h.length e1.start h.length _ _ (key h2 t hc) rfl (by simp [State.outs])
          (reach_trans (m1.complete h2 h.length (c1 h2 t hc) y (hy y (List.mem_cons_self y ys)))
            (ih (fun z hz => hy z (List.mem_cons_of_mem y hz))))
    have := reach_snoc_eps (hloop Ls hLs) _ (key h2 t hc) rfl
      (show t ∈ State.outs ⟨false, 0, some e1.start, some t⟩ by simp [State.outs])
    exact this
  · induction n using Nat.strong_induction_on with
    | _ n ih =>
      intro w q hr hq
      have hne : q ≠ h.length := fun e => hq ⟨by omega, by omega⟩
      obtain ⟨m, y, rfl, hy, hr1⟩ := reachN_from_eps (key h2 t hc) rfl hr hne
      simp only [State.outs, Option.toList, List.cons_append, List.nil_append, List.mem_cons,
        List.mem_singleton, List.not_mem_nil, or_false] at hy
      rcases hy with rfl | rfl
      · obtain ⟨u1, hu1, v1, k1, hk1, rfl, hr2⟩ := m1.sound h2 h.length (c1 h2 t hc) m w q hr1
          (fun hx => hq ⟨hx.1, by omega⟩)
        obtain ⟨u2, hu2, v2, k2, hk2, rfl, hr3⟩ := ih k1 (by omega) v1 q hr2 hq
        obtain ⟨Ls, rfl, hLs⟩ := Language.mem_kstar.1 hu2
        refine ⟨u1 ++ Ls.flatten, Language.mem_kstar.2 ⟨u1 :: Ls, by simp, fun z hz => ?_⟩,
          v2, k2, by omega, by simp, hr3⟩
        rcases List.mem_cons.1 hz with rfl | hz
        · exact hu1
        · exact hLs z hz
      · exact ⟨[], Language.nil_mem_kstar L1, w, m, Nat.lt_succ_self m, rfl, hr1⟩

theorem loop_cons (fuel tok : Nat) (rest : List Nat) (b b1 : Builder) (h0 : tok ≠ 0)
    (hs : post2nfa.step fuel tok b = .ok b1) :
    post2nfa.loop fuel (tok :: rest) b = post2nfa.loop fuel rest b1 := by
  rw [post2nfa.loop, if_neg h0, hs]

theorem build_tree (t : RE) (ha : t.atomic) (hp : t.plusFree = true) :
    ∀ (h : Heap) (st : List Fragment), ∃ h1 e,
      (∀ i, i < h.length → h1[i]? = h[i]?) ∧ e.Shaped h1 h.length h1.length ∧
      e.Sem h1 h.length h1.length t.lang ∧
      ∀ (f : Nat) (rest : List Nat), post2nfa.loop (f + 1) (t.postorder ++ rest) ⟨h, st⟩ =
        post2nfa.loop (f + 1) rest ⟨h1, e :: st⟩ := by
  induction t with
  | lit a =>
    intro h st
    have ha0 : a ≠ 0 := isAtom_ne_zero ha
    have hl : (h ++ [State.lit a]).length = h.length + 1 := by simp
    refine ⟨h ++ [State.lit a], ⟨h.length, [h.length]⟩,
      fun i hi => List.getElem?_append_left hi, ?_, ?_, fun f rest => ?_⟩
    · rw [hl]; exact shaped_lit h a ha0
    · rw [hl]; exact sem_lit h a ha0
    · exact loop_cons (f + 1) a rest _ _ ha0 (step_atom a ha (f + 1) ⟨h, st⟩)
  | cat r s ihr ihs =>
    intro h st
    simp only [RE.plusFree, Bool.and_eq_true] at hp
    obtain ⟨h1, e1, fr1, sh1, sm1, lp1⟩ := ihr ha.1 hp.1 h st
    obtain ⟨h2, e2, fr2, sh2, sm2, lp2⟩ := ihs ha.2 hp.2 h1 (e1 :: st)
    have l01 : h.length ≤ h1.length :=
      Nat.le_of_lt (Nat.lt_of_le_of_lt sh1.start_in.1 sh1.start_in.2)
    have l12 : h1.length ≤ h2.length :=
      Nat.le_of_lt (Nat.lt_of_le_of_lt sh2.start_in.1 sh2.start_in.2)
    have sh1b : e1.Shaped h2 h.length h1.length :=
      shaped_congr sh1 l12 (fun i _ hi => fr2 i hi)
    have sm1b : e1.Sem h2 h.length h1.length r.lang := sem_congr sm1 (fun i _ hi => fr2 i hi)
    obtain ⟨hnd, hdang⟩ := shaped_dangling sh1b
    obtain ⟨h3, hf, hpf⟩ := list_patch_fill e1.out h2 e2.start hnd hdang
    refine ⟨h3, ⟨e1.start, e2.out⟩, fun i hi => ?_, ?_, ?_, fun f rest => ?_⟩
    · rw [filled_below hf (fun d hd => (sh1b.out_in d hd).1) i hi, fr2 i (by omega), fr1 i hi]
    · rw [hf.1]; exact shaped_dot sh1b sh2 hf
    · rw [hf.1]; exact sem_dot sh1b sh2 sm1b sm2 hf
    · have e : (RE.cat r s).postorder ++ rest =
          r.postorder ++ (s.postorder ++ (chDot :: rest)) := by simp [RE.postorder]
      have hp0 := hpf f []
      simp only [List.append_nil] at hp0
      rw [e, lp1 f, lp2 f]
      exact loop_cons (f + 1) chDot rest _ _ (by decide) (step_dot (f + 1) h2 e2 e1 st h3 hp0)
  | alt r s ihr ihs =>
    intro h st
    simp only [RE.plusFree, Bool.and_eq_true] at hp
    obtain ⟨h1, e1, fr1, sh1, sm1, lp1⟩ := ihr ha.1 hp.1 h st
    obtain ⟨h2, e2, fr2, sh2, sm2, lp2⟩ := ihs ha.2 hp.2 h1 (e1 :: st)
    have l01 : h.length ≤ h1.length :=
      Nat.le_of_lt (Nat.lt_of_le_of_lt sh1.start_in.1 sh1.start_in.2)
    have l12 : h1.length ≤ h2.length :=
      Nat.le_of_lt (Nat.lt_of_le_of_lt sh2.start_in.1 sh2.start_in.2)
    have sh1b : e1.Shaped h2 h.length h1.length :=
      shaped_congr sh1 l12 (fun i _ hi => fr2 i hi)
    have sm1b : e1.Sem h2 h.length h1.length r.lang := sem_congr sm1 (fun i _ hi => fr2 i hi)
    have hl : (h2 ++ [(⟨false, 0, some e1.start, some e2.start⟩ : State)]).length =
        h2.length + 1 := by simp
    refine ⟨h2 ++ [⟨false, 0, some e1.start, some e2.start⟩],
      ⟨h2.length, StateList.addstate e1.out e2.out⟩, fun i hi => ?_, ?_, ?_, fun f rest => ?_⟩
    · rw [List.getElem?_append_left (by omega), fr2 i (by omega), fr1 i hi]
    · rw [hl]; exact shaped_bar sh1b sh2
    · rw [hl]; exact sem_bar sh1b sh2 sm1b sm2
    · have e : (RE.alt r s).postorder ++ rest =
          r.postorder ++ (s.postorder ++ (chBar :: rest)) := by simp [RE.postorder]
      rw [e, lp1 f, lp2 f]
      exact loop_cons (f + 1) chBar rest _ _ (by decide) (step_bar f h2 e2 e1 st)
  | star r ih =>
    intro h st
    simp only [RE.plusFree] at hp
    obtain ⟨h1, e1, fr1, sh1, sm1, lp1⟩ := ih ha hp h st
    have l01 : h.length ≤ h1.length :=
      Nat.le_of_lt (Nat.lt_of_le_of_lt sh1.start_in.1 sh1.start_in.2)
    obtain ⟨hnd, hdang⟩ := shaped_dangling sh1
    obtain ⟨h2, hf, hpf⟩ := list_patch_fill e1.out h1 h1.length hnd hdang
    have hl : (h2 ++ [(⟨false, 0, some e1.start, none⟩ : State)]).length =
        h1.length + 1 := by simp [hf.1]
    refine ⟨h2 ++ [⟨false, 0, some e1.start, none⟩], ⟨h1.length, [h1.length]⟩,
      fun i hi => ?_, ?_, ?_, fun f rest => ?_⟩
    · rw [List.getElem?_append_left (by rw [hf.1]; omega),
        filled_below hf (fun d hd => (sh1.out_in d hd).1) i hi, fr1 i hi]
    · rw [hl]; exact shaped_star sh1 hf
    · rw [hl]; exact sem_star sh1 sm1 hf
    · have e : (RE.star r).postorder ++ rest = r.postorder ++ (chStar :: rest) := by
        simp [RE.postorder]
      rw [e, lp1 f]
      exact loop_cons (f + 1) chStar rest _ _ (by decide) (step_star f h1 h2 e1 st hf.1 hpf)
  | plus r _ => simp [RE.plusFree] at hp
  | opt r ih =>
    intro h st
    simp only [RE.plusFree] at hp
    obtain ⟨h1, e1, fr1, sh1, sm1, lp1⟩ := ih ha hp h st
    have l01 : h.length ≤ h1.length :=
      Nat.le_of_lt (Nat.lt_of_le_of_lt sh1.start_in.1 sh1.start_in.2)
    have hl : (h1 ++ [(⟨false, 0, some e1.start, none⟩ : State)]).length =
        h1.length + 1 := by simp
    refine ⟨h1 ++ [⟨false, 0, some e1.start, none⟩],
      ⟨h1.length, StateList.addstate [h1.length] e1.out⟩, fun i hi => ?_, ?_, ?_,
      fun f rest => ?_⟩
    · rw [List.getElem?_append_left (by omega), fr1 i hi]
    · rw [hl]; exact shaped_quest sh1
    · rw [hl]; exact sem_quest sh1 sm1
    · have e : (RE.opt r).postorder ++ rest = r.postorder ++ (chQuest :: rest) := by
        simp [RE.postorder]
      rw [e, lp1 f]
      exact loop_cons (f + 1) chQuest rest _ _ (by decide) (step_quest f h1 e1 st)

theorem patch_full_timeout (g : Heap) (i s : Nat) (st : State) (o1 o2 : Nat)
    (hi : g[i]? = some st) (h1 : st.out1 = some o1) (h2 : st.out2 = some o2) :
    State.patch 1 g i s = .error .timeout := by
  simp [State.patch, hi, h1, h2]

theorem thompson_accepts (t : RE) (ha : t.atomic) (hp : t.plusFree = true) :
    ∃ (h0 : Heap) (e : Fragment) (h : Heap),
      (∀ f, post2nfa.loop (f + 1) t.postorder ⟨[], []⟩ = .ok ⟨h0, [e]⟩) ∧
      (∀ f, post2nfa (f + 1) t.postorder = .ok (h, e.start)) ∧
      Closed h ∧ e.start < h.length ∧ ∀ w, Accepts h e.start w ↔ w ∈ t.lang := by
  obtain ⟨h1, e, -, sh, sm, lp⟩ := build_tree t ha hp [] []
  simp only [List.length_nil] at sh sm
  obtain ⟨hnd, hdang⟩ := shaped_dangling sh
  obtain ⟨hF, hf, hpf⟩ := list_patch_fill e.out h1 h1.length hnd hdang
  have hloop : ∀ f, post2nfa.loop (f + 1) t.postorder ⟨[], []⟩ = .ok ⟨h1, [e]⟩ := by
    intro f
    have := lp f []
    simpa [post2nfa.loop] using this
  have hpost : ∀ f, post2nfa (f + 1) t.postorder =
      .ok (hF ++ [State.ofBool true], e.start) := by
    intro f
    rw [post2nfa, post2nfa.run, hloop f]
    exact finish_fill f h1 hF e [] hpf
  obtain ⟨hcl, hst⟩ := post2nfa_closed 1 t.postorder _ _ (hpost 0)
  have hcomp : Completes h1 (hF ++ [State.ofBool true]) 0 h1.length e.out h1.length := by
    intro i _ hi
    rw [List.getElem?_append_left (by rw [hf.1]; exact hi), hf.2 i]
  have hacc : (hF ++ [State.ofBool true])[h1.length]? = some (State.ofBool true) := by
    have := getElem?_mid hF (State.ofBool true) []
    rwa [hf.1] at this
  refine ⟨h1, e, hF ++ [State.ofBool true], hloop, hpost, hcl, hst, fun w => ⟨?_, ?_⟩⟩
  · rintro ⟨q, stq, hr, hq, hm⟩
    have hqlt := getElem?_some_lt hq
    have hqe : q = h1.length := by
      by_contra hne
      have hlt : q < h1.length := by
        simp only [List.length_append, List.length_singleton, hf.1] at hqlt
        omega
      have h0 : h1[q]? = some h1[q] := List.getElem?_eq_getElem hlt
      obtain ⟨b1, -, b3, -⟩ := sh.state q h1[q] (Nat.zero_le q) hlt h0
      rw [hcomp q (Nat.zero_le q) hlt] at hq
      by_cases hmem : q ∈ e.out
      · rw [if_pos hmem, h0] at hq
        obtain ⟨c1, c2, c3⟩ := b3 hmem
        obtain ⟨f1, -⟩ := fill_dangling h1[q] h1.length c1 c2 c3
        simp only [Option.map_some', Option.some.injEq] at hq
        rw [← hq, f1, b1] at hm
        exact Bool.noConfusion hm
      · rw [if_neg hmem, h0] at hq
        simp only [Option.some.injEq] at hq
        rw [← hq, b1] at hm
        exact Bool.noConfusion hm
    subst hqe
    obtain ⟨n, hn⟩ := reachN_of_reach hr
    obtain ⟨u, hu, v, m, -, rfl, hr2⟩ := sm.sound _ h1.length hcomp n w h1.length hn
      (fun hx => Nat.lt_irrefl _ hx.2)
    obtain ⟨rfl, -⟩ := reachN_sink hacc (by simp [State.ofBool, State.outs]) hr2
    simpa using hu
  · intro hw
    exact ⟨h1.length, State.ofBool true, sm.complete _ h1.length hcomp w hw, hacc, rfl⟩

/-- With the uninitialised fields reading false: for the tree of the single atom `a`, `match` answers true on the
input `a`, NUL, `b`, which is not in the language of the tree: the simulator stops reading at
the NUL character. -/
theorem thompson_nul_counterexample :
    post2nfa 1 (RE.lit 97).postorder =
      .ok ([⟨false, 97, some 1, none⟩, ⟨true, 0, none, none⟩], 0) ∧
    match_ 5 [⟨false, 97, some 1, none⟩, ⟨true, 0, none, none⟩] [] 0 [97, 0, 98] =
      .ok (true, []) ∧
    [97, 0, 98] ∉ (RE.lit 97).lang := by
  refine ⟨by decide, by decide, fun h => ?_⟩
  have := Set.mem_singleton_iff.1 h
  simp at this

/-- Thompson construction on the postfix of any syntax tree without one-or-more, in the runs
in which the uninitialised fields read false.  For every tree `t` of atoms, concatenation, alternation, Kleene star and
optional, `post2nfa` on the post-order tokens of `t` ends its loop with exactly one fragment
on the stack and returns an automaton, already when `State::patch` is allowed recursion depth
one, at which a call on a state with both out-slots filled fails: no such state is ever
patched.  On the returned start state `match` returns, and in these runs it answers true
exactly for the inputs whose part before the first NUL character is in the language of `t` (for a NUL-free
input: exactly when the input is in the language). -/
theorem thompson_correct (t : RE) (ha : t.atomic) (hp : t.plusFree = true) :
    ∃ (h0 : Heap) (e : Fragment) (h : Heap) (start : Nat),
      (∀ f, post2nfa.loop (f + 1) t.postorder ⟨[], []⟩ = .ok ⟨h0, [e]⟩ ∧
        post2nfa (f + 1) t.postorder = .ok (h, start)) ∧
      (∀ (g : Heap) (i s : Nat) (st : State) (o1 o2 : Nat), g[i]? = some st →
        st.out1 = some o1 → st.out2 = some o2 → State.patch 1 g i s = .error .timeout) ∧
      ∀ s : List Nat, ∃ (N : Nat) (b : Bool),
        (∀ fuel, N ≤ fuel → match_ fuel h [] start s = .ok (b, [])) ∧
        (b = true ↔ untilNul s ∈ t.lang) ∧ (0 ∉ s → (b = true ↔ s ∈ t.lang)) := by
  obtain ⟨h0, e, h, hl, hpost, hcl, hst, hacc⟩ := thompson_accepts t ha hp
  refine ⟨h0, e, h, e.start, fun f => ⟨hl f, hpost f⟩, patch_full_timeout, fun s => ?_⟩
  obtain ⟨N, b, hN, hb⟩ := match_iff_accepts h hcl e.start hst s
  refine ⟨N, b, hN, hb.trans (hacc _), fun h0 => ?_⟩
  have := hb.trans (hacc _)
  rwa [untilNul_of_not_mem s h0] at this

/-- Instance of `thompson_correct` at the tree of `(a|b.c)*.(d.e)`. -/
theorem thompson_correct_witness :
    exampleTree.atomic ∧ exampleTree.plusFree = true ∧
    ∃ (h0 : Heap) (e : Fragment) (h : Heap) (start : Nat),
      (∀ f, post2nfa.loop (f + 1) exampleTree.postorder ⟨[], []⟩ = .ok ⟨h0, [e]⟩ ∧
        post2nfa (f + 1) exampleTree.postorder = .ok (h, start)) ∧
      (∀ (g : Heap) (i s : Nat) (st : State) (o1 o2 : Nat), g[i]? = some st →
        st.out1 = some o1 → st.out2 = some o2 → State.patch 1 g i s = .error .timeout) ∧
      ∀ s : List Nat, ∃ (N : Nat) (b : Bool),
        (∀ fuel, N ≤ fuel → match_ fuel h [] start s = .ok (b, [])) ∧
        (b = true ↔ untilNul s ∈ exampleTree.lang) ∧
        (0 ∉ s → (b = true ↔ s ∈ exampleTree.lang)) :=
  ⟨by decide, by decide, thompson_correct exampleTree (by decide) (by decide)⟩

/-! ## Stacked quantifiers: the recursion of `patch` that never ends -/

theorem patch_two_cycle (h : Heap) (x y s : Nat) (sx sy : State) (ox oy : Nat)
    (hx : h[x]? = some sx) (hy : h[y]? = some sy) (x1 : sx.out1 = some y)
    (x2 : sx.out2 = some ox) (y1 : sy.out1 = some x) (y2 : sy.out2 = some oy) :
    ∀ fuel, State.patch fuel h x s = .error .timeout ∧
      State.patch fuel h y s = .error .timeout := by
  intro fuel
  induction fuel with
  | zero => exact ⟨rfl, rfl⟩
  | succ f ih =>
    constructor
    · rw [State.patch, hx]
      simp only [x1, x2, ih.2]
    · rw [State.patch, hy]
      simp only [y1, y2, ih.1]

/-- C23: compilation of the well-formed patterns `a+++` and `a*++` never returns.  Both are
converted to postfix, and the loop of `post2nfa` builds their states; then the final patch is
applied to a state whose two out-pointers are set and whose first successor is full as well
and points back to it, and `State::patch` recurses between the two without end: whatever the
recursion depth allowed, the construction of the regex does not complete. -/
theorem stacked_plus_never_compiles :
    (∀ k, infix2postfix (k + 9) (str "a+++") = .ok (str "a+++") ∧
      post2nfa.loop (k + 9) (str "a+++") ⟨[], []⟩ = .ok ⟨plus3Heap, [⟨0, [0]⟩]⟩) ∧
    (∀ fuel s, State.patch fuel (plus3Heap ++ [State.ofBool true]) 0 s = .error .timeout) ∧
    (∀ fuel, Regex.new fuel (str "a+++") = .error .timeout) ∧
    (∀ k, infix2postfix (k + 9) (str "a*++") = .ok (str "a*++") ∧
      post2nfa.loop (k + 9) (str "a*++") ⟨[], []⟩ = .ok ⟨starPlus2Heap, [⟨1, [1]⟩]⟩) ∧
    (∀ fuel s, State.patch fuel (starPlus2Heap ++ [State.ofBool true]) 1 s = .error .timeout) ∧
    (∀ fuel, Regex.new fuel (str "a*++") = .error .timeout) := by
  have c1 : ∀ fuel s, State.patch fuel (plus3Heap ++ [State.ofBool true]) 0 s =
      .error .timeout := fun fuel s =>
    (patch_two_cycle (plus3Heap ++ [State.ofBool true]) 0 1 s _ _ 2 3 rfl rfl rfl rfl rfl rfl
      fuel).1
  have c2 : ∀ fuel s, State.patch fuel (starPlus2Heap ++ [State.ofBool true]) 1 s =
      .error .timeout := fun fuel s =>
    (patch_two_cycle (starPlus2Heap ++ [State.ofBool true]) 1 0 s _ _ 2 3 rfl rfl rfl rfl rfl
      rfl fuel).1
  have p1 : ∀ k, infix2postfix (k + 9) (str "a+++") = .ok (str "a+++") ∧
      post2nfa.loop (k + 9) (str "a+++") ⟨[], []⟩ = .ok ⟨plus3Heap, [⟨0, [0]⟩]⟩ :=
    fun k => ⟨rfl, rfl⟩
  have p2 : ∀ k, infix2postfix (k + 9) (str "a*++") = .ok (str "a*++") ∧
      post2nfa.loop (k + 9) (str "a*++") ⟨[], []⟩ = .ok ⟨starPlus2Heap, [⟨1, [1]⟩]⟩ :=
    fun k => ⟨rfl, rfl⟩
  refine ⟨p1, c1, fun fuel => ?_, p2, c2, fun fuel => ?_⟩
  · by_cases hlt : fuel < 9
    · interval_cases fuel <;> rfl
    · obtain ⟨k, rfl⟩ : ∃ k, fuel = k + 9 := ⟨fuel - 9, by omega⟩
      simp only [Regex.new, (p1 k).1, post2nfa, post2nfa.run, (p1 k).2, post2nfa.finish,
        StateList.patch, List.length, c1]
  · by_cases hlt : fuel < 9
    · interval_cases fuel <;> rfl
    · obtain ⟨k, rfl⟩ : ∃ k, fuel = k + 9 := ⟨fuel - 9, by omega⟩
      simp only [Regex.new, (p2 k).1, post2nfa, post2nfa.run, (p2 k).2, post2nfa.finish,
        StateList.patch, List.length, c2]
/-! ## Patching a dangling set: what changes -/

theorem patch_fill_any (f : Nat) (h : Heap) (d t : Nat) (st : State) (hd : h[d]? = some st)
    (hs : st.out1 = none ∨ st.out2 = none) :
    State.patch (f + 1) h d t = .ok (h.set d (st.fill t)) := by
  cases h1 : st.out1 with
  | none =>
    rw [patch_first f h d t st hd h1]
    simp [State.fill, h1]
  | some o1 =>
    have h2 : st.out2 = none := by
      rcases hs with hs | hs
      · rw [h1] at hs; exact Option.noConfusion hs
      · exact hs
    rw [patch_second f h d t o1 st hd h1 h2]
    simp [State.fill, h1]

theorem list_patch_frame (l : List Nat) : ∀ (h : Heap) (t : Nat), l.Nodup →
    (∀ d ∈ l, ∃ st, h[d]? = some st ∧ (st.out1 = none ∨ st.out2 = none)) →
    ∃ h1, Filled h h1 l t ∧ ∀ f : Nat, StateList.patch (f + 1) h l t = .ok h1 := by
  induction l with
  | nil =>
    intro h t _ _
    exact ⟨h, ⟨rfl, fun i => by simp⟩, fun f => rfl⟩
  | cons d ds ih =>
    intro h t hnd hdang
    obtain ⟨hd, hds⟩ := List.nodup_cons.1 hnd
    obtain ⟨st, hst, hst2⟩ := hdang d (List.mem_cons_self d ds)
    have hother : ∀ x, x ≠ d → (h.set d (st.fill t))[x]? = h[x]? := by
      intro x hx
      rw [List.getElem?_set]
      have hdx : ¬ d = x := fun e => hx e.symm
      simp [hdx]
    obtain ⟨h1, ⟨hlen, hpt⟩, hp⟩ := ih (h.set d (st.fill t)) t hds (fun x hx => by
      obtain ⟨sx, hsx, hsx2⟩ := hdang x (List.mem_cons_of_mem d hx)
      have hxd : x ≠ d := fun e => hd (e ▸ hx)
      exact ⟨sx, by rw [hother x hxd]; exact hsx, hsx2⟩)
    refine ⟨h1, ⟨by rw [hlen, List.length_set], fun i => ?_⟩, fun f => ?_⟩
    · rw [hpt i]
      by_cases hid : i = d
      · subst hid
        simp only [hd, if_false, List.mem_cons, true_or, if_true]
        rw [getElem?_set_self_some h i st _ hst, hst]
        rfl
      · rw [hother i hid]
        simp [hid]
    · rw [StateList.patch, patch_fill_any f h d t st hst hst2]
      exact hp f

theorem filled_unique {h h1 h2 : Heap} {l l2 : List Nat} {t : Nat} (a : Filled h h1 l t)
    (b : Filled h h2 l2 t) (hm : ∀ i, i ∈ l2 ↔ i ∈ l) : h2 = h1 := by
  apply List.ext_getElem?
  intro i
  rw [a.2 i, b.2 i]
  by_cases hi : i ∈ l
  · rw [if_pos hi, if_pos ((hm i).2 hi)]
  · rw [if_neg hi, if_neg (fun hx => hi ((hm i).1 hx))]

theorem full_state_kept {h h1 : Heap} (he : Extends h h1) (i : Nat) (st : State) (a b : Nat)
    (hi : h[i]? = some st) (h1o : st.out1 = some a) (h2o : st.out2 = some b) :
    h1[i]? = some st := by
  obtain ⟨st1, hi1, e1, e2, e3, e4⟩ := he i st hi
  rw [hi1]
  congr 1
  cases st1
  cases st
  simp only at e1 e2 e3 e4 h1o h2o
  simp only [State.mk.injEq]
  exact ⟨e2, e1, by rw [e3 a h1o, h1o], by rw [e4 b h2o, h2o]⟩

/-- C22 (counterexample): a dangling set that holds a state with no empty out-slot.  State `0`
has both out-pointers set, to the states `1` and `2`; patching the set that holds state `0`
alone with state `3` leaves state `0` as it is and sets the first out-pointer of the states
`1` and `2`, which are not in the set. -/
theorem patch_full_state_counterexample :
    StateList.patch 5 fullForkHeap [0] 3 =
      .ok [⟨false, 0, some 1, some 2⟩, ⟨false, 97, some 3, none⟩, ⟨false, 98, some 3, none⟩,
        State.eps] ∧
    1 ∉ [0] ∧ fullForkHeap[1]? = some (State.lit 97) ∧ (State.lit 97).out1 = none := by
  decide

/-- C22 (amended): patching a dangling set all of whose states have an empty out-slot changes
only the states of the set and only their first empty out-slot.  For every set `L` of states
that each have an empty out-slot and every state `S`, `L.patch(S)` returns without entering
the recursive branch of `State::patch`; afterwards each state of `L` has `S` in the slot that
was its first empty one and is otherwise as before, every state not in `L` is as before, and
the result is the same for every order in which `L` is iterated.  Whatever the set, `patch`
only ever writes a null out-pointer, so a state with no empty slot is left unchanged (but
`State::patch` then recurses into its two successors, which need not be in the set). -/
theorem patch_frame (h : Heap) (L : List Nat) (S : Nat) (hnd : L.Nodup)
    (hslot : ∀ d ∈ L, ∃ st, h[d]? = some st ∧ (st.out1 = none ∨ st.out2 = none)) :
    (∃ h1 : Heap, (∀ f, StateList.patch (f + 1) h L S = .ok h1) ∧ h1.length = h.length ∧
      (∀ d ∈ L, ∀ st, h[d]? = some st → h1[d]? = some (st.fill S)) ∧
      (∀ i, i ∉ L → h1[i]? = h[i]?) ∧
      (∀ L2 : List Nat, L2.Perm L → ∀ f, StateList.patch (f + 1) h L2 S = .ok h1)) ∧
    (∀ (fuel : Nat) (g g1 : Heap) (M : List Nat) (T : Nat),
      StateList.patch fuel g M T = .ok g1 →
      Extends g g1 ∧ ∀ (i : Nat) (st : State) (a b : Nat), g[i]? = some st →
        st.out1 = some a → st.out2 = some b → g1[i]? = some st) := by
  refine ⟨?_, fun fuel g g1 M T hp => ?_⟩
  · obtain ⟨h1, hf, hp⟩ := list_patch_frame L h S hnd hslot
    refine ⟨h1, hp, hf.1, fun d hd st hst => filled_at hf d st hd hst,
      fun i hi => filled_outside hf i hi, fun L2 hperm f => ?_⟩
    obtain ⟨h2, hf2, hp2⟩ := list_patch_frame L2 h S (hperm.nodup_iff.2 hnd)
      (fun d hd => hslot d (hperm.mem_iff.1 hd))
    rw [hp2 f, filled_unique hf hf2 (fun i => hperm.mem_iff)]
  · have he := list_patch_extends fuel M g T g1 hp
    exact ⟨he, fun i st a b hi h1o h2o => full_state_kept he i st a b hi h1o h2o⟩

/-- C22 (witness): the dangling set of the literal state `0` and the fork state `1` (one
out-pointer set), patched with state `2`. -/
theorem patch_frame_witness :
    [0, 1].Nodup ∧
    (∀ d ∈ [0, 1], ∃ st, twoDanglingHeap[d]? = some st ∧ (st.out1 = none ∨ st.out2 = none)) ∧
    (∃ h1 : Heap, (∀ f, StateList.patch (f + 1) twoDanglingHeap [0, 1] 2 = .ok h1) ∧
      h1.length = twoDanglingHeap.length ∧
      (∀ d ∈ [0, 1], ∀ st, twoDanglingHeap[d]? = some st → h1[d]? = some (st.fill 2)) ∧
      (∀ i, i ∉ [0, 1] → h1[i]? = twoDanglingHeap[i]?) ∧
      (∀ L2 : List Nat, L2.Perm [0, 1] → ∀ f,
        StateList.patch (f + 1) twoDanglingHeap L2 2 = .ok h1)) ∧
    (∀ (fuel : Nat) (g g1 : Heap) (M : List Nat) (T : Nat),
      StateList.patch fuel g M T = .ok g1 →
      Extends g g1 ∧ ∀ (i : Nat) (st : State) (a b : Nat), g[i]? = some st →
        st.out1 = some a → st.out2 = some b → g1[i]? = some st) :=
  have hs : ∀ d ∈ [0, 1], ∃ st, twoDanglingHeap[d]? = some st ∧
      (st.out1 = none ∨ st.out2 = none) := by
    intro d hd
    simp only [List.mem_cons, List.mem_singleton, List.not_mem_nil, or_false] at hd
    rcases hd with rfl | rfl
    · exact ⟨State.lit 97, rfl, Or.inl rfl⟩
    · exact ⟨⟨false, 0, some 0, none⟩, rfl, Or.inr rfl⟩
  ⟨by decide, hs, patch_frame twoDanglingHeap [0, 1] 2 (by decide) hs⟩

/-! ## One generation of the simulation expands each state at most once -/

theorem inner_expansion (h : Heap) (ch : Nat) : ∀ (fuel : Nat) (clist : List Nat) (j : Nat)
    (visited nlist : List Nat) (res : List Nat × List Nat),
    matchInner fuel h ch clist j visited nlist = .ok res → visited.Nodup →
    ∃ new : List Nat, (new ++ visited).Nodup ∧
      res.1 = clist ++ new.reverse.flatMap (outsAt h) ∧
      ∀ x ∈ new, x ∈ res.1 ∧ ∃ st, h[x]? = some st ∧ st.is_epsilon = true := by
  intro fuel
  induction fuel with
  | zero => intro clist j visited nlist res hm _; simp [matchInner] at hm
  | succ f ih =>
    intro clist j visited nlist res hm hnd
    rw [matchInner] at hm
    cases hj : clist[j]? with
    | none =>
      simp only [hj, Except.ok.injEq] at hm
      subst hm
      exact ⟨[], by simpa using hnd, by simp, fun x hx => by simp at hx⟩
    | some state =>
      simp only [hj] at hm
      by_cases hv : state ∈ visited
      · simp only [hv, if_true] at hm
        exact ih clist (j + 1) visited nlist res hm hnd
      · simp only [hv, if_false] at hm
        cases hi : h[state]? with
        | none => simp [hi] at hm
        | some st =>
          simp only [hi] at hm
          by_cases h1 : st.is_match ch = true
          · simp only [h1, if_true] at hm
            exact ih clist (j + 1) visited _ res hm hnd
          · by_cases h2 : st.is_epsilon = true
            · simp only [h1, h2, if_true, Bool.false_eq_true, if_false] at hm
              obtain ⟨new, hn1, hn2, hn3⟩ := ih _ (j + 1) (state :: visited) nlist res hm
                (List.nodup_cons.2 ⟨hv, hnd⟩)
              have ho : outsAt h state = st.out1.toList ++ st.out2.toList := by
                simp [outsAt, hi, State.outs]
              refine ⟨new ++ [state], by simpa using hn1, ?_, fun x hx => ?_⟩
              · rw [hn2, List.reverse_append, List.reverse_singleton, List.singleton_append,
                  List.flatMap_cons, ho]
                simp
              · rcases List.mem_append.1 hx with hx | hx
                · exact hn3 x hx
                · rw [List.mem_singleton.1 hx]
                  refine ⟨?_, st, hi, h2⟩
                  rw [hn2]
                  exact List.mem_append_left _
                    (List.mem_append_left _ (List.mem_append_left _ (List.getElem?_mem hj)))
            · simp only [h1, h2, Bool.false_eq_true, if_false] at hm
              exact ih clist (j + 1) visited nlist res hm hnd

theorem nodup_length_le (l : List Nat) (n : Nat) (hnd : l.Nodup) (hl : ∀ x ∈ l, x < n) :
    l.length ≤ n := by
  rw [← List.toFinset_card_of_nodup hnd]
  calc l.toFinset.card ≤ (Finset.range n).card :=
        Finset.card_le_card (fun x hx => by
          rw [List.mem_toFinset] at hx
          exact Finset.mem_range.2 (hl x hx))
    _ = n := Finset.card_range n

theorem outsAt_length (h : Heap) (x : Nat) : (outsAt h x).length ≤ 2 := by
  unfold outsAt
  cases h[x]? with
  | none => simp
  | some st =>
    have := outs_length_le [] st
    simpa [State.outs] using this

theorem flatMap_outs_length (h : Heap) (l : List Nat) :
    (l.flatMap (outsAt h)).length ≤ 2 * l.length := by
  induction l with
  | nil => simp
  | cons x xs ih =>
    have := outsAt_length h x
    simp only [List.flatMap_cons, List.length_append, List.length_cons]
    omega

/-- C21 (counterexample): the current list of a generation can hold a state twice.  For `a|a`
both literal states push the accept state onto `nlist` when `a` is read, and the next
generation takes over the list `[3, 3]`; for `a**` the inner loop state appends the start
state `2` to the list `[2, 1, 3, 0]`, on which it already is. -/
theorem clist_duplicates :
    Regex.new 20 (str "a|a") = .ok ⟨str "a|a", altSameHeap, 2⟩ ∧
    matchInner 20 altSameHeap 97 [2] 0 [] [] = .ok ([2, 0, 1], [3, 3]) ∧
    matchLoop 20 altSameHeap [] (str "aa") [2] = matchLoop 20 altSameHeap [] (str "a") [3, 3] ∧
    ¬ [3, 3].Nodup ∧
    Regex.new 20 (str "a**") = .ok ⟨str "a**", starStarHeap, 2⟩ ∧
    matchInner 20 starStarHeap 97 [2] 0 [] [] = .ok ([2, 1, 3, 0, 2], [1]) ∧
    ¬ [2, 1, 3, 0, 2].Nodup := by
  refine ⟨by decide, by decide, by decide, by decide, by decide, by decide, by decide⟩

/-- C21 (amended): in every generation of the simulation each state is expanded at most once.
For every compiled regex, every input character and every list `clist` of states that the
generation takes over, the inner loop of `match` returns, and the current list it ends with
is `clist` followed by the out-edge targets of pairwise distinct epsilon states of that list,
each expanded once, in the order of their expansion; so the list grows by at most two entries
per state of the automaton.  (A state can still occur in it several times: as taken over from
`nlist`, or as the target of several expanded states.) -/
theorem generation_expands_once (fuel0 : Nat) (p : List Nat) (r : Regex)
    (hr : Regex.new fuel0 p = .ok r) (ch : Nat) (clist : List Nat)
    (hcl : ∀ x ∈ clist, x < r.heap.length) :
    ∃ (cl nl expanded : List Nat),
      (∀ fuel, 2 * r.heap.length + clist.length + 1 ≤ fuel →
        matchInner fuel r.heap ch clist 0 [] [] = .ok (cl, nl)) ∧
      expanded.Nodup ∧
      (∀ x ∈ expanded, x ∈ cl ∧ ∃ st, r.heap[x]? = some st ∧ st.is_epsilon = true) ∧
      cl = clist ++ expanded.flatMap (outsAt r.heap) ∧
      cl.length ≤ clist.length + 2 * r.heap.length := by
  obtain ⟨hc, -⟩ := regex_closed fuel0 p r hr
  obtain ⟨res, hres, -⟩ := inner_total r.heap hc ch (2 * r.heap.length + clist.length) clist 0
    [] [] (by have := unvisited_le r.heap.length []; omega) hcl (by simp)
  obtain ⟨cl, nl⟩ := res
  obtain ⟨new, hn1, hn2, hn3⟩ := inner_expansion r.heap ch _ clist 0 [] [] (cl, nl)
    (hres _ (Nat.le_refl _)) List.nodup_nil
  simp only [List.append_nil] at hn1
  simp only at hn2 hn3
  have hnd : new.reverse.Nodup := List.nodup_reverse.2 hn1
  have hlen : new.reverse.length ≤ r.heap.length :=
    nodup_length_le _ _ hnd (fun x hx => by
      obtain ⟨-, st, hst, -⟩ := hn3 x (List.mem_reverse.1 hx)
      exact getElem?_some_lt hst)
  refine ⟨cl, nl, new.reverse, hres, hnd, fun x hx => hn3 x (List.mem_reverse.1 hx), hn2, ?_⟩
  have := flatMap_outs_length r.heap new.reverse
  rw [hn2, List.length_append]
  omega

/-- C21 (witness): the regex compiled from `a**`, the character `a` and the list that holds
the start state. -/
theorem generation_expands_once_witness :
    Regex.new 20 (str "a**") = .ok ⟨str "a**", starStarHeap, 2⟩ ∧
    (∀ x ∈ [2], x < starStarHeap.length) ∧
    ∃ (cl nl expanded : List Nat),
      (∀ fuel, 2 * starStarHeap.length + [2].length + 1 ≤ fuel →
        matchInner fuel starStarHeap 97 [2] 0 [] [] = .ok (cl, nl)) ∧
      expanded.Nodup ∧
      (∀ x ∈ expanded, x ∈ cl ∧ ∃ st, starStarHeap[x]? = some st ∧ st.is_epsilon = true) ∧
      cl = [2] ++ expanded.flatMap (outsAt starStarHeap) ∧
      cl.length ≤ [2].length + 2 * starStarHeap.length :=
  ⟨by decide, by decide,
    generation_expands_once 20 (str "a**") ⟨str "a**", starStarHeap, 2⟩ (by decide) 97 [2]
      (by decide)⟩

/-! ## The traversal of `~State` -/

theorem unvisited_append (n : Nat) (a v : List Nat) : unvisited n (a ++ v) ≤ unvisited n v := by
  unfold unvisited
  apply Finset.card_le_card
  intro x hx
  simp only [Finset.mem_sdiff, Finset.mem_range, List.mem_toFinset, List.mem_append,
    not_or] at hx ⊢
  exact ⟨hx.1, hx.2.2⟩

theorem unroot_noop (o : Option Nat) (td : Teardown) (hinv : td.Inv) :
    Teardown.unroot o td = .ok td := by
  cases o with
  | none => rfl
  | some x =>
    unfold Teardown.unroot
    by_cases hv : x ∈ td.visited
    · simp [hv]
    · have hf : x ∉ td.freed := fun hx => hv (hinv.2.2 x hx)
      have hr : td.root.filter (fun y => y != x) = td.root := by
        apply List.filter_eq_self.2
        intro y hy
        have : y ≠ x := fun e => hv (e ▸ hinv.2.1 y hy)
        simpa using this
      simp only [hv, hf, if_false, hr]

theorem deleteOut_spec (h : Heap) (M : Nat) (ih : DeleteOK h M) (o : Option Nat)
    (td : Teardown) (ho : ∀ x, o = some x → x < h.length) (hne : td.visited ≠ [])
    (hinv : td.Inv) (hm : unvisited h.length td.visited ≤ M) :
    ∃ nV nF : List Nat,
      (∀ fuel, M + 1 ≤ fuel → Teardown.deleteOut (State.delete fuel h) o td =
        .ok ⟨nV ++ td.visited, td.root, nF ++ td.freed⟩) ∧
      nF.Perm nV ∧ (nV ++ td.visited).Nodup ∧ (∀ x, o = some x → x ∈ nV ++ td.visited) ∧
      (∀ x ∈ nV, ∃ y, o = some y ∧ Conn h y x) ∧
      ∀ x ∈ nV, ∀ z ∈ outsAt h x, z ∈ nV ++ td.visited := by
  cases o with
  | none =>
    exact ⟨[], [], fun fuel _ => rfl, List.Perm.refl _, (by simpa using hinv.1),
      fun x hx => (by cases hx), fun x hx => (by simp at hx), fun x hx => (by simp at hx)⟩
  | some y =>
    by_cases hv : y ∈ td.visited
    · refine ⟨[], [], fun fuel _ => ?_, List.Perm.refl _, by simpa using hinv.1,
        fun x hx => ?_, fun x hx => by simp at hx, fun x hx => by simp at hx⟩
      · simp [Teardown.deleteOut, hv]
      · cases hx
        simpa using hv
    · obtain ⟨nV, nF, hd, hp, hnd, hs, hc, hcl⟩ := ih y td (ho y rfl) hv hne hinv hm
      refine ⟨nV, nF, fun fuel hf => ?_, hp, hnd, fun x hx => ?_, fun x hx => ⟨y, rfl, hc x hx⟩,
        hcl⟩
      · simp only [Teardown.deleteOut, hv, if_false]
        exact hd fuel hf
      · cases hx
        exact List.mem_append_left _ hs

theorem inv_after (td : Teardown) (nV nF : List Nat) (hinv : td.Inv) (hp : nF.Perm nV)
    (hnd : (nV ++ td.visited).Nodup) :
    Teardown.Inv ⟨nV ++ td.visited, td.root, nF ++ td.freed⟩ := by
  refine ⟨hnd, fun x hx => List.mem_append_right _ (hinv.2.1 x hx), fun x hx => ?_⟩
  rcases List.mem_append.1 hx with hx | hx
  · exact List.mem_append_left _ (hp.mem_iff.1 hx)
  · exact List.mem_append_right _ (hinv.2.2 x hx)

theorem children_spec (h : Heap) (hc : Closed h) (M : Nat) (ih : DeleteOK h M) (self : Nat)
    (st : State) (hst : h[self]? = some st) (td : Teardown) (hne : td.visited ≠ [])
    (hinv : td.Inv) (hm : unvisited h.length td.visited ≤ M) :
    ∃ nV nF : List Nat,
      (∀ fuel, M + 1 ≤ fuel → Teardown.children (State.delete fuel h) st td =
        .ok ⟨nV ++ td.visited, td.root, nF ++ td.freed⟩) ∧
      nF.Perm nV ∧ (nV ++ td.visited).Nodup ∧ (∀ o ∈ st.outs, o ∈ nV ++ td.visited) ∧
      (∀ x ∈ nV, Conn h self x) ∧ ∀ x ∈ nV, ∀ z ∈ outsAt h x, z ∈ nV ++ td.visited := by
  obtain ⟨c1, c2⟩ := hc self st hst
  obtain ⟨n1, f1, hd1, hp1, hnd1, hs1, hr1, hcl1⟩ :=
    deleteOut_spec h M ih st.out1 td c1 hne hinv hm
  have hinv1 := inv_after td n1 f1 hinv hp1 hnd1
  obtain ⟨n2, f2, hd2, hp2, hnd2, hs2, hr2, hcl2⟩ :=
    deleteOut_spec h M ih st.out2 ⟨n1 ++ td.visited, td.root, f1 ++ td.freed⟩ c2
      (by simp [hne]) hinv1 (Nat.le_trans (unvisited_append _ _ _) hm)
  simp only at hd2 hnd2 hs2 hcl2
  refine ⟨n2 ++ n1, f2 ++ f1, fun fuel hf => ?_, hp2.append hp1,
    by rw [List.append_assoc]; exact hnd2, fun o ho => ?_, fun x hx => ?_, fun x hx z hz => ?_⟩
  · simp only [Teardown.children, unroot_noop _ td hinv, hd1 fuel hf, hd2 fuel hf,
      List.append_assoc]
  · simp only [State.outs, List.mem_append, Option.mem_toList, Option.mem_def] at ho
    rw [List.append_assoc]
    rcases ho with ho | ho
    · exact List.mem_append_right _ (hs1 o ho)
    · exact hs2 o ho
  · rcases List.mem_append.1 hx with hx | hx
    · obtain ⟨y, hy, hcy⟩ := hr2 x hx
      exact conn_trans (conn_edge hst (by simp [State.outs, hy])) hcy
    · obtain ⟨y, hy, hcy⟩ := hr1 x hx
      exact conn_trans (conn_edge hst (by simp [State.outs, hy])) hcy
  · rw [List.append_assoc]
    rcases List.mem_append.1 hx with hx | hx
    · exact hcl2 x hx z hz
    · exact List.mem_append_right _ (hcl1 x hx z hz)

theorem deleteOK_all (h : Heap) (hc : Closed h) : ∀ M, DeleteOK h M := by
  intro M
  induction M with
  | zero =>
    intro self td hs hv _ _ hm
    have := unvisited_cons h.length self td.visited hs hv
    omega
  | succ M ih =>
    intro self td hs hv hne hinv hm
    have hst : h[self]? = some h[self] := List.getElem?_eq_getElem hs
    have hnf : self ∉ td.freed := fun hx => hv (hinv.2.2 self hx)
    have hnr : self ∉ td.root := fun hx => hv (hinv.2.1 self hx)
    have hm1 : unvisited h.length (self :: td.visited) ≤ M := by
      have := unvisited_cons h.length self td.visited hs hv
      omega
    have hinv1 : Teardown.Inv ⟨self :: td.visited, td.root, td.freed⟩ :=
      ⟨List.nodup_cons.2 ⟨hv, hinv.1⟩, fun x hx => List.mem_cons_of_mem _ (hinv.2.1 x hx),
        fun x hx => List.mem_cons_of_mem _ (hinv.2.2 x hx)⟩
    obtain ⟨nV, nF, hd, hp, hnd, hso, hr, hcl⟩ := children_spec h hc M ih self h[self] hst
      ⟨self :: td.visited, td.root, td.freed⟩ (by simp) hinv1 hm1
    simp only at hd hnd hso hcl
    have hemp : td.visited.isEmpty = false := by
      cases hvis : td.visited with
      | nil => exact absurd hvis hne
      | cons a l => rfl
    refine ⟨nV ++ [self], self :: nF, fun fuel hf => ?_, ?_, by simpa using hnd,
      by simp, fun x hx => ?_, fun x hx z hz => ?_⟩
    · obtain ⟨f, rfl⟩ : ∃ f, fuel = f + 1 := ⟨fuel - 1, by omega⟩
      rw [State.delete]
      simp only [hnf, if_false, hst, hv, hemp, Bool.false_eq_true, hnr, hd f (by omega)]
      simp
    · exact (List.Perm.cons self hp).trans (List.perm_append_singleton self nV).symm
    · rcases List.mem_append.1 hx with hx | hx
      · exact hr x hx
      · rw [List.mem_singleton.1 hx]
        exact conn_refl h self
    · rw [List.append_assoc, List.singleton_append]
      rcases List.mem_append.1 hx with hx | hx
      · exact hcl x hx z hz
      · rw [List.mem_singleton.1 hx] at hz
        have : outsAt h self = h[self].outs := by simp [outsAt, hst]
        rw [this] at hz
        exact hso z hz

theorem conn_closed (h : Heap) (S : List Nat)
    (hS : ∀ x ∈ S, ∀ z ∈ outsAt h x, z ∈ S) {x y : Nat} {w : List Nat} (hr : Reach h x w y)
    (hx : x ∈ S) : y ∈ S := by
  induction hr with
  | refl x => exact hx
  | eps x y z st w hi _ hy _ ih => exact ih (hS x hx y (by simpa [outsAt, hi] using hy))
  | char x y z st w hi _ hy _ ih => exact ih (hS x hx y (by simpa [outsAt, hi] using hy))

theorem delete_reclaims_reachable (h : Heap) (hc : Closed h) (start : Nat)
    (hs : start < h.length) :
    ∃ freed : List Nat,
      (∀ fuel, h.length + 1 ≤ fuel →
        State.delete fuel h start ⟨[], [], []⟩ = .ok ⟨[], [start], freed⟩) ∧
      freed.Nodup ∧ ∀ x, x ∈ freed ↔ Conn h start x := by
  have hst : h[start]? = some h[start] := List.getElem?_eq_getElem hs
  have hm1 : unvisited h.length [start] ≤ h.length - 1 := by
    have := unvisited_cons h.length start [] hs (by simp)
    have := unvisited_le h.length []
    omega
  have hinv1 : Teardown.Inv ⟨[start], [start], []⟩ :=
    ⟨List.nodup_singleton start, fun x hx => hx, fun x hx => by simp at hx⟩
  obtain ⟨nV, nF, hd, hp, hnd, hso, hr, hcl⟩ := children_spec h hc (h.length - 1)
    (deleteOK_all h hc _) start h[start] hst ⟨[start], [start], []⟩ (by simp) hinv1 hm1
  simp only [List.append_nil] at hd hnd hso hcl
  have hperm : (start :: nF).Perm (nV ++ [start]) :=
    (List.Perm.cons start hp).trans (List.perm_append_singleton start nV).symm
  have hmem : ∀ x, x ∈ start :: nF ↔ x ∈ nV ++ [start] := fun x => hperm.mem_iff
  refine ⟨start :: nF, fun fuel hf => ?_, hperm.nodup_iff.2 hnd, fun x => ⟨fun hx => ?_, ?_⟩⟩
  · obtain ⟨f, rfl⟩ : ∃ f, fuel = f + 1 := ⟨fuel - 1, by omega⟩
    rw [State.delete]
    simp only [List.not_mem_nil, if_false, hst, List.isEmpty_nil, if_true,
      List.mem_singleton, hd f (by omega)]
  · rcases List.mem_append.1 ((hmem x).1 hx) with hx | hx
    · exact hr x hx
    · rw [List.mem_singleton.1 hx]
      exact conn_refl h start
  · rintro ⟨w, hw⟩
    refine (hmem x).2 (conn_closed h (nV ++ [start]) (fun y hy z hz => ?_) hw (by simp))
    rcases List.mem_append.1 hy with hy | hy
    · exact hcl y hy z hz
    · rw [List.mem_singleton.1 hy] at hz
      have : outsAt h start = h[start].outs := by simp [outsAt, hst]
      rw [this] at hz
      exact hso z hz

/-- C24: the traversal of `~State` from the start state of a compiled regex returns, releases
exactly the states reachable from the start state, each once, and leaves its static set
empty; but not every allocated state is reachable.  For `(a)b` the state of `a` (address 0)
is not reachable from the start state (address 1), and destroying the regex releases the
states 1 and 2 only. -/
theorem destroy_reclaims_reachable_only :
    (∀ (fuel0 : Nat) (p : List Nat) (r : Regex), Regex.new fuel0 p = .ok r →
      ∃ freed : List Nat,
        (∀ fuel, r.heap.length + 1 ≤ fuel →
          Regex.destroy fuel r = .ok ⟨[], [r.start], freed⟩) ∧
        freed.Nodup ∧ ∀ x, x ∈ freed ↔ Conn r.heap r.start x) ∧
    (∀ k, Regex.new (k + 20) (str "(a)b") = .ok ⟨str "(a)b", orphanHeap, 1⟩) ∧
    ¬ Conn orphanHeap 1 0 ∧
    (∀ k, Regex.destroy (k + 4) ⟨str "(a)b", orphanHeap, 1⟩ = .ok ⟨[], [1], [1, 2]⟩) := by
  refine ⟨fun fuel0 p r hr => ?_, fun k => rfl, fun hc => ?_, fun k => rfl⟩
  · obtain ⟨hc, hs⟩ := regex_closed fuel0 p r hr
    exact delete_reclaims_reachable r.heap hc r.start hs
  · obtain ⟨freed, hd, _, hm⟩ :=
      delete_reclaims_reachable orphanHeap (closed_of_all orphanHeap (by decide)) 1 (by decide)
    have h4 : State.delete 4 orphanHeap 1 ⟨[], [], []⟩ = .ok ⟨[], [1], [1, 2]⟩ := rfl
    have he := (hd 4 (by decide)).symm.trans h4
    have hf : freed = [1, 2] := by
      injection he with he
      injection he
    rw [hf] at hm
    exact absurd ((hm 0).2 hc) (by decide)

/-- C24, at the regex of `(a|b)*`: destroying it releases the five states, each once. -/
theorem destroy_reclaims_reachable_only_witness :
    Regex.new 20 (str "(a|b)*") = .ok abStarRegex ∧
    ∃ freed : List Nat,
      (∀ fuel, abStarRegex.heap.length + 1 ≤ fuel →
        Regex.destroy fuel abStarRegex = .ok ⟨[], [abStarRegex.start], freed⟩) ∧
      freed.Nodup ∧ ∀ x, x ∈ freed ↔ Conn abStarRegex.heap abStarRegex.start x :=
  ⟨rfl, destroy_reclaims_reachable_only.1 20 (str "(a|b)*") abStarRegex rfl⟩

/-! ## Runs with an arbitrary value of the uninitialised field -/

theorem stepU_false (fuel tok : Nat) (b : Builder) :
    post2nfa.stepU (fun _ => false) fuel tok b = post2nfa.step fuel tok b := by
  unfold post2nfa.stepU
  by_cases h : tok = chDot ∨ tok = chBar ∨ tok = chStar ∨ tok = chPlus ∨ tok = chQuest
  · rw [if_pos h]
  · rw [if_neg h]
    simp only [not_or] at h
    obtain ⟨h1, h2, h3, h4, h5⟩ := h
    simp [post2nfa.step, h1, h2, h3, h4, h5, State.ofChar, State.lit]

theorem loopU_false (fuel : Nat) (post : List Nat) :
    ∀ b, post2nfa.loopU (fun _ => false) fuel post b = post2nfa.loop fuel post b := by
  induction post with
  | nil => intro b; rfl
  | cons tok rest ih =>
    intro b
    rw [post2nfa.loopU, post2nfa.loop, stepU_false]
    by_cases h0 : tok = 0
    · simp [h0]
    · simp only [h0, if_false]
      cases post2nfa.step fuel tok b with
      | error e => rfl
      | ok b1 => exact ih b1

theorem newU_false (fuel : Nat) (p : List Nat) :
    Regex.newU (fun _ => false) fuel p = Regex.new fuel p := by
  simp only [Regex.newU, Regex.new, post2nfaU, post2nfa, post2nfa.run, loopU_false]

theorem runU_false (fuel : Nat) (p s : List Nat) :
    runU (fun _ => false) fuel p s = run fuel p s := by
  simp only [runU, run, newU_false]

theorem reflag_out1 (junk : Nat → Bool) (x : Nat) (st : State) (o : Option Nat) :
    State.reflag junk x { st with out1 := o } = { State.reflag junk x st with out1 := o } := by
  unfold State.reflag
  by_cases h : st.c = 0 <;> simp [h]

theorem reflag_out2 (junk : Nat → Bool) (x : Nat) (st : State) (o : Option Nat) :
    State.reflag junk x { st with out2 := o } = { State.reflag junk x st with out2 := o } := by
  unfold State.reflag
  by_cases h : st.c = 0 <;> simp [h]

theorem reflag_fields (junk : Nat → Bool) (x : Nat) (st : State) :
    (State.reflag junk x st).c = st.c ∧ (State.reflag junk x st).out1 = st.out1 ∧
    (State.reflag junk x st).out2 = st.out2 := by
  unfold State.reflag
  by_cases h : st.c = 0 <;> simp [h]

theorem reflagFrom_length (junk : Nat → Bool) (h : Heap) :
    ∀ i, (reflagFrom junk i h).length = h.length := by
  induction h with
  | nil => intro i; rfl
  | cons st h ih => intro i; simp [reflagFrom, ih]

theorem reflagFrom_getElem? (junk : Nat → Bool) (h : Heap) :
    ∀ i k, (reflagFrom junk i h)[k]? = (h[k]?).map (State.reflag junk (i + k)) := by
  induction h with
  | nil => intro i k; simp [reflagFrom]
  | cons st h ih =>
    intro i k
    cases k with
    | zero => simp [reflagFrom]
    | succ k =>
      simp only [reflagFrom, List.getElem?_cons_succ, ih]
      have : i + 1 + k = i + (k + 1) := by omega
      rw [this]

theorem reflagFrom_append (junk : Nat → Bool) (h g : Heap) :
    ∀ i, reflagFrom junk i (h ++ g) = reflagFrom junk i h ++ reflagFrom junk (i + h.length) g := by
  induction h with
  | nil => intro i; simp [reflagFrom]
  | cons st h ih =>
    intro i
    have : i + 1 + h.length = i + (h.length + 1) := by omega
    show State.reflag junk i st :: reflagFrom junk (i + 1) (h ++ g) =
      State.reflag junk i st :: (reflagFrom junk (i + 1) h ++
        reflagFrom junk (i + (h.length + 1)) g)
    rw [ih, this]

theorem reflagFrom_set (junk : Nat → Bool) (h : Heap) (st : State) :
    ∀ i k, reflagFrom junk i (h.set k st) =
      (reflagFrom junk i h).set k (State.reflag junk (i + k) st) := by
  induction h with
  | nil => intro i k; simp [reflagFrom]
  | cons s h ih =>
    intro i k
    cases k with
    | zero => simp [reflagFrom]
    | succ k =>
      simp only [List.set_cons_succ, reflagFrom, ih]
      have : i + 1 + k = i + (k + 1) := by omega
      rw [this]

theorem reflag_length (junk : Nat → Bool) (h : Heap) : (reflag junk h).length = h.length :=
  reflagFrom_length junk h 0

theorem reflag_getElem? (junk : Nat → Bool) (h : Heap) (k : Nat) :
    (reflag junk h)[k]? = (h[k]?).map (State.reflag junk k) := by
  have := reflagFrom_getElem? junk h 0 k
  rwa [Nat.zero_add] at this

theorem reflag_set (junk : Nat → Bool) (h : Heap) (k : Nat) (st : State) :
    reflag junk (h.set k st) = (reflag junk h).set k (State.reflag junk k st) := by
  have := reflagFrom_set junk h st 0 k
  rwa [Nat.zero_add] at this

theorem reflag_snoc (junk : Nat → Bool) (h : Heap) (st : State) :
    reflag junk (h ++ [st]) = reflag junk h ++ [State.reflag junk h.length st] := by
  have := reflagFrom_append junk h [st] 0
  rw [Nat.zero_add] at this
  exact this

theorem patch_reflag (junk : Nat → Bool) : ∀ (fuel : Nat) (h : Heap) (x s : Nat),
    State.patch fuel (reflag junk h) x s = (State.patch fuel h x s).map (reflag junk) := by
  intro fuel
  induction fuel with
  | zero => intro h x s; rfl
  | succ f ih =>
    intro h x s
    rw [State.patch, State.patch, reflag_getElem?]
    cases hx : h[x]? with
    | none => rfl
    | some st =>
      obtain ⟨-, e1, e2⟩ := reflag_fields junk x st
      simp only [Option.map_some', e1, e2]
      cases h1 : st.out1 with
      | none =>
        simp only [Except.map, reflag_set, reflag_out1]
        rw [e2]
      | some o1 =>
        cases h2 : st.out2 with
        | none =>
          simp only [Except.map, reflag_set]
          congr 2
          unfold State.reflag
          by_cases hc : st.c = 0 <;> simp [hc]
        | some o2 =>
          simp only [ih h o1 s]
          cases hp : State.patch f h o1 s with
          | error e => rfl
          | ok h1 =>
            simp only [Except.map]
            exact ih h1 o2 s

theorem list_patch_reflag (junk : Nat → Bool) (fuel : Nat) (l : List Nat) (s : Nat) :
    ∀ h, StateList.patch fuel (reflag junk h) l s =
      (StateList.patch fuel h l s).map (reflag junk) := by
  induction l with
  | nil => intro h; rfl
  | cons x xs ih =>
    intro h
    rw [StateList.patch, StateList.patch, patch_reflag]
    cases hp : State.patch fuel h x s with
    | error e => rfl
    | ok h1 =>
      simp only [Except.map]
      exact ih h1
theorem reflag_snoc_eps (junk : Nat → Bool) (h : Heap) :
    reflag junk h ++ [State.eps] = reflag junk (h ++ [State.eps]) := by
  rw [reflag_snoc]
  rfl

theorem reflag_snoc_accept (junk : Nat → Bool) (h : Heap) :
    reflag junk h ++ [State.ofBool true] = reflag junk (h ++ [State.ofBool true]) := by
  rw [reflag_snoc]
  rfl

theorem step_reflag_operator (junk : Nat → Bool) (fuel tok : Nat) (h : Heap)
    (stk : List Fragment)
    (hop : tok = chDot ∨ tok = chBar ∨ tok = chStar ∨ tok = chPlus ∨ tok = chQuest) :
    post2nfa.step fuel tok ⟨reflag junk h, stk⟩ =
      (post2nfa.step fuel tok ⟨h, stk⟩).map (fun b => ⟨reflag junk b.heap, b.stack⟩) := by
  rcases hop with rfl | rfl | rfl | rfl | rfl
  · cases stk with
    | nil => rfl
    | cons e2 stk =>
      cases stk with
      | nil => rfl
      | cons e1 rest =>
        simp only [post2nfa.step, if_true, list_patch_reflag]
        cases StateList.patch fuel h e1.out e2.start <;> rfl
  · have c0 : (chBar = chDot) = False := by decide
    cases stk with
    | nil => rfl
    | cons e2 stk =>
      cases stk with
      | nil => rfl
      | cons e1 rest =>
        simp only [post2nfa.step, c0, if_false, if_true, reflag_length, reflag_snoc_eps,
          patch_reflag]
        cases State.patch fuel (h ++ [State.eps]) h.length e1.start with
        | error e => rfl
        | ok h1 =>
          simp only [Except.map, patch_reflag]
          cases State.patch fuel h1 h.length e2.start <;> rfl
  · have c0 : (chStar = chDot) = False := by decide
    have c1 : (chStar = chBar) = False := by decide
    cases stk with
    | nil => rfl
    | cons e1 rest =>
      simp only [post2nfa.step, c0, c1, if_false, if_true, reflag_length, reflag_snoc_eps,
        list_patch_reflag]
      cases StateList.patch fuel (h ++ [State.eps]) e1.out h.length with
      | error e => rfl
      | ok h1 =>
        simp only [Except.map, patch_reflag]
        cases State.patch fuel h1 h.length e1.start <;> rfl
  · have c0 : (chPlus = chDot) = False := by decide
    have c1 : (chPlus = chBar) = False := by decide
    have c2 : (chPlus = chStar) = False := by decide
    cases stk with
    | nil => rfl
    | cons e1 rest =>
      simp only [post2nfa.step, c0, c1, c2, if_false, if_true, reflag_length, reflag_snoc_eps,
        patch_reflag]
      cases State.patch fuel (h ++ [State.eps]) h.length e1.start with
      | error e => rfl
      | ok h1 =>
        simp only [Except.map, list_patch_reflag]
        cases StateList.patch fuel h1 e1.out h.length <;> rfl
  · have c0 : (chQuest = chDot) = False := by decide
    have c1 : (chQuest = chBar) = False := by decide
    have c2 : (chQuest = chStar) = False := by decide
    have c3 : (chQuest = chPlus) = False := by decide
    cases stk with
    | nil => rfl
    | cons e1 rest =>
      simp only [post2nfa.step, c0, c1, c2, c3, if_false, if_true, reflag_length,
        reflag_snoc_eps, patch_reflag]
      cases State.patch fuel (h ++ [State.eps]) h.length e1.start <;> rfl

theorem stepU_reflag (junk : Nat → Bool) (fuel tok : Nat) (h0 : tok ≠ 0) (h : Heap)
    (stk : List Fragment) :
    post2nfa.stepU junk fuel tok ⟨reflag junk h, stk⟩ =
      (post2nfa.step fuel tok ⟨h, stk⟩).map (fun b => ⟨reflag junk b.heap, b.stack⟩) := by
  unfold post2nfa.stepU
  by_cases hop : tok = chDot ∨ tok = chBar ∨ tok = chStar ∨ tok = chPlus ∨ tok = chQuest
  · rw [if_pos hop]
    exact step_reflag_operator junk fuel tok h stk hop
  · rw [if_neg hop]
    simp only [not_or] at hop
    obtain ⟨h1, h2, h3, h4, h5⟩ := hop
    rw [step_literal tok h1 h2 h3 h4 h5]
    simp only [Except.map, reflag_length, reflag_snoc]
    have : State.reflag junk h.length (State.lit tok) = State.ofChar (junk h.length) tok := by
      simp [State.reflag, State.lit, State.ofChar, h0]
    rw [this]

theorem loopU_reflag (junk : Nat → Bool) (fuel : Nat) (post : List Nat) :
    ∀ (h : Heap) (stk : List Fragment),
      post2nfa.loopU junk fuel post ⟨reflag junk h, stk⟩ =
        (post2nfa.loop fuel post ⟨h, stk⟩).map (fun b => ⟨reflag junk b.heap, b.stack⟩) := by
  induction post with
  | nil => intro h stk; rfl
  | cons tok rest ih =>
    intro h stk
    rw [post2nfa.loopU, post2nfa.loop]
    by_cases h0 : tok = 0
    · simp only [h0, if_true]
      rfl
    · simp only [h0, if_false, stepU_reflag junk fuel tok h0]
      cases post2nfa.step fuel tok ⟨h, stk⟩ with
      | error e => rfl
      | ok b1 =>
        obtain ⟨h1, stk1⟩ := b1
        simp only [Except.map]
        exact ih h1 stk1

theorem finish_reflag (junk : Nat → Bool) (fuel : Nat) (h : Heap) (stk : List Fragment) :
    post2nfa.finish fuel ⟨reflag junk h, stk⟩ =
      (post2nfa.finish fuel ⟨h, stk⟩).map (fun r => (reflag junk r.1, r.2)) := by
  cases stk with
  | nil => rfl
  | cons e rest =>
    simp only [post2nfa.finish, reflag_length, reflag_snoc_accept, list_patch_reflag]
    cases StateList.patch fuel (h ++ [State.ofBool true]) e.out h.length <;> rfl

theorem post2nfaU_reflag (junk : Nat → Bool) (fuel : Nat) (post : List Nat) :
    post2nfaU junk fuel post =
      (post2nfa fuel post).map (fun r => (reflag junk r.1, r.2)) := by
  have := loopU_reflag junk fuel post [] []
  have e : reflag junk [] = [] := rfl
  rw [e] at this
  simp only [post2nfaU, post2nfa, post2nfa.run, this]
  cases post2nfa.loop fuel post ⟨[], []⟩ with
  | error e => rfl
  | ok b =>
    obtain ⟨h, stk⟩ := b
    simp only [Except.map]
    exact finish_reflag junk fuel h stk

theorem newU_reflag (junk : Nat → Bool) (fuel : Nat) (p : List Nat) :
    Regex.newU junk fuel p =
      (Regex.new fuel p).map (fun r => ⟨r.pattern, reflag junk r.heap, r.start⟩) := by
  simp only [Regex.newU, Regex.new, post2nfaU_reflag]
  cases infix2postfix fuel p with
  | error e => rfl
  | ok post =>
    simp only
    cases post2nfa fuel post with
    | error e => rfl
    | ok r => rfl

/-! ## Paths and matching, whatever the uninitialised fields read -/

theorem reflag_outs (junk : Nat → Bool) (x : Nat) (st : State) :
    (State.reflag junk x st).outs = st.outs := by
  obtain ⟨-, e1, e2⟩ := reflag_fields junk x st
  simp only [State.outs, e1, e2]

theorem reflag_lookup {junk : Nat → Bool} {h : Heap} {x : Nat} {st : State}
    (hx : h[x]? = some st) : (reflag junk h)[x]? = some (State.reflag junk x st) := by
  rw [reflag_getElem?, hx]
  rfl

theorem reflag_lookup_inv {junk : Nat → Bool} {h : Heap} {x : Nat} {st : State}
    (hx : (reflag junk h)[x]? = some st) :
    ∃ st0, h[x]? = some st0 ∧ st = State.reflag junk x st0 := by
  rw [reflag_getElem?] at hx
  cases h0 : h[x]? with
  | none => simp [h0] at hx
  | some st0 =>
    rw [h0] at hx
    exact ⟨st0, rfl, (Option.some.inj hx).symm⟩

theorem reach_reflag (junk : Nat → Bool) (h : Heap) {x y : Nat} {w : List Nat} :
    Reach (reflag junk h) x w y ↔ Reach h x w y := by
  constructor
  · intro hr
    induction hr with
    | refl x => exact Reach.refl x
    | eps x y z st w hi h0 hy _ ih =>
      obtain ⟨st0, hs, rfl⟩ := reflag_lookup_inv hi
      rw [(reflag_fields junk x st0).1] at h0
      rw [reflag_outs] at hy
      exact Reach.eps x y z st0 w hs h0 hy ih
    | char x y z st w hi h0 hy _ ih =>
      obtain ⟨st0, hs, rfl⟩ := reflag_lookup_inv hi
      rw [(reflag_fields junk x st0).1] at h0 ⊢
      rw [reflag_outs] at hy
      exact Reach.char x y z st0 w hs h0 hy ih
  · intro hr
    induction hr with
    | refl x => exact Reach.refl x
    | eps x y z st w hi h0 hy _ ih =>
      exact Reach.eps x y z _ w (reflag_lookup hi)
        (by rw [(reflag_fields junk x st).1]; exact h0) (by rw [reflag_outs]; exact hy) ih
    | char x y z st w hi h0 hy _ ih =>
      have := Reach.char x y z _ w (reflag_lookup hi)
        (by rw [(reflag_fields junk x st).1]; exact h0) (by rw [reflag_outs]; exact hy) ih
      rwa [(reflag_fields junk x st).1] at this

theorem conn_reflag (junk : Nat → Bool) (h : Heap) (x y : Nat) :
    Conn (reflag junk h) x y ↔ Conn h x y :=
  ⟨fun ⟨w, hw⟩ => ⟨w, (reach_reflag junk h).1 hw⟩, fun ⟨w, hw⟩ => ⟨w, (reach_reflag junk h).2 hw⟩⟩

theorem closed_reflag (junk : Nat → Bool) (h : Heap) (hc : Closed h) :
    Closed (reflag junk h) := by
  intro i st hi
  obtain ⟨st0, hs, rfl⟩ := reflag_lookup_inv hi
  obtain ⟨-, e1, e2⟩ := reflag_fields junk i st0
  rw [e1, e2, reflag_length]
  exact hc i st0 hs

theorem reflag_flag (junk : Nat → Bool) (x : Nat) (st : State) :
    (State.reflag junk x st).is_match_state =
      if st.c = 0 then st.is_match_state else junk x := by
  unfold State.reflag
  by_cases h : st.c = 0 <;> simp [h]

theorem accepts_reflag (junk : Nat → Bool) (h : Heap) (x : Nat) (w : List Nat) :
    Accepts (reflag junk h) x w ↔
      ∃ (q : Nat) (st : State), Reach h x w q ∧ h[q]? = some st ∧
        (if st.c = 0 then st.is_match_state else junk q) = true := by
  constructor
  · rintro ⟨q, st, hr, hq, hf⟩
    obtain ⟨st0, hs, rfl⟩ := reflag_lookup_inv hq
    rw [reflag_flag] at hf
    exact ⟨q, st0, (reach_reflag junk h).1 hr, hs, hf⟩
  · rintro ⟨q, st, hr, hq, hf⟩
    exact ⟨q, _, (reach_reflag junk h).2 hr, reflag_lookup hq, by rw [reflag_flag]; exact hf⟩

theorem matchInner_reflag (junk : Nat → Bool) (h : Heap) (ch : Nat) :
    ∀ (fuel : Nat) (clist : List Nat) (j : Nat) (visited nlist : List Nat),
      matchInner fuel (reflag junk h) ch clist j visited nlist =
        matchInner fuel h ch clist j visited nlist := by
  intro fuel
  induction fuel with
  | zero => intro clist j visited nlist; rfl
  | succ f ih =>
    intro clist j visited nlist
    rw [matchInner, matchInner]
    cases clist[j]? with
    | none => rfl
    | some state =>
      simp only [reflag_getElem?, ih]
      cases h[state]? with
      | none => rfl
      | some st =>
        obtain ⟨e0, e1, e2⟩ := reflag_fields junk state st
        simp only [Option.map_some', State.is_match, State.is_epsilon, e0, e1, e2]

theorem accept_single_flagged (f : Nat) (h : Heap) (i : Nat) (st : State)
    (hi : h[i]? = some st) (h0 : st.c ≠ 0) :
    matchAccept (f + 1) h [] [i] = .ok (st.is_match_state, []) := by
  cases hm : st.is_match_state with
  | true => exact accept_single_match f h i st hi hm
  | false => exact accept_single_lit f h i st hi hm h0

theorem reflag_chain_lit (junk : Nat → Bool) (u : List Nat) (c : Nat) (h0 : c ≠ 0)
    (v : List Nat) (B : Heap) :
    (reflag junk (chainStates 0 (u ++ c :: v) ++ B))[u.length]? =
      some ⟨junk u.length, c, some (u.length + 1), none⟩ := by
  rw [reflag_lookup (chain_lookup_lit u c v B)]
  simp [State.reflag, h0]

theorem reflag_chain_end (junk : Nat → Bool) (u : List Nat) :
    (reflag junk (chainStates 0 u ++ [State.ofBool true]))[u.length]? =
      some (State.ofBool true) := by
  rw [reflag_lookup (chain_lookup_end u (State.ofBool true))]
  rfl

theorem chain_loopU (junk : Nat → Bool) (f : Nat) (s : List Nat) :
    ∀ (u v : List Nat), (∀ c ∈ v, isAtom c = true) →
    matchLoop (f + 2) (reflag junk (chainStates 0 (u ++ v) ++ [State.ofBool true])) [] s
        [u.length] =
      .ok (decide (untilNul s = v) ||
        ((untilNul s).isPrefixOf v && junk (u.length + (untilNul s).length)), []) := by
  have hend : ∀ (u v : List Nat), (∀ c ∈ v, isAtom c = true) →
      matchAccept (f + 2) (reflag junk (chainStates 0 (u ++ v) ++ [State.ofBool true])) []
          [u.length] =
        .ok (decide (([] : List Nat) = v) || (([] : List Nat).isPrefixOf v && junk u.length),
          []) := by
    intro u v hv
    cases v with
    | nil =>
      have := reflag_chain_end junk u
      rw [List.append_nil]
      simpa using accept_single_match (f + 1) _ _ _ this rfl
    | cons c v =>
      have hc := hv c (List.mem_cons_self c v)
      have := reflag_chain_lit junk u c (isAtom_ne_zero hc) v [State.ofBool true]
      simpa using accept_single_flagged (f + 1) _ _ _ this (isAtom_ne_zero hc)
  induction s with
  | nil =>
    intro u v hv
    simpa [matchLoop, untilNul] using hend u v hv
  | cons ch s ih =>
    intro u v hv
    by_cases h0 : ch = 0
    · subst h0
      simpa [matchLoop, untilNul_cons_zero] using hend u v hv
    · rw [matchLoop, if_neg h0, untilNul_cons_ne ch s h0]
      cases v with
      | nil =>
        have := reflag_chain_end junk u
        rw [List.append_nil]
        rw [inner_single_sink f _ ch _ _ this (by simpa [State.ofBool] using Ne.symm h0) rfl rfl]
        simp
      | cons c v =>
        have hc := hv c (List.mem_cons_self c v)
        have hl := reflag_chain_lit junk u c (isAtom_ne_zero hc) v [State.ofBool true]
        by_cases hcc : c = ch
        · subst hcc
          rw [inner_single_match f _ c _ _ hl rfl]
          have e1 : u ++ c :: v = (u ++ [c]) ++ v := by simp
          have e2 : [u.length + 1] = [(u ++ [c]).length] := by simp
          simp only [Option.toList, List.append_nil, List.singleton_append, List.isEmpty_cons,
            Bool.false_eq_true, if_false, List.nil_append]
          rw [e1, e2, ih (u ++ [c]) v (fun x hx => hv x (List.mem_cons_of_mem c hx))]
          simp [List.isPrefixOf, Nat.add_assoc, Nat.add_comm 1]
        · rw [inner_single_other f _ ch _ _ hl hcc (isAtom_ne_zero hc)]
          have : ch ≠ c := fun e => hcc e.symm
          simp [this, List.isPrefixOf]

theorem run_wordU (junk : Nat → Bool) (w : List Nat) (hw : w ≠ [])
    (ha : ∀ c ∈ w, isAtom c = true) (fuel : Nat) (hf : 2 * w.length + 1 ≤ fuel) (s : List Nat) :
    runU junk fuel w s = .ok (decide (untilNul s = w) ||
      ((untilNul s).isPrefixOf w && junk (untilNul s).length)) := by
  have hlen : 0 < w.length := List.length_pos.2 hw
  obtain ⟨f, rfl⟩ : ∃ f, fuel = f + 2 := ⟨fuel - 2, by omega⟩
  have h2 := chain_loopU junk f s [] w ha
  simp only [List.nil_append, List.length_nil, Nat.zero_add] at h2
  simp only [runU, newU_reflag, new_word w hw ha (f + 2) hf, Except.map, Regex.match_, match_,
    h2]

/-- C2: a regex compiled from a word answers on a proper prefix of the word whatever the
uninitialised field reads.  For every non-empty word `w` of atoms, whatever the field
`is_match_state` of the literal states reads (`junk`), every input `s` and every fuel from
`2 * |w| + 1` on, `Regex(w).match(s)` returns a boolean; it is true when the part of `s`
before its first NUL character is `w`, false when that part is not a prefix of `w`, and when
that part is a proper prefix `v` of `w` it is the value that the field reads in the literal
state of the next character of `w` (address `|v|`), on which `State::accept` is called. -/
theorem word_prefix_reads_uninitialised (junk : Nat → Bool) (w : List Nat) (hw : w ≠ [])
    (ha : ∀ c ∈ w, isAtom c = true) (s : List Nat) (fuel : Nat)
    (hf : 2 * w.length + 1 ≤ fuel) :
    ∃ b, runU junk fuel w s = .ok b ∧ (untilNul s = w → b = true) ∧
      (¬ untilNul s <+: w → b = false) ∧
      (untilNul s <+: w → untilNul s ≠ w → b = junk (untilNul s).length) := by
  refine ⟨_, run_wordU junk w hw ha fuel hf s, fun h => ?_, fun h => ?_, fun h1 h2 => ?_⟩
  · simp [h]
  · have h1 : (untilNul s).isPrefixOf w = false := by
      rw [Bool.eq_false_iff]
      intro hp
      exact h (List.isPrefixOf_iff_prefix.1 hp)
    have h2 : untilNul s ≠ w := fun e => h (e ▸ List.prefix_refl _)
    simp [h1, h2]
  · have h3 : (untilNul s).isPrefixOf w = true := List.isPrefixOf_iff_prefix.2 h1
    simp [h3, h2]

/-- C2, at the pattern `abc` and the input `ab`, in a run in which the uninitialised field
reads true: the proper prefix `ab` is accepted. -/
theorem word_prefix_reads_uninitialised_witness :
    (str "abc" ≠ [] ∧ (∀ c ∈ str "abc", isAtom c = true) ∧ 2 * (str "abc").length + 1 ≤ 10) ∧
    untilNul (str "ab") <+: str "abc" ∧ untilNul (str "ab") ≠ str "abc" ∧
    runU (fun _ => true) 10 (str "abc") (str "ab") = .ok true := by
  have h1 : str "abc" ≠ [] := by decide
  have h2 : ∀ c ∈ str "abc", isAtom c = true := by decide
  have h3 : 2 * (str "abc").length + 1 ≤ 10 := by decide
  have h4 : untilNul (str "ab") <+: str "abc" := by decide
  have h5 : untilNul (str "ab") ≠ str "abc" := by decide
  obtain ⟨b, hb, -, -, hj⟩ :=
    word_prefix_reads_uninitialised (fun _ => true) (str "abc") h1 h2 (str "ab") 10 h3
  exact ⟨⟨h1, h2, h3⟩, h4, h5, by rw [hb, hj h4 h5]⟩

theorem reflag_plusHeap (junk : Nat → Bool) (a : Nat) (h0 : a ≠ 0) :
    reflag junk (plusHeap a) =
      [⟨junk 0, a, some 1, some 2⟩, ⟨false, 0, some 0, none⟩, ⟨true, 0, none, none⟩] := by
  simp [reflag, reflagFrom, State.reflag, plusHeap, h0]

theorem plus_acceptU (junk : Nat → Bool) (a : Nat) (h0 : a ≠ 0) (k : Nat) :
    matchAccept (k + 2) (reflag junk (plusHeap a)) [] [1, 2] = .ok (true, []) := by
  rw [reflag_plusHeap junk a h0]
  cases junk 0 <;> simp [matchAccept, State.accept, State.is_epsilon, h0]

theorem plus_accept_startU (junk : Nat → Bool) (a : Nat) (h0 : a ≠ 0) (k : Nat) :
    matchAccept (k + 1) (reflag junk (plusHeap a)) [] [0] = .ok (junk 0, []) := by
  rw [reflag_plusHeap junk a h0]
  exact accept_single_flagged k _ 0 ⟨junk 0, a, some 1, some 2⟩ rfl h0

theorem plus_loopU (junk : Nat → Bool) (a : Nat) (h0 : a ≠ 0) (k : Nat) (s : List Nat) :
    matchLoop (k + 4) (reflag junk (plusHeap a)) [] s [1, 2] =
      .ok ((untilNul s).all (fun c => c == a), []) := by
  induction s with
  | nil => simpa [matchLoop] using plus_acceptU junk a h0 (k + 2)
  | cons c s ih =>
    by_cases hc : c = 0
    · subst hc
      simpa [matchLoop, untilNul_cons_zero] using plus_acceptU junk a h0 (k + 2)
    · obtain ⟨cl, hcl⟩ := plus_inner a c h0 hc k
      rw [matchLoop, if_neg hc, matchInner_reflag, hcl, untilNul_cons_ne c s hc]
      by_cases hac : a = c
      · subst hac
        simp [ih]
      · have : c ≠ a := fun h => hac h.symm
        simp [hac, this]

theorem plus_loop_startU (junk : Nat → Bool) (a : Nat) (h0 : a ≠ 0) (k : Nat) (s : List Nat) :
    matchLoop (k + 4) (reflag junk (plusHeap a)) [] s [0] =
      .ok (if untilNul s = [] then junk 0 else (untilNul s).all (fun c => c == a), []) := by
  cases s with
  | nil => simpa [matchLoop, untilNul] using plus_accept_startU junk a h0 (k + 3)
  | cons c s =>
    by_cases hc : c = 0
    · subst hc
      simpa [matchLoop, untilNul_cons_zero] using plus_accept_startU junk a h0 (k + 3)
    · obtain ⟨cl, hcl⟩ := plus_inner_start a c h0 (k + 2)
      rw [matchLoop, if_neg hc, matchInner_reflag, hcl, untilNul_cons_ne c s hc]
      by_cases hac : a = c
      · subst hac
        simp [plus_loopU junk a h0 k s]
      · have : c ≠ a := fun h => hac h.symm
        simp [hac, this]

theorem run_plusU (junk : Nat → Bool) (a : Nat) (ha : isAtom a = true) (k : Nat)
    (s : List Nat) :
    runU junk (k + 4) [a, chPlus] s =
      .ok (if untilNul s = [] then junk 0 else (untilNul s).all (fun c => c == a)) := by
  have h := new_plus a ha (k + 1)
  simp only [runU, newU_reflag, h, Except.map, Regex.match_, match_,
    plus_loop_startU junk a (isAtom_ne_zero ha) k s]

/-- C4: the regex compiled from `a+` answers on the empty input whatever the uninitialised
field reads.  For every atom `a`, whatever the field `is_match_state` of the literal state
reads (`junk 0`: the literal state of `a` has address `0` and is the start state of the
automaton), every input `s` and every fuel from 4 on, `Regex("a+").match(s)` returns a
boolean; when the part of `s` before its first NUL character is empty, the boolean is the
value that the field reads, and otherwise it is true exactly when that part consists of
copies of `a`. -/
theorem plus_empty_reads_uninitialised (junk : Nat → Bool) (a : Nat) (ha : isAtom a = true)
    (s : List Nat) (fuel : Nat) (hf : 4 ≤ fuel) :
    ∃ b, runU junk fuel [a, chPlus] s = .ok b ∧ (untilNul s = [] → b = junk 0) ∧
      (untilNul s ≠ [] → (b = true ↔ ∃ n, 0 < n ∧ untilNul s = List.replicate n a)) := by
  obtain ⟨k, rfl⟩ := Nat.exists_eq_add_of_le' hf
  refine ⟨_, run_plusU junk a ha k s, fun h => by simp [h], fun h => ?_⟩
  simp only [h, if_false]
  rw [all_eq_iff_replicate]
  constructor
  · rintro ⟨n, h2⟩
    refine ⟨n, ?_, h2⟩
    cases n with
    | zero => exact absurd h2 h
    | succ m => exact Nat.succ_pos m
  · rintro ⟨n, -, h2⟩
    exact ⟨n, h2⟩

/-- C4, at the atom `a` and the empty input, in a run in which the uninitialised field reads
true: the empty input is accepted. -/
theorem plus_empty_reads_uninitialised_witness :
    (isAtom 97 = true ∧ 4 ≤ 10) ∧ runU (fun _ => true) 10 (str "a+") [] = .ok true := by
  obtain ⟨b, hb, hj, -⟩ :=
    plus_empty_reads_uninitialised (fun _ => true) 97 (by decide) [] 10 (by decide)
  exact ⟨by decide, by rw [show str "a+" = [97, chPlus] from rfl, hb, hj rfl]⟩

theorem lit_then_accept_loopU (f : Nat) (h : Heap) (i j c : Nat) (u : Bool) (hc : c ≠ 0)
    (hi : h[i]? = some ⟨u, c, some j, none⟩) (hj : h[j]? = some (State.ofBool true))
    (s : List Nat) :
    matchLoop (f + 2) h [] s [i] =
      .ok (if untilNul s = [] then u else decide (untilNul s = [c]), []) := by
  cases s with
  | nil => simpa [matchLoop, untilNul] using accept_single_flagged (f + 1) h i _ hi hc
  | cons ch s =>
    by_cases h0 : ch = 0
    · subst h0
      simpa [matchLoop, untilNul_cons_zero] using accept_single_flagged (f + 1) h i _ hi hc
    · rw [matchLoop, if_neg h0, untilNul_cons_ne ch s h0]
      by_cases hcc : c = ch
      · subst hcc
        rw [inner_single_match f h c i _ hi rfl]
        simp only [Option.toList, List.append_nil, List.singleton_append, List.isEmpty_cons,
          Bool.false_eq_true, if_false, List.nil_append]
        rw [at_accept_loop f h j hj]
        simp
      · rw [inner_single_other f h ch i _ hi hcc hc]
        have : ch ≠ c := fun e => hcc e.symm
        simp [this]

theorem run_lparen_wordU (junk : Nat → Bool) (w : List Nat) (hw : w ≠ [])
    (ha : ∀ c ∈ w, isAtom c = true) (fuel : Nat) (hf : 2 * w.length + 3 ≤ fuel) (s : List Nat) :
    ∃ r, Regex.newU junk fuel (chLParen :: w) = .ok r ∧
      runU junk fuel (chLParen :: w) s =
        .ok (if untilNul s = [] then junk r.start else decide (untilNul s = [chLParen])) := by
  obtain ⟨u, x, hn⟩ := new_lparen_word w hw ha fuel hf
  obtain ⟨f, rfl⟩ : ∃ f, fuel = f + 2 := ⟨fuel - 2, by omega⟩
  have l1 : (chainStates 0 u ++ [State.lit x,
      ⟨false, chLParen, some (u.length + 2), none⟩, State.ofBool true])[u.length + 1]? =
      some ⟨false, chLParen, some (u.length + 2), none⟩ := by
    have := lookup_app (chainStates 0 u)
      [State.lit x, ⟨false, chLParen, some (u.length + 2), none⟩, State.ofBool true] 1
    rw [chainStates_length] at this
    exact this
  have l2 : (chainStates 0 u ++ [State.lit x,
      ⟨false, chLParen, some (u.length + 2), none⟩, State.ofBool true])[u.length + 2]? =
      some (State.ofBool true) := by
    have := lookup_app (chainStates 0 u)
      [State.lit x, ⟨false, chLParen, some (u.length + 2), none⟩, State.ofBool true] 2
    rw [chainStates_length] at this
    exact this
  have r1 : (reflag junk (chainStates 0 u ++ [State.lit x,
      ⟨false, chLParen, some (u.length + 2), none⟩, State.ofBool true]))[u.length + 1]? =
      some ⟨junk (u.length + 1), chLParen, some (u.length + 2), none⟩ :=
    reflag_lookup l1
  have r2 : (reflag junk (chainStates 0 u ++ [State.lit x,
      ⟨false, chLParen, some (u.length + 2), none⟩, State.ofBool true]))[u.length + 2]? =
      some (State.ofBool true) :=
    reflag_lookup l2
  have := lit_then_accept_loopU f _ _ _ chLParen (junk (u.length + 1)) (by decide) r1 r2 s
  refine ⟨_, by rw [newU_reflag, hn]; rfl, ?_⟩
  simp only [runU, newU_reflag, hn, Except.map, Regex.match_, match_, this]

/-- C11 (counterexample): the pattern `(a`, whose parenthesis is never closed, compiles
without any error, whatever the uninitialised fields read: the parenthesis is drained into the
postfix stream `a(`, a regex is produced, and it matches the one-character input `(` and not
the input `a`. -/
theorem unclosed_paren_builds_regex :
    infix2postfix 20 (str "(a") = .ok (str "a(") ∧
    ∀ junk : Nat → Bool,
      Regex.newU junk 20 (str "(a") = .ok ⟨str "(a",
        [⟨junk 0, 97, none, none⟩, ⟨junk 1, chLParen, some 2, none⟩, ⟨true, 0, none, none⟩],
        1⟩ ∧
      runU junk 20 (str "(a") (str "(") = .ok true ∧
      runU junk 20 (str "(a") (str "a") = .ok false :=
  ⟨by decide, fun _ => ⟨rfl, rfl, rfl⟩⟩

/-- C11 (amended): an opening parenthesis that is never closed raises no error.  For a
non-empty word `w` of atoms the pattern `(w` is converted to the postfix stream of `w` followed
by the parenthesis itself, which `post2nfa` reads as a literal: a regex is produced, whatever
the uninitialised fields read, and among the inputs whose part before the first NUL character
is not empty it matches exactly those whose part is the single character `(`.  (On the other
inputs `match` calls `State::accept` on the literal state of the parenthesis, the start
state, and answers what the uninitialised field of that state reads.) -/
theorem unclosed_paren_read_as_literal (junk : Nat → Bool) (w : List Nat) (hw : w ≠ [])
    (ha : ∀ c ∈ w, isAtom c = true) (fuel : Nat) (hf : 2 * w.length + 3 ≤ fuel) (s : List Nat) :
    infix2postfix fuel (chLParen :: w) = .ok (postfixOfWord w ++ [chLParen]) ∧
    ∃ r, Regex.newU junk fuel (chLParen :: w) = .ok r ∧
      ∃ b, runU junk fuel (chLParen :: w) s = .ok b ∧
        (untilNul s ≠ [] → (b = true ↔ untilNul s = [chLParen])) ∧
        (untilNul s = [] → b = junk r.start) := by
  obtain ⟨r, hr, hrun⟩ := run_lparen_wordU junk w hw ha fuel hf s
  refine ⟨ infix2postfix_lparen_word w hw ha fuel hf, r, hr, _, hrun, fun h => ?_, fun h => ?_⟩
  · simp [h]
  · simp [h]

/-- C11 (witness): the pattern `(a` and the input `(`, in a run in which the uninitialised
fields read true. -/
theorem unclosed_paren_read_as_literal_witness :
    (str "a" ≠ [] ∧ (∀ c ∈ str "a", isAtom c = true) ∧ 2 * (str "a").length + 3 ≤ 20) ∧
    infix2postfix 20 (chLParen :: str "a") = .ok (postfixOfWord (str "a") ++ [chLParen]) ∧
    ∃ r, Regex.newU (fun _ => true) 20 (chLParen :: str "a") = .ok r ∧
      ∃ b, runU (fun _ => true) 20 (chLParen :: str "a") (str "(") = .ok b ∧
        (untilNul (str "(") ≠ [] → (b = true ↔ untilNul (str "(") = [chLParen])) ∧
        (untilNul (str "(") = [] → b = (fun _ => true) r.start) :=
  ⟨by decide, unclosed_paren_read_as_literal (fun _ => true) (str "a") (by decide) (by decide)
    20 (by decide) (str "(")⟩

theorem post2nfa_flagged (fuel : Nat) (post : List Nat) (h : Heap) (start : Nat)
    (hp : post2nfa fuel post = .ok (h, start)) :
    ∀ (i : Nat) (st : State), h[i]? = some st → st.is_match_state = true → st.c = 0 := by
  obtain ⟨b, hl, -, -, hfl⟩ := post2nfa_accept fuel post h start hp
  intro i st hi hm
  have hib := (hfl i st hi).1 hm
  subst hib
  unfold post2nfa post2nfa.run at hp
  simp only [hl] at hp
  obtain ⟨hp0, st0⟩ := b
  unfold post2nfa.finish at hp
  simp only at hp hi
  split at hp
  · simp at hp
  · rename_i e rest
    cases hr : StateList.patch fuel (hp0 ++ [State.ofBool true]) e.out hp0.length with
    | error e => simp [hr] at hp
    | ok h1 =>
      simp only [hr, Except.ok.injEq, Prod.mk.injEq] at hp
      obtain ⟨rfl, rfl⟩ := hp
      obtain ⟨st1, hs1, he⟩ := list_patch_extends fuel _ _ _ _ hr hp0.length (State.ofBool true)
        (getElem?_mid hp0 _ [])
      rw [hi] at hs1
      cases hs1
      exact he.1

theorem accepts_reflag_mono (junk : Nat → Bool) (h : Heap)
    (hfl : ∀ (i : Nat) (st : State), h[i]? = some st → st.is_match_state = true → st.c = 0)
    (x : Nat) (w : List Nat) (ha : Accepts h x w) : Accepts (reflag junk h) x w := by
  obtain ⟨q, st, hr, hq, hf⟩ := ha
  refine (accepts_reflag junk h x w).2 ⟨q, st, hr, hq, ?_⟩
  rw [if_pos (hfl q st hq hf)]
  exact hf

/-- C14: the automaton built from the post-order tokens of a tree accepts every input in the
language of the tree, and more when the uninitialised fields of its literal states read
true.  For every tree `t` of atoms, concatenation, alternation, Kleene star and optional and
whatever the uninitialised fields read (`junk`), `post2nfa` on the post-order tokens of `t`
ends its loop with exactly one fragment on the stack and returns an automaton, already when
`State::patch` is allowed recursion depth one, at which a call on a state with both out-slots
filled fails: no such state is ever patched.  On the returned start state `match` returns,
it answers true for every input whose part before the first NUL character is in the language
of `t`; when it answers true on another input, reading the input has led to a literal
state whose field `is_match_state` reads true.  For the tree of `a.b` and the input `a`, which
is not in the language, `match` answers what that field reads in the state of `b`. -/
theorem thompson_prefix_accepted :
    (∀ (junk : Nat → Bool) (t : RE), t.atomic → t.plusFree = true →
      ∃ (h0 : Heap) (e : Fragment) (h : Heap) (start : Nat),
        (∀ f, post2nfa.loopU junk (f + 1) t.postorder ⟨[], []⟩ = .ok ⟨h0, [e]⟩ ∧
          post2nfaU junk (f + 1) t.postorder = .ok (h, start)) ∧
        ∀ s : List Nat, ∃ (N : Nat) (b : Bool),
          (∀ fuel, N ≤ fuel → match_ fuel h [] start s = .ok (b, [])) ∧
          (untilNul s ∈ t.lang → b = true) ∧
          (b = true → untilNul s ∉ t.lang →
            ∃ (q : Nat) (st : State), Reach h start (untilNul s) q ∧ h[q]? = some st ∧
              st.c ≠ 0 ∧ st.is_match_state = true ∧ junk q = true)) ∧
    (∀ (g : Heap) (i s : Nat) (st : State) (o1 o2 : Nat), g[i]? = some st →
      st.out1 = some o1 → st.out2 = some o2 → State.patch 1 g i s = .error .timeout) ∧
    (∀ (junk : Nat → Bool) (f : Nat),
      post2nfaU junk (f + 1) (RE.cat (RE.lit 97) (RE.lit 98)).postorder =
        .ok ([⟨junk 0, 97, some 1, none⟩, ⟨junk 1, 98, some 2, none⟩, ⟨true, 0, none, none⟩],
          0) ∧
      match_ (f + 3)
          [⟨junk 0, 97, some 1, none⟩, ⟨junk 1, 98, some 2, none⟩, ⟨true, 0, none, none⟩] [] 0
          (str "a") = .ok (junk 1, [])) ∧
    str "a" ∉ (RE.cat (RE.lit 97) (RE.lit 98)).lang := by
  refine ⟨fun junk t ha hp => ?_, patch_full_timeout,
    fun junk f => ⟨rfl, by cases junk 1 <;> rfl⟩, fun hm => ?_⟩
  · obtain ⟨h0, e, h, hl, hpost, hcl, hst, hacc⟩ := thompson_accepts t ha hp
    refine ⟨reflag junk h0, e, reflag junk h, e.start, fun f => ⟨?_, ?_⟩, fun s => ?_⟩
    · have := loopU_reflag junk (f + 1) t.postorder [] []
      rw [hl f] at this
      exact this
    · rw [post2nfaU_reflag, hpost f]
      rfl
    · obtain ⟨N, b, hN, hb⟩ := match_iff_accepts (reflag junk h) (closed_reflag junk h hcl)
        e.start (by rw [reflag_length]; exact hst) s
      refine ⟨N, b, hN, fun hw => ?_, fun hbt hw => ?_⟩
      · exact hb.2 (accepts_reflag_mono junk h (post2nfa_flagged 1 _ h e.start (hpost 0))
          e.start _ ((hacc _).2 hw))
      · obtain ⟨q, st, hr, hq, hf⟩ := (accepts_reflag junk h e.start _).1 (hb.1 hbt)
        by_cases hc : st.c = 0
        · rw [if_pos hc] at hf
          exact absurd ((hacc _).1 ⟨q, st, hr, hq, hf⟩) hw
        · rw [if_neg hc] at hf
          refine ⟨q, State.reflag junk q st, (reach_reflag junk h).2 hr, reflag_lookup hq, ?_,
            ?_, hf⟩
          · rw [(reflag_fields junk q st).1]
            exact hc
          · rw [reflag_flag, if_neg hc]
            exact hf
  · obtain ⟨a, ha, b, hb, hab⟩ := Language.mem_mul.1 hm
    have ea := Set.mem_singleton_iff.1 ha
    have eb := Set.mem_singleton_iff.1 hb
    rw [ea, eb] at hab
    simp [str] at hab

/-- C14, at the tree of `(a|b.c)*.(d.e)` in a run in which the uninitialised fields read
true. -/
theorem thompson_prefix_accepted_witness :
    exampleTree.atomic ∧ exampleTree.plusFree = true ∧
    ∃ (h0 : Heap) (e : Fragment) (h : Heap) (start : Nat),
      (∀ f, post2nfa.loopU (fun _ => true) (f + 1) exampleTree.postorder ⟨[], []⟩ =
          .ok ⟨h0, [e]⟩ ∧
        post2nfaU (fun _ => true) (f + 1) exampleTree.postorder = .ok (h, start)) ∧
      ∀ s : List Nat, ∃ (N : Nat) (b : Bool),
        (∀ fuel, N ≤ fuel → match_ fuel h [] start s = .ok (b, [])) ∧
        (untilNul s ∈ exampleTree.lang → b = true) ∧
        (b = true → untilNul s ∉ exampleTree.lang →
          ∃ (q : Nat) (st : State), Reach h start (untilNul s) q ∧ h[q]? = some st ∧
            st.c ≠ 0 ∧ st.is_match_state = true ∧ (fun _ => true) q = true) :=
  ⟨by decide, by decide,
    thompson_prefix_accepted.1 (fun _ => true) exampleTree (by decide) (by decide)⟩

/-- C19: compiled automata break the shape invariant.  Whatever the uninitialised fields read,
the pattern `a+` compiles and the start state of its automaton, the literal state of `a`, has
two out-edges, to the loop state and to the accept state.  The pattern `a` compiles to the
literal state of `a` followed by the accept state, and in a run in which the field
`is_match_state` of the literal state reads true that state, which has an out-edge, carries
the label of an accept state. -/
theorem literal_state_shape_broken :
    (∀ junk : Nat → Bool,
      Regex.newU junk 20 (str "a+") = .ok ⟨str "a+",
        [⟨junk 0, 97, some 1, some 2⟩, ⟨false, 0, some 0, none⟩, ⟨true, 0, none, none⟩], 0⟩ ∧
      Conn [⟨junk 0, 97, some 1, some 2⟩, ⟨false, 0, some 0, none⟩, ⟨true, 0, none, none⟩] 0 0 ∧
      ¬ State.wellShaped ⟨junk 0, 97, some 1, some 2⟩) ∧
    (∀ junk : Nat → Bool,
      Regex.newU junk 20 (str "a") = .ok ⟨str "a",
        [⟨junk 0, 97, some 1, none⟩, ⟨true, 0, none, none⟩], 0⟩ ∧
      Conn [⟨junk 0, 97, some 1, none⟩, ⟨true, 0, none, none⟩] 0 0) ∧
    State.label ⟨true, 97, some 1, none⟩ = Label.accept ∧
    ¬ State.wellShaped ⟨true, 97, some 1, none⟩ := by
  refine ⟨fun junk => ⟨rfl, conn_refl _ _, ?_⟩, fun junk => ⟨rfl, conn_refl _ _⟩, rfl, ?_⟩
  · cases junk 0 <;> simp [State.wellShaped, State.label, State.outs]
  · simp [State.wellShaped, State.label, State.outs]

theorem regex_flagged (fuel : Nat) (p : List Nat) (r : Regex) (hr : Regex.new fuel p = .ok r) :
    ∀ (i : Nat) (st : State), r.heap[i]? = some st → st.is_match_state = true → st.c = 0 := by
  unfold Regex.new at hr
  cases h1 : infix2postfix fuel p with
  | error e => simp [h1] at hr
  | ok post =>
    simp only [h1] at hr
    cases h2 : post2nfa fuel post with
    | error e => simp [h2] at hr
    | ok hs =>
      obtain ⟨h, start⟩ := hs
      simp only [h2] at hr
      cases hr
      exact post2nfa_flagged fuel post h start h2

theorem newU_inv (junk : Nat → Bool) (fuel : Nat) (p : List Nat) (r : Regex)
    (hr : Regex.newU junk fuel p = .ok r) :
    ∃ r0, Regex.new fuel p = .ok r0 ∧ r = ⟨r0.pattern, reflag junk r0.heap, r0.start⟩ := by
  rw [newU_reflag] at hr
  cases h0 : Regex.new fuel p with
  | error e => simp [h0, Except.map] at hr
  | ok r0 =>
    simp only [h0, Except.map, Except.ok.injEq] at hr
    exact ⟨r0, rfl, hr.symm⟩

/-- C20: the states with `is_match_state` set are the state allocated by the final patch and
the literal states whose uninitialised field reads true.  For every pattern that compiles,
whatever the uninitialised fields read (`junk`), the state allocated by the final patch is
reachable from the start state and has `is_match_state` set, and another state has it set
exactly when it is a literal state whose field reads true.  For `(a|b)*` the literal states of
`a` and `b` (addresses 0 and 1) are reachable from the start state (address 3), as is the
state of the final patch (address 4): in a run in which the field of the state of `a` reads
true, two reachable states have `is_match_state` set. -/
theorem literal_states_read_as_accept :
    (∀ (junk : Nat → Bool) (fuel : Nat) (p : List Nat) (r : Regex),
      Regex.newU junk fuel p = .ok r →
      ∃ post b, infix2postfix fuel p = .ok post ∧
        post2nfa.loopU junk fuel post ⟨[], []⟩ = .ok b ∧
        r.heap.length = b.heap.length + 1 ∧ Conn r.heap r.start b.heap.length ∧
        ∀ (i : Nat) (st : State), r.heap[i]? = some st →
          (st.is_match_state = true ↔ i = b.heap.length ∨ (st.c ≠ 0 ∧ junk i = true))) ∧
    (∀ junk : Nat → Bool,
      Regex.newU junk 20 (str "(a|b)*") = .ok ⟨str "(a|b)*",
        [⟨junk 0, 97, some 3, none⟩, ⟨junk 1, 98, some 3, none⟩, ⟨false, 0, some 0, some 1⟩,
          ⟨false, 0, some 2, some 4⟩, ⟨true, 0, none, none⟩], 3⟩ ∧
      Conn [⟨junk 0, 97, some 3, none⟩, ⟨junk 1, 98, some 3, none⟩, ⟨false, 0, some 0, some 1⟩,
          ⟨false, 0, some 2, some 4⟩, ⟨true, 0, none, none⟩] 3 0 ∧
      Conn [⟨junk 0, 97, some 3, none⟩, ⟨junk 1, 98, some 3, none⟩, ⟨false, 0, some 0, some 1⟩,
          ⟨false, 0, some 2, some 4⟩, ⟨true, 0, none, none⟩] 3 4) := by
  refine ⟨fun junk fuel p r hr => ?_, fun junk => ⟨rfl, ?_, ?_⟩⟩
  · obtain ⟨r0, hr0, rfl⟩ := newU_inv junk fuel p r hr
    obtain ⟨post, b0, hpost, hl, hlen, hconn, hfl⟩ := one_accept_state fuel p r0 hr0
    have hflag := regex_flagged fuel p r0 hr0
    refine ⟨post, ⟨reflag junk b0.heap, b0.stack⟩, hpost, ?_, ?_, ?_, fun i st hi => ?_⟩
    · have := loopU_reflag junk fuel post [] []
      rw [hl] at this
      exact this
    · simp only [reflag_length]
      exact hlen
    · simp only [reflag_length]
      exact (conn_reflag junk r0.heap _ _).2 hconn
    · simp only [reflag_length]
      obtain ⟨st0, hs0, rfl⟩ := reflag_lookup_inv hi
      rw [reflag_flag, (reflag_fields junk i st0).1]
      by_cases hc : st0.c = 0
      · rw [if_pos hc]
        constructor
        · intro hf
          exact Or.inl ((hfl i st0 hs0).1 hf)
        · rintro (h1 | ⟨h1, -⟩)
          · exact (hfl i st0 hs0).2 h1
          · exact absurd hc h1
      · rw [if_neg hc]
        constructor
        · intro hf
          exact Or.inr ⟨hc, hf⟩
        · rintro (h1 | ⟨-, h1⟩)
          · exact absurd (hflag i st0 hs0 ((hfl i st0 hs0).2 h1)) hc
          · exact h1
  · exact conn_trans (@conn_edge _ 3 2 ⟨false, 0, some 2, some 4⟩ rfl (by simp [State.outs]))
      (@conn_edge _ 2 0 ⟨false, 0, some 0, some 1⟩ rfl (by simp [State.outs]))
  · exact @conn_edge _ 3 4 ⟨false, 0, some 2, some 4⟩ rfl (by simp [State.outs])

/-- C20, at the pattern `(a|b)*` in a run in which the uninitialised fields read true: the
states 0, 1 and 4 have `is_match_state` set. -/
theorem literal_states_read_as_accept_witness :
    Regex.newU (fun _ => true) 20 (str "(a|b)*") = .ok ⟨str "(a|b)*",
      [⟨true, 97, some 3, none⟩, ⟨true, 98, some 3, none⟩, ⟨false, 0, some 0, some 1⟩,
        ⟨false, 0, some 2, some 4⟩, ⟨true, 0, none, none⟩], 3⟩ ∧
    ∃ post b, infix2postfix 20 (str "(a|b)*") = .ok post ∧
      post2nfa.loopU (fun _ => true) 20 post ⟨[], []⟩ = .ok b ∧
      (5 : Nat) = b.heap.length + 1 ∧
      Conn [⟨true, 97, some 3, none⟩, ⟨true, 98, some 3, none⟩, ⟨false, 0, some 0, some 1⟩,
        ⟨false, 0, some 2, some 4⟩, ⟨true, 0, none, none⟩] 3 b.heap.length ∧
      ∀ (i : Nat) (st : State),
        [(⟨true, 97, some 3, none⟩ : State), ⟨true, 98, some 3, none⟩,
          ⟨false, 0, some 0, some 1⟩, ⟨false, 0, some 2, some 4⟩,
          ⟨true, 0, none, none⟩][i]? = some st →
        (st.is_match_state = true ↔
          i = b.heap.length ∨ (st.c ≠ 0 ∧ (fun _ => true) i = true)) :=
  ⟨rfl, literal_states_read_as_accept.1 (fun _ => true) 20 (str "(a|b)*") _ rfl⟩

/-! ## Answers that do not depend on the uninitialised fields -/

theorem reflag_starHeap (junk : Nat → Bool) (a : Nat) (h0 : a ≠ 0) :
    reflag junk (starHeap a) =
      [⟨junk 0, a, some 1, none⟩, ⟨false, 0, some 0, some 2⟩, ⟨true, 0, none, none⟩] := by
  simp [reflag, reflagFrom, State.reflag, starHeap, h0]

theorem reflag_questHeap (junk : Nat → Bool) (a : Nat) (h0 : a ≠ 0) :
    reflag junk (questHeap a) =
      [⟨junk 0, a, some 2, none⟩, ⟨false, 0, some 0, some 2⟩, ⟨true, 0, none, none⟩] := by
  simp [reflag, reflagFrom, State.reflag, questHeap, h0]

theorem star_acceptU (junk : Nat → Bool) (a : Nat) (h0 : a ≠ 0) (k : Nat) :
    matchAccept (k + 2) (reflag junk (starHeap a)) [] [1] = .ok (true, []) := by
  rw [reflag_starHeap junk a h0]
  cases junk 0 <;> simp [matchAccept, State.accept, State.is_epsilon, h0]

theorem star_loopU (junk : Nat → Bool) (a : Nat) (h0 : a ≠ 0) (k : Nat) (s : List Nat) :
    matchLoop (k + 4) (reflag junk (starHeap a)) [] s [1] =
      .ok ((untilNul s).all (fun c => c == a), []) := by
  induction s with
  | nil => simpa [matchLoop] using star_acceptU junk a h0 (k + 2)
  | cons c s ih =>
    by_cases hc : c = 0
    · subst hc
      simpa [matchLoop, untilNul_cons_zero] using star_acceptU junk a h0 (k + 2)
    · obtain ⟨cl, hcl⟩ := star_inner a c h0 hc k
      rw [matchLoop, if_neg hc, matchInner_reflag, hcl, untilNul_cons_ne c s hc]
      by_cases hac : a = c
      · subst hac
        simp [ih]
      · have : c ≠ a := fun h => hac h.symm
        simp [hac, this]

theorem run_starU (junk : Nat → Bool) (a : Nat) (ha : isAtom a = true) (k : Nat)
    (s : List Nat) :
    runU junk (k + 4) [a, chStar] s = run (k + 4) [a, chStar] s := by
  rw [run_star a ha k s]
  have h := new_star a ha (k + 1)
  simp only [runU, newU_reflag, h, Except.map, Regex.match_, match_,
    star_loopU junk a (isAtom_ne_zero ha) k s]

theorem quest_acceptU (junk : Nat → Bool) (a : Nat) (h0 : a ≠ 0) (k : Nat) :
    matchAccept (k + 2) (reflag junk (questHeap a)) [] [1] = .ok (true, []) := by
  rw [reflag_questHeap junk a h0]
  cases junk 0 <;> simp [matchAccept, State.accept, State.is_epsilon, h0]

theorem quest_accept_endU (junk : Nat → Bool) (a : Nat) (h0 : a ≠ 0) (k : Nat) :
    matchAccept (k + 1) (reflag junk (questHeap a)) [] [2] = .ok (true, []) := by
  rw [reflag_questHeap junk a h0]
  simp [matchAccept, State.accept, State.is_epsilon]

theorem quest_loop_endU (junk : Nat → Bool) (a : Nat) (h0 : a ≠ 0) (k : Nat) (s : List Nat) :
    matchLoop (k + 4) (reflag junk (questHeap a)) [] s [2] =
      .ok ((untilNul s).isEmpty, []) := by
  cases s with
  | nil => simpa [matchLoop] using quest_accept_endU junk a h0 (k + 3)
  | cons c s =>
    by_cases hc : c = 0
    · subst hc
      simpa [matchLoop, untilNul_cons_zero] using quest_accept_endU junk a h0 (k + 3)
    · obtain ⟨cl, hcl⟩ := quest_inner_end a c hc (k + 2)
      rw [matchLoop, if_neg hc, matchInner_reflag, hcl, untilNul_cons_ne c s hc]
      simp

theorem quest_loopU (junk : Nat → Bool) (a : Nat) (h0 : a ≠ 0) (k : Nat) (s : List Nat) :
    matchLoop (k + 4) (reflag junk (questHeap a)) [] s [1] =
      .ok (decide (untilNul s = [] ∨ untilNul s = [a]), []) := by
  cases s with
  | nil => simpa [matchLoop] using quest_acceptU junk a h0 (k + 2)
  | cons c s =>
    by_cases hc : c = 0
    · subst hc
      simpa [matchLoop, untilNul_cons_zero] using quest_acceptU junk a h0 (k + 2)
    · obtain ⟨cl, hcl⟩ := quest_inner a c h0 hc k
      rw [matchLoop, if_neg hc, matchInner_reflag, hcl, untilNul_cons_ne c s hc]
      by_cases hac : a = c
      · subst hac
        simp [quest_loop_endU junk a h0 k s]
        cases untilNul s <;> simp
      · have : c ≠ a := fun h => hac h.symm
        simp [hac, this]

theorem run_questU (junk : Nat → Bool) (a : Nat) (ha : isAtom a = true) (k : Nat)
    (s : List Nat) :
    runU junk (k + 4) [a, chQuest] s = run (k + 4) [a, chQuest] s := by
  rw [run_quest a ha k s]
  have h := new_quest a ha (k + 1)
  simp only [runU, newU_reflag, h, Except.map, Regex.match_, match_,
    quest_loopU junk a (isAtom_ne_zero ha) k s]

theorem paren_atom_any_run (junk : Nat → Bool) (k : Nat) :
    runU junk (k + 10) (str "(a)b") (str "ab") = .ok false ∧
    runU junk (k + 10) (str "(a)b") (str "b") = .ok true :=
  ⟨rfl, rfl⟩

theorem rparen_atom_any_run (junk : Nat → Bool) (k : Nat) :
    runU junk (k + 20) (str "(a|b)c") (str "ac") = .ok false ∧
    runU junk (k + 20) (str "(a|b)c") (str "bc") = .ok false ∧
    runU junk (k + 20) (str "(a|b)c") (str "c") = .ok true :=
  ⟨rfl, rfl, rfl⟩

theorem quantifier_lparen_any_run (junk : Nat → Bool) (k : Nat) :
    runU junk (k + 20) (str "a*(b)") (str "ab") = .ok false ∧
    runU junk (k + 20) (str "a*(b)") (str "aab") = .ok false := by
  have h : Regex.newU junk (k + 20) (str "a*(b)") = .ok ⟨str "a*(b)",
      [⟨junk 0, 97, none, none⟩, ⟨junk 1, 98, some 2, none⟩, ⟨false, 0, some 1, some 3⟩,
        ⟨true, 0, none, none⟩], 2⟩ := rfl
  simp only [runU, h]
  exact ⟨rfl, rfl⟩

theorem quantifier_lparen_accepts_any_run (junk : Nat → Bool) (k : Nat) :
    runU junk (k + 20) (str "a*(b)") (str "bb") = .ok true := by
  have h : Regex.newU junk (k + 20) (str "a*(b)") = .ok ⟨str "a*(b)",
      [⟨junk 0, 97, none, none⟩, ⟨junk 1, 98, some 2, none⟩, ⟨false, 0, some 1, some 3⟩,
        ⟨true, 0, none, none⟩], 2⟩ := rfl
  simp only [runU, h]
  cases junk 1 <;> rfl

theorem accepted_in_every_run (junk : Nat → Bool) (fuel : Nat) (p s : List Nat) (r : Regex)
    (hr : Regex.new fuel p = .ok r) (f : Nat) (v : List Nat)
    (hm : match_ f r.heap [] r.start s = .ok (true, v)) :
    Regex.newU junk fuel p = .ok ⟨r.pattern, reflag junk r.heap, r.start⟩ ∧
    ∃ N, ∀ g, N ≤ g → match_ g (reflag junk r.heap) [] r.start s = .ok (true, []) := by
  obtain ⟨hc, hs⟩ := regex_closed fuel p r hr
  refine ⟨by rw [newU_reflag, hr]; rfl, ?_⟩
  have hacc := accepts_reflag_mono junk r.heap (regex_flagged fuel p r hr) r.start _
    (match_sound r.heap f [] v r.start s hm)
  obtain ⟨N, hN⟩ := match_complete (reflag junk r.heap) (closed_reflag junk r.heap hc) r.start
    (by rw [reflag_length]; exact hs) (untilNul s) (untilNul_not_mem s) hacc
  refine ⟨N, fun g hg => ?_⟩
  have := hN g hg
  unfold match_ at this ⊢
  rwa [matchLoop_untilNul] at this

end RegexEngine
